import Mathlib

/-!
# LevelDB: a verification development

Shallow embedding of parts of the storage engine (`util/coding.cc`,
`db/write_batch.cc`, `db/log_writer.cc`, `db/db_impl.cc`) together with
theorems about them.

Conventions of the embedding.

* A byte string (`std::string`, `Slice`) is a `List Nat`; a byte is a natural
  number below 256.  Every store into a `uint8_t` is written `% 256`.
* `uint32_t` and `uint64_t` values are naturals; arithmetic that can leave the
  range is written `% 2 ^ 32` and `% 2 ^ 64`.
* A C++ function that writes through pointer arguments returns the new values
  of what it writes.
-/

namespace leveldb

/-- Contents of a `std::string` or of a `Slice`. -/
abbrev Bytes := List Nat

/-! ## util/coding.cc -/

/-- `EncodeVarint32(dst, v)`: the bytes stored at `dst`, in order
(`coding.cc` lines 22-48).  `B` is 128. -/
def EncodeVarint32 (v : Nat) : Bytes :=
  if v < 1 <<< 7 then
    [v % 256]
  else if v < 1 <<< 14 then
    [(v ||| 128) % 256, (v >>> 7) % 256]
  else if v < 1 <<< 21 then
    [(v ||| 128) % 256, ((v >>> 7) ||| 128) % 256, (v >>> 14) % 256]
  else if v < 1 <<< 28 then
    [(v ||| 128) % 256, ((v >>> 7) ||| 128) % 256, ((v >>> 14) ||| 128) % 256,
      (v >>> 21) % 256]
  else
    [(v ||| 128) % 256, ((v >>> 7) ||| 128) % 256, ((v >>> 14) ||| 128) % 256,
      ((v >>> 21) ||| 128) % 256, (v >>> 28) % 256]

/-- `PutVarint32(dst, v)`: the new contents of `*dst`. -/
def PutVarint32 (dst : Bytes) (v : Nat) : Bytes :=
  dst ++ EncodeVarint32 v

/-- `EncodeVarint64(dst, v)`: the bytes stored at `dst`, in order
(`coding.cc` lines 56-66).  The `while (v >= B)` loop is the recursion. -/
def EncodeVarint64 (v : Nat) : Bytes :=
  if 128 ≤ v then ((v ||| 128) % 256) :: EncodeVarint64 (v >>> 7) else [v % 256]
termination_by v
decreasing_by
  simp only [Nat.shiftRight_eq_div_pow]
  omega

/-- `PutVarint64(dst, v)`: the new contents of `*dst`. -/
def PutVarint64 (dst : Bytes) (v : Nat) : Bytes :=
  dst ++ EncodeVarint64 v

/-- `PutLengthPrefixedSlice(dst, value)`: the new contents of `*dst`.  The
`size_t` length is converted to the `uint32_t` parameter of `PutVarint32`. -/
def PutLengthPrefixedSlice (dst : Bytes) (value : Bytes) : Bytes :=
  PutVarint32 dst (value.length % 2 ^ 32) ++ value

/-- `VarintLength(v)`. -/
def VarintLength (v : Nat) : Nat :=
  if 128 ≤ v then VarintLength (v >>> 7) + 1 else 1
termination_by v
decreasing_by
  simp only [Nat.shiftRight_eq_div_pow]
  omega

/-- The `for` loop of `GetVarint32PtrFallback` entered with the given `shift`
and `result`; the list is the bytes from `p` up to `limit`.  `none` is
`nullptr`; `some (value, q)` is the value stored and the bytes from the
returned pointer up to `limit`. -/
def GetVarint32PtrFallback_loop (shift result : Nat) : Bytes → Option (Nat × Bytes)
  | [] => none
  | byte :: p =>
    if shift ≤ 28 then
      if byte &&& 128 ≠ 0 then
        GetVarint32PtrFallback_loop (shift + 7)
          (result ||| (((byte &&& 127) <<< shift) % 2 ^ 32)) p
      else
        some (result ||| ((byte <<< shift) % 2 ^ 32), p)
    else none

/-- `GetVarint32PtrFallback(p, limit, value)` (`coding.cc` lines 90-106). -/
def GetVarint32PtrFallback (p : Bytes) : Option (Nat × Bytes) :=
  GetVarint32PtrFallback_loop 0 0 p

/-- Modelled from the spec: `GetVarint32Ptr` is the inline entry point declared
in `util/coding.h`, which is not among the sources.  It decodes one varint32
(7 payload bits per byte, high bit = continuation): a first byte without the
continuation bit is the value; everything else goes to
`GetVarint32PtrFallback`. -/
def GetVarint32Ptr (p : Bytes) : Option (Nat × Bytes) :=
  match p with
  | byte :: q => if byte &&& 128 = 0 then some (byte, q) else GetVarint32PtrFallback p
  | [] => GetVarint32PtrFallback p

/-- `GetVarint32(input, value)`: `none` when it returns false (neither `*input`
nor `*value` is written), `some (value, input)` with the new contents of both
when it returns true. -/
def GetVarint32 (input : Bytes) : Option (Nat × Bytes) :=
  match GetVarint32Ptr input with
  | none => none
  | some (value, q) => some (value, q)

/-- The `for` loop of `GetVarint64Ptr` entered with the given `shift` and
`result`. -/
def GetVarint64Ptr_loop (shift result : Nat) : Bytes → Option (Nat × Bytes)
  | [] => none
  | byte :: p =>
    if shift ≤ 63 then
      if byte &&& 128 ≠ 0 then
        GetVarint64Ptr_loop (shift + 7)
          (result ||| (((byte &&& 127) <<< shift) % 2 ^ 64)) p
      else
        some (result ||| ((byte <<< shift) % 2 ^ 64), p)
    else none

/-- `GetVarint64Ptr(p, limit, value)` (`coding.cc` lines 120-135). -/
def GetVarint64Ptr (p : Bytes) : Option (Nat × Bytes) :=
  GetVarint64Ptr_loop 0 0 p

/-- `GetVarint64(input, value)`: `none` when it returns false, `some (value,
input)` with the new contents of both when it returns true. -/
def GetVarint64 (input : Bytes) : Option (Nat × Bytes) :=
  match GetVarint64Ptr input with
  | none => none
  | some (value, q) => some (value, q)

/-- `GetLengthPrefixedSlice(Slice* input, Slice* result)`
(`coding.cc` lines 158-167).  Arguments: the contents of `*input` and of
`*result` before the call.  Result: the returned flag, `*input` after the call
and `*result` after the call. -/
def GetLengthPrefixedSlice (input result : Bytes) : Bool × Bytes × Bytes :=
  match GetVarint32 input with
  | some (len, input1) =>
    if len ≤ input1.length then (true, input1.drop len, input1.take len)
    else (false, input1, result)
  | none => (false, input, result)


/-- Modelled from the spec: `EncodeFixed32` is declared in `util/coding.h`,
which is not among the sources; fixed 32-bit integers are little-endian. -/
def EncodeFixed32 (value : Nat) : Bytes :=
  [value % 256, (value >>> 8) % 256, (value >>> 16) % 256, (value >>> 24) % 256]

/-- Modelled from the spec: `DecodeFixed32` (`util/coding.h`), the
little-endian value of the first four bytes. -/
def DecodeFixed32 (p : Bytes) : Nat :=
  p.getD 0 0 ||| (p.getD 1 0 <<< 8) ||| (p.getD 2 0 <<< 16) ||| (p.getD 3 0 <<< 24)

/-- Modelled from the spec: `EncodeFixed64` (`util/coding.h`), little-endian. -/
def EncodeFixed64 (value : Nat) : Bytes :=
  [value % 256, (value >>> 8) % 256, (value >>> 16) % 256, (value >>> 24) % 256,
    (value >>> 32) % 256, (value >>> 40) % 256, (value >>> 48) % 256, (value >>> 56) % 256]

/-- Modelled from the spec: `DecodeFixed64` (`util/coding.h`), the
little-endian value of the first eight bytes. -/
def DecodeFixed64 (p : Bytes) : Nat :=
  p.getD 0 0 ||| (p.getD 1 0 <<< 8) ||| (p.getD 2 0 <<< 16) ||| (p.getD 3 0 <<< 24) |||
    (p.getD 4 0 <<< 32) ||| (p.getD 5 0 <<< 40) ||| (p.getD 6 0 <<< 48) |||
    (p.getD 7 0 <<< 56)

/-! ### The decoders only ever move forward

These facts are what makes the record loop of `WriteBatch::Iterate` below a
terminating recursion, so they stand before it. -/

theorem GetVarint32PtrFallback_loop_length (p : Bytes) :
    ∀ (shift result value : Nat) (q : Bytes),
      GetVarint32PtrFallback_loop shift result p = some (value, q) → q.length < p.length := by
  induction p with
  | nil => intro shift result value q h; simp [GetVarint32PtrFallback_loop] at h
  | cons byte p ih =>
    intro shift result value q h
    rw [GetVarint32PtrFallback_loop] at h
    split_ifs at h with h1 h2
    · have := ih _ _ _ _ h
      simp only [List.length_cons]
      omega
    · simp only [Option.some.injEq, Prod.mk.injEq] at h
      rw [← h.2]
      simp

theorem GetVarint32_length (input : Bytes) (value : Nat) (q : Bytes)
    (h : GetVarint32 input = some (value, q)) : q.length < input.length := by
  unfold GetVarint32 GetVarint32Ptr at h
  cases input with
  | nil => simp [GetVarint32PtrFallback, GetVarint32PtrFallback_loop] at h
  | cons byte p =>
    simp only at h
    split_ifs at h with h1
    · simp only [Option.some.injEq, Prod.mk.injEq] at h
      rw [← h.2]
      simp
    · split at h
      · simp at h
      · rename_i v q2 heq
        simp only [Option.some.injEq, Prod.mk.injEq] at h
        rw [← h.2]
        exact GetVarint32PtrFallback_loop_length _ _ _ _ _ heq

theorem GetLengthPrefixedSlice_length (input result input2 result2 : Bytes)
    (h : GetLengthPrefixedSlice input result = (true, input2, result2)) :
    input2.length < input.length := by
  unfold GetLengthPrefixedSlice at h
  split at h
  · rename_i len input1 heq
    have hl := GetVarint32_length _ _ _ heq
    split_ifs at h
    · simp only [Prod.mk.injEq, true_and] at h
      rw [← h.1, List.length_drop]
      omega
    · simp at h
  · simp at h

/-! ## db/write_batch.cc -/

/-- Modelled from the spec: `Status` (`leveldb/status.h`, not among the
sources): OK or an error code with a message. -/
inductive Status where
  | OK
  | NotFound (msg : String)
  | Corruption (msg : String)
  | NotSupported (msg : String)
  | InvalidArgument (msg : String)
  | IOError (msg : String)
deriving DecidableEq, Repr

/-- `Status::ok()`. -/
def Status.ok : Status → Bool
  | .OK => true
  | _ => false

/-- Modelled from the spec: the value type tags of `db/dbformat.h` (not among
the sources): a record is a DELETION or a VALUE, two distinct one-byte tags. -/
def kTypeDeletion : Nat := 0

/-- Modelled from the spec: see `kTypeDeletion`. -/
def kTypeValue : Nat := 1

/-- `kHeader`: an 8-byte sequence number followed by a 4-byte count. -/
def kHeader : Nat := 12

/-- `WriteBatch`: its only data member is `rep_`. -/
structure WriteBatch where
  rep_ : Bytes
deriving DecidableEq, Repr

/-- `WriteBatch::Handler`: an object with the two virtual methods `Put` and
`Delete`, acting on its own state `σ`. -/
structure Handler (σ : Type) where
  Put : σ → Bytes → Bytes → σ
  Delete : σ → Bytes → σ

/-- `WriteBatch::Clear()`: `rep_.clear(); rep_.resize(kHeader)`. -/
def WriteBatch.Clear (_b : WriteBatch) : WriteBatch :=
  { rep_ := List.replicate kHeader 0 }

/-- The `WriteBatch()` constructor, which calls `Clear()`. -/
def WriteBatch.new : WriteBatch :=
  WriteBatch.Clear { rep_ := [] }

/-- Conversion of a `uint32_t` to `int`. -/
def toInt32 (x : Nat) : Int :=
  if x % 2 ^ 32 < 2 ^ 31 then ((x % 2 ^ 32 : Nat) : Int) else ((x % 2 ^ 32 : Nat) : Int) - 2 ^ 32

/-- Conversion of an `int` to `uint32_t`. -/
def toUInt32 (n : Int) : Nat :=
  (n % 2 ^ 32).toNat

/-- `WriteBatchInternal::Count(b)`: an `int`. -/
def WriteBatchInternal.Count (b : WriteBatch) : Int :=
  toInt32 (DecodeFixed32 (b.rep_.drop 8))

/-- `WriteBatchInternal::SetCount(b, n)`: overwrites `rep_[8..12)`. -/
def WriteBatchInternal.SetCount (b : WriteBatch) (n : Int) : WriteBatch :=
  { rep_ := b.rep_.take 8 ++ EncodeFixed32 (toUInt32 n) ++ b.rep_.drop 12 }

/-- `WriteBatchInternal::Sequence(b)`. -/
def WriteBatchInternal.Sequence (b : WriteBatch) : Nat :=
  DecodeFixed64 b.rep_

/-- `WriteBatchInternal::SetSequence(b, seq)`: overwrites `rep_[0..8)`. -/
def WriteBatchInternal.SetSequence (b : WriteBatch) (seq : Nat) : WriteBatch :=
  { rep_ := EncodeFixed64 seq ++ b.rep_.drop 8 }

/-- `WriteBatch::Put(key, value)`. -/
def WriteBatch.Put (b : WriteBatch) (key value : Bytes) : WriteBatch :=
  let b1 := WriteBatchInternal.SetCount b (WriteBatchInternal.Count b + 1)
  let rep1 := b1.rep_ ++ [kTypeValue % 256]
  let rep2 := PutLengthPrefixedSlice rep1 key
  { rep_ := PutLengthPrefixedSlice rep2 value }

/-- `WriteBatch::Delete(key)`. -/
def WriteBatch.Delete (b : WriteBatch) (key : Bytes) : WriteBatch :=
  let b1 := WriteBatchInternal.SetCount b (WriteBatchInternal.Count b + 1)
  let rep1 := b1.rep_ ++ [kTypeDeletion % 256]
  { rep_ := PutLengthPrefixedSlice rep1 key }

/-- The body of `WriteBatch::Iterate` from the head of its `while` loop to the
final `return`: `input`, `key`, `value` and `found` are the locals, `st` is the
handler's state and `count` is `WriteBatchInternal::Count(this)`.  Result: the
returned status and the handler's state at that point. -/
def Iterate_loop {σ : Type} (handler : Handler σ) (count : Int)
    (input key value : Bytes) (found : Int) (st : σ) : Status × σ :=
  match input with
  | [] =>
    if found ≠ count then (Status.Corruption "WriteBatch has wrong count", st)
    else (Status.OK, st)
  | tag :: input1 =>
    if tag = kTypeValue then
      match hk : GetLengthPrefixedSlice input1 key with
      | (true, input2, key2) =>
        match hv : GetLengthPrefixedSlice input2 value with
        | (true, input3, value2) =>
          Iterate_loop handler count input3 key2 value2 (found + 1)
            (handler.Put st key2 value2)
        | (false, _, _) => (Status.Corruption "bad WriteBatch Put", st)
      | (false, _, _) => (Status.Corruption "bad WriteBatch Put", st)
    else if tag = kTypeDeletion then
      match hk : GetLengthPrefixedSlice input1 key with
      | (true, input2, key2) =>
        Iterate_loop handler count input2 key2 value (found + 1) (handler.Delete st key2)
      | (false, _, _) => (Status.Corruption "bad WriteBatch Delete", st)
    else (Status.Corruption "unknown WriteBatch tag", st)
termination_by input.length
decreasing_by
  · have h1 := GetLengthPrefixedSlice_length _ _ _ _ hk
    have h2 := GetLengthPrefixedSlice_length _ _ _ _ hv
    simp only [List.length_cons]
    omega
  · have h1 := GetLengthPrefixedSlice_length _ _ _ _ hk
    simp only [List.length_cons]
    omega

/-- `WriteBatch::Iterate(handler)`: the returned status and the handler's state
after the call. -/
def WriteBatch.Iterate {σ : Type} (b : WriteBatch) (handler : Handler σ) (st : σ) :
    Status × σ :=
  if b.rep_.length < kHeader then
    (Status.Corruption "malformed WriteBatch (too small)", st)
  else
    Iterate_loop handler (WriteBatchInternal.Count b) (b.rep_.drop kHeader) [] [] 0 st

/-- One `MemTable::Add(seq, type, key, value)` call. -/
structure MemEntry where
  sequence : Nat
  type : Nat
  key : Bytes
  value : Bytes
deriving DecidableEq, Repr

/-- Modelled from the spec: `MemTable` (`db/memtable.h`, not among the
sources) is a set of internal keys with values into which `Add` inserts; it is
represented by the `Add` calls made on it, oldest first. -/
abbrev MemTable := List MemEntry

/-- `MemTable::Add`. -/
def MemTable.Add (mem : MemTable) (seq type : Nat) (key value : Bytes) : MemTable :=
  mem ++ [{ sequence := seq, type := type, key := key, value := value }]

/-- The data members of `MemTableInserter`; `sequence_` is a `uint64_t`. -/
structure MemTableInserter where
  sequence_ : Nat
  mem_ : MemTable
deriving DecidableEq, Repr

/-- `MemTableInserter::Put` and `MemTableInserter::Delete`. -/
def MemTableInserter.handler : Handler MemTableInserter where
  Put := fun ins key value =>
    { sequence_ := (ins.sequence_ + 1) % 2 ^ 64,
      mem_ := MemTable.Add ins.mem_ ins.sequence_ kTypeValue key value }
  Delete := fun ins key =>
    { sequence_ := (ins.sequence_ + 1) % 2 ^ 64,
      mem_ := MemTable.Add ins.mem_ ins.sequence_ kTypeDeletion key [] }

/-- `WriteBatchInternal::InsertInto(b, memtable)`: the returned status and the
memtable after the call. -/
def WriteBatchInternal.InsertInto (b : WriteBatch) (memtable : MemTable) : Status × MemTable :=
  let inserter : MemTableInserter :=
    { sequence_ := WriteBatchInternal.Sequence b, mem_ := memtable }
  let r := b.Iterate MemTableInserter.handler inserter
  (r.1, r.2.mem_)

/-- `WriteBatchInternal::Contents(b)` (`db/write_batch_internal.h`). -/
def WriteBatchInternal.Contents (b : WriteBatch) : Bytes := b.rep_

/-- `WriteBatchInternal::ByteSize(b)` (`db/write_batch_internal.h`). -/
def WriteBatchInternal.ByteSize (b : WriteBatch) : Nat := b.rep_.length

/-- `WriteBatchInternal::SetContents(b, contents)`. -/
def WriteBatchInternal.SetContents (_b : WriteBatch) (contents : Bytes) : WriteBatch :=
  { rep_ := contents }

/-- `WriteBatchInternal::Append(dst, src)`: the new `*dst`. -/
def WriteBatchInternal.Append (dst src : WriteBatch) : WriteBatch :=
  let dst1 := WriteBatchInternal.SetCount dst
    (WriteBatchInternal.Count dst + WriteBatchInternal.Count src)
  { rep_ := dst1.rep_ ++ src.rep_.drop kHeader }

/-! ## Vocabulary of the batch theorems -/

/-- One call on a `WriteBatch` (`Put(key, value)` or `Delete(key)`), which is
also one call that `Iterate` makes on its handler. -/
inductive Op where
  | Put (key value : Bytes)
  | Delete (key : Bytes)
deriving DecidableEq, Repr

/-- A handler that records the calls it receives, in order (what the
`CheckPut` and `CheckDel` callbacks of `db_op_test.cc` observe). -/
def Recorder : Handler (List Op) where
  Put := fun calls key value => calls ++ [Op.Put key value]
  Delete := fun calls key => calls ++ [Op.Delete key]

/-- The call on a batch. -/
def Op.applyTo (b : WriteBatch) : Op → WriteBatch
  | Op.Put key value => b.Put key value
  | Op.Delete key => b.Delete key

/-- The call on a handler. -/
def Op.call {σ : Type} (handler : Handler σ) (st : σ) : Op → σ
  | Op.Put key value => handler.Put st key value
  | Op.Delete key => handler.Delete st key

/-- Keys and values are shorter than `2 ^ 32` bytes. -/
def Op.fits : Op → Prop
  | Op.Put key value => key.length < 2 ^ 32 ∧ value.length < 2 ^ 32
  | Op.Delete key => key.length < 2 ^ 32

/-- The record of the `rep_` format comment of `write_batch.cc`:
`kTypeValue varstring varstring` or `kTypeDeletion varstring`. -/
def Op.record : Op → Bytes
  | Op.Put key value =>
    kTypeValue :: (PutLengthPrefixedSlice [] key ++ PutLengthPrefixedSlice [] value)
  | Op.Delete key => kTypeDeletion :: PutLengthPrefixedSlice [] key

/-- The `rep_` format of `write_batch.cc`: `sequence: fixed64`, `count:
fixed32`, then the records. -/
def batchRep (seq n : Nat) (body : Bytes) : Bytes :=
  EncodeFixed64 seq ++ (EncodeFixed32 n ++ body)

instance Op.decidableFits (op : Op) : Decidable op.fits := by
  cases op <;> unfold Op.fits <;> infer_instance

/-- The memtable entry `MemTableInserter` adds for an operation when its
`sequence_` is `seq`. -/
def Op.entry (seq : Nat) : Op → MemEntry
  | Op.Put key value => { sequence := seq, type := kTypeValue, key := key, value := value }
  | Op.Delete key => { sequence := seq, type := kTypeDeletion, key := key, value := [] }

/-! ## The record grammar of `write_batch.cc`

The format comment at the head of `write_batch.cc` reads

    record    := kTypeValue varstring varstring | kTypeDeletion varstring
    varstring := len: varint32, data: uint8[len]

The next definitions follow that comment, not the code of `Iterate`; the
theorems compare the two. -/

/-- One `varstring` at the head of `input`: its data and what follows it. -/
def getVarstring (input : Bytes) : Option (Bytes × Bytes) :=
  match GetVarint32 input with
  | some (len, input1) =>
    if len ≤ input1.length then some (input1.take len, input1.drop len) else none
  | none => none

/-- One `record` at the head of `input`: the operation it stands for and what
follows it; `none` when `input` does not start with a complete record. -/
def parseRecord (input : Bytes) : Option (Op × Bytes) :=
  match input with
  | [] => none
  | tag :: input1 =>
    if tag = kTypeValue then
      match getVarstring input1 with
      | some (key, input2) =>
        match getVarstring input2 with
        | some (value, input3) => some (Op.Put key value, input3)
        | none => none
      | none => none
    else if tag = kTypeDeletion then
      match getVarstring input1 with
      | some (key, input2) => some (Op.Delete key, input2)
      | none => none
    else none

theorem getVarstring_length (input data rest : Bytes)
    (h : getVarstring input = some (data, rest)) : rest.length < input.length := by
  unfold getVarstring at h
  split at h
  · rename_i len input1 heq
    have hl := GetVarint32_length _ _ _ heq
    split_ifs at h
    simp only [Option.some.injEq, Prod.mk.injEq] at h
    rw [← h.2, List.length_drop]
    omega
  · simp at h

theorem parseRecord_length (input : Bytes) (op : Op) (rest : Bytes)
    (h : parseRecord input = some (op, rest)) : rest.length < input.length := by
  unfold parseRecord at h
  cases input with
  | nil => simp at h
  | cons tag input1 =>
    simp only at h
    split_ifs at h
    · split at h
      · rename_i key input2 h1
        have l1 := getVarstring_length _ _ _ h1
        split at h
        · rename_i value input3 h2
          have l2 := getVarstring_length _ _ _ h2
          simp only [Option.some.injEq, Prod.mk.injEq] at h
          rw [← h.2, List.length_cons]
          omega
        · simp at h
      · simp at h
    · split at h
      · rename_i key input2 h1
        have l1 := getVarstring_length _ _ _ h1
        simp only [Option.some.injEq, Prod.mk.injEq] at h
        rw [← h.2, List.length_cons]
        omega
      · simp at h

/-- The records at the head of `input`, as many as parse, and the bytes from
the first position at which no complete record starts (`[]` when the whole of
`input` is a sequence of records). -/
def parseRecords (input : Bytes) : List Op × Bytes :=
  match h : parseRecord input with
  | none => ([], input)
  | some (op, rest) => (op :: (parseRecords rest).1, (parseRecords rest).2)
termination_by input.length
decreasing_by
  all_goals exact parseRecord_length _ _ _ h

/-- The operations of the records of a batch that parse before the first
malformed record: none for a representation without a full header. -/
def WriteBatch.parsedPrefix (b : WriteBatch) : List Op :=
  if b.rep_.length < kHeader then [] else (parseRecords (b.rep_.drop kHeader)).1

/-! ## db/log_format.h and db/log_writer.cc -/

namespace crc32c

/-- Modelled from the spec: `util/crc32c.h` is not among the sources.  One bit
of the reflected CRC32C (Castagnoli) division. -/
def shiftBit (crc : Nat) : Nat :=
  if crc % 2 = 1 then (crc >>> 1) ^^^ 0x82F63B78 else crc >>> 1

/-- Modelled from the spec: CRC32C over one more byte. -/
def updateByte (crc byte : Nat) : Nat :=
  shiftBit (shiftBit (shiftBit (shiftBit (shiftBit (shiftBit (shiftBit (shiftBit
    (crc ^^^ byte))))))))

/-- Modelled from the spec: `crc32c::Extend(init_crc, data, n)`, the CRC32C of
the concatenation of `A` and `data` when `init_crc` is the CRC32C of `A`. -/
def Extend (init_crc : Nat) (data : Bytes) : Nat :=
  (data.foldl updateByte (init_crc ^^^ 0xffffffff)) ^^^ 0xffffffff

/-- Modelled from the spec: `crc32c::Value(data, n)`. -/
def Value (data : Bytes) : Nat :=
  Extend 0 data

/-- Modelled from the spec: `kMaskDelta`. -/
def kMaskDelta : Nat := 0xa282ead8

/-- Modelled from the spec: `crc32c::Mask(crc)`, the stored form
`((c >> 15) | (c << 17)) + 0xa282ead8` in 32-bit arithmetic. -/
def Mask (crc : Nat) : Nat :=
  (((crc >>> 15) ||| ((crc <<< 17) % 2 ^ 32)) + kMaskDelta) % 2 ^ 32

end crc32c

/-- Modelled from the spec: `WritableFile` (`leveldb/env.h`) belongs to the
environment, outside the sources.  A file is the bytes it has accepted so far
and the outcomes of the calls still to come on it (`true` for OK; calls past
the end of the list succeed).  A failed `Append` adds nothing. -/
structure WritableFile where
  contents : Bytes
  outcomes : List Bool
deriving DecidableEq, Repr

/-- Modelled from the spec: `WritableFile::Append(data)`. -/
def WritableFile.Append (f : WritableFile) (data : Bytes) : Status × WritableFile :=
  match f.outcomes with
  | false :: rest => (Status.IOError "Append", { f with outcomes := rest })
  | true :: rest => (Status.OK, { contents := f.contents ++ data, outcomes := rest })
  | [] => (Status.OK, { contents := f.contents ++ data, outcomes := [] })

/-- Modelled from the spec: `WritableFile::Flush()`. -/
def WritableFile.Flush (f : WritableFile) : Status × WritableFile :=
  match f.outcomes with
  | false :: rest => (Status.IOError "Flush", { f with outcomes := rest })
  | true :: rest => (Status.OK, { f with outcomes := rest })
  | [] => (Status.OK, f)

/-- Modelled from the spec: `WritableFile::Sync()`. -/
def WritableFile.Sync (f : WritableFile) : Status × WritableFile :=
  match f.outcomes with
  | false :: rest => (Status.IOError "Sync", { f with outcomes := rest })
  | true :: rest => (Status.OK, { f with outcomes := rest })
  | [] => (Status.OK, f)

/-- The file never reports an error: every outcome still to come is OK. -/
def WritableFile.reliable (f : WritableFile) : Prop :=
  ∀ b ∈ f.outcomes, b = true

namespace log

/-- `enum RecordType` of `log_format.h`. -/
inductive RecordType where
  | kZeroType
  | kFullType
  | kFirstType
  | kMiddleType
  | kLastType
deriving DecidableEq, Repr

/-- The enumerators' values. -/
def RecordType.toNat : RecordType → Nat
  | kZeroType => 0
  | kFullType => 1
  | kFirstType => 2
  | kMiddleType => 3
  | kLastType => 4

/-- `kBlockSize`. -/
def kBlockSize : Nat := 32768

/-- `kHeaderSize`: checksum (4 bytes), length (2 bytes), type (1 byte). -/
def kHeaderSize : Nat := 4 + 2 + 1

/-- The data members of `log::Writer`.  `type_crc_` is filled by `InitTypeCrc`
in both constructors and never written again; it is the function `type_crc`
below. -/
structure Writer where
  dest_ : WritableFile
  block_offset_ : Nat
deriving DecidableEq, Repr

/-- `InitTypeCrc`: `type_crc_[i]` is the CRC32C of the one byte `i`. -/
def type_crc (t : RecordType) : Nat :=
  crc32c.Value [t.toNat]

/-- `Writer::Writer(dest)`. -/
def Writer.new (dest : WritableFile) : Writer :=
  { dest_ := dest, block_offset_ := 0 }

/-- `Writer::Writer(dest, dest_length)`. -/
def Writer.newAt (dest : WritableFile) (dest_length : Nat) : Writer :=
  { dest_ := dest, block_offset_ := dest_length % kBlockSize }

/-- One call of `EmitPhysicalRecord`, as `AddRecord` observes it. -/
structure PhysicalRecord where
  type : RecordType
  payload : Bytes
deriving DecidableEq, Repr

/-- `Writer::EmitPhysicalRecord(t, ptr, length)`; `payload` is the `length`
bytes at `ptr`. -/
def Writer.EmitPhysicalRecord (w : Writer) (t : RecordType) (payload : Bytes) :
    Status × Writer :=
  let length := payload.length
  let crc := crc32c.Mask (crc32c.Extend (type_crc t) payload)
  let buf := EncodeFixed32 crc ++ [(length &&& 0xff) % 256, (length >>> 8) % 256, t.toNat % 256]
  let r1 := w.dest_.Append buf
  let r2 := if r1.1.ok then r1.2.Append payload else r1
  let r3 := if r1.1.ok && r2.1.ok then r2.2.Flush else r2
  (r3.1, { dest_ := r3.2, block_offset_ := w.block_offset_ + kHeaderSize + length })

/-- The first part of the body of the `do` loop of `AddRecord` (lines 46-57):
the writer once the block has been switched if fewer than `kHeaderSize` bytes
were left in it.  With `block_offset_` a natural number, `leftover` is the
truncated difference; `leftover < kHeaderSize` and `leftover > 0` have the
value they have in the code also when `block_offset_` exceeds `kBlockSize`. -/
def Writer.switchBlock (w : Writer) : Writer :=
  let leftover := kBlockSize - w.block_offset_
  if leftover < kHeaderSize then
    if leftover > 0 then
      { dest_ := (w.dest_.Append (List.replicate leftover 0)).2, block_offset_ := 0 }
    else
      { w with block_offset_ := 0 }
  else w

/-- The `do ... while` loop of `Writer::AddRecord`: `ptr` holds the `left`
bytes of the record not yet emitted.  Result: the status `s`, the writer, and
the calls of `EmitPhysicalRecord` that were made, in order. -/
def Writer.AddRecord_loop (w : Writer) (ptr : Bytes) (begin_ : Bool) :
    Status × Writer × List PhysicalRecord :=
  let left := ptr.length
  let w1 := w.switchBlock
  let avail := kBlockSize - w1.block_offset_ - kHeaderSize
  let fragment_length := if left < avail then left else avail
  let end_ := (left == fragment_length)
  let type :=
    if begin_ && end_ then RecordType.kFullType
    else if begin_ then RecordType.kFirstType
    else if end_ then RecordType.kLastType
    else RecordType.kMiddleType
  let r := w1.EmitPhysicalRecord type (ptr.take fragment_length)
  if h : r.1.ok = true ∧ left - fragment_length > 0 then
    let rest := Writer.AddRecord_loop r.2 (ptr.drop fragment_length) false
    (rest.1, rest.2.1, { type := type, payload := ptr.take fragment_length } :: rest.2.2)
  else
    (r.1, r.2, [{ type := type, payload := ptr.take fragment_length }])
termination_by 2 * ptr.length + (if w.block_offset_ + kHeaderSize = kBlockSize then 1 else 0)
decreasing_by
  have h2 := h.2
  simp only [left, fragment_length, avail, w1] at h2
  simp only [Writer.EmitPhysicalRecord, Writer.switchBlock, kBlockSize, kHeaderSize,
    List.length_drop, List.length_take] at h2 ⊢
  clear h r type end_ fragment_length avail w1 left
  split_ifs at h2 ⊢ <;> (try dsimp only at h2 ⊢) <;> omega

/-- `Writer::AddRecord(slice)`. -/
def Writer.AddRecord (w : Writer) (slice : Bytes) : Status × Writer × List PhysicalRecord :=
  Writer.AddRecord_loop w slice true

/-- The sequences of record types `AddRecord` may emit for one record: a single
FULL, or one FIRST, then zero or more MIDDLE, then one LAST. -/
def wellFramed (types : List RecordType) : Prop :=
  types = [RecordType.kFullType] ∨
    ∃ k, types = RecordType.kFirstType ::
      (List.replicate k RecordType.kMiddleType ++ [RecordType.kLastType])

/-- The record types `AddRecord_loop` may emit when entered with `begin_`. -/
def framedFrom (begin_ : Bool) (types : List RecordType) : Prop :=
  if begin_ then wellFramed types
  else ∃ k, types = List.replicate k RecordType.kMiddleType ++ [RecordType.kLastType]

end log

/-! ## db/db_impl.cc: the merge loop of `DoCompactionWork` -/

/-- Modelled from the spec: `kMaxSequenceNumber` (`db/dbformat.h`, not among
the sources); sequence numbers are 56-bit integers. -/
def kMaxSequenceNumber : Nat := 2 ^ 56 - 1

/-- `ParsedInternalKey` (`db/dbformat.h`): the three fields that
`ParseInternalKey` fills.  `K` is the type of user keys as the user comparator
orders them: `user_comparator()->Compare(a, b) != 0` is `a ≠ b`. -/
structure ParsedInternalKey (K : Type) where
  user_key : K
  sequence : Nat
  type : Nat
deriving DecidableEq, Repr

/-- The locals of `DoCompactionWork` that live across iterations of the merge
loop.  `current_user_key` is `none` while `has_current_user_key` is false (the
string is then empty and never read). -/
structure MergeState (K : Type) where
  current_user_key : Option K
  last_sequence_for_key : Nat
deriving DecidableEq, Repr

/-- The locals before the loop: `has_current_user_key = false`,
`last_sequence_for_key = kMaxSequenceNumber`. -/
def MergeState.initial {K : Type} : MergeState K :=
  { current_user_key := none, last_sequence_for_key := kMaxSequenceNumber }

/-- Lines 965-998 of `db_impl.cc`, "Handle key/value, add to state, etc.":
the value of `drop` and the locals afterwards.  `ikey` is the outcome of
`ParseInternalKey(key, &ikey)` (`none` when it returns false);
`IsBaseLevelForKey` is the method of `compact->compaction`. -/
def DoCompactionWork_drop {K : Type} [DecidableEq K] (IsBaseLevelForKey : K → Bool)
    (smallest_snapshot : Nat) (st : MergeState K) (ikey : Option (ParsedInternalKey K)) :
    Bool × MergeState K :=
  match ikey with
  | none =>
    (false, { current_user_key := none, last_sequence_for_key := kMaxSequenceNumber })
  | some ikey =>
    let st1 : MergeState K :=
      if st.current_user_key ≠ some ikey.user_key then
        { current_user_key := some ikey.user_key, last_sequence_for_key := kMaxSequenceNumber }
      else st
    let drop : Bool :=
      if st1.last_sequence_for_key ≤ smallest_snapshot then true
      else if ikey.type = kTypeDeletion ∧ ikey.sequence ≤ smallest_snapshot ∧
          IsBaseLevelForKey ikey.user_key = true then true
      else false
    (drop, { st1 with last_sequence_for_key := ikey.sequence })

/-- The `while (input->Valid() ...)` loop of `DoCompactionWork` in a run in
which the database is not shut down and no file operation fails: the entries
handed to `compact->builder->Add`, in order, whatever output file each goes to.
`input` is what the input iterator yields and `parse` is `ParseInternalKey` on
an entry's key. -/
def DoCompactionWork_loop {K α : Type} [DecidableEq K] (parse : α → Option (ParsedInternalKey K))
    (IsBaseLevelForKey : K → Bool) (smallest_snapshot : Nat) :
    MergeState K → List α → List α
  | _, [] => []
  | st, e :: input =>
    let r := DoCompactionWork_drop IsBaseLevelForKey smallest_snapshot st (parse e)
    if r.1 then DoCompactionWork_loop parse IsBaseLevelForKey smallest_snapshot r.2 input
    else e :: DoCompactionWork_loop parse IsBaseLevelForKey smallest_snapshot r.2 input

/-- Internal-key order as the claims use it: user key ascending, then
sequence descending. -/
def InternalKeyLE {K : Type} [LinearOrder K] (a b : ParsedInternalKey K) : Prop :=
  a.user_key < b.user_key ∨ (a.user_key = b.user_key ∧ b.sequence ≤ a.sequence)

/-- An input all of whose keys parse: each entry is its parsed key and its
value. -/
abbrev ParsedEntry (K : Type) := ParsedInternalKey K × Bytes

/-- The entry is one for user key `U` that a reader at sequence `s` can see. -/
def visibleAt {K : Type} [DecidableEq K] (U : K) (s : Nat) (e : ParsedEntry K) : Bool :=
  decide (e.1.user_key = U ∧ e.1.sequence ≤ s)

/-- The locals after an iteration on a parseable key. -/
def MergeState.after {K : Type} (ikey : ParsedInternalKey K) : MergeState K :=
  { current_user_key := some ikey.user_key, last_sequence_for_key := ikey.sequence }

/-- The locals after an iteration on `prev`, or before the first iteration. -/
def MergeState.afterPrev {K : Type} : Option (ParsedEntry K) → MergeState K
  | none => MergeState.initial
  | some p => MergeState.after p.1

instance InternalKeyLE.decidable {K : Type} [LinearOrder K] (a b : ParsedInternalKey K) :
    Decidable (InternalKeyLE a b) := by
  unfold InternalKeyLE
  infer_instance

/-! ## db/db_impl.cc: the write path -/

/-- `struct DBImpl::Writer` without its condition variable; a null `batch` is
`none`. -/
structure DBImpl.Writer where
  status : Status
  batch : Option WriteBatch
  sync : Bool
  done : Bool
deriving DecidableEq, Repr

/-- The members of `DBImpl` that `Write` and `BuildBatchGroup` read or write.
`writers_` is the deque, front first.  `logfile_` is the file `log_` writes
to, `log_.dest_`.  `last_sequence` is what `versions_->LastSequence()` returns
and `versions_->SetLastSequence` sets. -/
structure DBImpl where
  writers_ : List DBImpl.Writer
  tmp_batch_ : WriteBatch
  mem_ : MemTable
  log_ : log.Writer
  bg_error_ : Status
  last_sequence : Nat
deriving DecidableEq, Repr

/-- What `BuildBatchGroup` hands back: the batch `result` points to, whether
that is `tmp_batch_` (otherwise it is the first writer's own batch),
`tmp_batch_` after the call, and the position in `writers_` of `*last_writer`. -/
structure BatchGroup where
  result : WriteBatch
  result_is_tmp : Bool
  tmp_batch_ : WriteBatch
  last_writer : Nat
deriving DecidableEq, Repr

/-- The `for` loop of `BuildBatchGroup` over the writers after the first:
`iter` is what is left of the deque, `index` the position of its head, `size`
the running size and `g` the result so far. -/
def DBImpl.BuildBatchGroup_loop (first : DBImpl.Writer) (first_batch : WriteBatch)
    (max_size : Nat) : List DBImpl.Writer → Nat → Nat → BatchGroup → BatchGroup
  | [], _, _, g => g
  | w :: iter, index, size, g =>
    if w.sync && !first.sync then
      g
    else
      match w.batch with
      | some batch =>
        let size1 := size + WriteBatchInternal.ByteSize batch
        if size1 > max_size then
          g
        else
          let tmp1 :=
            if g.result_is_tmp then g.tmp_batch_
            else WriteBatchInternal.Append g.tmp_batch_ first_batch
          let tmp2 := WriteBatchInternal.Append tmp1 batch
          DBImpl.BuildBatchGroup_loop first first_batch max_size iter (index + 1) size1
            { result := tmp2, result_is_tmp := true, tmp_batch_ := tmp2, last_writer := index }
      | none =>
        DBImpl.BuildBatchGroup_loop first first_batch max_size iter (index + 1) size
          { g with last_writer := index }

/-- `DBImpl::BuildBatchGroup(&last_writer)` for a deque `first :: rest` whose
first writer has the batch `first_batch` (the two REQUIRES of the function). -/
def DBImpl.BuildBatchGroup (db : DBImpl) (first : DBImpl.Writer) (first_batch : WriteBatch)
    (rest : List DBImpl.Writer) : BatchGroup :=
  let size := WriteBatchInternal.ByteSize first_batch
  let max_size := if size ≤ 128 <<< 10 then size + (128 <<< 10) else 1 <<< 20
  DBImpl.BuildBatchGroup_loop first first_batch max_size rest 1 size
    { result := first_batch, result_is_tmp := false, tmp_batch_ := db.tmp_batch_,
      last_writer := 0 }

/-- `DBImpl::RecordBackgroundError(s)`. -/
def DBImpl.RecordBackgroundError (db : DBImpl) (s : Status) : DBImpl :=
  if db.bg_error_.ok then { db with bg_error_ := s } else db

/-- Conversion of an `int` to `uint64_t`. -/
def toUInt64 (n : Int) : Nat :=
  (n % 2 ^ 64).toNat

/-- What a call of `Write` that leads a group leaves behind: the status it
returns, the database, the batch that went to the log after it was stamped
(`none` when nothing was written), and the writers it took off the queue with
the `status` and `done` it gave them. -/
structure WriteOutcome where
  status : Status
  db : DBImpl
  write_batch : Option WriteBatch
  completed : List DBImpl.Writer
deriving DecidableEq, Repr

/-- `DBImpl::Write` from the call of `MakeRoomForWrite` on (lines 1249-1314),
for the writer `w` at the front of `writers_`: `db` is the database when
`MakeRoomForWrite` returns and `room` the status it returns.  `updates` is
`w.batch` and `options.sync` is `w.sync`, as `Write` set them. -/
def DBImpl.Write_leader (db : DBImpl) (room : Status) : WriteOutcome :=
  match db.writers_ with
  | [] => { status := room, db := db, write_batch := none, completed := [] }
  | w :: rest =>
    let last_sequence := db.last_sequence
    match w.batch with
    | some updates =>
      if room.ok then
        let g := db.BuildBatchGroup w updates rest
        let write_batch := WriteBatchInternal.SetSequence g.result ((last_sequence + 1) % 2 ^ 64)
        let last_sequence1 :=
          toUInt64 ((last_sequence : Int) + WriteBatchInternal.Count write_batch)
        let r1 := db.log_.AddRecord (WriteBatchInternal.Contents write_batch)
        let r2 :=
          if r1.1.ok && w.sync then r1.2.1.dest_.Sync else (r1.1, r1.2.1.dest_)
        let sync_error := r1.1.ok && w.sync && !r2.1.ok
        let r3 :=
          if r2.1.ok then WriteBatchInternal.InsertInto write_batch db.mem_
          else (r2.1, db.mem_)
        let status := r3.1
        let db1 : DBImpl :=
          { db with
            log_ := { r1.2.1 with dest_ := r2.2 },
            mem_ := r3.2,
            tmp_batch_ := if g.result_is_tmp then g.tmp_batch_.Clear else g.tmp_batch_ }
        let db2 := if sync_error then db1.RecordBackgroundError status else db1
        { status := status,
          db := { db2 with
            last_sequence := last_sequence1,
            writers_ := rest.drop g.last_writer },
          write_batch := some write_batch,
          completed := w :: (rest.take g.last_writer).map
            (fun ready => { ready with status := status, done := true }) }
      else
        { status := room, db := { db with writers_ := rest }, write_batch := none,
          completed := [w] }
    | none =>
      { status := room, db := { db with writers_ := rest }, write_batch := none,
        completed := [w] }

/-- A database with one writer queued, whose batch is `Put("a", "b")`, and
`LastSequence` 41. -/
def exampleDb : DBImpl :=
  { writers_ := [{ status := Status.OK, batch := some (WriteBatch.new.Put [97] [98]),
                   sync := false, done := false }],
    tmp_batch_ := WriteBatch.new,
    mem_ := [],
    log_ := log.Writer.new { contents := [], outcomes := [] },
    bg_error_ := Status.OK,
    last_sequence := 41 }

/-- The entry is one for user key `U`. -/
def forKey {K : Type} [DecidableEq K] (U : K) (e : ParsedEntry K) : Bool :=
  decide (e.1.user_key = U)

/-- The writers of the group that `BuildBatchGroup` chose for the deque
`first :: rest`: the front writer through `*last_writer`.  These are the
writers that `Write` takes off the queue. -/
def BatchGroup.members (g : BatchGroup) (first : DBImpl.Writer) (rest : List DBImpl.Writer) :
    List DBImpl.Writer :=
  first :: rest.take g.last_writer

/-- The sum of `WriteBatchInternal::ByteSize` over the non-null batches of the
writers. -/
def batchSizes (ws : List DBImpl.Writer) : Nat :=
  (ws.map (fun w => match w.batch with
    | some b => WriteBatchInternal.ByteSize b
    | none => 0)).sum

/-- The records (the bytes after the header) of the non-null batches of the
writers, in order. -/
def batchRecords (ws : List DBImpl.Writer) : Bytes :=
  ws.flatMap (fun w => match w.batch with
    | some b => b.rep_.drop kHeader
    | none => [])

/-- A non-sync writer with the batch `Put("a", "b")`. -/
def examplePutWriter : DBImpl.Writer :=
  { status := Status.OK, batch := some (WriteBatch.new.Put [97] [98]), sync := false,
    done := false }

/-- A non-sync writer with a null batch. -/
def exampleNullWriter : DBImpl.Writer :=
  { status := Status.OK, batch := none, sync := false, done := false }

/-- A sync writer with the batch `Put("a", "b")`. -/
def exampleSyncWriter : DBImpl.Writer :=
  { status := Status.OK, batch := some (WriteBatch.new.Put [97] [98]), sync := true,
    done := false }

/-- A queue of two writers: the first with the batch `Put("a", "b")`, the
second with a null batch (as `TEST_CompactMemTable` passes to `Write`). -/
def exampleQueueDb : DBImpl :=
  { writers_ := [examplePutWriter, exampleNullWriter],
    tmp_batch_ := WriteBatch.new,
    mem_ := [],
    log_ := log.Writer.new { contents := [], outcomes := [] },
    bg_error_ := Status.OK,
    last_sequence := 41 }

/-- The number of writers that the `for` loop of `BuildBatchGroup` takes into
the group when it is entered on `iter` with the running size `size`: the loop
stops in front of the first sync writer behind a non-sync leader and in front
of the first batch that would make the size exceed `max_size`. -/
def DBImpl.groupTail (first : DBImpl.Writer) (max_size : Nat) :
    List DBImpl.Writer → Nat → Nat
  | [], _ => 0
  | w :: iter, size =>
    if w.sync && !first.sync then 0
    else
      match w.batch with
      | some batch =>
        if size + WriteBatchInternal.ByteSize batch > max_size then 0
        else DBImpl.groupTail first max_size iter (size + WriteBatchInternal.ByteSize batch) + 1
      | none => DBImpl.groupTail first max_size iter size + 1

/-- A database whose only queued writer is a sync writer and whose log file has
four scripted outcomes, all OK. -/
def exampleSyncDb : DBImpl :=
  { writers_ := [exampleSyncWriter],
    tmp_batch_ := WriteBatch.new,
    mem_ := [],
    log_ := log.Writer.new { contents := [], outcomes := [true, true, true, true] },
    bg_error_ := Status.OK,
    last_sequence := 41 }

namespace log

/-- One iteration of the `do` loop of `Writer::AddRecord`: the writer at the
head of the body (line 46), the writer when `EmitPhysicalRecord` is called
(line 78), and the arguments of that call. -/
structure Iteration where
  head : Writer
  writer : Writer
  type : RecordType
  payload : Bytes
deriving DecidableEq, Repr

/-- The `do ... while` loop of `Writer::AddRecord` as `Writer.AddRecord_loop`
has it, returning the iterations it makes, in order. -/
def Writer.AddRecord_iterations (w : Writer) (ptr : Bytes) (begin_ : Bool) : List Iteration :=
  let left := ptr.length
  let w1 := w.switchBlock
  let avail := kBlockSize - w1.block_offset_ - kHeaderSize
  let fragment_length := if left < avail then left else avail
  let end_ := (left == fragment_length)
  let type :=
    if begin_ && end_ then RecordType.kFullType
    else if begin_ then RecordType.kFirstType
    else if end_ then RecordType.kLastType
    else RecordType.kMiddleType
  let r := w1.EmitPhysicalRecord type (ptr.take fragment_length)
  if h : r.1.ok = true ∧ left - fragment_length > 0 then
    { head := w, writer := w1, type := type, payload := ptr.take fragment_length } ::
      Writer.AddRecord_iterations r.2 (ptr.drop fragment_length) false
  else
    [{ head := w, writer := w1, type := type, payload := ptr.take fragment_length }]
termination_by 2 * ptr.length + (if w.block_offset_ + kHeaderSize = kBlockSize then 1 else 0)
decreasing_by
  have h2 := h.2
  simp only [left, fragment_length, avail, w1] at h2
  simp only [Writer.EmitPhysicalRecord, Writer.switchBlock, kBlockSize, kHeaderSize,
    List.length_drop, List.length_take] at h2 ⊢
  clear h r type end_ fragment_length avail w1 left
  split_ifs at h2 ⊢ <;> (try dsimp only at h2 ⊢) <;> omega

end log

/-- `CompactionState::Output` as the merge loop uses it: the keys `smallest`
and `largest` (`none` while still empty; an entry stands for its key), and
`entries`, what `compact->builder->Add` has put into the output's table file,
in order. -/
structure CompactionOutput (α : Type) where
  smallest : Option α
  largest : Option α
  entries : List α
deriving DecidableEq, Repr

/-- The part of `CompactionState` that the merge loop writes.  `outputs` of the
code is `finished ++ current.toList`: `current` is `compact->current_output()`
while `compact->builder != nullptr`, and `none` while the builder is null. -/
structure CompactionState (α : Type) where
  finished : List (CompactionOutput α)
  current : Option (CompactionOutput α)
deriving DecidableEq, Repr

/-- `compact->outputs`. -/
def CompactionState.outputs {α : Type} (compact : CompactionState α) :
    List (CompactionOutput α) :=
  compact.finished ++ compact.current.toList

/-- `OpenCompactionOutputFile(compact)` when it succeeds: a new output, with
empty `smallest` and `largest`, is pushed and gets a builder. -/
def OpenCompactionOutputFile {α : Type} (compact : CompactionState α) : CompactionState α :=
  { finished := compact.outputs,
    current := some { smallest := none, largest := none, entries := [] } }

/-- `FinishCompactionOutputFile(compact, input)` when it succeeds: the builder
is finished and `compact->builder` becomes null. -/
def FinishCompactionOutputFile {α : Type} (compact : CompactionState α) :
    CompactionState α :=
  { finished := compact.outputs, current := none }

/-- Lines 1016-1020 of `db_impl.cc` on the current output: `smallest` is set
if the builder has no entry yet, `largest` is set, and the entry is added. -/
def CompactionOutput.Add {α : Type} (out : CompactionOutput α) (e : α) : CompactionOutput α :=
  { smallest := if out.entries.length = 0 then some e else out.smallest,
    largest := some e,
    entries := out.entries ++ [e] }

/-- What has been added to `compact->builder` (nothing if it is null). -/
def CompactionState.builderEntries {α : Type} (compact : CompactionState α) : List α :=
  match compact.current with
  | some out => out.entries
  | none => []

/-- The `while (input->Valid() ...)` loop of `DoCompactionWork` with its output
files, in a run in which the database is not shut down and no file operation
fails.  `seen` are the entries of earlier iterations: `ShouldStopBefore seen e`
is what `compact->compaction->ShouldStopBefore(key)` returns at `e` after it
was called on each of `seen`; `FileSize es` is `compact->builder->FileSize()`
once `es` have been added (`rep_->offset` of `table_builder.cc`, the bytes of
the blocks written so far, which depend on the block builder and the
compressor, neither among the sources); `MaxOutputFileSize` is
`compact->compaction->MaxOutputFileSize()`. -/
def DoCompactionWork_files {K α : Type} [DecidableEq K]
    (parse : α → Option (ParsedInternalKey K)) (IsBaseLevelForKey : K → Bool)
    (smallest_snapshot : Nat) (ShouldStopBefore : List α → α → Bool)
    (FileSize : List α → Nat) (MaxOutputFileSize : Nat) :
    MergeState K → List α → CompactionState α → List α → CompactionState α
  | _, _, compact, [] => compact
  | st, seen, compact, e :: input =>
    let compact1 :=
      if ShouldStopBefore seen e && compact.current.isSome then
        FinishCompactionOutputFile compact
      else compact
    let r := DoCompactionWork_drop IsBaseLevelForKey smallest_snapshot st (parse e)
    let compact4 :=
      if r.1 then compact1
      else
        let compact2 :=
          if compact1.current.isNone then OpenCompactionOutputFile compact1 else compact1
        let compact3 : CompactionState α :=
          { compact2 with current := compact2.current.map (fun out => out.Add e) }
        if FileSize compact3.builderEntries ≥ MaxOutputFileSize then
          FinishCompactionOutputFile compact3
        else compact3
    DoCompactionWork_files parse IsBaseLevelForKey smallest_snapshot ShouldStopBefore FileSize
      MaxOutputFileSize r.2 (seen ++ [e]) compact4 input

/-- The output files of `DoCompactionWork`, in the order of `compact->outputs`:
the loop from the initial state, then the last output finished if the builder
is not null (lines 1037-1039). -/
def DoCompactionWork_outputs {K α : Type} [DecidableEq K]
    (parse : α → Option (ParsedInternalKey K)) (IsBaseLevelForKey : K → Bool)
    (smallest_snapshot : Nat) (ShouldStopBefore : List α → α → Bool)
    (FileSize : List α → Nat) (MaxOutputFileSize : Nat) (input : List α) :
    List (CompactionOutput α) :=
  let compact := DoCompactionWork_files parse IsBaseLevelForKey smallest_snapshot
    ShouldStopBefore FileSize MaxOutputFileSize MergeState.initial []
    { finished := [], current := none } input
  (if compact.current.isSome then FinishCompactionOutputFile compact else compact).outputs

/-- Every output holds at least one entry, `smallest` is the key of its first
and `largest` the key of its last. -/
def CompactionOutput.good {α : Type} (out : CompactionOutput α) : Prop :=
  out.entries ≠ [] ∧ out.smallest = out.entries.head? ∧ out.largest = out.entries.getLast?


/-- A value of one mebibyte. -/
def exampleBigValue : Bytes := List.replicate 1048576 0

/-! ## table/table_builder.cc -/

/-- Modelled from the spec: `CompressionType` (`leveldb/options.h`, not among
the sources): a stored block's type is NO_COMPRESSION or SNAPPY. -/
inductive CompressionType where
  | kNoCompression
  | kSnappyCompression
deriving DecidableEq, Repr

/-- Modelled from the spec: the enumerators' values, the one-byte type of a
stored block. -/
def CompressionType.toNat : CompressionType → Nat
  | .kNoCompression => 0
  | .kSnappyCompression => 1

/-- Modelled from the spec: `kBlockTrailerSize` (`table/format.h`), the type
byte and the 32-bit CRC that follow each block. -/
def kBlockTrailerSize : Nat := 5

/-- `BlockHandle` (`table/format.h`): `offset_` and `size_`. -/
structure BlockHandle where
  offset : Nat
  size : Nat
deriving DecidableEq, Repr

/-- Modelled from the spec: `BlockHandle::EncodeTo(dst)`, the offset and the
size as varint64. -/
def BlockHandle.EncodeTo (h : BlockHandle) (dst : Bytes) : Bytes :=
  PutVarint64 (PutVarint64 dst h.offset) h.size

/-- The fields of `Options` that `table_builder.cc` reads besides the
comparator; `filter_policy` is whether the pointer is non-null. -/
structure Options where
  block_size : Nat
  block_restart_interval : Nat
  compression : CompressionType
  filter_policy : Bool
deriving DecidableEq, Repr

/-- A call received by the `FilterBlockBuilder` (`table/filter_block.h`, not
among the sources). -/
inductive FilterCall (K : Type) where
  | StartBlock (block_offset : Nat)
  | AddKey (key : K)
deriving DecidableEq, Repr

/-- What `table_builder.cc` calls and the sources do not hold, as parameters.
`K` is the type of keys as `options.comparator` orders them.
`BlockBuilder_Finish i es` is what `BlockBuilder::Finish()` returns for a block
with restart interval `i` to which the entries `es` were added, and
`CurrentSizeEstimate i es` its `CurrentSizeEstimate()`; `Snappy_Compress raw`
is the output of `port::Snappy_Compress`, `none` when it returns false;
`FilterBlock_Finish` is `FilterBlockBuilder::Finish()` after the given calls;
`metaindex_Finish h` is `meta_index_block.Finish()` in `Finish`, `h` being the
encoded handle of the filter block when there is one; `Footer_EncodeTo m i` is
the encoding of the footer with these two handles; `BlockHandle_new` is a
default-constructed handle. -/
structure TableParts (K : Type) where
  FindShortestSeparator : K → K → K
  FindShortSuccessor : K → K
  BlockBuilder_Finish : Nat → List (K × Bytes) → Bytes
  CurrentSizeEstimate : Nat → List (K × Bytes) → Nat
  Snappy_Compress : Bytes → Option Bytes
  FilterBlock_Finish : List (FilterCall K) → Bytes
  metaindex_Finish : Option Bytes → Bytes
  Footer_EncodeTo : BlockHandle → BlockHandle → Bytes
  BlockHandle_new : BlockHandle

/-- `TableBuilder::Rep`.  A `BlockBuilder` is the entries added to it since its
last `Reset`; the filter block builder is the calls it has received; the file
offset is a natural number (a `uint64_t` that a file cannot make wrap).
`compressed_output` is empty between calls and is left out.  The last two
fields are not members of `Rep`: `flushed` records, for each data block that
`Flush` has handed to `WriteBlock`, its entries and the handle it was given,
and `index_written` the entries of the index block that `Finish` has handed to
`WriteBlock`. -/
structure TableBuilder.Rep (K : Type) where
  options : Options
  file : WritableFile
  offset : Nat
  status : Status
  data_block : List (K × Bytes)
  index_block : List (K × Bytes)
  last_key : K
  num_entries : Nat
  closed : Bool
  filter_block : Option (List (FilterCall K))
  pending_index_entry : Bool
  pending_handle : BlockHandle
  flushed : List (List (K × Bytes) × BlockHandle)
  index_written : Option (List (K × Bytes))

/-- `TableBuilder::TableBuilder(options, file)`; `default` is the empty
`last_key`. -/
def TableBuilder.new {K : Type} [Inhabited K] (parts : TableParts K) (options : Options)
    (file : WritableFile) : TableBuilder.Rep K :=
  { options := options,
    file := file,
    offset := 0,
    status := Status.OK,
    data_block := [],
    index_block := [],
    last_key := default,
    num_entries := 0,
    closed := false,
    filter_block := if options.filter_policy then some [FilterCall.StartBlock 0] else none,
    pending_index_entry := false,
    pending_handle := parts.BlockHandle_new,
    flushed := [],
    index_written := none }

/-- `TableBuilder::ok()`. -/
def TableBuilder.Rep.ok {K : Type} (r : TableBuilder.Rep K) : Bool :=
  r.status.ok

/-- `TableBuilder::WriteRawBlock(block_contents, type, handle)`: the builder
afterwards and `*handle`. -/
def TableBuilder.WriteRawBlock {K : Type} (r : TableBuilder.Rep K) (block_contents : Bytes)
    (type : CompressionType) : TableBuilder.Rep K × BlockHandle :=
  let handle : BlockHandle := { offset := r.offset, size := block_contents.length }
  let a1 := r.file.Append block_contents
  if a1.1.ok then
    let crc := crc32c.Extend (crc32c.Value block_contents) [type.toNat]
    let trailer := type.toNat :: EncodeFixed32 (crc32c.Mask crc)
    let a2 := a1.2.Append trailer
    if a2.1.ok then
      ({ r with file := a2.2, status := a2.1,
                offset := r.offset + block_contents.length + kBlockTrailerSize }, handle)
    else
      ({ r with file := a2.2, status := a2.1 }, handle)
  else
    ({ r with file := a1.2, status := a1.1 }, handle)

/-- The `switch (type)` of `TableBuilder::WriteBlock` (lines 155-172): the
bytes and the type it passes to `WriteRawBlock` for the block `raw`. -/
def TableBuilder.blockContents {K : Type} (parts : TableParts K) (compression : CompressionType)
    (raw : Bytes) : Bytes × CompressionType :=
  match compression with
  | .kNoCompression => (raw, .kNoCompression)
  | .kSnappyCompression =>
    match parts.Snappy_Compress raw with
    | some compressed =>
      if compressed.length < raw.length - raw.length / 8 then
        (compressed, .kSnappyCompression)
      else
        (raw, .kNoCompression)
    | none => (raw, .kNoCompression)

/-- `TableBuilder::WriteBlock(block, handle)`, `raw` being `block->Finish()`;
the caller does the `block->Reset()`. -/
def TableBuilder.WriteBlock {K : Type} (parts : TableParts K) (r : TableBuilder.Rep K)
    (raw : Bytes) : TableBuilder.Rep K × BlockHandle :=
  let c := TableBuilder.blockContents parts r.options.compression raw
  TableBuilder.WriteRawBlock r c.1 c.2

/-- Parts for examples over natural-number keys: the separator of two keys is
the first, the successor of a key is itself, a block is its keys and values in
order, its size estimate is its number of entries, and the compressor drops
the first byte of its input. -/
def exampleParts : TableParts Nat :=
  { FindShortestSeparator := fun start _ => start,
    FindShortSuccessor := fun key => key,
    BlockBuilder_Finish := fun _ es => es.flatMap (fun e => e.1 :: e.2),
    CurrentSizeEstimate := fun _ es => es.length,
    Snappy_Compress := fun raw => some (raw.drop 1),
    FilterBlock_Finish := fun _ => [],
    metaindex_Finish := fun _ => [0, 0, 0, 0],
    Footer_EncodeTo := fun m i => m.EncodeTo (i.EncodeTo []),
    BlockHandle_new := { offset := 0, size := 0 } }

/-- A new builder on an empty file, with blocks of two entries, no compression
and no filter policy. -/
def exampleRep : TableBuilder.Rep Nat :=
  TableBuilder.new exampleParts
    { block_size := 2, block_restart_interval := 16,
      compression := CompressionType.kNoCompression, filter_policy := false }
    { contents := [], outcomes := [] }

/-- `TableBuilder::Flush()`. -/
def TableBuilder.Flush {K : Type} (parts : TableParts K) (r : TableBuilder.Rep K) :
    TableBuilder.Rep K :=
  if !r.ok then r
  else if r.data_block.isEmpty then r
  else
    let w := TableBuilder.WriteBlock parts r
      (parts.BlockBuilder_Finish r.options.block_restart_interval r.data_block)
    let r1 : TableBuilder.Rep K :=
      { w.1 with pending_handle := w.2, data_block := [],
                 flushed := r.flushed ++ [(r.data_block, w.2)] }
    let r2 : TableBuilder.Rep K :=
      if r1.ok then
        let f := r1.file.Flush
        { r1 with pending_index_entry := true, status := f.1, file := f.2 }
      else r1
    { r2 with filter_block :=
        r2.filter_block.map (fun calls => calls ++ [FilterCall.StartBlock r2.offset]) }

/-- Lines 100-115 of `TableBuilder::Add(key, value)`: the index entry of the
pending block, the key handed to the filter block, and the entry added to the
data block. -/
def TableBuilder.Add_entry {K : Type} (parts : TableParts K) (r : TableBuilder.Rep K)
    (key : K) (value : Bytes) : TableBuilder.Rep K :=
  let r1 : TableBuilder.Rep K :=
    if r.pending_index_entry then
      let last_key := parts.FindShortestSeparator r.last_key key
      { r with last_key := last_key,
               index_block := r.index_block ++ [(last_key, r.pending_handle.EncodeTo [])],
               pending_index_entry := false }
    else r
  let r2 : TableBuilder.Rep K :=
    { r1 with filter_block :=
        r1.filter_block.map (fun calls => calls ++ [FilterCall.AddKey key]) }
  { r2 with last_key := key, num_entries := r2.num_entries + 1,
            data_block := r2.data_block ++ [(key, value)] }

/-- `TableBuilder::Add(key, value)`.  The assertion that `key` is greater than
`last_key` when `num_entries > 0` is a hypothesis of the theorems. -/
def TableBuilder.Add {K : Type} (parts : TableParts K) (r : TableBuilder.Rep K) (key : K)
    (value : Bytes) : TableBuilder.Rep K :=
  if !r.ok then r
  else
    let r3 := TableBuilder.Add_entry parts r key value
    if parts.CurrentSizeEstimate r3.options.block_restart_interval r3.data_block
        ≥ r3.options.block_size then
      TableBuilder.Flush parts r3
    else r3

/-- "Write filter block" in `TableBuilder::Finish` (lines 209-212): the
builder afterwards and `filter_block_handle`. -/
def TableBuilder.Finish_filter {K : Type} (parts : TableParts K) (r : TableBuilder.Rep K) :
    TableBuilder.Rep K × BlockHandle :=
  match r.filter_block with
  | some calls =>
    if r.ok then
      TableBuilder.WriteRawBlock r (parts.FilterBlock_Finish calls)
        CompressionType.kNoCompression
    else (r, parts.BlockHandle_new)
  | none => (r, parts.BlockHandle_new)

/-- "Write metaindex block" in `TableBuilder::Finish` (lines 214-228): the
builder afterwards and `metaindex_block_handle`. -/
def TableBuilder.Finish_metaindex {K : Type} (parts : TableParts K) (r : TableBuilder.Rep K)
    (filter_block_handle : BlockHandle) : TableBuilder.Rep K × BlockHandle :=
  if r.ok then
    TableBuilder.WriteBlock parts r
      (parts.metaindex_Finish (r.filter_block.map (fun _ => filter_block_handle.EncodeTo [])))
  else (r, parts.BlockHandle_new)

/-- "Write index block" in `TableBuilder::Finish` (lines 230-240): the builder
afterwards and `index_block_handle`. -/
def TableBuilder.Finish_index {K : Type} (parts : TableParts K) (r : TableBuilder.Rep K) :
    TableBuilder.Rep K × BlockHandle :=
  if r.ok then
    let r4 : TableBuilder.Rep K :=
      if r.pending_index_entry then
        let last_key := parts.FindShortSuccessor r.last_key
        { r with last_key := last_key,
                 index_block := r.index_block ++ [(last_key, r.pending_handle.EncodeTo [])],
                 pending_index_entry := false }
      else r
    let w := TableBuilder.WriteBlock parts r4 (parts.BlockBuilder_Finish 1 r4.index_block)
    ({ w.1 with index_block := [], index_written := some r4.index_block }, w.2)
  else (r, parts.BlockHandle_new)

/-- "Write footer" in `TableBuilder::Finish` (lines 242-254). -/
def TableBuilder.Finish_footer {K : Type} (parts : TableParts K) (r : TableBuilder.Rep K)
    (metaindex_block_handle index_block_handle : BlockHandle) : TableBuilder.Rep K :=
  if r.ok then
    let footer_encoding := parts.Footer_EncodeTo metaindex_block_handle index_block_handle
    let a := r.file.Append footer_encoding
    if a.1.ok then
      { r with file := a.2, status := a.1, offset := r.offset + footer_encoding.length }
    else
      { r with file := a.2, status := a.1 }
  else r

/-- `TableBuilder::Finish()`: the status it returns is the `status` of the
result. -/
def TableBuilder.Finish {K : Type} (parts : TableParts K) (r : TableBuilder.Rep K) :
    TableBuilder.Rep K :=
  let r1 := TableBuilder.Flush parts r
  let r2 : TableBuilder.Rep K := { r1 with closed := true }
  let w3 := TableBuilder.Finish_filter parts r2
  let w4 := TableBuilder.Finish_metaindex parts w3.1 w3.2
  let w5 := TableBuilder.Finish_index parts w4.1
  TableBuilder.Finish_footer parts w5.1 w4.2 w5.2

/-- A call made on a `TableBuilder` before `Finish`. -/
inductive TableOp (K : Type) where
  | Add (key : K) (value : Bytes)
  | Flush
deriving DecidableEq, Repr

/-- The builder after one call. -/
def TableOp.apply {K : Type} (parts : TableParts K) (r : TableBuilder.Rep K) :
    TableOp K → TableBuilder.Rep K
  | .Add key value => TableBuilder.Add parts r key value
  | .Flush => TableBuilder.Flush parts r

/-- The builder after a sequence of calls. -/
def TableBuilder.run {K : Type} (parts : TableParts K) (r : TableBuilder.Rep K)
    (ops : List (TableOp K)) : TableBuilder.Rep K :=
  ops.foldl (TableOp.apply parts) r

/-- The entries a sequence of calls adds, in order. -/
def TableOp.entries {K : Type} (ops : List (TableOp K)) : List (K × Bytes) :=
  ops.flatMap (fun op => match op with
    | .Add key value => [(key, value)]
    | .Flush => [])

/-- The entries of the index block `index` stand for the data blocks `blocks`,
in order: each value is the encoded handle of its block, each key is at least
every key of its block, and each key is smaller than the first key of what
follows its block (`next` being what follows the last block). -/
def TableBuilder.indexCovers {K : Type} [LinearOrder K] (index : List (K × Bytes))
    (blocks : List (List (K × Bytes) × BlockHandle)) (next : List (List (K × Bytes))) : Prop :=
  index.length = blocks.length ∧
  (∀ p ∈ index.zip blocks, p.1.2 = p.2.2.EncodeTo [] ∧ ∀ k ∈ p.2.1, k.1 ≤ p.1.1) ∧
  (∀ p ∈ index.zip ((blocks.map Prod.fst ++ next).tail.map List.head?),
    ∀ k ∈ p.2, p.1.1 < k.1)

/-- The state of a builder to which the entries `adds` have been added. -/
def TableBuilder.Rep.inv {K : Type} [LinearOrder K] (r : TableBuilder.Rep K)
    (adds : List (K × Bytes)) : Prop :=
  r.flushed.flatMap Prod.fst ++ r.data_block = adds ∧
  (∀ b ∈ r.flushed, b.1 ≠ []) ∧
  (adds ≠ [] → ∃ init v, adds = init ++ [(r.last_key, v)]) ∧
  (r.pending_index_entry = true →
    r.data_block = [] ∧
    ∃ bs b, r.flushed = bs ++ [b] ∧ r.pending_handle = b.2 ∧
      TableBuilder.indexCovers r.index_block bs [b.1]) ∧
  (r.pending_index_entry = false →
    TableBuilder.indexCovers r.index_block r.flushed [r.data_block] ∧
    (r.flushed ≠ [] → r.data_block ≠ []))

/-- Three entries added in increasing key order. -/
def exampleOps : List (TableOp Nat) :=
  [TableOp.Add 1 [10], TableOp.Add 2 [20], TableOp.Add 3 [30]]

/-! ## db/db_impl.cc: room for writes and the background task -/

/-- Modelled from the spec: what the functions of `db_impl.cc` below read from
`versions_` (`db/version_set.h` is not among the sources): the numbers that
`AddLiveFiles` yields, `LogNumber()`, `PrevLogNumber()`, `ManifestFileNumber()`,
the counter behind `NewFileNumber()`, `NumLevelFiles(0)` and
`NeedsCompaction()`. -/
structure VersionSet where
  live_files : List Nat
  log_number : Nat
  prev_log_number : Nat
  manifest_file_number : Nat
  next_file_number : Nat
  level0_files : Nat
  needs_compaction : Bool
deriving DecidableEq, Repr

/-- The members of `DBImpl` above together with those that `MakeRoomForWrite`,
`MaybeScheduleCompaction`, `BackgroundCall` and `RemoveObsoleteFiles` read or
write.  `manual_compaction_` is whether the pointer is non-null.  The last two
fields belong to the environment: `scheduled` counts the `BGWork` tasks handed
to `Env::Schedule` that have not returned yet, and `new_files` scripts the
coming calls of `Env::NewWritableFile` (`none` for a failure; calls past the
end of the list fail). -/
structure DBImpl.State extends DBImpl where
  versions_ : VersionSet
  imm_ : Option MemTable
  logfile_number_ : Nat
  background_compaction_scheduled_ : Bool
  shutting_down_ : Bool
  manual_compaction_ : Bool
  pending_outputs_ : List Nat
  scheduled : Nat
  new_files : List (Option WritableFile)
deriving DecidableEq, Repr

/-- Modelled from the spec: `config::kL0_SlowdownWritesTrigger`
(`db/dbformat.h`, not among the sources). -/
def kL0_SlowdownWritesTrigger : Nat := 8

/-- Modelled from the spec: `config::kL0_StopWritesTrigger`. -/
def kL0_StopWritesTrigger : Nat := 12

/-- `DBImpl::MaybeScheduleCompaction()`; `env_->Schedule(&DBImpl::BGWork, this)`
adds one to `scheduled`. -/
def DBImpl.MaybeScheduleCompaction (db : DBImpl.State) : DBImpl.State :=
  if db.background_compaction_scheduled_ then db
  else if db.shutting_down_ then db
  else if !db.bg_error_.ok then db
  else if db.imm_.isNone && !db.manual_compaction_ && !db.versions_.needs_compaction then db
  else { db with background_compaction_scheduled_ := true, scheduled := db.scheduled + 1 }

/-- `DBImpl::BackgroundCall()`, run by a scheduled `BGWork` task, which is
finished when it returns.  `BackgroundCompaction` stands for
`BackgroundCompaction()` together with what other threads do while it has
released the mutex. -/
def DBImpl.BackgroundCall (BackgroundCompaction : DBImpl.State → DBImpl.State)
    (db : DBImpl.State) : DBImpl.State :=
  let db1 :=
    if db.shutting_down_ then db
    else if !db.bg_error_.ok then db
    else BackgroundCompaction db
  let db2 : DBImpl.State :=
    { db1 with background_compaction_scheduled_ := false }
  let db3 := DBImpl.MaybeScheduleCompaction db2
  { db3 with scheduled := db3.scheduled - 1 }

/-- A step of the database under the mutex, as far as the background task is
concerned: a call of `MaybeScheduleCompaction` by any thread, a scheduled task
running `BackgroundCall`, or anything else, which leaves
`background_compaction_scheduled_` and the tasks of the environment alone. -/
inductive DBImpl.Step : DBImpl.State → DBImpl.State → Prop where
  | schedule (db : DBImpl.State) : DBImpl.Step db (DBImpl.MaybeScheduleCompaction db)
  | background (db : DBImpl.State) (BackgroundCompaction : DBImpl.State → DBImpl.State)
      (hscheduled : 0 < db.scheduled)
      (hflag : ∀ x, (BackgroundCompaction x).background_compaction_scheduled_
        = x.background_compaction_scheduled_)
      (htasks : ∀ x, (BackgroundCompaction x).scheduled = x.scheduled) :
      DBImpl.Step db (DBImpl.BackgroundCall BackgroundCompaction db)
  | other (db : DBImpl.State) (f : DBImpl.State → DBImpl.State)
      (hflag : (f db).background_compaction_scheduled_ = db.background_compaction_scheduled_)
      (htasks : (f db).scheduled = db.scheduled) :
      DBImpl.Step db (f db)

/-- The states the database reaches from `db0` by steps. -/
inductive DBImpl.Reachable (db0 : DBImpl.State) : DBImpl.State → Prop where
  | start : DBImpl.Reachable db0 db0
  | step (db db1 : DBImpl.State) (h : DBImpl.Reachable db0 db) (hstep : DBImpl.Step db db1) :
      DBImpl.Reachable db0 db1
/-- What `MakeRoomForWrite` reads besides the database: `options_.write_buffer_size`
and `MemTable::ApproximateMemoryUsage` (`db/memtable.h` is not among the
sources). -/
structure RoomOptions where
  write_buffer_size : Nat
  ApproximateMemoryUsage : MemTable → Nat

/-- What a call of `MakeRoomForWrite` leaves: the status it returns (`none` if
it is still waiting for a signal of the background thread that does not come),
the database, and for each switch to a new memtable it made, in order, the
database before the switch and the database after it (before the call of
`MaybeScheduleCompaction`). -/
structure RoomOutcome where
  status : Option Status
  db : DBImpl.State
  switched : List (DBImpl.State × DBImpl.State)

theorem DBImpl.MaybeScheduleCompaction_imm (db : DBImpl.State) :
    (DBImpl.MaybeScheduleCompaction db).imm_ = db.imm_ := by
  unfold DBImpl.MaybeScheduleCompaction
  split_ifs <;> rfl

/-- The `while (true)` loop of `DBImpl::MakeRoomForWrite` (lines 1380-1443)
entered with the locals `allow_delay` and `force`.  `background` is what the
other threads do each time this one gives up the mutex, in
`SleepForMicroseconds` or in `background_work_finished_signal_.Wait()`; a
`Wait` returns only after such a step. -/
def DBImpl.MakeRoomForWrite_loop (options : RoomOptions) (allow_delay force : Bool)
    (db : DBImpl.State) (background : List (DBImpl.State → DBImpl.State)) : RoomOutcome :=
  if !db.bg_error_.ok then
    -- Yield previous error
    { status := some db.bg_error_, db := db, switched := [] }
  else if allow_delay && decide (db.versions_.level0_files ≥ kL0_SlowdownWritesTrigger) then
    match background with
    | [] => DBImpl.MakeRoomForWrite_loop options false force db []
    | f :: rest => DBImpl.MakeRoomForWrite_loop options false force (f db) rest
  else if !force &&
      decide (options.ApproximateMemoryUsage db.mem_ ≤ options.write_buffer_size) then
    -- There is room in current memtable
    { status := some Status.OK, db := db, switched := [] }
  else if db.imm_.isSome then
    match background with
    | [] => { status := none, db := db, switched := [] }
    | f :: rest => DBImpl.MakeRoomForWrite_loop options allow_delay force (f db) rest
  else if db.versions_.level0_files ≥ kL0_StopWritesTrigger then
    match background with
    | [] => { status := none, db := db, switched := [] }
    | f :: rest => DBImpl.MakeRoomForWrite_loop options allow_delay force (f db) rest
  else
    -- Attempt to switch to a new memtable and trigger compaction of old
    let new_log_number := db.versions_.next_file_number
    match db.new_files with
    | some lfile :: files =>
      let db1 : DBImpl.State :=
        { db with
          versions_ := { db.versions_ with next_file_number := new_log_number + 1 },
          new_files := files,
          log_ := log.Writer.new lfile,
          logfile_number_ := new_log_number,
          imm_ := some db.mem_,
          mem_ := [] }
      let r := DBImpl.MakeRoomForWrite_loop options allow_delay false
        (DBImpl.MaybeScheduleCompaction db1) background
      { r with switched := (db, db1) :: r.switched }
    | none :: files =>
      { status := some (Status.IOError "NewWritableFile"),
        db := { db with new_files := files }, switched := [] }
    | [] =>
      { status := some (Status.IOError "NewWritableFile"), db := db, switched := [] }
termination_by (background.length, (if allow_delay then 1 else 0) + (if db.imm_.isSome then 0 else 1))
decreasing_by
  all_goals simp_wf
  · rename_i h
    have ha : allow_delay = true := by
      cases allow_delay with
      | true => rfl
      | false => simp at h
    apply Prod.Lex.right
    subst ha
    by_cases hi : db.imm_.isSome = true <;> simp [hi]
  · apply Prod.Lex.left; omega
  · apply Prod.Lex.left; omega
  · apply Prod.Lex.left; omega
  · rename_i h _
    apply Prod.Lex.right
    rw [DBImpl.MaybeScheduleCompaction_imm]
    simp only [Option.isSome_some, if_true, if_neg h]
    omega

/-- `DBImpl::MakeRoomForWrite(force)`. -/
def DBImpl.MakeRoomForWrite (options : RoomOptions) (force : Bool) (db : DBImpl.State)
    (background : List (DBImpl.State → DBImpl.State)) : RoomOutcome :=
  DBImpl.MakeRoomForWrite_loop options (!force) force db background

/-- `DBImpl::Write` from the call of `MakeRoomForWrite` on (lines 1249-1314),
for the thread whose writer is at the front of `writers_` (the queue is not
empty then): `MakeRoomForWrite(updates == nullptr)` and then `Write_leader`
with its status.  `none` when `MakeRoomForWrite` does not return. -/
def DBImpl.Write_front (options : RoomOptions) (db : DBImpl.State)
    (background : List (DBImpl.State → DBImpl.State)) : Option (WriteOutcome × DBImpl.State) :=
  match db.writers_ with
  | [] => none
  | w :: _ =>
    let room := DBImpl.MakeRoomForWrite options w.batch.isNone db background
    match room.status with
    | none => none
    | some status =>
      let out := room.db.toDBImpl.Write_leader status
      some (out, { room.db with toDBImpl := out.db })

/-- A database state over `exampleDb`: nothing scheduled, no immutable
memtable, no file at level 0, and one new file that the environment will
hand out. -/
def exampleState : DBImpl.State :=
  { toDBImpl := exampleDb,
    versions_ := { live_files := [], log_number := 3, prev_log_number := 0,
                   manifest_file_number := 2, next_file_number := 4, level0_files := 0,
                   needs_compaction := false },
    imm_ := none,
    logfile_number_ := 3,
    background_compaction_scheduled_ := false,
    shutting_down_ := false,
    manual_compaction_ := false,
    pending_outputs_ := [],
    scheduled := 0,
    new_files := [some { contents := [], outcomes := [] }] }

/-- A write buffer of 4 MiB, with the number of entries as the memory usage of
a memtable. -/
def exampleRoomOptions : RoomOptions :=
  { write_buffer_size := 4194304, ApproximateMemoryUsage := fun mem => mem.length }

/-- The state `exampleState` with one sync writer queued and a log file whose
fourth call fails. -/
def exampleSyncFailState : DBImpl.State :=
  { exampleState with
    writers_ := [exampleSyncWriter],
    log_ := log.Writer.new { contents := [], outcomes := [true, true, true, false] } }

/-- The state `exampleState` with a log file whose first call fails. -/
def exampleAppendFailState : DBImpl.State :=
  { exampleState with
    log_ := log.Writer.new { contents := [], outcomes := [false] } }

/-! ## db/db_impl.cc: obsolete files and recovery -/

/-- `enum FileType` (`db/filename.h`, not among the sources), with the
enumerators that the `switch` of `RemoveObsoleteFiles` lists. -/
inductive FileType where
  | kLogFile
  | kDBLockFile
  | kTableFile
  | kDescriptorFile
  | kCurrentFile
  | kTempFile
  | kInfoLogFile
deriving DecidableEq, Repr

/-- The `switch (type)` of `RemoveObsoleteFiles` (lines 251-275): the value of
`keep` for a file with this number and type, `live` being `pending_outputs_`
together with what `versions_->AddLiveFiles` added. -/
def DBImpl.RemoveObsoleteFiles_keep (db : DBImpl.State) (live : List Nat) (number : Nat) :
    FileType → Bool
  | .kLogFile =>
    decide (number ≥ db.versions_.log_number) || decide (number = db.versions_.prev_log_number)
  | .kDescriptorFile => decide (number ≥ db.versions_.manifest_file_number)
  | .kTableFile => live.contains number
  | .kTempFile => live.contains number
  | .kCurrentFile => true
  | .kDBLockFile => true
  | .kInfoLogFile => true

/-- `DBImpl::RemoveObsoleteFiles()`: the files it hands to `env_->RemoveFile`,
in order, and the numbers it has the table cache evict.  `filenames` is what
`env_->GetChildren` lists and `ParseFileName` the function of `db/filename.cc`
(not among the sources; `none` when it returns false). -/
def DBImpl.RemoveObsoleteFiles (ParseFileName : String → Option (Nat × FileType))
    (db : DBImpl.State) (filenames : List String) : List String × List Nat :=
  if !db.bg_error_.ok then
    ([], [])
  else
    let live := db.pending_outputs_ ++ db.versions_.live_files
    let files_to_delete := filenames.filter (fun filename =>
      match ParseFileName filename with
      | some (number, type) => !DBImpl.RemoveObsoleteFiles_keep db live number type
      | none => false)
    let evicted := files_to_delete.filterMap (fun filename =>
      match ParseFileName filename with
      | some (number, FileType.kTableFile) => some number
      | _ => none)
    (files_to_delete, evicted)

/-- Modelled from the spec: how a few names of a database directory read under
the naming of the on-disk layout (`CURRENT`, `LOCK`, `LOG`, `MANIFEST-<n>`,
`<n>.log`, `<n>.ldb`); every other name does not parse.  It stands in the
examples for `ParseFileName`. -/
def exampleParseFileName : String → Option (Nat × FileType)
  | "CURRENT" => some (0, FileType.kCurrentFile)
  | "LOCK" => some (0, FileType.kDBLockFile)
  | "LOG" => some (0, FileType.kInfoLogFile)
  | "MANIFEST-000002" => some (2, FileType.kDescriptorFile)
  | "000003.log" => some (3, FileType.kLogFile)
  | "000005.log" => some (5, FileType.kLogFile)
  | "000005.ldb" => some (5, FileType.kTableFile)
  | "000006.ldb" => some (6, FileType.kTableFile)
  | "000007.ldb" => some (7, FileType.kTableFile)
  | _ => none

/-- The state `exampleState` with table 5 in the live versions and table 6
among the pending outputs. -/
def exampleGcState : DBImpl.State :=
  { exampleState with
    versions_ := { exampleState.versions_ with live_files := [5] },
    pending_outputs_ := [6] }

/-- A directory listing with the tables 5, 6 and 7. -/
def exampleDirectory : List String :=
  ["CURRENT", "LOCK", "LOG", "MANIFEST-000002", "000003.log", "000005.ldb", "000006.ldb",
   "000007.ldb", "notes.txt"]

/-- Modelled from the spec: `WritableFile::Close()`. -/
def WritableFile.Close (f : WritableFile) : Status × WritableFile :=
  match f.outcomes with
  | false :: rest => (Status.IOError "Close", { f with outcomes := rest })
  | true :: rest => (Status.OK, { f with outcomes := rest })
  | [] => (Status.OK, f)

/-- The fields of `Options` that `Recover` reads. -/
structure RecoverOptions where
  create_if_missing : Bool
  error_if_exists : Bool
deriving DecidableEq, Repr

/-- A call of `Recover` or `NewDB` to the environment, to `versions_` or to
`RecoverLogFile`.  The list of these calls is a record of what a run of
`Recover` did and in which order; the code keeps no such list. -/
inductive RecoverCall where
  | CreateDir
  | LockFile
  | FileExists
  | NewWritableFile
  | SetCurrentFile
  | RemoveFile
  | VersionsRecover
  | GetChildren
  | RecoverLogFile (log_number : Nat)
deriving DecidableEq, Repr

/-- What the calls of `Recover` and `NewDB` answer: `env_->LockFile`,
`env_->FileExists(CurrentFileName(dbname_))`, `env_->NewWritableFile` for the
manifest (`none` for a failure), the bytes that `new_db.EncodeTo` writes,
`SetCurrentFile`, `versions_->Recover` with the version set it leaves,
`env_->GetChildren` with the names it lists, `ParseFileName` (`none` when it
returns false), `TableFileName`, and the status of `RecoverLogFile` by log
number and `last_log`.  `RecoverLogFile` reads its file through `log::Reader`
and fills a memtable; like the others, these are not among the sources. -/
structure RecoverEnv where
  dbname_ : String
  LockFile : Status
  FileExists : Bool
  NewWritableFile : Option WritableFile
  new_db : Bytes
  SetCurrentFile : Status
  versions_Recover : Status × VersionSet
  GetChildren : Status × List String
  ParseFileName : String → Option (Nat × FileType)
  TableFileName : String → Nat → String
  RecoverLogFile : Nat → Bool → Status

/-- `DBImpl::NewDB()`: the status it returns and the calls it makes. -/
def DBImpl.NewDB (env : RecoverEnv) : Status × List RecoverCall :=
  match env.NewWritableFile with
  | none => (Status.IOError "NewWritableFile", [RecoverCall.NewWritableFile])
  | some file =>
    let log := log.Writer.new file
    let r := log.AddRecord env.new_db
    let s := if r.1.ok then (WritableFile.Close r.2.1.dest_).1 else r.1
    if s.ok then
      (env.SetCurrentFile, [RecoverCall.NewWritableFile, RecoverCall.SetCurrentFile])
    else
      (s, [RecoverCall.NewWritableFile, RecoverCall.RemoveFile])

/-- The loop of `Recover` over the sorted log numbers (lines 370-382): the
first status of `RecoverLogFile` that is not OK, else OK, and the calls made.
What `MarkFileNumberUsed` and `SetLastSequence` do to `versions_` is not
represented. -/
def DBImpl.Recover_logs (RecoverLogFile : Nat → Bool → Status) :
    List Nat → Status × List RecoverCall
  | [] => (Status.OK, [])
  | log_number :: rest =>
    let s := RecoverLogFile log_number rest.isEmpty
    if !s.ok then (s, [RecoverCall.RecoverLogFile log_number])
    else
      let r := DBImpl.Recover_logs RecoverLogFile rest
      (r.1, RecoverCall.RecoverLogFile log_number :: r.2)

/-- The set `expected` of `Recover` after its loop over `filenames`: the live
files, less every number that a name of the directory parses to. -/
def DBImpl.Recover_expected (ParseFileName : String → Option (Nat × FileType))
    (live : List Nat) (filenames : List String) : List Nat :=
  filenames.foldl (fun expected filename =>
    match ParseFileName filename with
    | some (number, _) => expected.filter (fun x => x != number)
    | none => expected) live

/-- `DBImpl::Recover` from the call of `versions_->Recover` on (lines 330-388),
`calls` being the calls made before.  The two parts of a message are joined by
`: `, and `*(expected.begin())` is the least member of the set. -/
def DBImpl.Recover_versions (env : RecoverEnv) (calls : List RecoverCall) :
    Status × List RecoverCall :=
  let s := env.versions_Recover.1
  let calls := calls ++ [RecoverCall.VersionsRecover]
  if !s.ok then (s, calls)
  else
    let versions_ := env.versions_Recover.2
    let min_log := versions_.log_number
    let prev_log := versions_.prev_log_number
    let s := env.GetChildren.1
    let calls := calls ++ [RecoverCall.GetChildren]
    if !s.ok then (s, calls)
    else
      let filenames := env.GetChildren.2
      let expected := DBImpl.Recover_expected env.ParseFileName versions_.live_files filenames
      let logs := filenames.filterMap (fun filename =>
        match env.ParseFileName filename with
        | some (number, type) =>
          if type = FileType.kLogFile ∧ (number ≥ min_log ∨ number = prev_log) then some number
          else none
        | none => none)
      match expected with
      | e :: es =>
        let buf := toString (e :: es).dedup.length ++ " missing files; e.g."
        (Status.Corruption (buf ++ ": " ++ env.TableFileName env.dbname_ (es.foldl min e)), calls)
      | [] =>
        let r := DBImpl.Recover_logs env.RecoverLogFile (logs.insertionSort (fun a b => a ≤ b))
        (r.1, calls ++ r.2)

/-- `DBImpl::Recover(edit, save_manifest)`: the status it returns and the calls
it makes, in order. -/
def DBImpl.Recover (options : RecoverOptions) (env : RecoverEnv) : Status × List RecoverCall :=
  let calls := [RecoverCall.CreateDir, RecoverCall.LockFile]
  let s := env.LockFile
  if !s.ok then (s, calls)
  else
    let calls := calls ++ [RecoverCall.FileExists]
    if !env.FileExists then
      if options.create_if_missing then
        let r := DBImpl.NewDB env
        if !r.1.ok then (r.1, calls ++ r.2)
        else DBImpl.Recover_versions env (calls ++ r.2)
      else
        (Status.InvalidArgument
          (env.dbname_ ++ ": " ++ "does not exist (create_if_missing is false)"), calls)
    else
      if options.error_if_exists then
        (Status.InvalidArgument (env.dbname_ ++ ": " ++ "exists (error_if_exists is true)"), calls)
      else DBImpl.Recover_versions env calls

/-- An environment in which `CURRENT` exists, the recovered version refers to
table 5, and the directory holds no file with the number 5. -/
def exampleMissingTableEnv : RecoverEnv :=
  { dbname_ := "xxx",
    LockFile := Status.OK,
    FileExists := true,
    NewWritableFile := none,
    new_db := [],
    SetCurrentFile := Status.OK,
    versions_Recover := (Status.OK, { exampleState.versions_ with live_files := [5] }),
    GetChildren := (Status.OK, ["CURRENT", "LOCK", "MANIFEST-000002", "000003.log"]),
    ParseFileName := exampleParseFileName,
    TableFileName := fun dbname number => dbname ++ "/" ++ toString number ++ ".ldb",
    RecoverLogFile := fun _ _ => Status.OK }

/-- The environment `exampleMissingTableEnv` with a log file of number 5 in the
directory, and still no table file of that number. -/
def exampleLogForTableEnv : RecoverEnv :=
  { exampleMissingTableEnv with
    GetChildren := (Status.OK, ["CURRENT", "LOCK", "MANIFEST-000002", "000003.log", "000005.log"]) }

/-- An environment in which `CURRENT` does not exist. -/
def exampleNoCurrentEnv : RecoverEnv :=
  { exampleMissingTableEnv with FileExists := false }

/-- A builder as `exampleRep`, on a file whose first call fails, after one
`Add`. -/
def exampleFailingRep : TableBuilder.Rep Nat :=
  TableBuilder.Add exampleParts
    (TableBuilder.new exampleParts exampleRep.options { contents := [], outcomes := [false] })
    1 [10]

/-! ## db/db_impl.cc: `SanitizeOptions` -/

/-- `kNumNonTableCacheFiles`. -/
def kNumNonTableCacheFiles : Int := 10

/-- `ClipToRange(ptr, minvalue, maxvalue)` with `V = int`: the value of `*ptr`
afterwards.  The integers are the values of `*ptr`, and `static_cast` is
`static_cast<V>` on the values of the type `T` of `*ptr`; an `int` between
`minvalue` and `maxvalue` is stored into `*ptr` as it is. -/
def ClipToRange (static_cast : Int → Int) (ptr minvalue maxvalue : Int) : Int :=
  let ptr1 := if static_cast ptr > maxvalue then maxvalue else ptr
  if static_cast ptr1 < minvalue then minvalue else ptr1

/-- The fields of `Options` that `SanitizeOptions` clips, by their values.
`leveldb/options.h` is not among the sources. -/
structure ClippedOptions where
  max_open_files : Int
  write_buffer_size : Int
  max_file_size : Int
  block_size : Int
deriving DecidableEq, Repr

/-- `SanitizeOptions(dbname, icmp, ipolicy, src)` on the four fields it clips
(lines 103-106).  `max_open_files` is an `int`, the type in which
`TableCacheSize` computes with it; `size_cast` is `static_cast<int>` on the
type of the three sizes, a parameter: the identity if they are `int`s,
`size_to_int` if they are `size_t`s. -/
def SanitizeOptions (size_cast : Int → Int) (src : ClippedOptions) : ClippedOptions :=
  { max_open_files := ClipToRange id src.max_open_files (64 + kNumNonTableCacheFiles) 50000,
    write_buffer_size :=
      ClipToRange size_cast src.write_buffer_size ((64 <<< 10 : Nat) : Int) ((1 <<< 30 : Nat) : Int),
    max_file_size :=
      ClipToRange size_cast src.max_file_size ((1 <<< 20 : Nat) : Int) ((1 <<< 30 : Nat) : Int),
    block_size :=
      ClipToRange size_cast src.block_size ((1 <<< 10 : Nat) : Int) ((4 <<< 20 : Nat) : Int) }

/-- `TableCacheSize(sanitized_options)`. -/
def TableCacheSize (sanitized_options : ClippedOptions) : Int :=
  sanitized_options.max_open_files - kNumNonTableCacheFiles

/-- `static_cast<int>` of a `size_t` (a value that is not negative): its low
32 bits read as a two's complement number. -/
def size_to_int (x : Int) : Int :=
  toInt32 x.toNat

/-- The value `x` clamped to `[lo, hi]`. -/
def clamp (lo hi x : Int) : Int :=
  if x < lo then lo else if x > hi then hi else x

/-- The options that `db_op_test.cc` sets (lines 166-171). -/
def exampleTestOptions : ClippedOptions :=
  { max_open_files := 10, write_buffer_size := 100000, max_file_size := 3 <<< 20,
    block_size := 1024 }

/-! ## db/db_impl.cc: replaying the logs -/

/-- What `log::Reader::ReadRecord` meets in a log file, in order: a record that
it returns, or a corruption that it reports through `reporter.Corruption`
before it reads on.  `log::Reader` is not among the sources. -/
inductive LogEvent where
  | record (record : Bytes)
  | corruption (bytes : Nat) (s : Status)
deriving DecidableEq, Repr

/-- What `RecoverLogFile` reads of the options and asks of its environment:
`options_.paranoid_checks`, `options_.reuse_logs`, the write buffer size with
`MemTable::ApproximateMemoryUsage`, `env_->NewSequentialFile` for a log number
(the status and what the reader meets in the file), the status of
`WriteLevel0Table`, and whether `GetFileSize` and `NewAppendableFile` both
succeed for a log number. -/
structure RecoverLogEnv where
  paranoid_checks : Bool
  reuse_logs : Bool
  options : RoomOptions
  NewSequentialFile : Nat → Status × List LogEvent
  WriteLevel0Table : MemTable → Status
  NewAppendableFile : Nat → Bool

/-- `DBImpl::MaybeIgnoreError(s)`: the new value of `*s`. -/
def DBImpl.MaybeIgnoreError (paranoid_checks : Bool) (s : Status) : Status :=
  if s.ok || paranoid_checks then s else Status.OK

/-- `LogReporter::Corruption(bytes, s)` in `RecoverLogFile`: the new value of
the local `status`, to which `reporter.status` points when
`options_.paranoid_checks` is set and which is null otherwise. -/
def LogReporter.Corruption (paranoid_checks : Bool) (status s : Status) : Status :=
  if paranoid_checks && status.ok then s else status

/-- The locals of `RecoverLogFile` with `*max_sequence`, `*save_manifest` and
the member `mem_`.  The last field is not in the code: `filled` lists the
memtables that the function has let go of, those handed to `WriteLevel0Table`
and those released unwritten, in order. -/
structure RecoverLogState where
  status : Status
  mem : Option MemTable
  max_sequence : Nat
  compactions : Nat
  save_manifest : Bool
  mem_ : Option MemTable
  filled : List MemTable
deriving DecidableEq, Repr

/-- The body of the loop of `RecoverLogFile` for a record of at least 12 bytes
(lines 444-472): the locals afterwards, and whether the loop goes on (`false`
for a `break`). -/
def DBImpl.RecoverLogFile_record (env : RecoverLogEnv) (st : RecoverLogState)
    (record : Bytes) : RecoverLogState × Bool :=
  let batch := WriteBatchInternal.SetContents WriteBatch.new record
  let r := WriteBatchInternal.InsertInto batch (st.mem.getD [])
  let status := DBImpl.MaybeIgnoreError env.paranoid_checks r.1
  if !status.ok then ({ st with status := status, mem := some r.2 }, false)
  else
    let last_seq := toUInt64 ((WriteBatchInternal.Sequence batch : Int)
      + WriteBatchInternal.Count batch - 1)
    let max_sequence := if last_seq > st.max_sequence then last_seq else st.max_sequence
    if env.options.ApproximateMemoryUsage r.2 > env.options.write_buffer_size then
      let st1 : RecoverLogState :=
        { st with status := env.WriteLevel0Table r.2, mem := none,
                  max_sequence := max_sequence, compactions := st.compactions + 1,
                  save_manifest := true, filled := st.filled ++ [r.2] }
      (st1, st1.status.ok)
    else
      ({ st with status := status, mem := some r.2, max_sequence := max_sequence }, true)

/-- The `while (reader.ReadRecord(&record, &scratch) && status.ok())` loop of
`RecoverLogFile` (lines 438-473) over what the reader meets. -/
def DBImpl.RecoverLogFile_loop (env : RecoverLogEnv) :
    RecoverLogState → List LogEvent → RecoverLogState
  | st, [] => st
  | st, LogEvent.corruption _ s :: rest =>
    DBImpl.RecoverLogFile_loop env
      { st with status := LogReporter.Corruption env.paranoid_checks st.status s } rest
  | st, LogEvent.record record :: rest =>
    if !st.status.ok then st
    else if record.length < 12 then
      let status := LogReporter.Corruption env.paranoid_checks st.status
        (Status.Corruption "log record too small")
      DBImpl.RecoverLogFile_loop env { st with status := status } rest
    else
      let r := DBImpl.RecoverLogFile_record env st record
      if r.2 then DBImpl.RecoverLogFile_loop env r.1 rest else r.1

/-- `DBImpl::RecoverLogFile(log_number, last_log, save_manifest, edit,
max_sequence)`: the state when it returns, `status` being the status
returned.  The version edit that `WriteLevel0Table` fills is not
represented. -/
def DBImpl.RecoverLogFile (env : RecoverLogEnv) (log_number : Nat) (last_log : Bool)
    (save_manifest : Bool) (max_sequence : Nat) : RecoverLogState :=
  let f := env.NewSequentialFile log_number
  if !f.1.ok then
    { status := DBImpl.MaybeIgnoreError env.paranoid_checks f.1, mem := none,
      max_sequence := max_sequence, compactions := 0, save_manifest := save_manifest,
      mem_ := none, filled := [] }
  else
    let st := DBImpl.RecoverLogFile_loop env
      { status := f.1, mem := none, max_sequence := max_sequence, compactions := 0,
        save_manifest := save_manifest, mem_ := none, filled := [] } f.2
    let st1 : RecoverLogState :=
      if st.status.ok && env.reuse_logs && last_log && st.compactions == 0 then
        if env.NewAppendableFile log_number then
          { st with mem_ := some (st.mem.getD []), mem := none }
        else st
      else st
    match st1.mem with
    | some mem =>
      if st1.status.ok then
        { st1 with save_manifest := true, status := env.WriteLevel0Table mem, mem := none,
                   filled := st1.filled ++ [mem] }
      else
        { st1 with mem := none, filled := st1.filled ++ [mem] }
    | none => st1

/-- What the replay of the logs leaves: the status that `Recover` returns,
`versions_->LastSequence()`, `max_sequence`, and every memtable that the
replay has filled, in order (the last one may have become `mem_`). -/
structure ReplayOutcome where
  status : Status
  LastSequence : Nat
  max_sequence : Nat
  memtables : List MemTable
deriving DecidableEq, Repr

/-- The loop of `Recover` over the sorted log numbers (lines 371-382), with
`max_sequence` and the memtables filled so far; `MarkFileNumberUsed` is not
represented. -/
def DBImpl.Recover_replay_loop (env : RecoverLogEnv) :
    List Nat → Bool → Nat → List MemTable → Status × Nat × List MemTable
  | [], _, max_sequence, memtables => (Status.OK, max_sequence, memtables)
  | log_number :: rest, save_manifest, max_sequence, memtables =>
    let st := DBImpl.RecoverLogFile env log_number rest.isEmpty save_manifest max_sequence
    let memtables1 := memtables ++ st.filled ++ st.mem_.toList
    if !st.status.ok then (st.status, st.max_sequence, memtables1)
    else DBImpl.Recover_replay_loop env rest st.save_manifest st.max_sequence memtables1

/-- `DBImpl::Recover` from `SequenceNumber max_sequence(0)` on, once the log
numbers are collected (lines 334 and 370-388): `logs` is the vector before it
is sorted, `save_manifest` is `*save_manifest` and `LastSequence` is
`versions_->LastSequence()` as `versions_->Recover` left them. -/
def DBImpl.Recover_replay (env : RecoverLogEnv) (logs : List Nat) (save_manifest : Bool)
    (LastSequence : Nat) : ReplayOutcome :=
  let r := DBImpl.Recover_replay_loop env (logs.insertionSort (fun a b => a ≤ b))
    save_manifest 0 []
  if !r.1.ok then
    { status := r.1, LastSequence := LastSequence, max_sequence := r.2.1, memtables := r.2.2 }
  else
    { status := Status.OK,
      LastSequence := if LastSequence < r.2.1 then r.2.1 else LastSequence,
      max_sequence := r.2.1, memtables := r.2.2 }

/-- Every entry of the memtable has a sequence number of at most `M`. -/
def MemTable.below (M : Nat) (mem : MemTable) : Prop :=
  ∀ e ∈ mem, e.sequence ≤ M

/-- The memtables that `RecoverLogFile` has filled so far. -/
def RecoverLogState.memtables (st : RecoverLogState) : List MemTable :=
  st.filled ++ st.mem.toList ++ st.mem_.toList

/-- A log record of at least 12 bytes whose batch `InsertInto` accepts, or on
which it fails under `paranoid_checks`, and whose sequence numbers stay within
64 bits (as they do for every 56-bit sequence number and every record of less
than `2^63` bytes). -/
def LogEvent.replayable (paranoid_checks : Bool) : LogEvent → Prop
  | LogEvent.record contents =>
    12 ≤ contents.length →
      WriteBatchInternal.Sequence (WriteBatchInternal.SetContents WriteBatch.new contents)
        + contents.length ≤ 2 ^ 64 ∧
      (paranoid_checks = true ∨
        ∀ mem, (WriteBatchInternal.InsertInto
          (WriteBatchInternal.SetContents WriteBatch.new contents) mem).1.ok = true)
  | LogEvent.corruption _ _ => True

/-- An environment with one log, number 5, that holds one record: a batch with
sequence 10 and the two operations `Put("a", "b")` and `Put("c", "d")`, under
the header count `count`.  No memtable outgrows the write buffer and every
file operation succeeds. -/
def exampleReplayEnv (paranoid_checks : Bool) (count : Nat) : RecoverLogEnv :=
  { paranoid_checks := paranoid_checks,
    reuse_logs := false,
    options := exampleRoomOptions,
    NewSequentialFile := fun _ =>
      (Status.OK, [LogEvent.record
        [10, 0, 0, 0, 0, 0, 0, 0, count, 0, 0, 0, 1, 1, 97, 1, 98, 1, 1, 99, 1, 100]]),
    WriteLevel0Table := fun _ => Status.OK,
    NewAppendableFile := fun _ => true }

/-- A stand-in for `ParseInternalKey` (`db/dbformat.h`, not among the sources)
in examples whose entries carry the three fields of their key: the key parses
when its type tag is one of the two value types, and does not otherwise. -/
def exampleParseInternalKey (e : ParsedEntry Nat) : Option (ParsedInternalKey Nat) :=
  if e.1.type = kTypeValue ∨ e.1.type = kTypeDeletion then some e.1 else none

/-! # Theorems -/

/-! ### Facts about single bytes -/

set_option maxRecDepth 100000 in
theorem byte_or128 : ∀ b, b < 256 → (b ||| 128) = b % 128 + 128 := by decide

theorem or128_mod256 (v : Nat) : (v ||| 128) % 256 = v % 128 + 128 := by
  have h1 : (v ||| 128) % 256 = ((v % 256) ||| 128) := by
    apply Nat.eq_of_testBit_eq
    intro i
    have e256 : (256 : Nat) = 2 ^ 8 := by norm_num
    have e128 : (128 : Nat) = 2 ^ 7 := by norm_num
    rw [e256, e128]
    simp only [Nat.testBit_mod_two_pow, Nat.testBit_or, Nat.testBit_two_pow]
    by_cases h : i < 8
    · simp [h]
    · have h7 : ¬ (7 = i) := by omega
      simp [h, h7]
  rw [h1, byte_or128 _ (Nat.mod_lt _ (by norm_num))]
  omega

theorem cont_byte_flag : ∀ x, x < 128 → (x + 128) &&& 128 ≠ 0 := by decide

theorem cont_byte_payload : ∀ x, x < 128 → (x + 128) &&& 127 = x := by decide

theorem last_byte_flag : ∀ x, x < 128 → x &&& 128 = 0 := by decide

theorem or_mul_eq_add (result x shift : Nat) (h : result < 2 ^ shift) :
    result ||| (x * 2 ^ shift) = result + x * 2 ^ shift := by
  rw [Nat.or_comm, Nat.mul_comm x, ← Nat.mul_add_lt_is_or h]
  omega

theorem EncodeVarint64_small (v : Nat) (h : v < 128) : EncodeVarint64 v = [v] := by
  rw [EncodeVarint64]
  have h1 : ¬ 128 ≤ v := by omega
  have h2 : v % 256 = v := by omega
  simp [h1, h2]

theorem EncodeVarint64_big (v : Nat) (h : 128 ≤ v) :
    EncodeVarint64 v = (v % 128 + 128) :: EncodeVarint64 (v / 128) := by
  rw [EncodeVarint64]
  have e : v >>> 7 = v / 128 := by
    simp [Nat.shiftRight_eq_div_pow]
  simp [h, or128_mod256, e]


theorem varint_step_facts (w shift : Nat) :
    2 ^ (shift + 7) = 128 * 2 ^ shift ∧
    (w % 128) * 2 ^ shift + 2 ^ shift ≤ 128 * 2 ^ shift ∧
    w / 128 * 2 ^ (shift + 7) + (w % 128) * 2 ^ shift = w * 2 ^ shift := by
  have hp : 2 ^ (shift + 7) = 128 * 2 ^ shift := by rw [Nat.pow_add]; ring
  refine ⟨hp, ?_, ?_⟩
  · have : w % 128 + 1 ≤ 128 := Nat.mod_lt _ (by norm_num)
    calc (w % 128) * 2 ^ shift + 2 ^ shift = (w % 128 + 1) * 2 ^ shift := by ring
      _ ≤ 128 * 2 ^ shift := Nat.mul_le_mul_right _ this
  · have h : w = 128 * (w / 128) + w % 128 := (Nat.div_add_mod w 128).symm
    rw [hp]
    conv_rhs => rw [h]
    ring

theorem GetVarint32PtrFallback_loop_encode (w : Nat) :
    ∀ (shift result : Nat) (rest : Bytes), shift % 7 = 0 → shift ≤ 28 →
      w * 2 ^ shift < 2 ^ 32 → result < 2 ^ shift →
      GetVarint32PtrFallback_loop shift result (EncodeVarint64 w ++ rest)
        = some (result + w * 2 ^ shift, rest) := by
  induction w using Nat.strong_induction_on with
  | _ w ih =>
    intro shift result rest h7 hs hw hr
    by_cases hb : 128 ≤ w
    · obtain ⟨hp, hpay, hdiv⟩ := varint_step_facts w shift
      have hge : 128 * 2 ^ shift ≤ w * 2 ^ shift := Nat.mul_le_mul_right _ hb
      have hlt : 2 ^ (shift + 7) < 2 ^ 32 := by omega
      have hs7 : shift + 7 < 32 := (Nat.pow_lt_pow_iff_right (by norm_num)).mp hlt
      rw [EncodeVarint64_big w hb, List.cons_append, GetVarint32PtrFallback_loop]
      rw [if_pos hs, if_pos (cont_byte_flag _ (Nat.mod_lt _ (by norm_num))),
        cont_byte_payload _ (Nat.mod_lt _ (by norm_num)), Nat.shiftLeft_eq,
        Nat.mod_eq_of_lt (by omega), or_mul_eq_add _ _ _ hr]
      rw [ih (w / 128) (by omega) (shift + 7) _ rest (by omega) (by omega) (by omega)
        (by omega)]
      congr 2
      omega
    · have hb2 : w < 128 := by omega
      rw [EncodeVarint64_small w hb2, List.singleton_append, GetVarint32PtrFallback_loop]
      rw [if_pos hs, if_neg (by simp [last_byte_flag w hb2]), Nat.shiftLeft_eq,
        Nat.mod_eq_of_lt hw, or_mul_eq_add _ _ _ hr]

theorem GetVarint64Ptr_loop_encode (w : Nat) :
    ∀ (shift result : Nat) (rest : Bytes), shift ≤ 63 →
      w * 2 ^ shift < 2 ^ 64 → result < 2 ^ shift →
      GetVarint64Ptr_loop shift result (EncodeVarint64 w ++ rest)
        = some (result + w * 2 ^ shift, rest) := by
  induction w using Nat.strong_induction_on with
  | _ w ih =>
    intro shift result rest hs hw hr
    by_cases hb : 128 ≤ w
    · obtain ⟨hp, hpay, hdiv⟩ := varint_step_facts w shift
      have hge : 128 * 2 ^ shift ≤ w * 2 ^ shift := Nat.mul_le_mul_right _ hb
      have hlt : 2 ^ (shift + 7) < 2 ^ 64 := by omega
      have hs7 : shift + 7 < 64 := (Nat.pow_lt_pow_iff_right (by norm_num)).mp hlt
      rw [EncodeVarint64_big w hb, List.cons_append, GetVarint64Ptr_loop]
      rw [if_pos hs, if_pos (cont_byte_flag _ (Nat.mod_lt _ (by norm_num))),
        cont_byte_payload _ (Nat.mod_lt _ (by norm_num)), Nat.shiftLeft_eq,
        Nat.mod_eq_of_lt (by omega), or_mul_eq_add _ _ _ hr]
      rw [ih (w / 128) (by omega) (shift + 7) _ rest (by omega) (by omega)
        (by omega)]
      congr 2
      omega
    · have hb2 : w < 128 := by omega
      rw [EncodeVarint64_small w hb2, List.singleton_append, GetVarint64Ptr_loop]
      rw [if_pos hs, if_neg (by simp [last_byte_flag w hb2]), Nat.shiftLeft_eq,
        Nat.mod_eq_of_lt hw, or_mul_eq_add _ _ _ hr]

theorem EncodeVarint32_eq_EncodeVarint64 (v : Nat) (hv : v < 2 ^ 32) :
    EncodeVarint32 v = EncodeVarint64 v := by
  have e7 : ∀ x : Nat, x >>> 7 = x / 128 := fun x => by simp [Nat.shiftRight_eq_div_pow]
  have e14 : ∀ x : Nat, x >>> 14 = x / 128 / 128 := fun x => by
    simp [Nat.shiftRight_eq_div_pow, Nat.div_div_eq_div_mul]
  have e21 : ∀ x : Nat, x >>> 21 = x / 128 / 128 / 128 := fun x => by
    simp [Nat.shiftRight_eq_div_pow, Nat.div_div_eq_div_mul]
  have e28 : ∀ x : Nat, x >>> 28 = x / 128 / 128 / 128 / 128 := fun x => by
    simp [Nat.shiftRight_eq_div_pow, Nat.div_div_eq_div_mul]
  unfold EncodeVarint32
  simp only [Nat.shiftLeft_eq, Nat.one_mul, e7, e14, e21, e28, or128_mod256]
  norm_num at hv ⊢
  split_ifs with h1 h2 h3 h4
  · rw [EncodeVarint64_small v h1, Nat.mod_eq_of_lt (by omega)]
  · rw [EncodeVarint64_big v (by omega), EncodeVarint64_small _ (by omega),
      Nat.mod_eq_of_lt (by omega : v / 128 < 256)]
  · rw [EncodeVarint64_big v (by omega), EncodeVarint64_big _ (by omega),
      EncodeVarint64_small _ (by omega), Nat.mod_eq_of_lt (by omega : v / 128 / 128 < 256)]
  · rw [EncodeVarint64_big v (by omega), EncodeVarint64_big _ (by omega),
      EncodeVarint64_big _ (by omega), EncodeVarint64_small _ (by omega),
      Nat.mod_eq_of_lt (by omega : v / 128 / 128 / 128 < 256)]
  · rw [EncodeVarint64_big v (by omega), EncodeVarint64_big _ (by omega),
      EncodeVarint64_big _ (by omega), EncodeVarint64_big _ (by omega),
      EncodeVarint64_small _ (by omega),
      Nat.mod_eq_of_lt (by omega : v / 128 / 128 / 128 / 128 < 256)]

theorem GetVarint32_encode (v : Nat) (rest : Bytes) (hv : v < 2 ^ 32) :
    GetVarint32 (EncodeVarint32 v ++ rest) = some (v, rest) := by
  have h := GetVarint32PtrFallback_loop_encode v 0 0 rest (by norm_num) (by norm_num)
    (by simpa using hv) (by norm_num)
  rw [EncodeVarint32_eq_EncodeVarint64 v hv]
  by_cases hb : 128 ≤ v
  · rw [EncodeVarint64_big v hb, List.cons_append] at h ⊢
    simp only [GetVarint32, GetVarint32Ptr,
      if_neg (cont_byte_flag _ (Nat.mod_lt v (by norm_num : 0 < 128))),
      GetVarint32PtrFallback, h]
    simp
  · have hb2 : v < 128 := by omega
    rw [EncodeVarint64_small v hb2]
    simp [GetVarint32, GetVarint32Ptr, last_byte_flag v hb2]

theorem GetVarint64_encode (v : Nat) (rest : Bytes) (hv : v < 2 ^ 64) :
    GetVarint64 (EncodeVarint64 v ++ rest) = some (v, rest) := by
  have h := GetVarint64Ptr_loop_encode v 0 0 rest (by norm_num)
    (by simpa using hv) (by norm_num)
  simp only [GetVarint64, GetVarint64Ptr, h]
  simp

theorem GetLengthPrefixedSlice_encode (s rest result : Bytes) (hs : s.length < 2 ^ 32) :
    GetLengthPrefixedSlice (PutLengthPrefixedSlice [] s ++ rest) result = (true, rest, s) := by
  unfold GetLengthPrefixedSlice PutLengthPrefixedSlice PutVarint32
  rw [Nat.mod_eq_of_lt hs, List.nil_append, List.append_assoc,
    GetVarint32_encode _ _ hs]
  simp

theorem Iterate_loop_records {σ : Type} (handler : Handler σ) (count : Int) (ops : List Op) :
    (∀ op ∈ ops, op.fits) → ∀ (tail key value : Bytes) (found : Int) (st : σ),
    ∃ key2 value2, Iterate_loop handler count (ops.flatMap Op.record ++ tail) key value found st
      = Iterate_loop handler count tail key2 value2 (found + ops.length)
          (ops.foldl (Op.call handler) st) := by
  induction ops with
  | nil => intro _ tail key value found st; exact ⟨key, value, by simp⟩
  | cons op ops ih =>
    intro hfit tail key value found st
    have hfit2 : ∀ op ∈ ops, op.fits := fun o ho => hfit o (List.mem_cons_of_mem _ ho)
    have hop : op.fits := hfit op (List.mem_cons_self _ _)
    cases op with
    | Put k v =>
      obtain ⟨hk, hv⟩ := hop
      obtain ⟨key2, value2, h⟩ := ih hfit2 tail k v (found + 1) (handler.Put st k v)
      refine ⟨key2, value2, ?_⟩
      simp only [List.flatMap_cons, Op.record, List.cons_append, List.append_assoc,
        List.foldl_cons, Op.call, List.length_cons]
      rw [Iterate_loop]
      simp only [if_pos]
      split
      · rename_i input2 k2 heq
        rw [GetLengthPrefixedSlice_encode k _ key hk] at heq
        simp only [Prod.mk.injEq, true_and] at heq
        obtain ⟨rfl, rfl⟩ := heq
        split
        · rename_i input3 v2 heq2
          rw [GetLengthPrefixedSlice_encode v _ value hv] at heq2
          simp only [Prod.mk.injEq, true_and] at heq2
          obtain ⟨rfl, rfl⟩ := heq2
          rw [h]
          congr 1
          push_cast
          ring
        · rename_i heq2
          rw [GetLengthPrefixedSlice_encode v _ value hv] at heq2
          simp at heq2
      · rename_i heq
        rw [GetLengthPrefixedSlice_encode k _ key hk] at heq
        simp at heq
    | Delete k =>
      have hk : k.length < 2 ^ 32 := hop
      obtain ⟨key2, value2, h⟩ := ih hfit2 tail k value (found + 1) (handler.Delete st k)
      refine ⟨key2, value2, ?_⟩
      simp only [List.flatMap_cons, Op.record, List.cons_append, List.append_assoc,
        List.foldl_cons, Op.call, List.length_cons]
      rw [Iterate_loop]
      have hne : ¬ (kTypeDeletion = kTypeValue) := by decide
      simp only [if_neg hne, if_pos]
      split
      · rename_i input2 k2 heq
        rw [GetLengthPrefixedSlice_encode k _ key hk] at heq
        simp only [Prod.mk.injEq, true_and] at heq
        obtain ⟨rfl, rfl⟩ := heq
        rw [h]
        congr 1
        push_cast
        ring
      · rename_i heq
        rw [GetLengthPrefixedSlice_encode k _ key hk] at heq
        simp at heq

theorem or_shl_eq_add (a b k : Nat) (h : a < 2 ^ k) : a ||| (b <<< k) = a + b * 2 ^ k := by
  rw [Nat.shiftLeft_eq]
  exact or_mul_eq_add a b k h

theorem DecodeFixed32_EncodeFixed32 (n : Nat) (body : Bytes) :
    DecodeFixed32 (EncodeFixed32 n ++ body) = n % 2 ^ 32 := by
  simp only [DecodeFixed32, EncodeFixed32, List.cons_append, List.getD_cons_zero,
    List.getD_cons_succ, Nat.shiftRight_eq_div_pow]
  rw [or_shl_eq_add _ _ 8 (by omega), or_shl_eq_add _ _ 16 (by omega),
    or_shl_eq_add _ _ 24 (by omega)]
  omega

theorem DecodeFixed64_EncodeFixed64 (n : Nat) (body : Bytes) :
    DecodeFixed64 (EncodeFixed64 n ++ body) = n % 2 ^ 64 := by
  simp only [DecodeFixed64, EncodeFixed64, List.cons_append, List.getD_cons_zero,
    List.getD_cons_succ, Nat.shiftRight_eq_div_pow]
  rw [or_shl_eq_add _ _ 8 (by omega), or_shl_eq_add _ _ 16 (by omega),
    or_shl_eq_add _ _ 24 (by omega), or_shl_eq_add _ _ 32 (by omega),
    or_shl_eq_add _ _ 40 (by omega), or_shl_eq_add _ _ 48 (by omega),
    or_shl_eq_add _ _ 56 (by omega)]
  omega

theorem toInt32_small (n : Nat) (h : n < 2 ^ 31) : toInt32 n = (n : Int) := by
  unfold toInt32
  have : n % 2 ^ 32 = n := Nat.mod_eq_of_lt (by omega)
  rw [this, if_pos h]

theorem toUInt32_small (n : Nat) (h : n < 2 ^ 32) : toUInt32 (n : Int) = n := by
  unfold toUInt32
  have : ((n : Int) % 2 ^ 32) = ((n % 2 ^ 32 : Nat) : Int) := by norm_cast
  rw [this, Int.toNat_ofNat, Nat.mod_eq_of_lt h]

theorem Count_batchRep (seq n : Nat) (body : Bytes) (h : n < 2 ^ 31) :
    WriteBatchInternal.Count ⟨batchRep seq n body⟩ = (n : Int) := by
  simp only [WriteBatchInternal.Count, batchRep, EncodeFixed64, List.cons_append,
    List.drop_succ_cons, List.drop_zero, List.nil_append]
  rw [DecodeFixed32_EncodeFixed32, Nat.mod_eq_of_lt (by omega), toInt32_small n h]

theorem SetCount_batchRep (seq n m : Nat) (body : Bytes) (h : m < 2 ^ 32) :
    WriteBatchInternal.SetCount ⟨batchRep seq n body⟩ (m : Int) = ⟨batchRep seq m body⟩ := by
  simp only [WriteBatchInternal.SetCount, batchRep, EncodeFixed64, EncodeFixed32,
    List.cons_append, List.take_succ_cons, List.take_zero, List.drop_succ_cons, List.drop_zero,
    List.nil_append, toUInt32_small m h]

theorem Clear_eq_batchRep (b : WriteBatch) : b.Clear = ⟨batchRep 0 0 []⟩ := by
  simp [WriteBatch.Clear, batchRep, EncodeFixed64, EncodeFixed32, kHeader, List.replicate]

theorem applyTo_batchRep (seq n : Nat) (body : Bytes) (op : Op) (h : n + 1 < 2 ^ 31) :
    op.applyTo ⟨batchRep seq n body⟩ = ⟨batchRep seq (n + 1) (body ++ op.record)⟩ := by
  have hc := Count_batchRep seq n body (by omega)
  have hs := SetCount_batchRep seq n (n + 1) body (by omega)
  cases op with
  | Put k v =>
    simp only [Op.applyTo, WriteBatch.Put, hc]
    have : ((n : Int) + 1) = ((n + 1 : Nat) : Int) := by push_cast; ring
    rw [this, hs]
    simp [batchRep, Op.record, PutLengthPrefixedSlice, PutVarint32, kTypeValue]
  | Delete k =>
    simp only [Op.applyTo, WriteBatch.Delete, hc]
    have : ((n : Int) + 1) = ((n + 1 : Nat) : Int) := by push_cast; ring
    rw [this, hs]
    simp [batchRep, Op.record, PutLengthPrefixedSlice, PutVarint32, kTypeDeletion]

theorem foldl_applyTo_batchRep (ops : List Op) :
    ∀ (seq n : Nat) (body : Bytes), n + ops.length < 2 ^ 31 →
      ops.foldl Op.applyTo ⟨batchRep seq n body⟩
        = ⟨batchRep seq (n + ops.length) (body ++ ops.flatMap Op.record)⟩ := by
  induction ops with
  | nil => intro seq n body _; simp
  | cons op ops ih =>
    intro seq n body h
    simp only [List.length_cons] at h
    rw [List.foldl_cons, applyTo_batchRep seq n body op (by omega), ih _ _ _ (by omega)]
    simp only [List.length_cons, List.flatMap_cons, List.append_assoc]
    congr 2
    omega

theorem Iterate_batchRep {σ : Type} (handler : Handler σ) (seq : Nat) (ops : List Op)
    (st : σ) (hlen : ops.length < 2 ^ 31) (hfit : ∀ op ∈ ops, op.fits) :
    WriteBatch.Iterate ⟨batchRep seq ops.length (ops.flatMap Op.record)⟩ handler st
      = (Status.OK, ops.foldl (Op.call handler) st) := by
  have hc := Count_batchRep seq ops.length (ops.flatMap Op.record) hlen
  unfold WriteBatch.Iterate
  rw [hc]
  have hl : ¬ (batchRep seq ops.length (ops.flatMap Op.record)).length < kHeader := by
    simp [batchRep, EncodeFixed64, EncodeFixed32, kHeader]
  have hd : (batchRep seq ops.length (ops.flatMap Op.record)).drop kHeader
      = ops.flatMap Op.record ++ [] := by
    simp [batchRep, EncodeFixed64, EncodeFixed32, kHeader]
  simp only [hl, if_false, hd]
  obtain ⟨k2, v2, h⟩ := Iterate_loop_records handler (ops.length : Int) ops hfit [] [] [] 0 st
  rw [h, Iterate_loop]
  simp

theorem foldl_Recorder (ops : List Op) : ∀ calls : List Op,
    ops.foldl (Op.call Recorder) calls = calls ++ ops := by
  induction ops with
  | nil => intro calls; simp
  | cons op ops ih =>
    intro calls
    rw [List.foldl_cons, ih]
    cases op <;> simp [Op.call, Recorder]

theorem foldl_inserter (ops : List Op) : ∀ (ins : MemTableInserter),
    ins.sequence_ + ops.length ≤ 2 ^ 64 →
    (ops.foldl (Op.call MemTableInserter.handler) ins).mem_
      = ins.mem_ ++ (ops.enumFrom ins.sequence_).map (fun p => p.2.entry p.1) := by
  induction ops with
  | nil => intro ins _; simp
  | cons op ops ih =>
    intro ins h
    simp only [List.length_cons] at h
    rw [List.foldl_cons]
    cases ops with
    | nil => cases op <;> simp [Op.call, MemTableInserter.handler, MemTable.Add, Op.entry]
    | cons op2 ops2 =>
      simp only [List.length_cons] at h
      have hs : (ins.sequence_ + 1) % 2 ^ 64 = ins.sequence_ + 1 :=
        Nat.mod_eq_of_lt (by omega)
      have hseq : (Op.call MemTableInserter.handler ins op).sequence_ = ins.sequence_ + 1 := by
        cases op <;> simp only [Op.call, MemTableInserter.handler, hs]
      have hmem : (Op.call MemTableInserter.handler ins op).mem_
          = ins.mem_ ++ [op.entry ins.sequence_] := by
        cases op <;> simp [Op.call, MemTableInserter.handler, MemTable.Add, Op.entry]
      rw [ih _ (by rw [hseq]; simp only [List.length_cons]; omega), hseq, hmem]
      simp [List.enumFrom_cons]

theorem Sequence_batchRep (seq n : Nat) (body : Bytes) :
    WriteBatchInternal.Sequence ⟨batchRep seq n body⟩ = seq % 2 ^ 64 := by
  simp only [WriteBatchInternal.Sequence, batchRep]
  rw [DecodeFixed64_EncodeFixed64]

theorem GetLengthPrefixedSlice_eq (input result : Bytes) :
    GetLengthPrefixedSlice input result =
      match getVarstring input with
      | some (data, rest) => (true, rest, data)
      | none => (false, (GetLengthPrefixedSlice input result).2.1, result) := by
  unfold GetLengthPrefixedSlice getVarstring
  split
  · split_ifs <;> simp
  · simp

theorem parseRecords_none (input : Bytes) (h : parseRecord input = none) :
    parseRecords input = ([], input) := by
  rw [parseRecords]
  split
  · rfl
  · rename_i heq
    rw [h] at heq
    simp at heq

theorem parseRecords_some (input : Bytes) (op : Op) (rest : Bytes)
    (h : parseRecord input = some (op, rest)) :
    parseRecords input = (op :: (parseRecords rest).1, (parseRecords rest).2) := by
  rw [parseRecords]
  split
  · rename_i heq
    rw [h] at heq
    simp at heq
  · rename_i op2 rest2 heq
    rw [h] at heq
    simp only [Option.some.injEq, Prod.mk.injEq] at heq
    obtain ⟨rfl, rfl⟩ := heq
    rfl

theorem Iterate_loop_parse {σ : Type} (handler : Handler σ) (count : Int) :
    ∀ (n : Nat) (input key value : Bytes) (found : Int) (st : σ), input.length ≤ n →
      (Iterate_loop handler count input key value found st).2
          = (parseRecords input).1.foldl (Op.call handler) st ∧
      ((Iterate_loop handler count input key value found st).1 = Status.OK ↔
        (parseRecords input).2 = [] ∧ found + ((parseRecords input).1.length : Int) = count) := by
  intro n
  induction n with
  | zero =>
    intro input key value found st hn
    have : input = [] := List.length_eq_zero.mp (by omega)
    subst this
    rw [Iterate_loop, parseRecords_none [] rfl]
    by_cases hc : found = count
    · simp [hc]
    · simp [hc]
  | succ n ih =>
    intro input key value found st hn
    cases input with
    | nil =>
      rw [Iterate_loop, parseRecords_none [] rfl]
      by_cases hc : found = count
      · simp [hc]
      · simp [hc]
    | cons tag input1 =>
      simp only [List.length_cons] at hn
      rw [Iterate_loop]
      by_cases hv : tag = kTypeValue
      · simp only [hv, if_true]
        split
        · rename_i input2 key2 hk
          rw [GetLengthPrefixedSlice_eq] at hk
          split at hk
          · rename_i data rest h1
            simp only [Prod.mk.injEq, true_and] at hk
            obtain ⟨rfl, rfl⟩ := hk
            have l1 := getVarstring_length _ _ _ h1
            split
            · rename_i input3 value2 hv2
              rw [GetLengthPrefixedSlice_eq] at hv2
              split at hv2
              · rename_i data2 rest2 h2
                simp only [Prod.mk.injEq, true_and] at hv2
                obtain ⟨rfl, rfl⟩ := hv2
                have l2 := getVarstring_length _ _ _ h2
                have hp : parseRecord (kTypeValue :: input1)
                    = some (Op.Put data data2, rest2) := by
                  simp [parseRecord, h1, h2]
                rw [parseRecords_some _ _ _ hp]
                obtain ⟨e1, e2⟩ := ih rest2 data data2 (found + 1)
                  (handler.Put st data data2) (by omega)
                refine ⟨by rw [e1]; rfl, ?_⟩
                rw [e2]
                simp only [List.length_cons]
                push_cast
                constructor <;> rintro ⟨a, b⟩ <;> exact ⟨a, by omega⟩
              · simp at hv2
            · rename_i hv2
              rw [GetLengthPrefixedSlice_eq] at hv2
              split at hv2
              · simp at hv2
              · rename_i h2
                have hp : parseRecord (kTypeValue :: input1) = none := by
                  simp [parseRecord, h1, h2]
                rw [parseRecords_none _ hp]
                simp
          · simp at hk
        · rename_i hk
          rw [GetLengthPrefixedSlice_eq] at hk
          split at hk
          · simp at hk
          · rename_i h1
            have hp : parseRecord (kTypeValue :: input1) = none := by
              simp [parseRecord, h1]
            rw [parseRecords_none _ hp]
            simp
      · simp only [hv, if_false]
        by_cases hd : tag = kTypeDeletion
        · have hne : ¬ (kTypeDeletion = kTypeValue) := by decide
          simp only [hd, if_true]
          split
          · rename_i input2 key2 hk
            rw [GetLengthPrefixedSlice_eq] at hk
            split at hk
            · rename_i data rest h1
              simp only [Prod.mk.injEq, true_and] at hk
              obtain ⟨rfl, rfl⟩ := hk
              have l1 := getVarstring_length _ _ _ h1
              have hp : parseRecord (kTypeDeletion :: input1)
                  = some (Op.Delete data, rest) := by
                simp [parseRecord, h1, hne]
              rw [parseRecords_some _ _ _ hp]
              obtain ⟨e1, e2⟩ := ih rest data value (found + 1)
                (handler.Delete st data) (by omega)
              refine ⟨by rw [e1]; rfl, ?_⟩
              rw [e2]
              simp only [List.length_cons]
              push_cast
              constructor <;> rintro ⟨a, b⟩ <;> exact ⟨a, by omega⟩
            · simp at hk
          · rename_i hk
            rw [GetLengthPrefixedSlice_eq] at hk
            split at hk
            · simp at hk
            · rename_i h1
              have hp : parseRecord (kTypeDeletion :: input1) = none := by
                simp [parseRecord, h1, hne]
              rw [parseRecords_none _ hp]
              simp
        · simp only [hd, if_false]
          have hp : parseRecord (tag :: input1) = none := by
            simp [parseRecord, hv, hd]
          rw [parseRecords_none _ hp]
          simp

theorem Iterate_parse {σ : Type} (b : WriteBatch) (handler : Handler σ) (st : σ) :
    (b.Iterate handler st).2 = b.parsedPrefix.foldl (Op.call handler) st ∧
    ((b.Iterate handler st).1 = Status.OK →
      kHeader ≤ b.rep_.length ∧ (parseRecords (b.rep_.drop kHeader)).2 = []) := by
  unfold WriteBatch.Iterate WriteBatch.parsedPrefix
  by_cases h : b.rep_.length < kHeader
  · simp [h]
  · simp only [h, if_false]
    obtain ⟨e1, e2⟩ := Iterate_loop_parse handler (WriteBatchInternal.Count b)
      (b.rep_.drop kHeader).length (b.rep_.drop kHeader) [] [] 0 st (le_refl _)
    exact ⟨e1, fun hok => ⟨by omega, (e2.mp hok).1⟩⟩

/-! ## The claims -/

/-- C5: Varint32 round trip.  For every 32-bit `v` and every byte string `rest`,
`GetVarint32` applied to the bytes that `PutVarint32(dst, v)` appended to `dst`,
followed by `rest`, returns true, yields `v` and leaves exactly `rest` as the
remaining input. -/
theorem varint32_round_trip (dst : Bytes) (v : Nat) (rest : Bytes) (hv : v < 2 ^ 32) :
    GetVarint32 ((PutVarint32 dst v).drop dst.length ++ rest) = some (v, rest) := by
  simp only [PutVarint32, List.drop_left]
  exact GetVarint32_encode v rest hv

theorem varint32_round_trip_witness :
    300 < 2 ^ 32 ∧
    GetVarint32 ((PutVarint32 [7] 300).drop [7].length ++ [1, 2]) = some (300, [1, 2]) :=
  ⟨by norm_num, varint32_round_trip [7] 300 [1, 2] (by norm_num)⟩

/-- C6: Varint64 round trip.  For every 64-bit `v` and every byte string `rest`,
`GetVarint64` applied to the bytes that `PutVarint64(dst, v)` appended to `dst`,
followed by `rest`, returns true, yields `v` and leaves exactly `rest` as the
remaining input. -/
theorem varint64_round_trip (dst : Bytes) (v : Nat) (rest : Bytes) (hv : v < 2 ^ 64) :
    GetVarint64 ((PutVarint64 dst v).drop dst.length ++ rest) = some (v, rest) := by
  simp only [PutVarint64, List.drop_left]
  exact GetVarint64_encode v rest hv

theorem varint64_round_trip_witness :
    2 ^ 63 + 5 < 2 ^ 64 ∧
    GetVarint64 ((PutVarint64 [7] (2 ^ 63 + 5)).drop [7].length ++ [1, 2])
      = some (2 ^ 63 + 5, [1, 2]) :=
  ⟨by norm_num, varint64_round_trip [7] (2 ^ 63 + 5) [1, 2] (by norm_num)⟩

/-- C7: length-prefixed slice round trip.  For every byte string `s` shorter
than `2 ^ 32` bytes and every byte string `rest`, `GetLengthPrefixedSlice`
applied to the bytes that `PutLengthPrefixedSlice(dst, s)` appended to `dst`,
followed by `rest`, returns true with result `s` and leaves exactly `rest` as
the remaining input (whatever `*result` held before). -/
theorem length_prefixed_slice_round_trip (dst s rest result : Bytes)
    (hs : s.length < 2 ^ 32) :
    GetLengthPrefixedSlice ((PutLengthPrefixedSlice dst s).drop dst.length ++ rest) result
      = (true, rest, s) := by
  have h : (PutLengthPrefixedSlice dst s).drop dst.length = PutLengthPrefixedSlice [] s := by
    simp [PutLengthPrefixedSlice, PutVarint32]
  rw [h]
  exact GetLengthPrefixedSlice_encode s rest result hs

theorem length_prefixed_slice_round_trip_witness :
    [98, 97, 114].length < 2 ^ 32 ∧
    GetLengthPrefixedSlice
      ((PutLengthPrefixedSlice [9] [98, 97, 114]).drop [9].length ++ [1, 2]) [5]
      = (true, [1, 2], [98, 97, 114]) :=
  ⟨by decide, length_prefixed_slice_round_trip [9] [98, 97, 114] [1, 2] [5] (by decide)⟩

/-- C4: WriteBatch round trip.  For every sequence `ops` of fewer than `2 ^ 31`
`Put(key, value)` and `Delete(key)` calls (keys and values shorter than `2 ^ 32`
bytes) applied to a cleared batch, `Iterate` returns OK and calls the handler
with exactly those operations, in the same order and with the same keys and
values, and `Count` of the batch equals the number of calls. -/
theorem write_batch_round_trip (b0 : WriteBatch) (ops : List Op)
    (hlen : ops.length < 2 ^ 31) (hfit : ∀ op ∈ ops, op.fits) :
    (ops.foldl Op.applyTo b0.Clear).Iterate Recorder [] = (Status.OK, ops) ∧
    WriteBatchInternal.Count (ops.foldl Op.applyTo b0.Clear) = (ops.length : Int) := by
  rw [Clear_eq_batchRep, foldl_applyTo_batchRep ops 0 0 [] (by omega)]
  simp only [Nat.zero_add, List.nil_append]
  refine ⟨?_, Count_batchRep _ _ _ hlen⟩
  rw [Iterate_batchRep Recorder 0 ops [] hlen hfit, foldl_Recorder]
  simp

theorem write_batch_round_trip_witness :
    ([Op.Put [98, 97, 114] [98], Op.Put [98, 111, 120] [99], Op.Delete [98, 97, 114]].foldl
        Op.applyTo WriteBatch.new.Clear).Iterate Recorder []
      = (Status.OK,
          [Op.Put [98, 97, 114] [98], Op.Put [98, 111, 120] [99], Op.Delete [98, 97, 114]]) ∧
    WriteBatchInternal.Count
      ([Op.Put [98, 97, 114] [98], Op.Put [98, 111, 120] [99], Op.Delete [98, 97, 114]].foldl
        Op.applyTo WriteBatch.new.Clear) = 3 :=
  write_batch_round_trip WriteBatch.new
    [Op.Put [98, 97, 114] [98], Op.Put [98, 111, 120] [99], Op.Delete [98, 97, 114]]
    (by decide) (by decide)

/-- C8: replay numbering.  For every well-formed batch (header sequence `s`,
header count equal to the number of records, records as `Put` and `Delete`
write them), `WriteBatchInternal::InsertInto` returns OK and adds to the
memtable, after what it already held, one entry per record in order: record `i`
(counting from 0) gets sequence number `s + i`, as a VALUE entry with the
record's key and value for a Put and as a DELETION entry with the record's key
and an empty value for a Delete.  `s + i` is exact as long as it stays within
the 64 bits of `SequenceNumber`, which `hseq` says (every 56-bit sequence
number qualifies). -/
theorem insert_into_numbering (s : Nat) (ops : List Op) (mem : MemTable)
    (hlen : ops.length < 2 ^ 31) (hfit : ∀ op ∈ ops, op.fits)
    (hseq : s + ops.length ≤ 2 ^ 64) :
    WriteBatchInternal.InsertInto ⟨batchRep s ops.length (ops.flatMap Op.record)⟩ mem
      = (Status.OK, mem ++ (ops.enumFrom s).map (fun p => p.2.entry p.1)) := by
  unfold WriteBatchInternal.InsertInto
  simp only [Iterate_batchRep MemTableInserter.handler s ops _ hlen hfit,
    Sequence_batchRep s]
  cases ops with
  | nil => simp
  | cons op ops =>
    simp only [List.length_cons] at hseq
    rw [Nat.mod_eq_of_lt (by omega)]
    rw [foldl_inserter (op :: ops) ⟨s, mem⟩ (by simp only [List.length_cons]; omega)]

theorem insert_into_numbering_witness :
    WriteBatchInternal.InsertInto
        ⟨batchRep 100 [Op.Put [97] [120], Op.Delete [98], Op.Put [97] [121]].length
          ([Op.Put [97] [120], Op.Delete [98], Op.Put [97] [121]].flatMap Op.record)⟩
        [⟨7, 1, [99], [122]⟩]
      = (Status.OK,
          [⟨7, 1, [99], [122]⟩] ++
            ([Op.Put [97] [120], Op.Delete [98], Op.Put [97] [121]].enumFrom 100).map
              (fun p => p.2.entry p.1)) :=
  insert_into_numbering 100 [Op.Put [97] [120], Op.Delete [98], Op.Put [97] [121]]
    [⟨7, 1, [99], [122]⟩] (by decide) (by decide) (by norm_num)

/-- C10, the claim as stated fails: the log record below is 20 bytes long (so
`RecoverLogFile` hands it to `InsertInto` through `SetContents`), its header
announces two records, its first record is `Put("a", "b")` and its second is a
`Delete` whose key length (5) runs past the end.  `Iterate` returns
`Corruption`, yet the handler has received the `Put`, and the memtable holds
one of the two operations. -/
theorem batch_replay_not_atomic :
    ((WriteBatchInternal.SetContents WriteBatch.new
        [0, 0, 0, 0, 0, 0, 0, 0, 2, 0, 0, 0, 1, 1, 97, 1, 98, 0, 5, 99]).Iterate Recorder [])
      = (Status.Corruption "bad WriteBatch Delete", [Op.Put [97] [98]]) ∧
    WriteBatchInternal.InsertInto
        (WriteBatchInternal.SetContents WriteBatch.new
          [0, 0, 0, 0, 0, 0, 0, 0, 2, 0, 0, 0, 1, 1, 97, 1, 98, 0, 5, 99]) []
      = (Status.Corruption "bad WriteBatch Delete",
          [{ sequence := 0, type := kTypeValue, key := [97], value := [98] }]) := by
  have h5 : 5 &&& 128 = 0 := by decide
  constructor
  · simp [WriteBatchInternal.SetContents, WriteBatch.Iterate, kHeader, Iterate_loop,
      GetLengthPrefixedSlice, GetVarint32, GetVarint32Ptr, kTypeValue, kTypeDeletion, Recorder,
      h5]
  · simp [WriteBatchInternal.InsertInto, WriteBatchInternal.SetContents, WriteBatch.Iterate,
      kHeader, Iterate_loop, GetLengthPrefixedSlice, GetVarint32, GetVarint32Ptr, kTypeValue,
      kTypeDeletion, MemTableInserter.handler, MemTable.Add, WriteBatchInternal.Sequence,
      DecodeFixed64, h5]

/-- C10 as amended: batch replay applies a prefix.  For every batch, whatever
its bytes, `WriteBatch::Iterate` has called the handler with exactly the
operations of the records that parse before the first malformed record, in
order, when it returns, whatever status it returns; so has
`WriteBatchInternal::InsertInto` inserted exactly those into the memtable.  When
`Iterate` returns OK the representation has a full header and every byte after
it belongs to a parsed record, so all of the batch's operations were applied. -/
theorem batch_replay_applies_parsed_prefix {σ : Type} (b : WriteBatch)
    (handler : Handler σ) (st : σ) (mem : MemTable) :
    (b.Iterate handler st).2 = b.parsedPrefix.foldl (Op.call handler) st ∧
    (WriteBatchInternal.InsertInto b mem).2
      = (b.parsedPrefix.foldl (Op.call MemTableInserter.handler)
          { sequence_ := WriteBatchInternal.Sequence b, mem_ := mem }).mem_ ∧
    ((b.Iterate handler st).1 = Status.OK →
      kHeader ≤ b.rep_.length ∧ (parseRecords (b.rep_.drop kHeader)).2 = []) := by
  refine ⟨(Iterate_parse b handler st).1, ?_, (Iterate_parse b handler st).2⟩
  unfold WriteBatchInternal.InsertInto
  simp only [(Iterate_parse b MemTableInserter.handler _).1]

theorem Append_reliable (f : WritableFile) (data : Bytes) (h : f.reliable) :
    (f.Append data).1 = Status.OK ∧ (f.Append data).2.reliable ∧
    (f.Append data).2.contents = f.contents ++ data := by
  unfold WritableFile.Append
  unfold WritableFile.reliable at h ⊢
  rcases hf : f.outcomes with _ | ⟨b, rest⟩
  · simp
  · rw [hf] at h
    have hb : b = true := h b (List.mem_cons_self _ _)
    subst hb
    exact ⟨rfl, fun c hc => h c (List.mem_cons_of_mem _ hc), rfl⟩

theorem Flush_reliable (f : WritableFile) (h : f.reliable) :
    f.Flush.1 = Status.OK ∧ f.Flush.2.reliable ∧ f.Flush.2.contents = f.contents := by
  unfold WritableFile.Flush
  unfold WritableFile.reliable at h ⊢
  rcases hf : f.outcomes with _ | ⟨b, rest⟩
  · simp [hf]
  · rw [hf] at h
    have hb : b = true := h b (List.mem_cons_self _ _)
    subst hb
    exact ⟨rfl, fun c hc => h c (List.mem_cons_of_mem _ hc), rfl⟩

namespace log

theorem EmitPhysicalRecord_reliable (w : Writer) (t : RecordType) (payload : Bytes)
    (h : w.dest_.reliable) :
    (w.EmitPhysicalRecord t payload).1 = Status.OK ∧
    (w.EmitPhysicalRecord t payload).2.dest_.reliable ∧
    (w.EmitPhysicalRecord t payload).2.block_offset_
      = w.block_offset_ + kHeaderSize + payload.length := by
  unfold Writer.EmitPhysicalRecord
  dsimp only
  obtain ⟨a1, a2, -⟩ := Append_reliable w.dest_
    (EncodeFixed32 (crc32c.Mask (crc32c.Extend (type_crc t) payload)) ++
      [(payload.length &&& 0xff) % 256, (payload.length >>> 8) % 256, t.toNat % 256]) h
  rw [a1]
  simp only [Status.ok, if_true, Bool.true_and]
  obtain ⟨b1, b2, -⟩ := Append_reliable _ payload a2
  rw [b1]
  simp only [Status.ok, if_true]
  obtain ⟨c1, c2, -⟩ := Flush_reliable _ b2
  exact ⟨c1, c2, trivial⟩

theorem switchBlock_reliable (w : Writer) (h : w.dest_.reliable) :
    w.switchBlock.dest_.reliable ∧ w.switchBlock.block_offset_ + kHeaderSize ≤ kBlockSize ∧
    (w.switchBlock.block_offset_ = 0 ∨ w.switchBlock.block_offset_ = w.block_offset_) := by
  unfold Writer.switchBlock
  dsimp only
  split_ifs with h1 h2
  · exact ⟨(Append_reliable _ _ h).2.1, by simp [kHeaderSize, kBlockSize], Or.inl rfl⟩
  · exact ⟨h, by simp [kHeaderSize, kBlockSize], Or.inl rfl⟩
  · refine ⟨h, ?_, Or.inr rfl⟩
    simp only [kHeaderSize, kBlockSize] at h1 ⊢
    omega

theorem AddRecord_loop_framing : ∀ (m : Nat) (w : Writer) (ptr : Bytes) (begin_ : Bool),
    2 * ptr.length + (if w.block_offset_ + kHeaderSize = kBlockSize then 1 else 0) ≤ m →
    w.dest_.reliable →
    (w.AddRecord_loop ptr begin_).1 = Status.OK ∧
    (w.AddRecord_loop ptr begin_).2.1.dest_.reliable ∧
    (w.AddRecord_loop ptr begin_).2.2 ≠ [] ∧
    ((w.AddRecord_loop ptr begin_).2.2.map PhysicalRecord.payload).flatten = ptr ∧
    framedFrom begin_ ((w.AddRecord_loop ptr begin_).2.2.map PhysicalRecord.type) := by
  intro m
  induction m using Nat.strong_induction_on with
  | _ m ih =>
    intro w ptr begin_ hm hw
    obtain ⟨s1, s2, s3⟩ := switchBlock_reliable w hw
    rw [Writer.AddRecord_loop]
    dsimp only
    generalize hfrag : (if ptr.length < kBlockSize - w.switchBlock.block_offset_ - kHeaderSize
      then ptr.length else kBlockSize - w.switchBlock.block_offset_ - kHeaderSize) = frag
    generalize htype : (if (begin_ && ptr.length == frag) = true then RecordType.kFullType
      else if begin_ = true then RecordType.kFirstType
      else if (ptr.length == frag) = true then RecordType.kLastType
      else RecordType.kMiddleType) = type
    obtain ⟨e1, e2, e3⟩ := EmitPhysicalRecord_reliable w.switchBlock type (ptr.take frag) s1
    generalize w.switchBlock.EmitPhysicalRecord type (ptr.take frag) = r at e1 e2 e3 ⊢
    have hok : r.1.ok = true := by rw [e1]; rfl
    simp only [kHeaderSize, kBlockSize] at s2 hm hfrag e3
    by_cases hc : ptr.length - frag > 0
    · rw [dif_pos ⟨hok, hc⟩]
      have hfa : frag = 32768 - w.switchBlock.block_offset_ - (4 + 2 + 1) := by
        split_ifs at hfrag <;> omega
      have hne : (ptr.length == frag) = false := by
        simp only [beq_eq_false_iff_ne, ne_eq]; omega
      have hlt : frag ≤ ptr.length := by omega
      have hbo : r.2.block_offset_ = 32768 := by
        rw [e3, List.length_take]; omega
      have hmeasure : 2 * (ptr.drop frag).length +
          (if r.2.block_offset_ + kHeaderSize = kBlockSize then 1 else 0) < m := by
        rw [hbo, List.length_drop]
        simp only [kHeaderSize, kBlockSize]
        split_ifs at hm ⊢ <;> omega
      obtain ⟨i1, i2, i3, i4, k, i5⟩ := ih _ hmeasure r.2 (ptr.drop frag) false (le_refl _) e2
      refine ⟨i1, i2, by simp, ?_, ?_⟩
      · simp only [List.map_cons, List.flatten_cons, i4, List.take_append_drop]
      · simp only [List.map_cons, i5]
        rw [hne] at htype
        cases begin_ with
        | true =>
          simp only [Bool.and_false, Bool.false_eq_true, if_false, if_true] at htype
          subst htype
          exact Or.inr ⟨k, rfl⟩
        | false =>
          simp only [Bool.false_and, Bool.false_eq_true, if_false] at htype
          subst htype
          exact ⟨k + 1, by simp [List.replicate_succ]⟩
    · have hcond : ¬ (r.1.ok = true ∧ ptr.length - frag > 0) := fun h => hc h.2
      rw [dif_neg hcond]
      have hfl : frag = ptr.length := by
        split_ifs at hfrag <;> omega
      have heq : (ptr.length == frag) = true := by
        simp only [beq_iff_eq]; omega
      rw [heq] at htype
      refine ⟨e1, e2, by simp, ?_, ?_⟩
      · simp [hfl]
      · cases begin_ with
        | true =>
          simp only [Bool.and_true, if_true] at htype
          subst htype
          exact Or.inl rfl
        | false =>
          simp only [Bool.false_and, Bool.false_eq_true, if_false, if_true] at htype
          subst htype
          exact ⟨0, rfl⟩

end log

section Compaction

variable {K : Type} [LinearOrder K]

theorem DoCompactionWork_drop_state (isBase : K → Bool) (sm : Nat) (st : MergeState K)
    (ikey : ParsedInternalKey K) :
    (DoCompactionWork_drop isBase sm st (some ikey)).2 = MergeState.after ikey := by
  unfold DoCompactionWork_drop MergeState.after
  dsimp only
  split_ifs with h
  · rfl
  · have h2 : st.current_user_key = some ikey.user_key := by
      by_contra hc; exact h hc
    simp [h2]

theorem DoCompactionWork_loop_cons (isBase : K → Bool) (sm : Nat) (st : MergeState K)
    (e : ParsedEntry K) (l : List (ParsedEntry K)) :
    DoCompactionWork_loop (fun x : ParsedEntry K => some x.1) isBase sm st (e :: l) =
      if (DoCompactionWork_drop isBase sm st (some e.1)).1 then
        DoCompactionWork_loop (fun x : ParsedEntry K => some x.1) isBase sm
          (MergeState.after e.1) l
      else e :: DoCompactionWork_loop (fun x : ParsedEntry K => some x.1) isBase sm
          (MergeState.after e.1) l := by
  rw [DoCompactionWork_loop]
  simp only [DoCompactionWork_drop_state]

theorem DoCompactionWork_loop_subset (isBase : K → Bool) (sm : Nat)
    (l : List (ParsedEntry K)) : ∀ (st : MergeState K) (x : ParsedEntry K),
    x ∈ DoCompactionWork_loop (fun x : ParsedEntry K => some x.1) isBase sm st l → x ∈ l := by
  induction l with
  | nil => intro st x h; simp [DoCompactionWork_loop] at h
  | cons e l ih =>
    intro st x h
    rw [DoCompactionWork_loop_cons] at h
    split_ifs at h
    · exact List.mem_cons_of_mem _ (ih _ _ h)
    · rcases List.mem_cons.mp h with rfl | h'
      · exact List.mem_cons_self _ _
      · exact List.mem_cons_of_mem _ (ih _ _ h')

/-- Rule (A): after an entry for `U` at or below the smallest snapshot, nothing
more for `U` is emitted. -/
theorem DoCompactionWork_loop_hidden (isBase : K → Bool) (sm : Nat) (U : K)
    (l : List (ParsedEntry K)) : ∀ (p : ParsedEntry K),
    (p :: l).Pairwise (fun a b => InternalKeyLE a.1 b.1) →
    p.1.user_key = U → p.1.sequence ≤ sm →
    ∀ x ∈ DoCompactionWork_loop (fun x : ParsedEntry K => some x.1) isBase sm
      (MergeState.after p.1) l, x.1.user_key ≠ U := by
  induction l with
  | nil => intro p _ _ _ x h; simp [DoCompactionWork_loop] at h
  | cons e l ih =>
    intro p hs hU hseq x hx
    have hpe : InternalKeyLE p.1 e.1 := (List.pairwise_cons.mp hs).1 e (List.mem_cons_self _ _)
    have hs2 : (e :: l).Pairwise (fun a b => InternalKeyLE a.1 b.1) :=
      (List.pairwise_cons.mp hs).2
    rw [DoCompactionWork_loop_cons] at hx
    by_cases he : e.1.user_key = U
    · have hes : e.1.sequence ≤ sm := by
        rcases hpe with h | ⟨_, h⟩
        · rw [hU, he] at h; exact absurd h (lt_irrefl _)
        · omega
      have hdrop : (DoCompactionWork_drop isBase sm (MergeState.after p.1) (some e.1)).1
          = true := by
        unfold DoCompactionWork_drop MergeState.after
        simp [hU, he, hseq]
      rw [hdrop, if_pos rfl] at hx
      exact ih e hs2 he hes x hx
    · have hlt : U < e.1.user_key := by
        rcases hpe with h | ⟨h, _⟩
        · rw [hU] at h; exact h
        · rw [hU] at h; exact absurd h.symm he
      have hxl : x ∈ e :: l := by
        split_ifs at hx
        · exact List.mem_cons_of_mem _ (DoCompactionWork_loop_subset _ _ _ _ _ hx)
        · rcases List.mem_cons.mp hx with rfl | h'
          · exact List.mem_cons_self _ _
          · exact List.mem_cons_of_mem _ (DoCompactionWork_loop_subset _ _ _ _ _ h')
      rcases List.mem_cons.mp hxl with rfl | hxl'
      · exact he
      · have hex : InternalKeyLE e.1 x.1 := (List.pairwise_cons.mp hs2).1 x hxl'
        intro hxU
        rcases hex with h | ⟨h, _⟩
        · rw [hxU] at h; exact absurd (lt_trans hlt h) (lt_irrefl _)
        · rw [hxU] at h; exact he h

/-- The view of a reader at `s ≥ smallest_snapshot` on user key `U`, stated
for the loop entered after `prev` (or at the start). -/
theorem DoCompactionWork_loop_view (isBase : K → Bool) (sm : Nat) (hsm : sm < kMaxSequenceNumber)
    (s : Nat) (hs : sm ≤ s) (U : K) (l : List (ParsedEntry K)) :
    ∀ (prev : Option (ParsedEntry K)),
    (prev.toList ++ l).Pairwise (fun a b => InternalKeyLE a.1 b.1) →
    (∀ p ∈ prev, visibleAt U s p = false) →
    match l.find? (visibleAt U s) with
    | some e =>
      if e.1.type = kTypeDeletion then
        (DoCompactionWork_loop (fun x : ParsedEntry K => some x.1) isBase sm
            (MergeState.afterPrev prev) l).find? (visibleAt U s) = some e ∨
        (DoCompactionWork_loop (fun x : ParsedEntry K => some x.1) isBase sm
            (MergeState.afterPrev prev) l).find? (visibleAt U s) = none
      else
        (DoCompactionWork_loop (fun x : ParsedEntry K => some x.1) isBase sm
            (MergeState.afterPrev prev) l).find? (visibleAt U s) = some e
    | none =>
      (DoCompactionWork_loop (fun x : ParsedEntry K => some x.1) isBase sm
          (MergeState.afterPrev prev) l).find? (visibleAt U s) = none := by
  induction l with
  | nil => intro prev _ _; simp [DoCompactionWork_loop]
  | cons e l ih =>
    intro prev hsorted hprev
    have hs2 : ((some e).toList ++ l).Pairwise (fun a b => InternalKeyLE a.1 b.1) := by
      cases prev with
      | none => simpa using hsorted
      | some p =>
        simp only [Option.toList_some, List.singleton_append] at hsorted ⊢
        exact (List.pairwise_cons.mp hsorted).2
    rw [DoCompactionWork_loop_cons]
    by_cases hv : visibleAt U s e = true
    · -- `e` is the newest visible entry for `U`
      rw [List.find?_cons_of_pos _ hv]
      have hvis := hv
      simp only [visibleAt, decide_eq_true_eq] at hvis
      obtain ⟨hkey, hseq⟩ := hvis
      -- rule (A) does not fire
      have hA : ¬ ((if (MergeState.afterPrev prev).current_user_key ≠ some e.1.user_key then
            ({ current_user_key := some e.1.user_key,
               last_sequence_for_key := kMaxSequenceNumber } : MergeState K)
          else MergeState.afterPrev prev).last_sequence_for_key ≤ sm) := by
        split_ifs with hcur
        · simp only; omega
        · cases prev with
          | none => simp [MergeState.afterPrev, MergeState.initial] at hcur
          | some p =>
            simp only [MergeState.afterPrev, MergeState.after, ne_eq, Option.some.injEq,
              not_not] at hcur ⊢
            have hp := hprev p rfl
            simp only [visibleAt, decide_eq_false_iff_not, not_and, not_le] at hp
            have := hp (hcur.trans hkey)
            omega
      by_cases hdrop : (DoCompactionWork_drop isBase sm (MergeState.afterPrev prev) (some e.1)).1
          = true
      · rw [hdrop, if_pos rfl]
        have hdel : e.1.type = kTypeDeletion ∧ e.1.sequence ≤ sm := by
          unfold DoCompactionWork_drop at hdrop
          simp only [if_neg hA] at hdrop
          split_ifs at hdrop with hB
          exact ⟨hB.1, hB.2.1⟩
        dsimp only
        rw [if_pos hdel.1]
        right
        rw [List.find?_eq_none]
        intro x hx
        have hne := DoCompactionWork_loop_hidden isBase sm U l e
          (by simpa using hs2) hkey hdel.2 x hx
        simp [visibleAt, hne]
      · rw [if_neg hdrop, List.find?_cons_of_pos _ hv]
        dsimp only
        split_ifs
        · exact Or.inl rfl
        · rfl
    · -- `e` is not visible: it does not matter whether it is emitted
      have hv' : visibleAt U s e = false := by simpa using hv
      rw [List.find?_cons_of_neg _ hv]
      have hih := ih (some e) hs2 (by intro p hp; cases hp; exact hv')
      have hfind : (if (DoCompactionWork_drop isBase sm (MergeState.afterPrev prev) (some e.1)).1
            = true then
            DoCompactionWork_loop (fun x : ParsedEntry K => some x.1) isBase sm
              (MergeState.after e.1) l
          else e :: DoCompactionWork_loop (fun x : ParsedEntry K => some x.1) isBase sm
              (MergeState.after e.1) l).find? (visibleAt U s)
          = (DoCompactionWork_loop (fun x : ParsedEntry K => some x.1) isBase sm
              (MergeState.after e.1) l).find? (visibleAt U s) := by
        split_ifs
        · rfl
        · rw [List.find?_cons_of_neg _ hv]
      rw [hfind]
      exact hih

end Compaction

/-- C2: compaction preserves every view a live snapshot can take.  The merge
loop of `DoCompactionWork` runs over `input`, whose keys all parse, in
internal-key order (user key ascending, sequence descending), with
`smallest_snapshot < kMaxSequenceNumber`.  For every sequence
`s ≥ smallest_snapshot` and every user key `U`, with "newest" the first in this
order: if the newest input entry for `U` with sequence `≤ s` is not a DELETION,
it is also the newest emitted entry for `U` with sequence `≤ s` (so it is
emitted); if it is a DELETION, the newest emitted such entry is that DELETION or
there is none; if there is no such input entry there is no such emitted
entry. -/
theorem compaction_preserves_snapshot_views {K : Type} [LinearOrder K]
    (IsBaseLevelForKey : K → Bool) (smallest_snapshot : Nat) (input : List (ParsedEntry K))
    (hsorted : input.Pairwise (fun a b => InternalKeyLE a.1 b.1))
    (hsnap : smallest_snapshot < kMaxSequenceNumber)
    (s : Nat) (hs : smallest_snapshot ≤ s) (U : K) :
    match input.find? (visibleAt U s) with
    | some e =>
      if e.1.type = kTypeDeletion then
        (DoCompactionWork_loop (fun x : ParsedEntry K => some x.1) IsBaseLevelForKey
            smallest_snapshot MergeState.initial input).find? (visibleAt U s) = some e ∨
        (DoCompactionWork_loop (fun x : ParsedEntry K => some x.1) IsBaseLevelForKey
            smallest_snapshot MergeState.initial input).find? (visibleAt U s) = none
      else
        (DoCompactionWork_loop (fun x : ParsedEntry K => some x.1) IsBaseLevelForKey
            smallest_snapshot MergeState.initial input).find? (visibleAt U s) = some e
    | none =>
      (DoCompactionWork_loop (fun x : ParsedEntry K => some x.1) IsBaseLevelForKey
          smallest_snapshot MergeState.initial input).find? (visibleAt U s) = none :=
  DoCompactionWork_loop_view IsBaseLevelForKey smallest_snapshot hsnap s hs U input none
    (by simpa using hsorted) (by intro p hp; cases hp)

theorem compaction_preserves_snapshot_views_witness :
    (DoCompactionWork_loop (fun x : ParsedEntry Nat => some x.1) (fun _ => true) 6
        MergeState.initial
        [(⟨1, 9, kTypeValue⟩, [109]), (⟨1, 5, kTypeValue⟩, [105]), (⟨1, 3, kTypeValue⟩, [103]),
         (⟨2, 4, kTypeDeletion⟩, []), (⟨2, 2, kTypeValue⟩, [102])]).find? (visibleAt 1 7)
      = some (⟨1, 5, kTypeValue⟩, [105]) := by
  have h := compaction_preserves_snapshot_views (fun _ : Nat => true) 6
    [(⟨1, 9, kTypeValue⟩, [109]), (⟨1, 5, kTypeValue⟩, [105]), (⟨1, 3, kTypeValue⟩, [103]),
     (⟨2, 4, kTypeDeletion⟩, []), (⟨2, 2, kTypeValue⟩, [102])]
    (by decide) (by norm_num [kMaxSequenceNumber]) 7 (by norm_num) 1
  simpa [visibleAt, kTypeValue, kTypeDeletion] using h

theorem Count_SetSequence (b : WriteBatch) (seq : Nat) :
    WriteBatchInternal.Count (WriteBatchInternal.SetSequence b seq)
      = WriteBatchInternal.Count b := by
  simp [WriteBatchInternal.Count, WriteBatchInternal.SetSequence, EncodeFixed64]

theorem Sequence_SetSequence (b : WriteBatch) (seq : Nat) :
    WriteBatchInternal.Sequence (WriteBatchInternal.SetSequence b seq) = seq % 2 ^ 64 := by
  simp only [WriteBatchInternal.Sequence, WriteBatchInternal.SetSequence]
  exact DecodeFixed64_EncodeFixed64 seq _

theorem toInt32_lt (x : Nat) : toInt32 x < 2 ^ 31 := by
  unfold toInt32
  have : x % 2 ^ 32 < 2 ^ 32 := Nat.mod_lt _ (by norm_num)
  split_ifs with h
  · exact_mod_cast h
  · have h2 : ((x % 2 ^ 32 : Nat) : Int) < 2 ^ 32 := by exact_mod_cast this
    omega

theorem toUInt64_add (L : Nat) (c : Int) (hc : 0 ≤ c) (h : (L : Int) + c < 2 ^ 64) :
    toUInt64 ((L : Int) + c) = L + c.toNat := by
  unfold toUInt64
  rw [Int.emod_eq_of_lt (by omega) h]
  omega

theorem Write_leader_stamp (db : DBImpl) (w : DBImpl.Writer) (rest : List DBImpl.Writer)
    (updates : WriteBatch) (hfront : db.writers_ = w :: rest) (hbatch : w.batch = some updates) :
    (db.Write_leader Status.OK).write_batch
      = some (WriteBatchInternal.SetSequence (db.BuildBatchGroup w updates rest).result
          ((db.last_sequence + 1) % 2 ^ 64)) ∧
    (db.Write_leader Status.OK).db.last_sequence
      = toUInt64 ((db.last_sequence : Int) +
          WriteBatchInternal.Count (db.BuildBatchGroup w updates rest).result) := by
  unfold DBImpl.Write_leader
  rw [hfront]
  simp only [hbatch, Status.ok, if_true, Count_SetSequence]
  trivial

/-- C9: sequence allocation on write.  For every `Write` led by a writer with a
non-null batch for which `MakeRoomForWrite` returned OK, with `L` the value of
`LastSequence` (a sequence number, so at most `kMaxSequenceNumber`): the
combined batch goes to the log stamped with sequence `L + 1`, its count is that
of the batch `BuildBatchGroup` built, and when this count is not negative
`LastSequence` is `L + Count` afterwards, hence not smaller than before, and the
next group to be written (from any state `db2` with that `LastSequence`) is
stamped with the sequence that follows this group's range. -/
theorem write_sequence_allocation (db : DBImpl) (w : DBImpl.Writer)
    (rest : List DBImpl.Writer) (updates : WriteBatch)
    (hfront : db.writers_ = w :: rest) (hbatch : w.batch = some updates)
    (hL : db.last_sequence ≤ kMaxSequenceNumber) :
    ∃ wb, (db.Write_leader Status.OK).write_batch = some wb ∧
      WriteBatchInternal.Sequence wb = db.last_sequence + 1 ∧
      WriteBatchInternal.Count wb
        = WriteBatchInternal.Count (db.BuildBatchGroup w updates rest).result ∧
      (0 ≤ WriteBatchInternal.Count wb →
        (db.Write_leader Status.OK).db.last_sequence
          = db.last_sequence + (WriteBatchInternal.Count wb).toNat ∧
        db.last_sequence ≤ (db.Write_leader Status.OK).db.last_sequence ∧
        ∀ (db2 : DBImpl) (w2 : DBImpl.Writer) (rest2 : List DBImpl.Writer)
          (updates2 : WriteBatch),
          db2.writers_ = w2 :: rest2 → w2.batch = some updates2 →
          db2.last_sequence = (db.Write_leader Status.OK).db.last_sequence →
          ∃ wb2, (db2.Write_leader Status.OK).write_batch = some wb2 ∧
            WriteBatchInternal.Sequence wb2
              = WriteBatchInternal.Sequence wb + (WriteBatchInternal.Count wb).toNat) := by
  obtain ⟨e1, e2⟩ := Write_leader_stamp db w rest updates hfront hbatch
  have hk : db.last_sequence < 2 ^ 56 := by
    simp only [kMaxSequenceNumber] at hL; omega
  have hseq : WriteBatchInternal.Sequence
      (WriteBatchInternal.SetSequence (db.BuildBatchGroup w updates rest).result
        ((db.last_sequence + 1) % 2 ^ 64)) = db.last_sequence + 1 := by
    rw [Sequence_SetSequence, Nat.mod_mod, Nat.mod_eq_of_lt (by omega)]
  refine ⟨_, e1, hseq, Count_SetSequence _ _, ?_⟩
  rw [Count_SetSequence]
  intro hc
  have hlt := toInt32_lt (DecodeFixed32 ((db.BuildBatchGroup w updates rest).result.rep_.drop 8))
  have hlt' : WriteBatchInternal.Count (db.BuildBatchGroup w updates rest).result < 2 ^ 31 := hlt
  have hlast : (db.Write_leader Status.OK).db.last_sequence
      = db.last_sequence + (WriteBatchInternal.Count
          (db.BuildBatchGroup w updates rest).result).toNat := by
    rw [e2, toUInt64_add _ _ hc (by omega)]
  refine ⟨hlast, by omega, ?_⟩
  intro db2 w2 rest2 updates2 hfront2 hbatch2 hnext
  obtain ⟨f1, -⟩ := Write_leader_stamp db2 w2 rest2 updates2 hfront2 hbatch2
  refine ⟨_, f1, ?_⟩
  rw [Sequence_SetSequence, Nat.mod_mod, hseq, hnext, hlast, Nat.mod_eq_of_lt (by omega)]
  omega

theorem write_sequence_allocation_witness :
    exampleDb.last_sequence ≤ kMaxSequenceNumber ∧
    ∃ wb, (exampleDb.Write_leader Status.OK).write_batch = some wb ∧
      WriteBatchInternal.Sequence wb = 42 ∧
      WriteBatchInternal.Count wb = 1 ∧
      (exampleDb.Write_leader Status.OK).db.last_sequence = 42 := by
  have hL : exampleDb.last_sequence ≤ kMaxSequenceNumber := by
    norm_num [exampleDb, kMaxSequenceNumber]
  obtain ⟨wb, h1, h2, h3, h4⟩ := write_sequence_allocation exampleDb
    { status := Status.OK, batch := some (WriteBatch.new.Put [97] [98]),
      sync := false, done := false } [] (WriteBatch.new.Put [97] [98]) rfl rfl hL
  have hc : WriteBatchInternal.Count wb = 1 := by
    rw [h3]
    decide
  refine ⟨hL, wb, h1, h2, hc, ?_⟩
  rw [(h4 (by rw [hc]; decide)).1, hc]
  rfl

/-- C11: batch concatenation.  For well-formed batches `dst` (header sequence
`s1`, operations `ops1`) and `src` (header sequence `s2`, operations `ops2`)
whose counts together stay below `2 ^ 31`, `WriteBatchInternal::Append(dst, src)`
leaves in `dst` a batch whose `Count` is the sum of the two former counts, whose
`Sequence` is that of the former `dst`, and over which `Iterate` returns OK
after calling the handler with `dst`'s former operations followed by `src`'s,
in order.  (`src` is read through a pointer to const; the embedding's `Append`
returns `dst` only.) -/
theorem append_concatenates (s1 s2 : Nat) (ops1 ops2 : List Op)
    (hfit1 : ∀ op ∈ ops1, op.fits) (hfit2 : ∀ op ∈ ops2, op.fits)
    (hlen : ops1.length + ops2.length < 2 ^ 31) :
    WriteBatchInternal.Count
        (WriteBatchInternal.Append ⟨batchRep s1 ops1.length (ops1.flatMap Op.record)⟩
          ⟨batchRep s2 ops2.length (ops2.flatMap Op.record)⟩)
      = WriteBatchInternal.Count ⟨batchRep s1 ops1.length (ops1.flatMap Op.record)⟩
        + WriteBatchInternal.Count ⟨batchRep s2 ops2.length (ops2.flatMap Op.record)⟩ ∧
    WriteBatchInternal.Sequence
        (WriteBatchInternal.Append ⟨batchRep s1 ops1.length (ops1.flatMap Op.record)⟩
          ⟨batchRep s2 ops2.length (ops2.flatMap Op.record)⟩)
      = WriteBatchInternal.Sequence ⟨batchRep s1 ops1.length (ops1.flatMap Op.record)⟩ ∧
    (WriteBatch.Iterate ⟨batchRep s1 ops1.length (ops1.flatMap Op.record)⟩ Recorder []
      = (Status.OK, ops1)) ∧
    (WriteBatch.Iterate ⟨batchRep s2 ops2.length (ops2.flatMap Op.record)⟩ Recorder []
      = (Status.OK, ops2)) ∧
    (WriteBatchInternal.Append ⟨batchRep s1 ops1.length (ops1.flatMap Op.record)⟩
        ⟨batchRep s2 ops2.length (ops2.flatMap Op.record)⟩).Iterate Recorder []
      = (Status.OK, ops1 ++ ops2) := by
  have hc1 := Count_batchRep s1 ops1.length (ops1.flatMap Op.record) (by omega)
  have hc2 := Count_batchRep s2 ops2.length (ops2.flatMap Op.record) (by omega)
  have happ : WriteBatchInternal.Append ⟨batchRep s1 ops1.length (ops1.flatMap Op.record)⟩
      ⟨batchRep s2 ops2.length (ops2.flatMap Op.record)⟩
      = ⟨batchRep s1 (ops1 ++ ops2).length ((ops1 ++ ops2).flatMap Op.record)⟩ := by
    unfold WriteBatchInternal.Append
    simp only [hc1, hc2]
    have hsum : ((ops1.length : Int) + (ops2.length : Int))
        = ((ops1.length + ops2.length : Nat) : Int) := by push_cast; rfl
    rw [hsum, SetCount_batchRep s1 _ _ _ (by omega)]
    simp [batchRep, EncodeFixed64, EncodeFixed32, kHeader]
  have hit : ∀ (s : Nat) (ops : List Op), ops.length < 2 ^ 31 → (∀ op ∈ ops, op.fits) →
      WriteBatch.Iterate ⟨batchRep s ops.length (ops.flatMap Op.record)⟩ Recorder []
        = (Status.OK, ops) := by
    intro s ops hl hf
    rw [Iterate_batchRep Recorder s ops [] hl hf, foldl_Recorder]
    simp
  have hfit : ∀ op ∈ ops1 ++ ops2, op.fits := by
    intro op hop
    rcases List.mem_append.mp hop with h | h
    · exact hfit1 op h
    · exact hfit2 op h
  have hlen' : (ops1 ++ ops2).length < 2 ^ 31 := by
    rw [List.length_append]; exact hlen
  refine ⟨?_, ?_, hit s1 ops1 (by omega) hfit1, hit s2 ops2 (by omega) hfit2, ?_⟩
  · rw [happ, Count_batchRep _ _ _ hlen', hc1, hc2, List.length_append]
    push_cast
    rfl
  · rw [happ, Sequence_batchRep, Sequence_batchRep]
  · rw [happ]
    exact hit s1 (ops1 ++ ops2) hlen' hfit

theorem append_concatenates_witness :
    WriteBatchInternal.Count
        (WriteBatchInternal.Append
          ⟨batchRep 7 [Op.Put [97] [120], Op.Delete [98]].length
            ([Op.Put [97] [120], Op.Delete [98]].flatMap Op.record)⟩
          ⟨batchRep 9 [Op.Put [99] [121]].length ([Op.Put [99] [121]].flatMap Op.record)⟩)
      = 3 := by
  have h := (append_concatenates 7 9 [Op.Put [97] [120], Op.Delete [98]] [Op.Put [99] [121]]
    (by decide) (by decide) (by decide)).1
  rw [h]
  decide

section CompactionRules

variable {K : Type} [LinearOrder K]

theorem DoCompactionWork_loop_tombstone (isBase : K → Bool) (sm : Nat) (U : K)
    (hbase : isBase U = true) (l : List (ParsedEntry K)) :
    ∀ (prev : Option (ParsedEntry K)),
    (prev.toList ++ l).Pairwise (fun a b => InternalKeyLE a.1 b.1) →
    (∀ p ∈ prev, p.1.user_key ≠ U) →
    (∀ x ∈ l, x.1.sequence ≤ sm) →
    (∀ e, l.find? (forKey U) = some e → e.1.type = kTypeDeletion) →
    ∀ x ∈ DoCompactionWork_loop (fun x : ParsedEntry K => some x.1) isBase sm
      (MergeState.afterPrev prev) l, x.1.user_key ≠ U := by
  induction l with
  | nil => intro prev _ _ _ _ x h; simp [DoCompactionWork_loop] at h
  | cons e l ih =>
    intro prev hsorted hprev hseq hdel x hx
    have hs2 : ((some e).toList ++ l).Pairwise (fun a b => InternalKeyLE a.1 b.1) := by
      cases prev with
      | none => simpa using hsorted
      | some p =>
        simp only [Option.toList_some, List.singleton_append] at hsorted ⊢
        exact (List.pairwise_cons.mp hsorted).2
    rw [DoCompactionWork_loop_cons] at hx
    by_cases he : e.1.user_key = U
    · -- the newest entry for `U`: a deletion at or below the smallest snapshot
      have hv : forKey U e = true := by simp [forKey, he]
      have htype : e.1.type = kTypeDeletion := hdel e (List.find?_cons_of_pos _ hv)
      have hes : e.1.sequence ≤ sm := hseq e (List.mem_cons_self _ _)
      have hdrop : (DoCompactionWork_drop isBase sm (MergeState.afterPrev prev) (some e.1)).1
          = true := by
        unfold DoCompactionWork_drop
        simp [htype, hes, he, hbase]
      rw [hdrop, if_pos rfl] at hx
      exact DoCompactionWork_loop_hidden isBase sm U l e (by simpa using hs2) he hes x hx
    · have hv : ¬ (forKey U e = true) := by simp [forKey, he]
      have hrest : ∀ y ∈ DoCompactionWork_loop (fun x : ParsedEntry K => some x.1) isBase sm
          (MergeState.after e.1) l, y.1.user_key ≠ U :=
        ih (some e) hs2 (by intro p hp; cases hp; exact he)
          (fun y hy => hseq y (List.mem_cons_of_mem _ hy))
          (fun e' he' => hdel e' (by rw [List.find?_cons_of_neg _ hv]; exact he'))
      split_ifs at hx
      · exact hrest x hx
      · rcases List.mem_cons.mp hx with rfl | hx'
        · exact he
        · exact hrest x hx'

theorem DoCompactionWork_loop_one_visible (isBase : K → Bool) (sm : Nat) (U : K)
    (l : List (ParsedEntry K)) :
    ∀ (prev : Option (ParsedEntry K)),
    (prev.toList ++ l).Pairwise (fun a b => InternalKeyLE a.1 b.1) →
    (DoCompactionWork_loop (fun x : ParsedEntry K => some x.1) isBase sm
        (MergeState.afterPrev prev) l).filter (visibleAt U sm) = [] ∨
    ∃ e, l.find? (visibleAt U sm) = some e ∧
      (DoCompactionWork_loop (fun x : ParsedEntry K => some x.1) isBase sm
        (MergeState.afterPrev prev) l).filter (visibleAt U sm) = [e] := by
  induction l with
  | nil => intro prev _; left; simp [DoCompactionWork_loop]
  | cons e l ih =>
    intro prev hsorted
    have hs2 : ((some e).toList ++ l).Pairwise (fun a b => InternalKeyLE a.1 b.1) := by
      cases prev with
      | none => simpa using hsorted
      | some p =>
        simp only [Option.toList_some, List.singleton_append] at hsorted ⊢
        exact (List.pairwise_cons.mp hsorted).2
    rw [DoCompactionWork_loop_cons]
    by_cases hv : visibleAt U sm e = true
    · have hvis := hv
      simp only [visibleAt, decide_eq_true_eq] at hvis
      have hnone : (DoCompactionWork_loop (fun x : ParsedEntry K => some x.1) isBase sm
          (MergeState.after e.1) l).filter (visibleAt U sm) = [] := by
        rw [List.filter_eq_nil_iff]
        intro x hx
        have hne := DoCompactionWork_loop_hidden isBase sm U l e (by simpa using hs2)
          hvis.1 hvis.2 x hx
        simp [visibleAt, hne]
      split_ifs
      · left; exact hnone
      · right
        exact ⟨e, List.find?_cons_of_pos _ hv, by rw [List.filter_cons_of_pos hv, hnone]⟩
    · have hrest := ih (some e) hs2
      rw [List.find?_cons_of_neg _ hv]
      split_ifs
      · exact hrest
      · rw [List.filter_cons_of_neg hv]
        exact hrest

end CompactionRules

/-- C12: obsolete tombstones disappear.  The merge loop of `DoCompactionWork`
runs over `input`, whose keys all parse, in internal-key order (user key
ascending, sequence descending), with no live snapshot (`smallest_snapshot` is
at least every input sequence) and `IsBaseLevelForKey(U)` true.  If the newest
input entry for user key `U` (the first in this order) is a DELETION, no entry
for `U` is emitted. -/
theorem obsolete_tombstone_dropped {K : Type} [LinearOrder K]
    (IsBaseLevelForKey : K → Bool) (smallest_snapshot : Nat) (input : List (ParsedEntry K))
    (U : K) (e : ParsedEntry K)
    (hsorted : input.Pairwise (fun a b => InternalKeyLE a.1 b.1))
    (hsnap : ∀ x ∈ input, x.1.sequence ≤ smallest_snapshot)
    (hbase : IsBaseLevelForKey U = true)
    (hnewest : input.find? (forKey U) = some e) (hdel : e.1.type = kTypeDeletion) :
    ∀ x ∈ DoCompactionWork_loop (fun x : ParsedEntry K => some x.1) IsBaseLevelForKey
      smallest_snapshot MergeState.initial input, x.1.user_key ≠ U :=
  DoCompactionWork_loop_tombstone IsBaseLevelForKey smallest_snapshot U hbase input none
    (by simpa using hsorted) (by intro p hp; cases hp) hsnap
    (by intro e' he'; rw [hnewest] at he'; cases he'; exact hdel)

theorem obsolete_tombstone_dropped_witness :
    [((⟨1, 8, kTypeValue⟩, [108]) : ParsedEntry Nat), (⟨2, 7, kTypeDeletion⟩, []),
      (⟨2, 4, kTypeValue⟩, [104]), (⟨3, 5, kTypeValue⟩, [105])].find? (forKey 2)
      = some (⟨2, 7, kTypeDeletion⟩, []) ∧
    ∀ x ∈ DoCompactionWork_loop (fun x : ParsedEntry Nat => some x.1) (fun _ => true) 9
      MergeState.initial
      [(⟨1, 8, kTypeValue⟩, [108]), (⟨2, 7, kTypeDeletion⟩, []), (⟨2, 4, kTypeValue⟩, [104]),
       (⟨3, 5, kTypeValue⟩, [105])], x.1.user_key ≠ 2 :=
  ⟨rfl, obsolete_tombstone_dropped (fun _ : Nat => true) 9
    [(⟨1, 8, kTypeValue⟩, [108]), (⟨2, 7, kTypeDeletion⟩, []), (⟨2, 4, kTypeValue⟩, [104]),
     (⟨3, 5, kTypeValue⟩, [105])] 2 (⟨2, 7, kTypeDeletion⟩, [])
    (by decide) (by decide) rfl (by decide) rfl⟩

/-- C13: hidden versions are dropped.  The merge loop of `DoCompactionWork` runs
over `input`, whose keys all parse, in internal-key order.  For every user key
`U`, of the entries for `U` with sequence `≤ smallest_snapshot` at most one is
emitted, and an emitted one is the newest input entry for `U` with sequence
`≤ smallest_snapshot` (the first in the order). -/
theorem hidden_versions_dropped {K : Type} [LinearOrder K]
    (IsBaseLevelForKey : K → Bool) (smallest_snapshot : Nat) (input : List (ParsedEntry K))
    (hsorted : input.Pairwise (fun a b => InternalKeyLE a.1 b.1)) (U : K) :
    (DoCompactionWork_loop (fun x : ParsedEntry K => some x.1) IsBaseLevelForKey
        smallest_snapshot MergeState.initial input).filter (visibleAt U smallest_snapshot)
      = [] ∨
    ∃ e, input.find? (visibleAt U smallest_snapshot) = some e ∧
      (DoCompactionWork_loop (fun x : ParsedEntry K => some x.1) IsBaseLevelForKey
        smallest_snapshot MergeState.initial input).filter (visibleAt U smallest_snapshot)
      = [e] :=
  DoCompactionWork_loop_one_visible IsBaseLevelForKey smallest_snapshot U input none
    (by simpa using hsorted)

theorem hidden_versions_dropped_witness :
    (DoCompactionWork_loop (fun x : ParsedEntry Nat => some x.1) (fun _ => false) 6
        MergeState.initial
        [(⟨1, 9, kTypeValue⟩, [109]), (⟨1, 5, kTypeValue⟩, [105]), (⟨1, 3, kTypeValue⟩, [103]),
         (⟨2, 4, kTypeDeletion⟩, []), (⟨2, 2, kTypeValue⟩, [102])]).filter (visibleAt 1 6)
      = [] ∨
    ∃ e, [(⟨1, 9, kTypeValue⟩, [109]), (⟨1, 5, kTypeValue⟩, [105]), (⟨1, 3, kTypeValue⟩, [103]),
          (⟨2, 4, kTypeDeletion⟩, []), (⟨2, 2, kTypeValue⟩, [102])].find? (visibleAt 1 6)
        = some e ∧
      (DoCompactionWork_loop (fun x : ParsedEntry Nat => some x.1) (fun _ => false) 6
        MergeState.initial
        [(⟨1, 9, kTypeValue⟩, [109]), (⟨1, 5, kTypeValue⟩, [105]), (⟨1, 3, kTypeValue⟩, [103]),
         (⟨2, 4, kTypeDeletion⟩, []), (⟨2, 2, kTypeValue⟩, [102])]).filter (visibleAt 1 6)
      = [e] :=
  hidden_versions_dropped (fun _ : Nat => false) 6
    [(⟨1, 9, kTypeValue⟩, [109]), (⟨1, 5, kTypeValue⟩, [105]), (⟨1, 3, kTypeValue⟩, [103]),
     (⟨2, 4, kTypeDeletion⟩, []), (⟨2, 2, kTypeValue⟩, [102])] (by decide) 1

theorem xor_xor_cancel (x m : Nat) : (x ^^^ m) ^^^ m = x := by
  rw [Nat.xor_assoc, Nat.xor_self, Nat.xor_zero]

theorem crc32c_Extend_Value (a b : Bytes) :
    crc32c.Extend (crc32c.Value a) b = crc32c.Value (a ++ b) := by
  simp only [crc32c.Value, crc32c.Extend, xor_xor_cancel, List.foldl_append]

namespace log

theorem EmitPhysicalRecord_contents (w : Writer) (t : RecordType) (payload : Bytes)
    (h : w.dest_.reliable) :
    (w.EmitPhysicalRecord t payload).2.dest_.contents
      = w.dest_.contents ++
          (EncodeFixed32 (crc32c.Mask (crc32c.Extend (type_crc t) payload)) ++
            [(payload.length &&& 0xff) % 256, (payload.length >>> 8) % 256, t.toNat % 256]) ++
          payload := by
  unfold Writer.EmitPhysicalRecord
  dsimp only
  obtain ⟨a1, a2, a3⟩ := Append_reliable w.dest_
    (EncodeFixed32 (crc32c.Mask (crc32c.Extend (type_crc t) payload)) ++
      [(payload.length &&& 0xff) % 256, (payload.length >>> 8) % 256, t.toNat % 256]) h
  rw [a1]
  simp only [Status.ok, if_true, Bool.true_and]
  obtain ⟨b1, b2, b3⟩ := Append_reliable _ payload a2
  rw [b1]
  simp only [Status.ok, if_true]
  obtain ⟨c1, c2, c3⟩ := Flush_reliable _ b2
  rw [c3, b3, a3]

/-- C17: WAL physical record layout.  When the file accepts the writes,
`EmitPhysicalRecord(type, payload)` with a payload of at most `0xffff` bytes
(its asserted precondition) adds to the file exactly a 7-byte header followed
immediately by the payload: header bytes 0-3 are the little-endian fixed32 of
`Mask` of the CRC32C of the one type byte followed by the payload, bytes 4-5
are the payload length in little-endian, and byte 6 is the record type. -/
theorem physical_record_layout (w : Writer) (t : RecordType) (payload : Bytes)
    (hlen : payload.length ≤ 0xffff) (hfile : w.dest_.reliable) :
    (w.EmitPhysicalRecord t payload).1 = Status.OK ∧
    (w.EmitPhysicalRecord t payload).2.dest_.contents
      = w.dest_.contents ++
          (EncodeFixed32 (crc32c.Mask (crc32c.Value (t.toNat :: payload))) ++
            [payload.length % 256, payload.length / 256, t.toNat]) ++
          payload ∧
    (EncodeFixed32 (crc32c.Mask (crc32c.Value (t.toNat :: payload))) ++
      [payload.length % 256, payload.length / 256, t.toNat]).length = 7 ∧
    payload.length % 256 + 256 * (payload.length / 256) = payload.length ∧
    payload.length / 256 < 256 := by
  refine ⟨(EmitPhysicalRecord_reliable w t payload hfile).1, ?_, by simp [EncodeFixed32],
    by omega, by omega⟩
  rw [EmitPhysicalRecord_contents w t payload hfile]
  have h1 : (payload.length &&& 0xff) % 256 = payload.length % 256 := by
    have := Nat.and_pow_two_sub_one_eq_mod payload.length 8
    norm_num at this
    rw [this]
    omega
  have h2 : (payload.length >>> 8) % 256 = payload.length / 256 := by
    rw [Nat.shiftRight_eq_div_pow]
    omega
  have h3 : t.toNat % 256 = t.toNat := by
    cases t <;> rfl
  have h4 : crc32c.Extend (type_crc t) payload = crc32c.Value (t.toNat :: payload) := by
    unfold type_crc
    rw [crc32c_Extend_Value]
    rfl
  rw [h1, h2, h3, h4]

theorem physical_record_layout_witness :
    ((Writer.new ⟨[9], []⟩).EmitPhysicalRecord RecordType.kFullType [1, 2, 3]).2.dest_.contents
      = [9] ++
          (EncodeFixed32 (crc32c.Mask (crc32c.Value (RecordType.kFullType.toNat :: [1, 2, 3])))
            ++ [[1, 2, 3].length % 256, [1, 2, 3].length / 256, RecordType.kFullType.toNat]) ++
          [1, 2, 3] :=
  (physical_record_layout (Writer.new ⟨[9], []⟩) RecordType.kFullType [1, 2, 3] (by decide)
    (by simp [WritableFile.reliable, Writer.new])).2.1

end log

theorem Append_rep_length (dst src : WriteBatch) (h : kHeader ≤ dst.rep_.length) :
    (WriteBatchInternal.Append dst src).rep_.length
      = dst.rep_.length + (src.rep_.length - kHeader) ∧
    (WriteBatchInternal.Append dst src).rep_.drop kHeader
      = dst.rep_.drop kHeader ++ src.rep_.drop kHeader := by
  simp only [kHeader] at h
  have h8 : min 8 dst.rep_.length = 8 := by omega
  constructor
  · simp only [WriteBatchInternal.Append, WriteBatchInternal.SetCount, EncodeFixed32, kHeader,
      List.length_append, List.length_take, List.length_drop, List.length_cons,
      List.length_nil, h8]
    omega
  · simp only [WriteBatchInternal.Append, WriteBatchInternal.SetCount, kHeader,
      List.append_assoc]
    have e : dst.rep_.take 8 ++ (EncodeFixed32 (toUInt32 (WriteBatchInternal.Count dst +
        WriteBatchInternal.Count src)) ++ (dst.rep_.drop 12 ++ src.rep_.drop 12))
        = (dst.rep_.take 8 ++ EncodeFixed32 (toUInt32 (WriteBatchInternal.Count dst +
            WriteBatchInternal.Count src))) ++ (dst.rep_.drop 12 ++ src.rep_.drop 12) := by
      simp
    rw [e]
    apply List.drop_left'
    simp [EncodeFixed32, h8]

/-- `*last_writer` is the last of the writers the loop takes. -/
theorem BuildBatchGroup_loop_last_writer (first : DBImpl.Writer) (first_batch : WriteBatch)
    (max_size : Nat) (iter : List DBImpl.Writer) :
    ∀ (index size : Nat) (g : BatchGroup), g.last_writer + 1 = index →
    (DBImpl.BuildBatchGroup_loop first first_batch max_size iter index size g).last_writer + 1
      = index + DBImpl.groupTail first max_size iter size := by
  induction iter with
  | nil => intro index size g h; simp [DBImpl.BuildBatchGroup_loop, DBImpl.groupTail, h]
  | cons w iter ih =>
    intro index size g h
    rw [DBImpl.BuildBatchGroup_loop, DBImpl.groupTail]
    by_cases hsync : (w.sync && !first.sync) = true
    · simp [hsync, h]
    · simp only [hsync, Bool.false_eq_true, if_false]
      cases hb : w.batch with
      | none =>
        dsimp only
        rw [ih (index + 1) size _ rfl]
        omega
      | some batch =>
        dsimp only
        by_cases hbig : size + WriteBatchInternal.ByteSize batch > max_size
        · simp [hbig, h]
        · simp only [hbig, if_false]
          rw [ih (index + 1) _ _ rfl]
          omega

theorem groupTail_le (first : DBImpl.Writer) (max_size : Nat) (iter : List DBImpl.Writer) :
    ∀ size, DBImpl.groupTail first max_size iter size ≤ iter.length := by
  induction iter with
  | nil => intro size; simp [DBImpl.groupTail]
  | cons w iter ih =>
    intro size
    rw [DBImpl.groupTail]
    split_ifs
    · omega
    · cases hb : w.batch with
      | none => have := ih size; simp only [List.length_cons]; omega
      | some batch =>
        dsimp only
        split_ifs
        · omega
        · have := ih (size + WriteBatchInternal.ByteSize batch)
          simp only [List.length_cons]; omega

/-- No writer taken into the group behind a non-sync leader is a sync writer. -/
theorem groupTail_sync (first : DBImpl.Writer) (max_size : Nat) (iter : List DBImpl.Writer) :
    ∀ size, ∀ w ∈ iter.take (DBImpl.groupTail first max_size iter size),
      (w.sync && !first.sync) = false := by
  induction iter with
  | nil => intro size w hw; simp at hw
  | cons x iter ih =>
    intro size w hw
    rw [DBImpl.groupTail] at hw
    by_cases hsync : (x.sync && !first.sync) = true
    · simp [hsync] at hw
    · simp only [hsync, Bool.false_eq_true, if_false] at hw
      have hx : (x.sync && !first.sync) = false := by simpa using hsync
      cases hb : x.batch with
      | none =>
        rw [hb] at hw
        dsimp only at hw
        rw [List.take_succ_cons] at hw
        rcases List.mem_cons.mp hw with rfl | hw'
        · exact hx
        · exact ih _ w hw'
      | some batch =>
        rw [hb] at hw
        dsimp only at hw
        split_ifs at hw
        · simp at hw
        · rw [List.take_succ_cons] at hw
          rcases List.mem_cons.mp hw with rfl | hw'
          · exact hx
          · exact ih _ w hw'

/-- Once a batch has been merged the running size is at most `max_size`. -/
theorem groupTail_sizes (first : DBImpl.Writer) (max_size : Nat) (iter : List DBImpl.Writer) :
    ∀ size, (∀ w ∈ iter.take (DBImpl.groupTail first max_size iter size), w.batch = none) ∨
      size + batchSizes (iter.take (DBImpl.groupTail first max_size iter size)) ≤ max_size := by
  induction iter with
  | nil => intro size; left; intro w hw; simp at hw
  | cons x iter ih =>
    intro size
    rw [DBImpl.groupTail]
    by_cases hsync : (x.sync && !first.sync) = true
    · left; intro w hw; simp [hsync] at hw
    · simp only [hsync, Bool.false_eq_true, if_false]
      cases hb : x.batch with
      | none =>
        dsimp only
        rw [List.take_succ_cons]
        rcases ih size with h | h
        · left
          intro w hw
          rcases List.mem_cons.mp hw with rfl | hw'
          · exact hb
          · exact h w hw'
        · right
          simpa [batchSizes, hb] using h
      | some batch =>
        dsimp only
        by_cases hbig : size + WriteBatchInternal.ByteSize batch > max_size
        · left; intro w hw; simp [hbig] at hw
        · simp only [hbig, if_false]
          rw [List.take_succ_cons]
          right
          rcases ih (size + WriteBatchInternal.ByteSize batch) with h | h
          · have h0 : batchSizes (iter.take (DBImpl.groupTail first max_size iter
                (size + WriteBatchInternal.ByteSize batch))) = 0 := by
              unfold batchSizes
              apply List.sum_eq_zero
              intro n hn
              obtain ⟨w, hw, rfl⟩ := List.mem_map.mp hn
              rw [h w hw]
            simp only [batchSizes, List.map_cons, List.sum_cons, hb] at h0 ⊢
            omega
          · simp only [batchSizes, List.map_cons, List.sum_cons, hb] at h ⊢
            omega

/-- The batch the loop leaves in `result`. -/
theorem BuildBatchGroup_loop_result (first : DBImpl.Writer) (first_batch : WriteBatch)
    (max_size : Nat) (iter : List DBImpl.Writer) :
    ∀ (index size : Nat) (g : BatchGroup),
    (g.result_is_tmp = true → g.result = g.tmp_batch_ ∧ kHeader ≤ g.tmp_batch_.rep_.length) →
    (g.result_is_tmp = false → g.result = first_batch ∧ g.tmp_batch_.rep_.length = kHeader) →
    ((DBImpl.BuildBatchGroup_loop first first_batch max_size iter index size g).result_is_tmp
        = false →
      (DBImpl.BuildBatchGroup_loop first first_batch max_size iter index size g).result
        = first_batch) ∧
    ((∀ w ∈ iter.take (DBImpl.groupTail first max_size iter size), w.batch = none) →
      (DBImpl.BuildBatchGroup_loop first first_batch max_size iter index size g).result
        = g.result) ∧
    ((DBImpl.BuildBatchGroup_loop first first_batch max_size iter index size g).result_is_tmp
        = true →
      kHeader ≤ (DBImpl.BuildBatchGroup_loop first first_batch max_size iter index size
        g).result.rep_.length) ∧
    (DBImpl.BuildBatchGroup_loop first first_batch max_size iter index size g).result.rep_.drop
        kHeader
      = g.result.rep_.drop kHeader ++
          batchRecords (iter.take (DBImpl.groupTail first max_size iter size)) := by
  induction iter with
  | nil =>
    intro index size g ht hf
    simp only [DBImpl.BuildBatchGroup_loop, DBImpl.groupTail, List.take_nil, batchRecords,
      List.flatMap_nil, List.append_nil, implies_true, and_true, true_and]
    exact ⟨fun h => (hf h).1, fun h => by rw [(ht h).1]; exact (ht h).2⟩
  | cons w iter ih =>
    intro index size g ht hf
    rw [DBImpl.BuildBatchGroup_loop, DBImpl.groupTail]
    by_cases hsync : (w.sync && !first.sync) = true
    · simp only [hsync, if_true, List.take_zero, batchRecords, List.flatMap_nil,
        List.append_nil, implies_true, and_true, true_and]
      exact ⟨fun h => (hf h).1, fun h => by rw [(ht h).1]; exact (ht h).2⟩
    · simp only [hsync, Bool.false_eq_true, if_false]
      cases hb : w.batch with
      | none =>
        dsimp only
        obtain ⟨r1, r2, r3, r4⟩ := ih (index + 1) size { g with last_writer := index } ht hf
        rw [List.take_succ_cons]
        refine ⟨r1, ?_, r3, ?_⟩
        · intro h
          exact r2 (fun x hx => h x (List.mem_cons_of_mem _ hx))
        · rw [r4]
          simp [batchRecords, hb]
      | some batch =>
        dsimp only
        by_cases hbig : size + WriteBatchInternal.ByteSize batch > max_size
        · simp only [hbig, if_true, List.take_zero, batchRecords, List.flatMap_nil,
            List.append_nil, implies_true, and_true, true_and]
          exact ⟨fun h => (hf h).1, fun h => by rw [(ht h).1]; exact (ht h).2⟩
        · simp only [hbig, if_false]
          have htmp1 : kHeader ≤ (if g.result_is_tmp = true then g.tmp_batch_
              else WriteBatchInternal.Append g.tmp_batch_ first_batch).rep_.length := by
            split_ifs with h
            · exact (ht h).2
            · have h' : g.result_is_tmp = false := by simpa using h
              rw [(Append_rep_length _ _ (le_of_eq (hf h').2.symm)).1, (hf h').2]
              omega
          have hdrop1 : (if g.result_is_tmp = true then g.tmp_batch_
              else WriteBatchInternal.Append g.tmp_batch_ first_batch).rep_.drop kHeader
              = g.result.rep_.drop kHeader := by
            split_ifs with h
            · rw [(ht h).1]
            · have h' : g.result_is_tmp = false := by simpa using h
              rw [(Append_rep_length _ _ (le_of_eq (hf h').2.symm)).2, (hf h').1,
                List.drop_of_length_le (le_of_eq (hf h').2)]
              simp
          obtain ⟨r1, r2, r3, r4⟩ := ih (index + 1) (size + WriteBatchInternal.ByteSize batch)
            { result := WriteBatchInternal.Append (if g.result_is_tmp = true then g.tmp_batch_
                else WriteBatchInternal.Append g.tmp_batch_ first_batch) batch,
              result_is_tmp := true,
              tmp_batch_ := WriteBatchInternal.Append (if g.result_is_tmp = true then
                g.tmp_batch_ else WriteBatchInternal.Append g.tmp_batch_ first_batch) batch,
              last_writer := index }
            (fun _ => ⟨rfl, by rw [(Append_rep_length _ _ htmp1).1]; omega⟩)
            (fun h => by simp at h)
          rw [List.take_succ_cons]
          refine ⟨r1, ?_, r3, ?_⟩
          · intro h
            have := h w (List.mem_cons_self _ _)
            rw [hb] at this
            simp at this
          · rw [r4]
            dsimp only
            rw [(Append_rep_length _ _ htmp1).2, hdrop1]
            simp [batchRecords, hb]
theorem batchSizes_take_le (ws : List DBImpl.Writer) :
    ∀ k, batchSizes (ws.take k) ≤ batchSizes ws := by
  induction ws with
  | nil => intro k; simp [batchSizes]
  | cons w ws ih =>
    intro k
    cases k with
    | zero => simp [batchSizes]
    | succ k =>
      have := ih k
      simp only [batchSizes, List.take_succ_cons, List.map_cons, List.sum_cons] at this ⊢
      omega

theorem batchRecords_length_le (ws : List DBImpl.Writer) :
    ∀ a b : Nat, a ≤ max 12 b →
      a + (batchRecords ws).length ≤ max 12 (b + batchSizes ws) := by
  induction ws with
  | nil => intro a b h; simpa [batchRecords, batchSizes] using h
  | cons w ws ih =>
    intro a b h
    cases hb : w.batch with
    | none =>
      have := ih a b h
      simp only [batchRecords, batchSizes, List.flatMap_cons, List.map_cons, List.sum_cons, hb,
        List.nil_append, Nat.zero_add] at this ⊢
      exact this
    | some batch =>
      have := ih (a + (batch.rep_.length - 12)) (b + batch.rep_.length) (by omega)
      simp only [batchRecords, batchSizes, List.flatMap_cons, List.map_cons, List.sum_cons, hb,
        List.length_append, List.length_drop, kHeader, WriteBatchInternal.ByteSize] at this ⊢
      omega

theorem BuildBatchGroup_last_writer (db : DBImpl) (first : DBImpl.Writer)
    (first_batch : WriteBatch) (rest : List DBImpl.Writer) :
    (db.BuildBatchGroup first first_batch rest).last_writer
      = DBImpl.groupTail first
          (if WriteBatchInternal.ByteSize first_batch ≤ 128 <<< 10
            then WriteBatchInternal.ByteSize first_batch + (128 <<< 10) else 1 <<< 20)
          rest (WriteBatchInternal.ByteSize first_batch) := by
  have h := BuildBatchGroup_loop_last_writer first first_batch
    (if WriteBatchInternal.ByteSize first_batch ≤ 128 <<< 10
      then WriteBatchInternal.ByteSize first_batch + (128 <<< 10) else 1 <<< 20)
    rest 1 (WriteBatchInternal.ByteSize first_batch)
    { result := first_batch, result_is_tmp := false, tmp_batch_ := db.tmp_batch_,
      last_writer := 0 } rfl
  simp only [DBImpl.BuildBatchGroup]
  omega

/-- C18: group-commit size bound.  For a queue `first :: rest` whose front
writer has the batch `first_batch` of serialized size `s1`, with `max_size`
being `s1 + 128 KiB` when `s1 ≤ 128 KiB` and 1 MiB otherwise: when
`BuildBatchGroup` merged some batch behind the first, every running sum of the
serialized sizes of the first batch and of the batches of the writers taken so
far is at most `max_size`; and (with `tmp_batch_` cleared, as `Write` leaves
it) the combined batch is at most `max s1 max_size` bytes long. -/
theorem group_commit_size_bound (db : DBImpl) (first : DBImpl.Writer)
    (first_batch : WriteBatch) (rest : List DBImpl.Writer)
    (htmp : db.tmp_batch_.rep_.length = kHeader) :
    ((∃ w ∈ rest.take (db.BuildBatchGroup first first_batch rest).last_writer,
        w.batch ≠ none) →
      ∀ k ≤ (db.BuildBatchGroup first first_batch rest).last_writer,
        WriteBatchInternal.ByteSize first_batch + batchSizes (rest.take k)
          ≤ (if WriteBatchInternal.ByteSize first_batch ≤ 128 * 1024
              then WriteBatchInternal.ByteSize first_batch + 128 * 1024 else 1024 * 1024)) ∧
    WriteBatchInternal.ByteSize (db.BuildBatchGroup first first_batch rest).result
      ≤ max (WriteBatchInternal.ByteSize first_batch)
          (if WriteBatchInternal.ByteSize first_batch ≤ 128 * 1024
            then WriteBatchInternal.ByteSize first_batch + 128 * 1024 else 1024 * 1024) := by
  have e1 : (128 <<< 10 : Nat) = 128 * 1024 := by decide
  have e2 : (1 <<< 20 : Nat) = 1024 * 1024 := by decide
  have hl := BuildBatchGroup_last_writer db first first_batch rest
  have hs := groupTail_sizes first
    (if WriteBatchInternal.ByteSize first_batch ≤ 128 <<< 10
      then WriteBatchInternal.ByteSize first_batch + (128 <<< 10) else 1 <<< 20)
    rest (WriteBatchInternal.ByteSize first_batch)
  obtain ⟨r1, r2, r3, r4⟩ := BuildBatchGroup_loop_result first first_batch
    (if WriteBatchInternal.ByteSize first_batch ≤ 128 <<< 10
      then WriteBatchInternal.ByteSize first_batch + (128 <<< 10) else 1 <<< 20)
    rest 1 (WriteBatchInternal.ByteSize first_batch)
    { result := first_batch, result_is_tmp := false, tmp_batch_ := db.tmp_batch_,
      last_writer := 0 } (fun h => by simp at h) (fun _ => ⟨rfl, htmp⟩)
  rw [← hl] at hs r2 r4
  rw [e1, e2] at hs
  have hg : DBImpl.BuildBatchGroup_loop first first_batch
      (if WriteBatchInternal.ByteSize first_batch ≤ 128 <<< 10
        then WriteBatchInternal.ByteSize first_batch + (128 <<< 10) else 1 <<< 20)
      rest 1 (WriteBatchInternal.ByteSize first_batch)
      { result := first_batch, result_is_tmp := false, tmp_batch_ := db.tmp_batch_,
        last_writer := 0 } = db.BuildBatchGroup first first_batch rest := rfl
  rw [hg] at r1 r2 r3 r4
  constructor
  · rintro ⟨w, hw, hne⟩ k hk
    rcases hs with h | h
    · exact absurd (h w hw) hne
    · have hk2 := batchSizes_take_le
        (rest.take (db.BuildBatchGroup first first_batch rest).last_writer) k
      rw [List.take_take, Nat.min_eq_left hk] at hk2
      omega
  · rcases hs with h | h
    · rw [r2 h]
      exact le_max_left _ _
    · cases hr : (db.BuildBatchGroup first first_batch rest).result_is_tmp with
      | false =>
        rw [r1 hr]
        exact le_max_left _ _
      | true =>
        have h3 := r3 hr
        have h4 := congrArg List.length r4
        have h5 := batchRecords_length_le
          (rest.take (db.BuildBatchGroup first first_batch rest).last_writer)
          (12 + (first_batch.rep_.length - 12)) first_batch.rep_.length (by omega)
        simp only [List.length_append, List.length_drop, kHeader,
          WriteBatchInternal.ByteSize] at h3 h4 h5 h ⊢
        split_ifs at h ⊢ <;> omega

theorem group_commit_size_bound_witness :
    exampleDb.tmp_batch_.rep_.length = kHeader ∧
    ((∃ w ∈ [examplePutWriter].take
          (exampleDb.BuildBatchGroup examplePutWriter (WriteBatch.new.Put [97] [98])
            [examplePutWriter]).last_writer, w.batch ≠ none) →
      ∀ k ≤ (exampleDb.BuildBatchGroup examplePutWriter (WriteBatch.new.Put [97] [98])
            [examplePutWriter]).last_writer,
        WriteBatchInternal.ByteSize (WriteBatch.new.Put [97] [98])
            + batchSizes ([examplePutWriter].take k)
          ≤ (if WriteBatchInternal.ByteSize (WriteBatch.new.Put [97] [98]) ≤ 128 * 1024
              then WriteBatchInternal.ByteSize (WriteBatch.new.Put [97] [98]) + 128 * 1024
              else 1024 * 1024)) ∧
    WriteBatchInternal.ByteSize (exampleDb.BuildBatchGroup examplePutWriter
        (WriteBatch.new.Put [97] [98]) [examplePutWriter]).result
      ≤ max (WriteBatchInternal.ByteSize (WriteBatch.new.Put [97] [98]))
          (if WriteBatchInternal.ByteSize (WriteBatch.new.Put [97] [98]) ≤ 128 * 1024
            then WriteBatchInternal.ByteSize (WriteBatch.new.Put [97] [98]) + 128 * 1024
            else 1024 * 1024) :=
  ⟨by decide, group_commit_size_bound exampleDb examplePutWriter (WriteBatch.new.Put [97] [98])
    [examplePutWriter] (by decide)⟩
theorem RecordBackgroundError_log (db : DBImpl) (s : Status) :
    (db.RecordBackgroundError s).log_ = db.log_ := by
  unfold DBImpl.RecordBackgroundError
  split_ifs <;> rfl

theorem BuildBatchGroup_members_sync (db : DBImpl) (first : DBImpl.Writer)
    (first_batch : WriteBatch) (rest : List DBImpl.Writer) (hfirst : first.sync = false) :
    ∀ w ∈ (db.BuildBatchGroup first first_batch rest).members first rest, w.sync = false := by
  intro w hw
  unfold BatchGroup.members at hw
  rcases List.mem_cons.mp hw with rfl | hw'
  · exact hfirst
  · rw [BuildBatchGroup_last_writer] at hw'
    have := groupTail_sync first _ rest _ w hw'
    simpa [hfirst] using this

/-- C19: group commit never weakens durability.  For a queue `first :: rest`
whose front writer is non-sync, no writer from the front through
`*last_writer` chosen by `BuildBatchGroup` has `sync` set.  Hence, when the
append of the group's batch to the log succeeded, `Write` calls `Sync` on the
log file if some member of the group requested sync, and leaves the file as
`AddRecord` left it if none did. -/
theorem group_commit_keeps_durability (db : DBImpl) (first : DBImpl.Writer)
    (first_batch : WriteBatch) (rest : List DBImpl.Writer)
    (r1 : Status × log.Writer × List log.PhysicalRecord)
    (hq : db.writers_ = first :: rest) (hb : first.batch = some first_batch)
    (hr1 : r1 = db.log_.AddRecord (WriteBatchInternal.Contents
      (WriteBatchInternal.SetSequence (db.BuildBatchGroup first first_batch rest).result
        ((db.last_sequence + 1) % 2 ^ 64))))
    (hok : r1.1.ok = true) :
    (first.sync = false →
      ∀ w ∈ (db.BuildBatchGroup first first_batch rest).members first rest, w.sync = false) ∧
    ((∃ w ∈ (db.BuildBatchGroup first first_batch rest).members first rest, w.sync = true) →
      (db.Write_leader Status.OK).db.log_ = { r1.2.1 with dest_ := r1.2.1.dest_.Sync.2 }) ∧
    ((∀ w ∈ (db.BuildBatchGroup first first_batch rest).members first rest, w.sync = false) →
      (db.Write_leader Status.OK).db.log_ = r1.2.1) := by
  have hlog : (db.Write_leader Status.OK).db.log_
      = { r1.2.1 with dest_ := (if r1.1.ok && first.sync then r1.2.1.dest_.Sync
            else (r1.1, r1.2.1.dest_)).2 } := by
    subst hr1
    simp only [DBImpl.Write_leader, hq, hb, Status.ok]
    split_ifs <;> simp only [RecordBackgroundError_log]
  refine ⟨BuildBatchGroup_members_sync db first first_batch rest, ?_, ?_⟩
  · rintro ⟨w, hw, hs⟩
    have hf : first.sync = true := by
      by_contra hc
      have hc' : first.sync = false := by simpa using hc
      have := BuildBatchGroup_members_sync db first first_batch rest hc' w hw
      rw [hs] at this
      exact absurd this (by decide)
    rw [hlog, hok, hf]
    rfl
  · intro h
    have hf : first.sync = false := h first (List.mem_cons_self _ _)
    rw [hlog, hok, hf]
    rfl

theorem group_commit_keeps_durability_witness :
    (exampleSyncWriter.sync = false →
      ∀ w ∈ (exampleSyncDb.BuildBatchGroup exampleSyncWriter (WriteBatch.new.Put [97] [98])
        []).members exampleSyncWriter [], w.sync = false) ∧
    ((∃ w ∈ (exampleSyncDb.BuildBatchGroup exampleSyncWriter (WriteBatch.new.Put [97] [98])
        []).members exampleSyncWriter [], w.sync = true) →
      (exampleSyncDb.Write_leader Status.OK).db.log_
        = { (exampleSyncDb.log_.AddRecord (WriteBatchInternal.Contents
              (WriteBatchInternal.SetSequence
                (exampleSyncDb.BuildBatchGroup exampleSyncWriter (WriteBatch.new.Put [97] [98])
                  []).result ((exampleSyncDb.last_sequence + 1) % 2 ^ 64)))).2.1 with
            dest_ := (exampleSyncDb.log_.AddRecord (WriteBatchInternal.Contents
              (WriteBatchInternal.SetSequence
                (exampleSyncDb.BuildBatchGroup exampleSyncWriter (WriteBatch.new.Put [97] [98])
                  []).result
                ((exampleSyncDb.last_sequence + 1) % 2 ^ 64)))).2.1.dest_.Sync.2 }) ∧
    ((∀ w ∈ (exampleSyncDb.BuildBatchGroup exampleSyncWriter (WriteBatch.new.Put [97] [98])
        []).members exampleSyncWriter [], w.sync = false) →
      (exampleSyncDb.Write_leader Status.OK).db.log_
        = (exampleSyncDb.log_.AddRecord (WriteBatchInternal.Contents
            (WriteBatchInternal.SetSequence
              (exampleSyncDb.BuildBatchGroup exampleSyncWriter (WriteBatch.new.Put [97] [98])
                []).result ((exampleSyncDb.last_sequence + 1) % 2 ^ 64)))).2.1) :=
  group_commit_keeps_durability exampleSyncDb exampleSyncWriter (WriteBatch.new.Put [97] [98]) []
    _ rfl rfl rfl (by
      have h := (log.AddRecord_loop_framing _ exampleSyncDb.log_
        (WriteBatchInternal.Contents (WriteBatchInternal.SetSequence
          (exampleSyncDb.BuildBatchGroup exampleSyncWriter (WriteBatch.new.Put [97] [98])
            []).result ((exampleSyncDb.last_sequence + 1) % 2 ^ 64)))
        true (le_refl _) (by simp [WritableFile.reliable, exampleSyncDb, log.Writer.new])).1
      unfold log.Writer.AddRecord
      rw [h]
      rfl)
/-- C20: a writer with a null batch behind the front writer joins the group.
For a queue `first :: rest` with `tmp_batch_` cleared, `Write` removes the
writers from the front through `*last_writer` and completes those behind the
front with its status; a member with a null batch adds nothing to the combined
batch, whose records are those of the first batch followed by those of the
non-null batches of the members behind it, in order. -/
theorem group_batch_records (db : DBImpl) (first : DBImpl.Writer)
    (first_batch : WriteBatch) (rest : List DBImpl.Writer)
    (hq : db.writers_ = first :: rest) (hb : first.batch = some first_batch)
    (htmp : db.tmp_batch_.rep_.length = kHeader) :
    (db.BuildBatchGroup first first_batch rest).result.rep_.drop kHeader
      = first_batch.rep_.drop kHeader
          ++ batchRecords (rest.take (db.BuildBatchGroup first first_batch rest).last_writer) ∧
    (db.Write_leader Status.OK).db.writers_
      = rest.drop (db.BuildBatchGroup first first_batch rest).last_writer ∧
    (db.Write_leader Status.OK).completed
      = first :: (rest.take (db.BuildBatchGroup first first_batch rest).last_writer).map
          (fun ready =>
            { ready with status := (db.Write_leader Status.OK).status, done := true }) := by
  obtain ⟨-, -, -, r4⟩ := BuildBatchGroup_loop_result first first_batch
    (if WriteBatchInternal.ByteSize first_batch ≤ 128 <<< 10
      then WriteBatchInternal.ByteSize first_batch + (128 <<< 10) else 1 <<< 20)
    rest 1 (WriteBatchInternal.ByteSize first_batch)
    { result := first_batch, result_is_tmp := false, tmp_batch_ := db.tmp_batch_,
      last_writer := 0 } (fun h => by simp at h) (fun _ => ⟨rfl, htmp⟩)
  rw [← BuildBatchGroup_last_writer db first first_batch rest] at r4
  refine ⟨r4, ?_, ?_⟩
  · simp only [DBImpl.Write_leader, hq, hb, Status.ok]
    rfl
  · simp only [DBImpl.Write_leader, hq, hb, Status.ok]
    rfl

theorem group_batch_records_witness :
    exampleQueueDb.tmp_batch_.rep_.length = kHeader ∧
    (exampleQueueDb.BuildBatchGroup examplePutWriter (WriteBatch.new.Put [97] [98])
        [exampleNullWriter]).result.rep_.drop kHeader
      = (WriteBatch.new.Put [97] [98]).rep_.drop kHeader
          ++ batchRecords ([exampleNullWriter].take
              (exampleQueueDb.BuildBatchGroup examplePutWriter (WriteBatch.new.Put [97] [98])
                [exampleNullWriter]).last_writer) ∧
    (exampleQueueDb.Write_leader Status.OK).db.writers_
      = [exampleNullWriter].drop
          (exampleQueueDb.BuildBatchGroup examplePutWriter (WriteBatch.new.Put [97] [98])
            [exampleNullWriter]).last_writer ∧
    (exampleQueueDb.Write_leader Status.OK).completed
      = examplePutWriter :: ([exampleNullWriter].take
          (exampleQueueDb.BuildBatchGroup examplePutWriter (WriteBatch.new.Put [97] [98])
            [exampleNullWriter]).last_writer).map
          (fun ready =>
            { ready with status := (exampleQueueDb.Write_leader Status.OK).status,
                         done := true }) :=
  ⟨by decide, group_batch_records exampleQueueDb examplePutWriter (WriteBatch.new.Put [97] [98])
    [exampleNullWriter] rfl rfl (by decide)⟩

/-- C20 fails on the queue of `exampleQueueDb`: the group chosen by
`BuildBatchGroup` is both writers, the second of which has a null batch, and
`Write` takes both off the queue and marks the second as done. -/
theorem group_contains_null_batch :
    (exampleQueueDb.BuildBatchGroup examplePutWriter (WriteBatch.new.Put [97] [98])
        [exampleNullWriter]).members examplePutWriter [exampleNullWriter]
      = [examplePutWriter, exampleNullWriter] ∧
    exampleNullWriter.batch = none ∧
    (exampleQueueDb.Write_leader Status.OK).db.writers_ = [] ∧
    (exampleQueueDb.Write_leader Status.OK).completed.map DBImpl.Writer.batch
      = [some (WriteBatch.new.Put [97] [98]), none] ∧
    (exampleQueueDb.Write_leader Status.OK).completed.map DBImpl.Writer.done
      = [false, true] := by
  refine ⟨by decide, rfl, by decide, by decide, by decide⟩

namespace log

theorem switchBlock_offset (w : Writer) :
    w.switchBlock.block_offset_ + kHeaderSize ≤ kBlockSize ∧
    (w.switchBlock.block_offset_ = 0 ∨ w.switchBlock.block_offset_ = w.block_offset_) := by
  unfold Writer.switchBlock
  dsimp only
  split_ifs with h1 h2
  · exact ⟨by simp [kHeaderSize, kBlockSize], Or.inl rfl⟩
  · exact ⟨by simp [kHeaderSize, kBlockSize], Or.inl rfl⟩
  · refine ⟨?_, Or.inr rfl⟩
    simp only [kHeaderSize, kBlockSize] at h1 ⊢
    omega

theorem EmitPhysicalRecord_offset (w : Writer) (t : RecordType) (payload : Bytes) :
    (w.EmitPhysicalRecord t payload).2.block_offset_
      = w.block_offset_ + kHeaderSize + payload.length := rfl

/-- The iterations of the loop are the calls of `EmitPhysicalRecord` it makes;
each call is made on the writer that `switchBlock` leaves, with a payload that
fits behind the header in the block, and every iteration but the first starts
inside the block. -/
theorem AddRecord_iterations_spec : ∀ (m : Nat) (w : Writer) (ptr : Bytes) (begin_ : Bool),
    2 * ptr.length + (if w.block_offset_ + kHeaderSize = kBlockSize then 1 else 0) ≤ m →
    (w.AddRecord_iterations ptr begin_).map (fun c => PhysicalRecord.mk c.type c.payload)
      = (w.AddRecord_loop ptr begin_).2.2 ∧
    (∃ c rest, w.AddRecord_iterations ptr begin_ = c :: rest ∧ c.head = w ∧
      ∀ d ∈ rest, d.head.block_offset_ ≤ kBlockSize) ∧
    ∀ c ∈ w.AddRecord_iterations ptr begin_,
      c.writer = c.head.switchBlock ∧
      c.writer.block_offset_ + kHeaderSize + c.payload.length ≤ kBlockSize := by
  intro m
  induction m using Nat.strong_induction_on with
  | _ m ih =>
    intro w ptr begin_ hm
    obtain ⟨s2, s3⟩ := switchBlock_offset w
    rw [Writer.AddRecord_iterations, Writer.AddRecord_loop]
    dsimp only
    generalize hfrag : (if ptr.length < kBlockSize - w.switchBlock.block_offset_ - kHeaderSize
      then ptr.length else kBlockSize - w.switchBlock.block_offset_ - kHeaderSize) = frag
    generalize htype : (if (begin_ && ptr.length == frag) = true then RecordType.kFullType
      else if begin_ = true then RecordType.kFirstType
      else if (ptr.length == frag) = true then RecordType.kLastType
      else RecordType.kMiddleType) = type
    have e3 := EmitPhysicalRecord_offset w.switchBlock type (ptr.take frag)
    generalize w.switchBlock.EmitPhysicalRecord type (ptr.take frag) = r at e3 ⊢
    simp only [kHeaderSize, kBlockSize] at s2 hm hfrag e3
    have hfit : w.switchBlock.block_offset_ + kHeaderSize + (ptr.take frag).length
        ≤ kBlockSize := by
      simp only [kHeaderSize, kBlockSize, List.length_take]
      split_ifs at hfrag <;> omega
    by_cases hc : r.1.ok = true ∧ ptr.length - frag > 0
    · rw [dif_pos hc, dif_pos hc]
      have hfa : frag = 32768 - w.switchBlock.block_offset_ - (4 + 2 + 1) := by
        split_ifs at hfrag <;> omega
      have hbo : r.2.block_offset_ = 32768 := by
        rw [e3, List.length_take]; omega
      have hmeasure : 2 * (ptr.drop frag).length +
          (if r.2.block_offset_ + kHeaderSize = kBlockSize then 1 else 0) < m := by
        rw [hbo, List.length_drop]
        simp only [kHeaderSize, kBlockSize]
        split_ifs at hm ⊢ <;> omega
      obtain ⟨i1, ⟨c, rest, i2, i3, i4⟩, i5⟩ :=
        ih _ hmeasure r.2 (ptr.drop frag) false (le_refl _)
      refine ⟨?_, ⟨_, _, rfl, rfl, ?_⟩, ?_⟩
      · simp only [List.map_cons, i1]
      · intro d hd
        rw [i2] at hd
        rcases List.mem_cons.mp hd with rfl | hd'
        · rw [i3, hbo]; simp [kBlockSize]
        · exact i4 d hd'
      · intro d hd
        rcases List.mem_cons.mp hd with rfl | hd'
        · exact ⟨rfl, hfit⟩
        · exact i5 d hd'
    · rw [dif_neg hc, dif_neg hc]
      refine ⟨rfl, ⟨_, _, rfl, rfl, by simp⟩, ?_⟩
      intro d hd
      rw [List.mem_singleton] at hd
      subst hd
      exact ⟨rfl, hfit⟩

end log
namespace log

/-- C15: WAL block padding.  In every iteration of the loop of `AddRecord`
(entered with `block_offset_` in `[0, 32768]`): if fewer than 7 bytes remain in
the current block, the writer on which `EmitPhysicalRecord` is called is at
block offset 0 and its file is the file after one `Append` of exactly that many
zero bytes (no call when 0 remain), which on a file that accepts the call adds
just those bytes; otherwise the writer is unchanged.  So the 7-byte header of
every record starts at a block offset of at most `32768 - 7`. -/
theorem block_padding (w : Writer) (slice : Bytes) (hoff : w.block_offset_ ≤ kBlockSize) :
    ∀ c ∈ w.AddRecord_iterations slice true,
      c.head.block_offset_ ≤ 32768 ∧
      (32768 - c.head.block_offset_ < 7 →
        c.writer.block_offset_ = 0 ∧
        c.writer.dest_
          = (if 32768 - c.head.block_offset_ > 0
              then (c.head.dest_.Append
                (List.replicate (32768 - c.head.block_offset_) 0)).2
              else c.head.dest_) ∧
        (c.head.dest_.reliable →
          c.writer.dest_.contents
            = c.head.dest_.contents ++ List.replicate (32768 - c.head.block_offset_) 0)) ∧
      (7 ≤ 32768 - c.head.block_offset_ → c.writer = c.head) ∧
      c.writer.block_offset_ + 7 ≤ 32768 := by
  obtain ⟨-, ⟨c0, rest, h1, h2, h3⟩, h4⟩ := AddRecord_iterations_spec _ w slice true (le_refl _)
  intro c hc
  have hhead : c.head.block_offset_ ≤ 32768 := by
    rw [h1] at hc
    rcases List.mem_cons.mp hc with rfl | hc'
    · rw [h2]; exact hoff
    · exact h3 c hc'
  obtain ⟨e1, -⟩ := h4 c hc
  have hs := (switchBlock_offset c.head).1
  rw [← e1] at hs
  refine ⟨hhead, ?_, ?_, hs⟩
  · intro hlt
    rw [e1]
    unfold Writer.switchBlock
    simp only [kBlockSize, kHeaderSize]
    rw [if_pos (by omega)]
    by_cases hpos : 32768 - c.head.block_offset_ > 0
    · rw [if_pos hpos, if_pos hpos]
      refine ⟨rfl, rfl, ?_⟩
      intro hrel
      exact (Append_reliable _ _ hrel).2.2
    · rw [if_neg hpos, if_neg hpos]
      refine ⟨rfl, rfl, ?_⟩
      intro _
      have : 32768 - c.head.block_offset_ = 0 := by omega
      rw [this]
      simp
  · intro hge
    rw [e1]
    unfold Writer.switchBlock
    simp only [kBlockSize, kHeaderSize]
    rw [if_neg (by omega)]

theorem block_padding_witness :
    (Writer.newAt ⟨[], []⟩ 32765).block_offset_ ≤ kBlockSize ∧
    ∀ c ∈ (Writer.newAt ⟨[], []⟩ 32765).AddRecord_iterations [1, 2, 3] true,
      c.head.block_offset_ ≤ 32768 ∧
      (32768 - c.head.block_offset_ < 7 →
        c.writer.block_offset_ = 0 ∧
        c.writer.dest_
          = (if 32768 - c.head.block_offset_ > 0
              then (c.head.dest_.Append
                (List.replicate (32768 - c.head.block_offset_) 0)).2
              else c.head.dest_) ∧
        (c.head.dest_.reliable →
          c.writer.dest_.contents
            = c.head.dest_.contents ++ List.replicate (32768 - c.head.block_offset_) 0)) ∧
      (7 ≤ 32768 - c.head.block_offset_ → c.writer = c.head) ∧
      c.writer.block_offset_ + 7 ≤ 32768 :=
  ⟨by decide, block_padding (Writer.newAt ⟨[], []⟩ 32765) [1, 2, 3] (by decide)⟩

/-- C16: no physical record crosses a block boundary.  For every record and
every starting block offset in `[0, 32768]`, the iterations of the loop are the
calls of `EmitPhysicalRecord` that `AddRecord` makes, and in each of them
`leftover = 32768 - block_offset_` is not negative, at least 7 bytes are left
in the block once it has been switched, `length ≤ 0xffff`, and
`block_offset_ + 7 + length ≤ 32768`: none of the assertions of `AddRecord` and
`EmitPhysicalRecord` fails. -/
theorem no_record_crosses_block (w : Writer) (slice : Bytes)
    (hoff : w.block_offset_ ≤ kBlockSize) :
    (w.AddRecord_iterations slice true).map (fun c => PhysicalRecord.mk c.type c.payload)
      = (w.AddRecord slice).2.2 ∧
    ∀ c ∈ w.AddRecord_iterations slice true,
      c.head.block_offset_ ≤ 32768 ∧
      c.writer = c.head.switchBlock ∧
      c.writer.block_offset_ + 7 ≤ 32768 ∧
      c.payload.length ≤ 0xffff ∧
      c.writer.block_offset_ + 7 + c.payload.length ≤ 32768 := by
  obtain ⟨h0, ⟨c0, rest, h1, h2, h3⟩, h4⟩ := AddRecord_iterations_spec _ w slice true (le_refl _)
  refine ⟨h0, ?_⟩
  intro c hc
  have hhead : c.head.block_offset_ ≤ 32768 := by
    rw [h1] at hc
    rcases List.mem_cons.mp hc with rfl | hc'
    · rw [h2]; exact hoff
    · exact h3 c hc'
  obtain ⟨e1, e2⟩ := h4 c hc
  simp only [kBlockSize, kHeaderSize] at e2
  exact ⟨hhead, e1, by omega, by omega, by omega⟩

theorem no_record_crosses_block_witness :
    (Writer.newAt ⟨[], []⟩ 32760).block_offset_ ≤ kBlockSize ∧
    (((Writer.newAt ⟨[], []⟩ 32760).AddRecord_iterations [1, 2, 3] true).map
        (fun c => PhysicalRecord.mk c.type c.payload)
      = ((Writer.newAt ⟨[], []⟩ 32760).AddRecord [1, 2, 3]).2.2 ∧
    ∀ c ∈ (Writer.newAt ⟨[], []⟩ 32760).AddRecord_iterations [1, 2, 3] true,
      c.head.block_offset_ ≤ 32768 ∧
      c.writer = c.head.switchBlock ∧
      c.writer.block_offset_ + 7 ≤ 32768 ∧
      c.payload.length ≤ 0xffff ∧
      c.writer.block_offset_ + 7 + c.payload.length ≤ 32768) :=
  ⟨by decide, no_record_crosses_block (Writer.newAt ⟨[], []⟩ 32760) [1, 2, 3] (by decide)⟩

end log

section CompactionOutputs

variable {K : Type} [LinearOrder K]

theorem CompactionOutput.Add_good {α : Type} (out : CompactionOutput α) (e : α)
    (h : out.entries = [] ∨ out.good) : (out.Add e).good := by
  unfold CompactionOutput.Add CompactionOutput.good
  refine ⟨by simp, ?_, by simp⟩
  rcases h with h | h
  · simp [h]
  · obtain ⟨h1, h2, -⟩ := h
    have hl : out.entries.length ≠ 0 := by
      intro hc; exact h1 (List.length_eq_zero.mp hc)
    rw [if_neg hl, h2]
    cases hent : out.entries with
    | nil => exact absurd hent h1
    | cons a l => simp

theorem FinishCompactionOutputFile_outputs {α : Type} (compact : CompactionState α) :
    (FinishCompactionOutputFile compact).outputs = compact.outputs := by
  simp [FinishCompactionOutputFile, CompactionState.outputs]

theorem CompactionState.add_spec {α : Type} (compact : CompactionState α) (e : α)
    (h : ∀ out ∈ compact.outputs, out.good) :
    (∀ out ∈ ({ (if compact.current.isNone = true then OpenCompactionOutputFile compact
          else compact) with
        current := (if compact.current.isNone = true then OpenCompactionOutputFile compact
          else compact).current.map (fun out => out.Add e) } : CompactionState α).outputs,
      out.good) ∧
    (({ (if compact.current.isNone = true then OpenCompactionOutputFile compact
          else compact) with
        current := (if compact.current.isNone = true then OpenCompactionOutputFile compact
          else compact).current.map (fun out => out.Add e) } :
        CompactionState α).outputs.map CompactionOutput.entries).flatten
      = (compact.outputs.map CompactionOutput.entries).flatten ++ [e] := by
  cases hcur : compact.current with
  | none =>
    simp only [CompactionState.outputs, hcur, OpenCompactionOutputFile, Option.isNone_none,
      if_true, Option.map_some', Option.toList_some, Option.toList_none, List.append_nil] at h ⊢
    constructor
    · intro out hout
      rcases List.mem_append.mp hout with h1 | h1
      · exact h out h1
      · rw [List.mem_singleton] at h1
        subst h1
        exact CompactionOutput.Add_good _ e (Or.inl rfl)
    · simp [CompactionOutput.Add]
  | some o =>
    simp only [CompactionState.outputs, hcur, Option.isNone_some, Bool.false_eq_true, if_false,
      Option.map_some', Option.toList_some] at h ⊢
    constructor
    · intro out hout
      rcases List.mem_append.mp hout with h1 | h1
      · exact h out (List.mem_append_left _ h1)
      · rw [List.mem_singleton] at h1
        subst h1
        exact CompactionOutput.Add_good _ e
          (Or.inr (h o (List.mem_append_right _ (List.mem_singleton_self _))))
    · simp [CompactionOutput.Add]

theorem DoCompactionWork_files_spec {α : Type} (parse : α → Option (ParsedInternalKey K))
    (isBase : K → Bool) (sm : Nat) (stop : List α → α → Bool) (size : List α → Nat)
    (maxSize : Nat) (input : List α) :
    ∀ (st : MergeState K) (seen : List α) (compact : CompactionState α),
    (∀ out ∈ compact.outputs, out.good) →
    (∀ out ∈ (DoCompactionWork_files parse isBase sm stop size maxSize st seen compact
        input).outputs, out.good) ∧
    ((DoCompactionWork_files parse isBase sm stop size maxSize st seen compact
        input).outputs.map CompactionOutput.entries).flatten
      = (compact.outputs.map CompactionOutput.entries).flatten
          ++ DoCompactionWork_loop parse isBase sm st input := by
  induction input with
  | nil =>
    intro st seen compact h
    simp only [DoCompactionWork_files, DoCompactionWork_loop, List.append_nil, and_true]
    exact h
  | cons e input ih =>
    intro st seen compact h
    rw [DoCompactionWork_files, DoCompactionWork_loop]
    dsimp only
    generalize hc1 : (if (stop seen e && compact.current.isSome) = true then
      FinishCompactionOutputFile compact else compact) = compact1
    have h1 : compact1.outputs = compact.outputs := by
      subst hc1
      split_ifs
      · exact FinishCompactionOutputFile_outputs _
      · rfl
    generalize (DoCompactionWork_drop isBase sm st (parse e)) = r
    cases hr : r.1 with
    | true =>
      simp only [if_true]
      have := ih r.2 (seen ++ [e]) compact1 (by rw [h1]; exact h)
      rw [h1] at this
      exact this
    | false =>
      simp only [Bool.false_eq_true, if_false]
      obtain ⟨a1, a2⟩ := CompactionState.add_spec compact1 e (by rw [h1]; exact h)
      rw [h1] at a2
      generalize ({ (if compact1.current.isNone = true then OpenCompactionOutputFile compact1
          else compact1) with
        current := (if compact1.current.isNone = true then OpenCompactionOutputFile compact1
          else compact1).current.map (fun out => out.Add e) } : CompactionState α)
        = compact3 at a1 a2 ⊢
      generalize hc4 : (if size compact3.builderEntries ≥ maxSize then
        FinishCompactionOutputFile compact3 else compact3) = compact4
      have h4 : compact4.outputs = compact3.outputs := by
        subst hc4
        split_ifs
        · exact FinishCompactionOutputFile_outputs _
        · rfl
      obtain ⟨b1, b2⟩ := ih r.2 (seen ++ [e]) compact4 (by rw [h4]; exact a1)
      refine ⟨b1, ?_⟩
      rw [b2, h4, a2]
      simp

/-- The entries the merge loop emits are in internal-key order, and of two
emitted entries for one user key the earlier has a sequence above the smallest
snapshot. -/
theorem DoCompactionWork_loop_pairwise (isBase : K → Bool) (sm : Nat)
    (l : List (ParsedEntry K)) : ∀ (st : MergeState K),
    l.Pairwise (fun a b => InternalKeyLE a.1 b.1) →
    (DoCompactionWork_loop (fun x : ParsedEntry K => some x.1) isBase sm st l).Pairwise
      (fun a b => InternalKeyLE a.1 b.1 ∧ (a.1.user_key = b.1.user_key → sm < a.1.sequence)) := by
  induction l with
  | nil => intro st _; simp [DoCompactionWork_loop]
  | cons e l ih =>
    intro st hs
    have hs2 := (List.pairwise_cons.mp hs).2
    rw [DoCompactionWork_loop_cons]
    split_ifs
    · exact ih _ hs2
    · refine List.pairwise_cons.mpr ⟨?_, ih _ hs2⟩
      intro x hx
      refine ⟨(List.pairwise_cons.mp hs).1 x (DoCompactionWork_loop_subset _ _ _ _ _ hx), ?_⟩
      intro hk
      by_contra hc
      exact DoCompactionWork_loop_hidden isBase sm e.1.user_key l e hs rfl (by omega) x hx hk.symm


/-- C14: the output files of a compaction are in internal-key order, and may
share a boundary user key.  For an input in internal-key order whose keys all
parse, whatever `ShouldStopBefore`, `FileSize` and `MaxOutputFileSize` are: the
outputs of `DoCompactionWork` hold the emitted entries in order, each output
holds at least one entry, with `smallest` the key of its first and `largest`
the key of its last; and for any two outputs, the largest key `a` of the earlier
and the smallest key `b` of the later satisfy `a.user_key ≤ b.user_key`, are in
internal-key order, and have the same user key only if the sequence of `a` is
above `smallest_snapshot`. -/
theorem compaction_outputs_ordered (IsBaseLevelForKey : K → Bool) (smallest_snapshot : Nat)
    (ShouldStopBefore : List (ParsedEntry K) → ParsedEntry K → Bool)
    (FileSize : List (ParsedEntry K) → Nat) (MaxOutputFileSize : Nat)
    (input : List (ParsedEntry K))
    (hsorted : input.Pairwise (fun a b => InternalKeyLE a.1 b.1)) :
    ((DoCompactionWork_outputs (fun x : ParsedEntry K => some x.1) IsBaseLevelForKey
        smallest_snapshot ShouldStopBefore FileSize MaxOutputFileSize input).map
        CompactionOutput.entries).flatten
      = DoCompactionWork_loop (fun x : ParsedEntry K => some x.1) IsBaseLevelForKey
          smallest_snapshot MergeState.initial input ∧
    (∀ out ∈ DoCompactionWork_outputs (fun x : ParsedEntry K => some x.1) IsBaseLevelForKey
        smallest_snapshot ShouldStopBefore FileSize MaxOutputFileSize input,
      out.entries ≠ [] ∧ out.smallest = out.entries.head? ∧
        out.largest = out.entries.getLast?) ∧
    (DoCompactionWork_outputs (fun x : ParsedEntry K => some x.1) IsBaseLevelForKey
        smallest_snapshot ShouldStopBefore FileSize MaxOutputFileSize input).Pairwise
      (fun o1 o2 => ∃ a b, o1.largest = some a ∧ o2.smallest = some b ∧
        a.1.user_key ≤ b.1.user_key ∧ InternalKeyLE a.1 b.1 ∧
        (a.1.user_key = b.1.user_key → smallest_snapshot < a.1.sequence)) := by
  obtain ⟨g1, g2⟩ := DoCompactionWork_files_spec (fun x : ParsedEntry K => some x.1)
    IsBaseLevelForKey smallest_snapshot ShouldStopBefore FileSize MaxOutputFileSize input
    MergeState.initial [] { finished := [], current := none }
    (by intro out hout; simp [CompactionState.outputs] at hout)
  have houts : DoCompactionWork_outputs (fun x : ParsedEntry K => some x.1) IsBaseLevelForKey
      smallest_snapshot ShouldStopBefore FileSize MaxOutputFileSize input
      = (DoCompactionWork_files (fun x : ParsedEntry K => some x.1) IsBaseLevelForKey
          smallest_snapshot ShouldStopBefore FileSize MaxOutputFileSize MergeState.initial []
          { finished := [], current := none } input).outputs := by
    unfold DoCompactionWork_outputs
    dsimp only
    split_ifs
    · exact FinishCompactionOutputFile_outputs _
    · rfl
  rw [houts]
  have g3 : ((DoCompactionWork_files (fun x : ParsedEntry K => some x.1) IsBaseLevelForKey
      smallest_snapshot ShouldStopBefore FileSize MaxOutputFileSize MergeState.initial []
      { finished := [], current := none } input).outputs.map CompactionOutput.entries).flatten
      = DoCompactionWork_loop (fun x : ParsedEntry K => some x.1) IsBaseLevelForKey
          smallest_snapshot MergeState.initial input := by
    rw [g2]; simp [CompactionState.outputs]
  refine ⟨g3, g1, ?_⟩
  have hp := DoCompactionWork_loop_pairwise IsBaseLevelForKey smallest_snapshot input
    MergeState.initial hsorted
  rw [← g3] at hp
  have hp2 := List.pairwise_map.mp (List.pairwise_flatten.mp hp).2
  refine List.Pairwise.imp_of_mem ?_ hp2
  intro o1 o2 ho1 ho2 hR
  obtain ⟨n1, -, l1⟩ := g1 o1 ho1
  obtain ⟨n2, s2, -⟩ := g1 o2 ho2
  obtain ⟨hle, hseq⟩ := hR (o1.entries.getLast n1) (List.getLast_mem n1)
    (o2.entries.head n2) (List.head_mem n2)
  refine ⟨o1.entries.getLast n1, o2.entries.head n2, ?_, ?_, ?_, hle, hseq⟩
  · rw [l1, List.getLast?_eq_getLast _ n1]
  · rw [s2, List.head?_eq_head n2]
  · rcases hle with h | ⟨h, -⟩
    · exact le_of_lt h
    · exact le_of_eq h

end CompactionOutputs

theorem compaction_outputs_ordered_witness :
    [((⟨1, 9, kTypeValue⟩, [109]) : ParsedEntry Nat), (⟨1, 8, kTypeValue⟩, [108]),
      (⟨2, 4, kTypeValue⟩, [104])].Pairwise (fun a b => InternalKeyLE a.1 b.1) ∧
    (DoCompactionWork_outputs (fun x : ParsedEntry Nat => some x.1) (fun _ => false) 8
        (fun _ _ => false) (fun es => es.length * 1048576) 1048576
        [(⟨1, 9, kTypeValue⟩, [109]), (⟨1, 8, kTypeValue⟩, [108]),
          (⟨2, 4, kTypeValue⟩, [104])]).Pairwise
      (fun o1 o2 => ∃ a b, o1.largest = some a ∧ o2.smallest = some b ∧
        a.1.user_key ≤ b.1.user_key ∧ InternalKeyLE a.1 b.1 ∧
        (a.1.user_key = b.1.user_key → 8 < a.1.sequence)) :=
  ⟨by decide, (compaction_outputs_ordered (fun _ : Nat => false) 8 (fun _ _ => false)
    (fun es => es.length * 1048576) 1048576
    [(⟨1, 9, kTypeValue⟩, [109]), (⟨1, 8, kTypeValue⟩, [108]), (⟨2, 4, kTypeValue⟩, [104])]
    (by decide)).2.2⟩

/-- C14 fails for two versions of one user key, the older at the smallest
snapshot, each with a value of one mebibyte, when `MaxOutputFileSize` is one
mebibyte and the table file grows by a mebibyte with each of these entries:
both are emitted, into two outputs, and the largest user key of the first
output equals the smallest user key of the second. -/
theorem compaction_outputs_share_user_key :
    [((⟨1, 9, kTypeValue⟩, exampleBigValue) : ParsedEntry Nat),
      (⟨1, 8, kTypeValue⟩, exampleBigValue)].Pairwise (fun a b => InternalKeyLE a.1 b.1) ∧
    DoCompactionWork_outputs (fun x : ParsedEntry Nat => some x.1) (fun _ => false) 8
        (fun _ _ => false) (fun es => 1048576 * es.length) 1048576
        [(⟨1, 9, kTypeValue⟩, exampleBigValue), (⟨1, 8, kTypeValue⟩, exampleBigValue)]
      = [{ smallest := some (⟨1, 9, kTypeValue⟩, exampleBigValue),
           largest := some (⟨1, 9, kTypeValue⟩, exampleBigValue),
           entries := [(⟨1, 9, kTypeValue⟩, exampleBigValue)] },
         { smallest := some (⟨1, 8, kTypeValue⟩, exampleBigValue),
           largest := some (⟨1, 8, kTypeValue⟩, exampleBigValue),
           entries := [(⟨1, 8, kTypeValue⟩, exampleBigValue)] }] ∧
    ¬ ((⟨1, 9, kTypeValue⟩ : ParsedInternalKey Nat).user_key
        < (⟨1, 8, kTypeValue⟩ : ParsedInternalKey Nat).user_key) := by
  refine ⟨by decide, ?_, by decide⟩
  simp [DoCompactionWork_outputs, DoCompactionWork_files, DoCompactionWork_drop,
    MergeState.initial, kMaxSequenceNumber, kTypeValue, kTypeDeletion,
    OpenCompactionOutputFile, FinishCompactionOutputFile, CompactionState.outputs,
    CompactionState.builderEntries, CompactionOutput.Add]

theorem VarintLength_small (v : Nat) (h : v < 128) : VarintLength v = 1 := by
  rw [VarintLength]
  have h1 : ¬ 128 ≤ v := by omega
  simp [h1]

theorem VarintLength_big (v : Nat) (h : 128 ≤ v) :
    VarintLength v = VarintLength (v / 128) + 1 := by
  rw [VarintLength]
  have e : v >>> 7 = v / 128 := by
    simp [Nat.shiftRight_eq_div_pow]
  simp [h, e]

/-- The bytes `EncodeVarint64` stores: `VarintLength v` of them, all but the
last with the high bit set, the last with it clear. -/
theorem EncodeVarint64_shape : ∀ (n v : Nat), v ≤ n →
    (EncodeVarint64 v).length = VarintLength v ∧
    ∃ init last, EncodeVarint64 v = init ++ [last] ∧
      (∀ b ∈ init, b < 256 ∧ b &&& 128 ≠ 0) ∧ last < 256 ∧ last &&& 128 = 0 := by
  intro n
  induction n using Nat.strong_induction_on with
  | _ n ih =>
    intro v hv
    by_cases hb : 128 ≤ v
    · obtain ⟨l1, init, last, e, hi, hl1, hl2⟩ := ih (v / 128) (by omega) (v / 128) (le_refl _)
      rw [EncodeVarint64_big v hb, VarintLength_big v hb]
      refine ⟨by simp [l1], (v % 128 + 128) :: init, last, by simp [e], ?_, hl1, hl2⟩
      intro b hbm
      rcases List.mem_cons.mp hbm with rfl | hbm'
      · exact ⟨by omega, cont_byte_flag _ (Nat.mod_lt _ (by norm_num))⟩
      · exact hi b hbm'
    · have hlt : v < 128 := by omega
      rw [EncodeVarint64_small v hlt, VarintLength_small v hlt]
      exact ⟨rfl, [], v, rfl, by simp, by omega, last_byte_flag v hlt⟩

theorem VarintLength_le : ∀ (k v : Nat), v < 128 ^ (k + 1) → VarintLength v ≤ k + 1 ∧
    1 ≤ VarintLength v := by
  intro k
  induction k with
  | zero =>
    intro v hv
    rw [VarintLength_small v (by simpa using hv)]
    exact ⟨le_refl _, le_refl _⟩
  | succ k ih =>
    intro v hv
    by_cases hb : 128 ≤ v
    · rw [VarintLength_big v hb]
      have h2 : v / 128 < 128 ^ (k + 1) := by
        rw [Nat.div_lt_iff_lt_mul (by norm_num)]
        rw [pow_succ] at hv
        exact hv
      have := ih (v / 128) h2
      omega
    · rw [VarintLength_small v (by omega)]
      omega

/-- C30: varint size limits.  For every 32-bit `v`, `PutVarint32` appends to
`dst` exactly `VarintLength v` bytes, between 1 and 5; for every 64-bit `v`,
`PutVarint64` appends exactly `VarintLength v` bytes, between 1 and 10.  In both
cases every appended byte but the last has its high bit set and the last has it
clear. -/
theorem varint_size_limits (dst : Bytes) (v : Nat) :
    (v < 2 ^ 32 →
      ∃ init last, PutVarint32 dst v = dst ++ (init ++ [last]) ∧
        (init ++ [last]).length = VarintLength v ∧
        1 ≤ VarintLength v ∧ VarintLength v ≤ 5 ∧
        (∀ b ∈ init, b < 256 ∧ b &&& 128 ≠ 0) ∧ last < 256 ∧ last &&& 128 = 0) ∧
    (v < 2 ^ 64 →
      ∃ init last, PutVarint64 dst v = dst ++ (init ++ [last]) ∧
        (init ++ [last]).length = VarintLength v ∧
        1 ≤ VarintLength v ∧ VarintLength v ≤ 10 ∧
        (∀ b ∈ init, b < 256 ∧ b &&& 128 ≠ 0) ∧ last < 256 ∧ last &&& 128 = 0) := by
  obtain ⟨hlen, init, last, e, hi, hl1, hl2⟩ := EncodeVarint64_shape v v (le_refl _)
  constructor
  · intro hv
    have hb := VarintLength_le 4 v (by norm_num at hv ⊢; omega)
    refine ⟨init, last, ?_, by rw [← e]; exact hlen, hb.2, hb.1, hi, hl1, hl2⟩
    rw [PutVarint32, EncodeVarint32_eq_EncodeVarint64 v hv, e]
  · intro hv
    have hb := VarintLength_le 9 v (by norm_num at hv ⊢; omega)
    refine ⟨init, last, ?_, by rw [← e]; exact hlen, hb.2, hb.1, hi, hl1, hl2⟩
    rw [PutVarint64, e]

theorem varint_size_limits_witness :
    (∃ init last, PutVarint32 [7] 300 = [7] ++ (init ++ [last]) ∧
        (init ++ [last]).length = VarintLength 300 ∧
        1 ≤ VarintLength 300 ∧ VarintLength 300 ≤ 5 ∧
        (∀ b ∈ init, b < 256 ∧ b &&& 128 ≠ 0) ∧ last < 256 ∧ last &&& 128 = 0) ∧
    (∃ init last, PutVarint64 [7] (2 ^ 64 - 1) = [7] ++ (init ++ [last]) ∧
        (init ++ [last]).length = VarintLength (2 ^ 64 - 1) ∧
        1 ≤ VarintLength (2 ^ 64 - 1) ∧ VarintLength (2 ^ 64 - 1) ≤ 10 ∧
        (∀ b ∈ init, b < 256 ∧ b &&& 128 ≠ 0) ∧ last < 256 ∧ last &&& 128 = 0) :=
  ⟨(varint_size_limits [7] 300).1 (by norm_num),
    (varint_size_limits [7] (2 ^ 64 - 1)).2 (by norm_num)⟩

theorem Append_ok_contents (f : WritableFile) (data : Bytes)
    (h : (f.Append data).1.ok = true) : (f.Append data).2.contents = f.contents ++ data := by
  unfold WritableFile.Append at h ⊢
  rcases hf : f.outcomes with _ | ⟨b, rest⟩
  · rfl
  · cases b with
    | true => rfl
    | false => rw [hf] at h; simp [Status.ok] at h

theorem WriteRawBlock_handle {K : Type} (r : TableBuilder.Rep K) (contents : Bytes)
    (type : CompressionType) :
    (TableBuilder.WriteRawBlock r contents type).2
      = { offset := r.offset, size := contents.length } := by
  unfold TableBuilder.WriteRawBlock
  dsimp only
  split_ifs <;> rfl

theorem WriteRawBlock_ok {K : Type} (r : TableBuilder.Rep K) (contents : Bytes)
    (type : CompressionType)
    (hok : (TableBuilder.WriteRawBlock r contents type).1.status.ok = true) :
    (TableBuilder.WriteRawBlock r contents type).1.file.contents
      = r.file.contents ++ contents ++ [type.toNat]
          ++ EncodeFixed32 (crc32c.Mask (crc32c.Value (contents ++ [type.toNat]))) ∧
    (TableBuilder.WriteRawBlock r contents type).2
      = { offset := r.offset, size := contents.length } ∧
    (TableBuilder.WriteRawBlock r contents type).1.offset
      = r.offset + contents.length + 5 := by
  refine ⟨?_, WriteRawBlock_handle r contents type, ?_⟩
  · unfold TableBuilder.WriteRawBlock at hok ⊢
    dsimp only at hok ⊢
    split_ifs at hok ⊢ with h1 h2
    · dsimp only
      rw [Append_ok_contents _ _ h2, Append_ok_contents _ _ h1, crc32c_Extend_Value]
      simp
    · exact absurd hok h2
    · exact absurd hok h1
  · unfold TableBuilder.WriteRawBlock at hok ⊢
    dsimp only at hok ⊢
    split_ifs at hok ⊢ with h1 h2
    · rfl
    · exact absurd hok h2
    · exact absurd hok h1

/-- C27: table block framing.  After a successful `WriteRawBlock(contents,
type, handle)` the file has gained exactly `contents`, then the type byte, then
the little-endian fixed32 of the masked CRC32C of `contents` followed by the
type byte; `handle` is the offset before the call and the length of `contents`;
and the builder's offset has advanced by that length plus 5.  So an offset that
equalled the number of bytes in the file still does, and the block of a next
call starts where this one ends. -/
theorem table_block_framing {K : Type} (r : TableBuilder.Rep K) (contents : Bytes)
    (type : CompressionType)
    (hok : (TableBuilder.WriteRawBlock r contents type).1.status.ok = true) :
    (TableBuilder.WriteRawBlock r contents type).1.file.contents
      = r.file.contents ++ contents ++ [type.toNat]
          ++ EncodeFixed32 (crc32c.Mask (crc32c.Value (contents ++ [type.toNat]))) ∧
    (TableBuilder.WriteRawBlock r contents type).2
      = { offset := r.offset, size := contents.length } ∧
    (TableBuilder.WriteRawBlock r contents type).1.offset = r.offset + contents.length + 5 ∧
    (r.offset = r.file.contents.length →
      (TableBuilder.WriteRawBlock r contents type).1.offset
        = (TableBuilder.WriteRawBlock r contents type).1.file.contents.length) ∧
    (∀ (contents2 : Bytes) (type2 : CompressionType),
      (TableBuilder.WriteRawBlock (TableBuilder.WriteRawBlock r contents type).1
          contents2 type2).2.offset
        = (TableBuilder.WriteRawBlock r contents type).2.offset
            + (TableBuilder.WriteRawBlock r contents type).2.size + 5) := by
  have h := WriteRawBlock_ok r contents type hok
  obtain ⟨h1, h2, h3⟩ := h
  refine ⟨h1, h2, h3, ?_, ?_⟩
  · intro hoff
    rw [h3, h1, hoff]
    simp [EncodeFixed32]
    omega
  · intro contents2 type2
    rw [WriteRawBlock_handle, WriteRawBlock_handle, h3]

theorem table_block_framing_witness :
    (TableBuilder.WriteRawBlock exampleRep [1, 2, 3]
      CompressionType.kNoCompression).1.status.ok = true ∧
    (TableBuilder.WriteRawBlock exampleRep [1, 2, 3]
        CompressionType.kNoCompression).1.file.contents
      = exampleRep.file.contents ++ [1, 2, 3] ++ [CompressionType.kNoCompression.toNat]
          ++ EncodeFixed32 (crc32c.Mask (crc32c.Value
              ([1, 2, 3] ++ [CompressionType.kNoCompression.toNat]))) ∧
    (TableBuilder.WriteRawBlock exampleRep [1, 2, 3] CompressionType.kNoCompression).2
      = { offset := exampleRep.offset, size := [1, 2, 3].length } ∧
    (TableBuilder.WriteRawBlock exampleRep [1, 2, 3] CompressionType.kNoCompression).1.offset
      = exampleRep.offset + [1, 2, 3].length + 5 :=
  ⟨rfl, (table_block_framing exampleRep [1, 2, 3] CompressionType.kNoCompression rfl).1,
    (table_block_framing exampleRep [1, 2, 3] CompressionType.kNoCompression rfl).2.1,
    (table_block_framing exampleRep [1, 2, 3] CompressionType.kNoCompression rfl).2.2.1⟩
/-- C29: compression threshold.  With Snappy compression selected, `WriteBlock`
hands `WriteRawBlock` the compressed bytes with type SNAPPY exactly when
`Snappy_Compress` succeeds and `compressed_size < raw_size - raw_size / 8`, and
then the compressed block saves more than an eighth of the raw size; in every
other case it hands over the raw bytes with type NO_COMPRESSION. -/
theorem compression_threshold {K : Type} (parts : TableParts K) (r : TableBuilder.Rep K)
    (raw : Bytes) (hsnappy : r.options.compression = CompressionType.kSnappyCompression) :
    TableBuilder.WriteBlock parts r raw
      = TableBuilder.WriteRawBlock r
          (TableBuilder.blockContents parts CompressionType.kSnappyCompression raw).1
          (TableBuilder.blockContents parts CompressionType.kSnappyCompression raw).2 ∧
    ((TableBuilder.blockContents parts CompressionType.kSnappyCompression raw).2
        = CompressionType.kSnappyCompression ↔
      ∃ compressed, parts.Snappy_Compress raw = some compressed ∧
        compressed.length < raw.length - raw.length / 8) ∧
    (∀ compressed, parts.Snappy_Compress raw = some compressed →
      compressed.length < raw.length - raw.length / 8 →
      TableBuilder.blockContents parts CompressionType.kSnappyCompression raw
        = (compressed, CompressionType.kSnappyCompression) ∧
      raw.length < 8 * (raw.length - compressed.length)) ∧
    ((TableBuilder.blockContents parts CompressionType.kSnappyCompression raw).2
        ≠ CompressionType.kSnappyCompression →
      TableBuilder.blockContents parts CompressionType.kSnappyCompression raw
        = (raw, CompressionType.kNoCompression)) := by
  refine ⟨by simp only [TableBuilder.WriteBlock, hsnappy], ?_, ?_, ?_⟩
  · unfold TableBuilder.blockContents
    dsimp only
    cases hc : parts.Snappy_Compress raw with
    | none => simp
    | some c =>
      dsimp only
      split_ifs with h
      · simp [h]
      · simp [h]
  · intro compressed hc hlt
    unfold TableBuilder.blockContents
    simp only [hc, hlt, if_true, true_and]
    omega
  · unfold TableBuilder.blockContents
    dsimp only
    cases hc : parts.Snappy_Compress raw with
    | none => simp
    | some c =>
      dsimp only
      split_ifs with h
      · simp
      · simp

theorem compression_threshold_witness :
    ({ exampleRep with options := { exampleRep.options with
        compression := CompressionType.kSnappyCompression } } :
      TableBuilder.Rep Nat).options.compression = CompressionType.kSnappyCompression ∧
    ((TableBuilder.blockContents exampleParts CompressionType.kSnappyCompression
        [1, 2, 3, 4, 5, 6, 7]).2 = CompressionType.kSnappyCompression ↔
      ∃ compressed, exampleParts.Snappy_Compress [1, 2, 3, 4, 5, 6, 7] = some compressed ∧
        compressed.length < [1, 2, 3, 4, 5, 6, 7].length - [1, 2, 3, 4, 5, 6, 7].length / 8) :=
  ⟨rfl, (compression_threshold exampleParts
    { exampleRep with options := { exampleRep.options with
        compression := CompressionType.kSnappyCompression } }
    [1, 2, 3, 4, 5, 6, 7] rfl).2.1⟩

/-- C29 fails at a saving of exactly an eighth: a raw block of 8 bytes that
Snappy compresses to 7 (`8 - 7 ≥ 8 / 8`) is stored raw, with type
NO_COMPRESSION. -/
theorem compression_threshold_not_at_an_eighth :
    exampleParts.Snappy_Compress [1, 2, 3, 4, 5, 6, 7, 8] = some [2, 3, 4, 5, 6, 7, 8] ∧
    [1, 2, 3, 4, 5, 6, 7, 8].length - [2, 3, 4, 5, 6, 7, 8].length
      ≥ [1, 2, 3, 4, 5, 6, 7, 8].length / 8 ∧
    TableBuilder.blockContents exampleParts CompressionType.kSnappyCompression
        [1, 2, 3, 4, 5, 6, 7, 8]
      = ([1, 2, 3, 4, 5, 6, 7, 8], CompressionType.kNoCompression) := by
  refine ⟨rfl, by decide, by decide⟩

theorem WriteRawBlock_frame {K : Type} (r : TableBuilder.Rep K) (contents : Bytes)
    (type : CompressionType) :
    (TableBuilder.WriteRawBlock r contents type).1.index_block = r.index_block ∧
    (TableBuilder.WriteRawBlock r contents type).1.flushed = r.flushed ∧
    (TableBuilder.WriteRawBlock r contents type).1.last_key = r.last_key ∧
    (TableBuilder.WriteRawBlock r contents type).1.data_block = r.data_block ∧
    (TableBuilder.WriteRawBlock r contents type).1.pending_index_entry
      = r.pending_index_entry ∧
    (TableBuilder.WriteRawBlock r contents type).1.pending_handle = r.pending_handle ∧
    (TableBuilder.WriteRawBlock r contents type).1.index_written = r.index_written ∧
    (TableBuilder.WriteRawBlock r contents type).1.filter_block = r.filter_block := by
  unfold TableBuilder.WriteRawBlock
  dsimp only
  split_ifs <;> exact ⟨rfl, rfl, rfl, rfl, rfl, rfl, rfl, rfl⟩

theorem WriteBlock_frame {K : Type} (parts : TableParts K) (r : TableBuilder.Rep K)
    (raw : Bytes) :
    (TableBuilder.WriteBlock parts r raw).1.index_block = r.index_block ∧
    (TableBuilder.WriteBlock parts r raw).1.flushed = r.flushed ∧
    (TableBuilder.WriteBlock parts r raw).1.last_key = r.last_key ∧
    (TableBuilder.WriteBlock parts r raw).1.data_block = r.data_block ∧
    (TableBuilder.WriteBlock parts r raw).1.pending_index_entry = r.pending_index_entry ∧
    (TableBuilder.WriteBlock parts r raw).1.pending_handle = r.pending_handle ∧
    (TableBuilder.WriteBlock parts r raw).1.index_written = r.index_written ∧
    (TableBuilder.WriteBlock parts r raw).1.filter_block = r.filter_block :=
  WriteRawBlock_frame r _ _

theorem Flush_unchanged {K : Type} (parts : TableParts K) (r : TableBuilder.Rep K)
    (h : r.ok = false ∨ r.data_block = []) : TableBuilder.Flush parts r = r := by
  unfold TableBuilder.Flush
  rcases h with h | h
  · simp [h]
  · simp [h]

theorem Flush_fields {K : Type} (parts : TableParts K) (r : TableBuilder.Rep K)
    (hd : r.data_block ≠ []) (hok : (TableBuilder.Flush parts r).ok = true) :
    r.ok = true ∧
    (TableBuilder.Flush parts r).index_block = r.index_block ∧
    (TableBuilder.Flush parts r).flushed
      = r.flushed ++ [(r.data_block, (TableBuilder.Flush parts r).pending_handle)] ∧
    (TableBuilder.Flush parts r).pending_index_entry = true ∧
    (TableBuilder.Flush parts r).data_block = [] ∧
    (TableBuilder.Flush parts r).last_key = r.last_key ∧
    (TableBuilder.Flush parts r).index_written = r.index_written := by
  have hr : r.ok = true := by
    by_contra hc
    have hc' : r.ok = false := by simpa using hc
    rw [Flush_unchanged parts r (Or.inl hc')] at hok
    rw [hok] at hc'
    exact absurd hc' (by decide)
  have he : r.data_block.isEmpty = false := by
    cases hdb : r.data_block with
    | nil => exact absurd hdb hd
    | cons a l => rfl
  refine ⟨hr, ?_⟩
  obtain ⟨f1, f2, f3, -, -, -, f7, -⟩ := WriteBlock_frame parts r
    (parts.BlockBuilder_Finish r.options.block_restart_interval r.data_block)
  unfold TableBuilder.Flush at hok ⊢
  simp only [hr, he, Bool.not_true, Bool.false_eq_true, if_false] at hok ⊢
  generalize TableBuilder.WriteBlock parts r
    (parts.BlockBuilder_Finish r.options.block_restart_interval r.data_block) = w
    at hok f1 f2 f3 f7 ⊢
  unfold TableBuilder.Rep.ok at hok ⊢
  dsimp only at hok ⊢
  by_cases hw : w.1.status.ok = true
  · simp only [hw, if_true] at hok ⊢
    exact ⟨f1, by simp [f3, f7]⟩
  · simp only [hw, if_false] at hok ⊢
    exact absurd hok hw

theorem Finish_filter_frame {K : Type} (parts : TableParts K) (r : TableBuilder.Rep K) :
    ((TableBuilder.Finish_filter parts r).1.ok = true → r.ok = true) ∧
    (TableBuilder.Finish_filter parts r).1.index_block = r.index_block ∧
    (TableBuilder.Finish_filter parts r).1.flushed = r.flushed ∧
    (TableBuilder.Finish_filter parts r).1.last_key = r.last_key ∧
    (TableBuilder.Finish_filter parts r).1.pending_index_entry = r.pending_index_entry ∧
    (TableBuilder.Finish_filter parts r).1.pending_handle = r.pending_handle := by
  unfold TableBuilder.Finish_filter
  cases hf : r.filter_block with
  | none => exact ⟨id, rfl, rfl, rfl, rfl, rfl⟩
  | some calls =>
    dsimp only
    by_cases hr : r.ok = true
    · rw [if_pos hr]
      obtain ⟨f1, f2, f3, -, f5, f6, -, -⟩ := WriteRawBlock_frame r
        (parts.FilterBlock_Finish calls) CompressionType.kNoCompression
      exact ⟨fun _ => hr, f1, f2, f3, f5, f6⟩
    · rw [if_neg hr]
      exact ⟨id, rfl, rfl, rfl, rfl, rfl⟩

theorem Finish_metaindex_frame {K : Type} (parts : TableParts K) (r : TableBuilder.Rep K)
    (h : BlockHandle) :
    ((TableBuilder.Finish_metaindex parts r h).1.ok = true → r.ok = true) ∧
    (TableBuilder.Finish_metaindex parts r h).1.index_block = r.index_block ∧
    (TableBuilder.Finish_metaindex parts r h).1.flushed = r.flushed ∧
    (TableBuilder.Finish_metaindex parts r h).1.last_key = r.last_key ∧
    (TableBuilder.Finish_metaindex parts r h).1.pending_index_entry = r.pending_index_entry ∧
    (TableBuilder.Finish_metaindex parts r h).1.pending_handle = r.pending_handle := by
  unfold TableBuilder.Finish_metaindex
  by_cases hr : r.ok = true
  · rw [if_pos hr]
    obtain ⟨f1, f2, f3, -, f5, f6, -, -⟩ := WriteBlock_frame parts r
      (parts.metaindex_Finish (r.filter_block.map (fun _ => h.EncodeTo [])))
    exact ⟨fun _ => hr, f1, f2, f3, f5, f6⟩
  · rw [if_neg hr]
    exact ⟨id, rfl, rfl, rfl, rfl, rfl⟩

theorem Finish_index_frame {K : Type} (parts : TableParts K) (r : TableBuilder.Rep K)
    (hok : (TableBuilder.Finish_index parts r).1.ok = true) :
    r.ok = true ∧
    (TableBuilder.Finish_index parts r).1.flushed = r.flushed ∧
    (TableBuilder.Finish_index parts r).1.index_written
      = some (if r.pending_index_entry = true then
          r.index_block ++ [(parts.FindShortSuccessor r.last_key, r.pending_handle.EncodeTo [])]
        else r.index_block) := by
  by_cases hr : r.ok = true
  · refine ⟨hr, ?_⟩
    unfold TableBuilder.Finish_index
    rw [if_pos hr]
    dsimp only
    by_cases hp : r.pending_index_entry = true
    · rw [if_pos hp, if_pos hp]
      exact ⟨(WriteBlock_frame parts _ _).2.1, rfl⟩
    · rw [if_neg hp, if_neg hp]
      exact ⟨(WriteBlock_frame parts _ _).2.1, rfl⟩
  · have e : TableBuilder.Finish_index parts r = (r, parts.BlockHandle_new) := by
      unfold TableBuilder.Finish_index
      rw [if_neg hr]
    rw [e] at hok
    exact absurd hok hr

theorem Finish_footer_frame {K : Type} (parts : TableParts K) (r : TableBuilder.Rep K)
    (m i : BlockHandle) :
    ((TableBuilder.Finish_footer parts r m i).ok = true → r.ok = true) ∧
    (TableBuilder.Finish_footer parts r m i).flushed = r.flushed ∧
    (TableBuilder.Finish_footer parts r m i).index_written = r.index_written := by
  unfold TableBuilder.Finish_footer
  by_cases hr : r.ok = true
  · rw [if_pos hr]
    dsimp only
    split_ifs
    · exact ⟨fun _ => hr, rfl, rfl⟩
    · exact ⟨fun _ => hr, rfl, rfl⟩
  · rw [if_neg hr]
    exact ⟨id, rfl, rfl⟩

/-- What `Finish` leaves, in terms of the builder after its `Flush`. -/
theorem Finish_fields {K : Type} (parts : TableParts K) (r : TableBuilder.Rep K)
    (hok : (TableBuilder.Finish parts r).ok = true) :
    (TableBuilder.Flush parts r).ok = true ∧
    (TableBuilder.Finish parts r).flushed = (TableBuilder.Flush parts r).flushed ∧
    (TableBuilder.Finish parts r).index_written
      = some (if (TableBuilder.Flush parts r).pending_index_entry = true then
          (TableBuilder.Flush parts r).index_block
            ++ [(parts.FindShortSuccessor (TableBuilder.Flush parts r).last_key,
                (TableBuilder.Flush parts r).pending_handle.EncodeTo [])]
        else (TableBuilder.Flush parts r).index_block) := by
  unfold TableBuilder.Finish at hok ⊢
  dsimp only at hok ⊢
  generalize TableBuilder.Flush parts r = r1 at hok ⊢
  obtain ⟨a0, a1, a2, a3, a4, a5⟩ := Finish_filter_frame parts { r1 with closed := true }
  generalize TableBuilder.Finish_filter parts { r1 with closed := true } = w3
    at hok a0 a1 a2 a3 a4 a5 ⊢
  obtain ⟨b0, b1, b2, b3, b4, b5⟩ := Finish_metaindex_frame parts w3.1 w3.2
  generalize TableBuilder.Finish_metaindex parts w3.1 w3.2 = w4
    at hok b0 b1 b2 b3 b4 b5 ⊢
  obtain ⟨d0, d1, d2⟩ := Finish_footer_frame parts (TableBuilder.Finish_index parts w4.1).1
    w4.2 (TableBuilder.Finish_index parts w4.1).2
  obtain ⟨c0, c1, c2⟩ := Finish_index_frame parts w4.1 (d0 hok)
  refine ⟨a0 (b0 c0), ?_, ?_⟩
  · rw [d1, c1, b2, a2]
  · rw [d2, c2, b1, b3, b4, b5, a1, a3, a4, a5]

theorem Add_entry_fields {K : Type} (parts : TableParts K) (r : TableBuilder.Rep K) (key : K)
    (value : Bytes) :
    (TableBuilder.Add_entry parts r key value).flushed = r.flushed ∧
    (TableBuilder.Add_entry parts r key value).data_block = r.data_block ++ [(key, value)] ∧
    (TableBuilder.Add_entry parts r key value).last_key = key ∧
    (TableBuilder.Add_entry parts r key value).pending_index_entry = false ∧
    (TableBuilder.Add_entry parts r key value).ok = r.ok ∧
    (TableBuilder.Add_entry parts r key value).index_written = r.index_written ∧
    (TableBuilder.Add_entry parts r key value).index_block
      = (if r.pending_index_entry = true then
          r.index_block ++ [(parts.FindShortestSeparator r.last_key key,
            r.pending_handle.EncodeTo [])]
        else r.index_block) := by
  unfold TableBuilder.Add_entry TableBuilder.Rep.ok
  dsimp only
  split_ifs with h
  · simp [h]
  · have h' : r.pending_index_entry = false := by simpa using h
    simp [h']

theorem Add_ok {K : Type} (parts : TableParts K) (r : TableBuilder.Rep K) (key : K) (value : Bytes)
    (hok : (TableBuilder.Add parts r key value).ok = true) : r.ok = true := by
  by_cases hc : r.ok = true
  · exact hc
  · have hc' : r.ok = false := by simpa using hc
    have e : TableBuilder.Add parts r key value = r := by
      unfold TableBuilder.Add
      simp [hc']
    rw [e] at hok
    exact hok

theorem Flush_ok {K : Type} (parts : TableParts K) (r : TableBuilder.Rep K)
    (hok : (TableBuilder.Flush parts r).ok = true) :
    r.ok = true ∧ (TableBuilder.Flush parts r).data_block = [] := by
  by_cases hd : r.data_block = []
  · rw [Flush_unchanged parts r (Or.inr hd)] at hok ⊢
    exact ⟨hok, hd⟩
  · obtain ⟨hr, -, -, -, f4, -, -⟩ := Flush_fields parts r hd hok
    exact ⟨hr, f4⟩

section TableIndex

variable {K : Type} [LinearOrder K]

theorem zip_snoc_left {α β : Type} (l1 : List α) (l2 : List β) (a : α) (l3 : List β)
    (h : l1.length = l2.length) :
    (l1 ++ [a]).zip (l2 ++ l3) = l1.zip l2 ++ [a].zip l3 :=
  List.zip_append h

theorem indexCovers_snoc (idx : List (K × Bytes)) (bs : List (List (K × Bytes) × BlockHandle))
    (b : List (K × Bytes) × BlockHandle) (e : K × Bytes) (next : List (List (K × Bytes)))
    (h : TableBuilder.indexCovers idx bs [b.1]) (he : e.2 = b.2.EncodeTo [])
    (hle : ∀ k ∈ b.1, k.1 ≤ e.1)
    (hlt : ∀ p ∈ [e].zip (next.map List.head?), ∀ k ∈ p.2, p.1.1 < k.1) :
    TableBuilder.indexCovers (idx ++ [e]) (bs ++ [b]) next := by
  obtain ⟨h1, h2, h3⟩ := h
  refine ⟨by simp [h1], ?_, ?_⟩
  · intro p hp
    rw [List.zip_append h1] at hp
    rcases List.mem_append.mp hp with hp | hp
    · exact h2 p hp
    · simp only [List.zip_cons_cons, List.zip_nil_right, List.mem_singleton] at hp
      subst hp
      exact ⟨he, hle⟩
  · intro p hp
    have hne : bs.map Prod.fst ++ [b.1] ≠ [] := by simp
    have e1 : ((bs ++ [b]).map Prod.fst ++ next).tail.map List.head?
        = (bs.map Prod.fst ++ [b.1]).tail.map List.head? ++ next.map List.head? := by
      rw [List.map_append, List.map_singleton, List.tail_append_of_ne_nil hne,
        List.map_append]
    have hl : idx.length = ((bs.map Prod.fst ++ [b.1]).tail.map List.head?).length := by
      simp [h1]
    rw [e1, zip_snoc_left _ _ _ _ hl] at hp
    rcases List.mem_append.mp hp with hp | hp
    · exact h3 p hp
    · exact hlt p hp

theorem indexCovers_grow (idx : List (K × Bytes)) (bs : List (List (K × Bytes) × BlockHandle))
    (d : List (K × Bytes)) (kv : K × Bytes)
    (h : TableBuilder.indexCovers idx bs [d]) (hd : bs ≠ [] → d ≠ []) :
    TableBuilder.indexCovers idx bs [d ++ [kv]] := by
  obtain ⟨h1, h2, h3⟩ := h
  refine ⟨h1, h2, ?_⟩
  have e1 : (bs.map Prod.fst ++ [d ++ [kv]]).tail.map List.head?
      = (bs.map Prod.fst ++ [d]).tail.map List.head? := by
    cases bs with
    | nil => rfl
    | cons b bs =>
      have hdne := hd (by simp)
      cases d with
      | nil => exact absurd rfl hdne
      | cons x d => simp
  rw [e1]
  exact h3

theorem le_last_of_sorted (adds init : List (K × Bytes)) (lk : K) (v : Bytes)
    (hs : adds.Pairwise (fun a b => a.1 < b.1)) (h : adds = init ++ [(lk, v)]) :
    ∀ k ∈ adds, k.1 ≤ lk := by
  subst h
  intro k hk
  rcases List.mem_append.mp hk with hk | hk
  · exact le_of_lt ((List.pairwise_append.mp hs).2.2 k hk (lk, v) (List.mem_singleton_self _))
  · rw [List.mem_singleton] at hk
    subst hk
    exact le_refl _

theorem Add_entry_inv (parts : TableParts K) (r : TableBuilder.Rep K) (key : K)
    (value : Bytes) (adds : List (K × Bytes)) (hinv : r.inv adds)
    (hs : adds.Pairwise (fun a b => a.1 < b.1)) (hkey : ∀ k ∈ adds, k.1 < key)
    (hsep : ∀ a b : K, a < b →
      a ≤ parts.FindShortestSeparator a b ∧ parts.FindShortestSeparator a b < b) :
    (TableBuilder.Add_entry parts r key value).inv (adds ++ [(key, value)]) := by
  obtain ⟨i1, i2, i3, i4, i5⟩ := hinv
  obtain ⟨f1, f2, f3, f4, -, -, f7⟩ := Add_entry_fields parts r key value
  unfold TableBuilder.Rep.inv
  rw [f1, f2, f3, f4, f7]
  refine ⟨by rw [← List.append_assoc, i1], i2, fun _ => ⟨adds, value, rfl⟩,
    fun h => absurd h (by decide), fun _ => ?_⟩
  refine ⟨?_, fun _ => by simp⟩
  by_cases hp : r.pending_index_entry = true
  · obtain ⟨hd, bs, b, hfl, hph, hcov⟩ := i4 hp
    rw [if_pos hp, hd, hfl, hph, List.nil_append]
    have hbne : b.1 ≠ [] := i2 b (by rw [hfl]; simp)
    have haddsne : adds ≠ [] := by
      rw [← i1, hfl, hd]
      cases hb1 : b.1 with
      | nil => exact absurd hb1 hbne
      | cons x l => simp [hb1]
    obtain ⟨init, v, hlast⟩ := i3 haddsne
    have hlastmem : (r.last_key, v) ∈ adds := by rw [hlast]; simp
    have hlk := hsep r.last_key key (hkey _ hlastmem)
    refine indexCovers_snoc _ bs b _ _ hcov rfl ?_ ?_
    · intro k hk
      have hkadds : k ∈ adds := by
        rw [← i1, hfl]
        simp only [List.flatMap_append, List.flatMap_singleton, List.mem_append]
        exact Or.inl (Or.inr hk)
      exact le_trans (le_last_of_sorted adds init r.last_key v hs hlast k hkadds) hlk.1
    · intro p hp2
      simp only [List.map_cons, List.map_nil, List.head?_cons, List.zip_cons_cons,
        List.zip_nil_right, List.mem_singleton] at hp2
      subst hp2
      intro k hk
      simp only [Option.mem_def, Option.some.injEq] at hk
      subst hk
      exact hlk.2
  · have hp' : r.pending_index_entry = false := by simpa using hp
    obtain ⟨hcov, hne⟩ := i5 hp'
    rw [if_neg hp]
    exact indexCovers_grow _ _ _ _ hcov hne

theorem Flush_inv (parts : TableParts K) (r : TableBuilder.Rep K) (adds : List (K × Bytes))
    (hinv : r.ok = true → r.inv adds) (hok : (TableBuilder.Flush parts r).ok = true) :
    (TableBuilder.Flush parts r).inv adds := by
  by_cases hd : r.data_block = []
  · rw [Flush_unchanged parts r (Or.inr hd)] at hok ⊢
    exact hinv hok
  · obtain ⟨hr, f1, f2, f3, f4, f5, -⟩ := Flush_fields parts r hd hok
    obtain ⟨i1, i2, i3, i4, i5⟩ := hinv hr
    have hp : r.pending_index_entry = false := by
      by_contra hc
      have hc' : r.pending_index_entry = true := by simpa using hc
      exact hd (i4 hc').1
    unfold TableBuilder.Rep.inv
    rw [f1, f2, f3, f4, f5]
    refine ⟨by simp [← i1], ?_, i3, fun _ => ⟨rfl, r.flushed, _, rfl, rfl, (i5 hp).1⟩,
      fun h => absurd h (by decide)⟩
    intro b hb
    rcases List.mem_append.mp hb with hb | hb
    · exact i2 b hb
    · rw [List.mem_singleton] at hb
      subst hb
      exact hd

theorem Add_inv (parts : TableParts K) (r : TableBuilder.Rep K) (key : K)
    (value : Bytes) (adds : List (K × Bytes)) (hinv : r.ok = true → r.inv adds)
    (hs : adds.Pairwise (fun a b => a.1 < b.1)) (hkey : ∀ k ∈ adds, k.1 < key)
    (hsep : ∀ a b : K, a < b →
      a ≤ parts.FindShortestSeparator a b ∧ parts.FindShortestSeparator a b < b)
    (hok : (TableBuilder.Add parts r key value).ok = true) :
    (TableBuilder.Add parts r key value).inv (adds ++ [(key, value)]) := by
  have hr := Add_ok parts r key value hok
  have h3 := Add_entry_inv parts r key value adds (hinv hr) hs hkey hsep
  unfold TableBuilder.Add at hok ⊢
  simp only [hr, Bool.not_true, Bool.false_eq_true, if_false] at hok ⊢
  split_ifs at hok ⊢
  · exact Flush_inv parts _ _ (fun _ => h3) hok
  · exact h3

theorem new_inv [Inhabited K] (parts : TableParts K) (options : Options) (file : WritableFile) :
    (TableBuilder.new parts options file).inv [] := by
  unfold TableBuilder.Rep.inv TableBuilder.new TableBuilder.indexCovers
  dsimp only
  refine ⟨rfl, ?_, fun h => absurd rfl h, fun h => absurd h (by decide), fun _ => ⟨⟨rfl, ?_, ?_⟩, ?_⟩⟩
  · intro b hb; cases hb
  · intro p hp; cases hp
  · intro p hp; cases hp
  · intro h; exact absurd rfl h

theorem indexCovers_final (index : List (K × Bytes))
    (blocks : List (List (K × Bytes) × BlockHandle))
    (h : TableBuilder.indexCovers index blocks [])
    (hs : (blocks.flatMap Prod.fst).Pairwise (fun a b => a.1 < b.1)) :
    ∀ p ∈ index.zip blocks.tail, ∀ k ∈ p.2.1, p.1.1 < k.1 := by
  obtain ⟨-, -, h3⟩ := h
  intro p hp k hk
  have hmem : (p.1, p.2.1.head?) ∈ index.zip ((blocks.map Prod.fst ++ []).tail.map List.head?) := by
    rw [List.append_nil, ← List.map_tail, List.map_map, List.zip_map_right]
    exact List.mem_map.mpr ⟨p, hp, rfl⟩
  have hblock : p.2 ∈ blocks := List.mem_of_mem_tail (List.of_mem_zip hp).2
  have hsorted : p.2.1.Pairwise (fun a b => a.1 < b.1) :=
    (List.pairwise_flatMap.mp hs).1 p.2 hblock
  cases hb : p.2.1 with
  | nil => rw [hb] at hk; cases hk
  | cons x l =>
    rw [hb] at hk hsorted hmem
    have hx := h3 _ hmem x rfl
    rcases List.mem_cons.mp hk with rfl | hk'
    · exact hx
    · exact lt_trans hx ((List.pairwise_cons.mp hsorted).1 k hk')

theorem run_inv (parts : TableParts K)
    (hsep : ∀ a b : K, a < b →
      a ≤ parts.FindShortestSeparator a b ∧ parts.FindShortestSeparator a b < b)
    (ops : List (TableOp K)) : ∀ (r : TableBuilder.Rep K) (adds : List (K × Bytes)),
    (r.ok = true → r.inv adds) →
    (adds ++ TableOp.entries ops).Pairwise (fun a b => a.1 < b.1) →
    (TableBuilder.run parts r ops).ok = true →
    (TableBuilder.run parts r ops).inv (adds ++ TableOp.entries ops) := by
  induction ops with
  | nil =>
    intro r adds hinv _ hok
    simp only [TableBuilder.run, List.foldl_nil, TableOp.entries, List.flatMap_nil,
      List.append_nil] at hok ⊢
    exact hinv hok
  | cons op ops ih =>
    intro r adds hinv hs hok
    cases op with
    | Add key value =>
      have e : adds ++ TableOp.entries (TableOp.Add key value :: ops)
          = (adds ++ [(key, value)]) ++ TableOp.entries ops := by
        simp [TableOp.entries]
      rw [e] at hs ⊢
      have hs1 := (List.pairwise_append.mp hs).1
      have hs2 := List.pairwise_append.mp hs1
      exact ih (TableBuilder.Add parts r key value) (adds ++ [(key, value)])
        (fun h => Add_inv parts r key value adds hinv hs2.1
          (fun k hk => hs2.2.2 k hk (key, value) (List.mem_singleton_self _)) hsep h)
        hs hok
    | Flush =>
      have e : adds ++ TableOp.entries (TableOp.Flush :: ops)
          = adds ++ TableOp.entries ops := by
        simp [TableOp.entries]
      rw [e] at hs ⊢
      exact ih (TableBuilder.Flush parts r) adds (fun h => Flush_inv parts r adds hinv h) hs hok

/-- C28: index entries bracket their data blocks.  A new builder receives the
calls `ops` (`Add` and `Flush`) and then `Finish`, which succeeds.  Assuming
that the keys are added in strictly increasing order, that
`FindShortestSeparator(start, limit)` yields a key `k` with
`start ≤ k < limit` whenever `start < limit`, and that `FindShortSuccessor(key)`
yields a key `≥ key`: the data blocks that were flushed hold the added entries
in order, none is empty, and the index block handed to `WriteBlock` holds
exactly one entry per flushed data block, in order, whose value is the encoded
handle of that block and whose key is `≥` every key of that block and `<` every
key of the following data block. -/
theorem index_entries_bracket_blocks [Inhabited K] (parts : TableParts K) (options : Options)
    (file : WritableFile) (ops : List (TableOp K))
    (hsorted : (TableOp.entries ops).Pairwise (fun a b => a.1 < b.1))
    (hsep : ∀ a b : K, a < b →
      a ≤ parts.FindShortestSeparator a b ∧ parts.FindShortestSeparator a b < b)
    (hsucc : ∀ a : K, a ≤ parts.FindShortSuccessor a)
    (hok : (TableBuilder.Finish parts
      (TableBuilder.run parts (TableBuilder.new parts options file) ops)).ok = true) :
    ∃ index,
      (TableBuilder.Finish parts
        (TableBuilder.run parts (TableBuilder.new parts options file) ops)).index_written
        = some index ∧
      (TableBuilder.Finish parts
        (TableBuilder.run parts (TableBuilder.new parts options file) ops)).flushed.flatMap
          Prod.fst = TableOp.entries ops ∧
      (∀ b ∈ (TableBuilder.Finish parts
        (TableBuilder.run parts (TableBuilder.new parts options file) ops)).flushed,
        b.1 ≠ []) ∧
      index.length = (TableBuilder.Finish parts
        (TableBuilder.run parts (TableBuilder.new parts options file) ops)).flushed.length ∧
      (∀ p ∈ index.zip (TableBuilder.Finish parts
          (TableBuilder.run parts (TableBuilder.new parts options file) ops)).flushed,
        p.1.2 = p.2.2.EncodeTo [] ∧ ∀ k ∈ p.2.1, k.1 ≤ p.1.1) ∧
      (∀ p ∈ index.zip (TableBuilder.Finish parts
          (TableBuilder.run parts (TableBuilder.new parts options file) ops)).flushed.tail,
        ∀ k ∈ p.2.1, p.1.1 < k.1) := by
  obtain ⟨hok1, hfl, hiw⟩ := Finish_fields parts _ hok
  rw [hfl, hiw]
  have hrun := run_inv parts hsep ops (TableBuilder.new parts options file) []
    (fun _ => new_inv parts options file) (by simpa using hsorted) (Flush_ok parts _ hok1).1
  have hinv := Flush_inv parts _ _ (fun _ => hrun) hok1
  have hdata := (Flush_ok parts _ hok1).2
  rw [List.nil_append] at hinv
  generalize TableBuilder.Flush parts
    (TableBuilder.run parts (TableBuilder.new parts options file) ops) = r1 at hinv hdata ⊢
  obtain ⟨i1, i2, i3, i4, i5⟩ := hinv
  rw [hdata, List.append_nil] at i1
  have hcov : TableBuilder.indexCovers
      (if r1.pending_index_entry = true then
        r1.index_block
          ++ [(parts.FindShortSuccessor r1.last_key, r1.pending_handle.EncodeTo [])]
      else r1.index_block) r1.flushed [] := by
    by_cases hp : r1.pending_index_entry = true
    · obtain ⟨-, bs, b, hfl2, hph, hcov⟩ := i4 hp
      rw [if_pos hp, hfl2, hph]
      refine indexCovers_snoc _ bs b _ [] hcov rfl ?_ ?_
      · intro k hk
        have hkadds : k ∈ TableOp.entries ops := by
          rw [← i1, hfl2]
          simp only [List.flatMap_append, List.flatMap_singleton, List.mem_append]
          exact Or.inr hk
        obtain ⟨init, v, hlast⟩ := i3 (List.ne_nil_of_mem hkadds)
        exact le_trans (le_last_of_sorted _ init r1.last_key v hsorted hlast k hkadds)
          (hsucc _)
      · intro p hp2
        simp at hp2
    · have hp' : r1.pending_index_entry = false := by simpa using hp
      obtain ⟨hcov, hne⟩ := i5 hp'
      rw [if_neg hp]
      have hfl0 : r1.flushed = [] := by
        by_contra hc
        exact hne hc hdata
      obtain ⟨c1, -, -⟩ := hcov
      rw [hfl0] at c1 ⊢
      have hidx : r1.index_block = [] := List.length_eq_zero.mp c1
      rw [hidx]
      unfold TableBuilder.indexCovers
      exact ⟨rfl, (by intro p hp; cases hp), (by intro p hp; cases hp)⟩
  refine ⟨_, rfl, i1, i2, hcov.1, hcov.2.1, ?_⟩
  exact indexCovers_final _ _ hcov (by rw [i1]; exact hsorted)

end TableIndex

theorem index_entries_bracket_blocks_witness :
    (TableOp.entries exampleOps).Pairwise (fun a b => a.1 < b.1) ∧
    (TableBuilder.Finish exampleParts (TableBuilder.run exampleParts exampleRep exampleOps)).ok
      = true ∧
    ∃ index,
      (TableBuilder.Finish exampleParts
        (TableBuilder.run exampleParts exampleRep exampleOps)).index_written = some index ∧
      (TableBuilder.Finish exampleParts
        (TableBuilder.run exampleParts exampleRep exampleOps)).flushed.flatMap Prod.fst
        = TableOp.entries exampleOps ∧
      (∀ b ∈ (TableBuilder.Finish exampleParts
        (TableBuilder.run exampleParts exampleRep exampleOps)).flushed, b.1 ≠ []) ∧
      index.length = (TableBuilder.Finish exampleParts
        (TableBuilder.run exampleParts exampleRep exampleOps)).flushed.length ∧
      (∀ p ∈ index.zip (TableBuilder.Finish exampleParts
          (TableBuilder.run exampleParts exampleRep exampleOps)).flushed,
        p.1.2 = p.2.2.EncodeTo [] ∧ ∀ k ∈ p.2.1, k.1 ≤ p.1.1) ∧
      (∀ p ∈ index.zip (TableBuilder.Finish exampleParts
          (TableBuilder.run exampleParts exampleRep exampleOps)).flushed.tail,
        ∀ k ∈ p.2.1, p.1.1 < k.1) :=
  ⟨by decide, rfl,
    index_entries_bracket_blocks exampleParts
      { block_size := 2, block_restart_interval := 16,
        compression := CompressionType.kNoCompression, filter_policy := false }
      { contents := [], outcomes := [] } exampleOps (by decide)
      (fun _ _ h => ⟨le_refl _, h⟩) (fun _ => le_refl _) rfl⟩

theorem MakeRoomForWrite_loop_switched (options : RoomOptions) (allow_delay force : Bool)
    (db : DBImpl.State) (background : List (DBImpl.State → DBImpl.State)) :
    ∀ p ∈ (DBImpl.MakeRoomForWrite_loop options allow_delay force db background).switched,
      p.1.bg_error_.ok = true ∧ p.1.imm_ = none ∧
      p.1.versions_.level0_files < kL0_StopWritesTrigger ∧
      p.2.imm_ = some p.1.mem_ ∧ p.2.mem_ = [] ∧
      p.2.logfile_number_ = p.1.versions_.next_file_number := by
  induction allow_delay, force, db, background
    using DBImpl.MakeRoomForWrite_loop.induct options with
  | case1 allow_delay force db background h1 =>
    rw [DBImpl.MakeRoomForWrite_loop.eq_def, if_pos h1]
    intro p hp; cases hp
  | case2 allow_delay force db h1 h2 ih =>
    rw [DBImpl.MakeRoomForWrite_loop.eq_def, if_neg h1, if_pos h2]
    exact ih
  | case3 allow_delay force db h1 h2 f rest ih =>
    rw [DBImpl.MakeRoomForWrite_loop.eq_def, if_neg h1, if_pos h2]
    exact ih
  | case4 allow_delay force db background h1 h2 h3 =>
    rw [DBImpl.MakeRoomForWrite_loop.eq_def, if_neg h1, if_neg h2, if_pos h3]
    intro p hp; cases hp
  | case5 allow_delay force db h1 h2 h3 h4 =>
    rw [DBImpl.MakeRoomForWrite_loop.eq_def, if_neg h1, if_neg h2, if_neg h3, if_pos h4]
    intro p hp; cases hp
  | case6 allow_delay force db h1 h2 h3 h4 f rest ih =>
    rw [DBImpl.MakeRoomForWrite_loop.eq_def, if_neg h1, if_neg h2, if_neg h3, if_pos h4]
    exact ih
  | case7 allow_delay force db h1 h2 h3 h4 h5 =>
    rw [DBImpl.MakeRoomForWrite_loop.eq_def, if_neg h1, if_neg h2, if_neg h3, if_neg h4, if_pos h5]
    intro p hp; cases hp
  | case8 allow_delay force db h1 h2 h3 h4 h5 f rest ih =>
    rw [DBImpl.MakeRoomForWrite_loop.eq_def, if_neg h1, if_neg h2, if_neg h3, if_neg h4, if_pos h5]
    exact ih
  | case9 allow_delay force db background h1 h2 h3 h4 h5 new_log_number lfile files hnf db1 ih =>
    rw [DBImpl.MakeRoomForWrite_loop.eq_def, if_neg h1, if_neg h2, if_neg h3, if_neg h4, if_neg h5]
    simp only [hnf]
    intro p hp
    rcases List.mem_cons.mp hp with rfl | hp'
    · have h5' : db.versions_.level0_files < kL0_StopWritesTrigger := by omega
      exact ⟨by simpa using h1, by simpa using h4, h5', rfl, rfl, rfl⟩
    · exact ih p hp'
  | case10 allow_delay force db background h1 h2 h3 h4 h5 files hnf =>
    rw [DBImpl.MakeRoomForWrite_loop.eq_def, if_neg h1, if_neg h2, if_neg h3, if_neg h4, if_neg h5]
    simp only [hnf]
    intro p hp; cases hp
  | case11 allow_delay force db background h1 h2 h3 h4 h5 hnf =>
    rw [DBImpl.MakeRoomForWrite_loop.eq_def, if_neg h1, if_neg h2, if_neg h3, if_neg h4, if_neg h5]
    simp only [hnf]
    intro p hp; cases hp

/-- C25: memtable rotation guard.  Every switch to a new memtable that
`MakeRoomForWrite` makes, whatever `force` is and whatever the other threads
do while it sleeps or waits, is made in a database in which `bg_error_` is OK,
`imm_` is null and level 0 holds fewer than 12 files; the switch makes the
former `mem_` the immutable memtable, starts an empty memtable and a log with
the next file number.  So `imm_` is assigned only while it is null, and never
while level 0 is at or above the stop trigger. -/
theorem memtable_rotation_guard (options : RoomOptions) (force : Bool) (db : DBImpl.State)
    (background : List (DBImpl.State → DBImpl.State)) :
    ∀ p ∈ (DBImpl.MakeRoomForWrite options force db background).switched,
      p.1.bg_error_.ok = true ∧ p.1.imm_ = none ∧ p.1.versions_.level0_files < 12 ∧
      p.2.imm_ = some p.1.mem_ ∧ p.2.mem_ = [] ∧
      p.2.logfile_number_ = p.1.versions_.next_file_number :=
  MakeRoomForWrite_loop_switched options (!force) force db background

theorem memtable_rotation_guard_witness :
    (DBImpl.MakeRoomForWrite exampleRoomOptions true exampleState []).status = some Status.OK ∧
    (DBImpl.MakeRoomForWrite exampleRoomOptions true exampleState []).switched.length = 1 ∧
    ∀ p ∈ (DBImpl.MakeRoomForWrite exampleRoomOptions true exampleState []).switched,
      p.1.bg_error_.ok = true ∧ p.1.imm_ = none ∧ p.1.versions_.level0_files < 12 ∧
      p.2.imm_ = some p.1.mem_ ∧ p.2.mem_ = [] ∧
      p.2.logfile_number_ = p.1.versions_.next_file_number := by
  refine ⟨?_, ?_, memtable_rotation_guard exampleRoomOptions true exampleState []⟩
  · simp [DBImpl.MakeRoomForWrite, DBImpl.MakeRoomForWrite_loop, DBImpl.MaybeScheduleCompaction,
      exampleState, exampleDb, exampleRoomOptions, Status.ok, kL0_StopWritesTrigger,
      kL0_SlowdownWritesTrigger]
  · simp [DBImpl.MakeRoomForWrite, DBImpl.MakeRoomForWrite_loop, DBImpl.MaybeScheduleCompaction,
      exampleState, exampleDb, exampleRoomOptions, Status.ok, kL0_StopWritesTrigger,
      kL0_SlowdownWritesTrigger]
theorem MaybeScheduleCompaction_cases (db : DBImpl.State) :
    (DBImpl.MaybeScheduleCompaction db = db ∨
      (db.background_compaction_scheduled_ = false ∧ db.shutting_down_ = false ∧
        db.bg_error_.ok = true ∧
        (DBImpl.MaybeScheduleCompaction db).background_compaction_scheduled_ = true ∧
        (DBImpl.MaybeScheduleCompaction db).scheduled = db.scheduled + 1)) := by
  unfold DBImpl.MaybeScheduleCompaction
  split_ifs with h1 h2 h3 h4
  · exact Or.inl rfl
  · exact Or.inl rfl
  · exact Or.inl rfl
  · exact Or.inl rfl
  · exact Or.inr ⟨by simpa using h1, by simpa using h2, by simpa using h3, rfl, rfl⟩

/-- The tasks of the environment are one while
`background_compaction_scheduled_` is set and none otherwise. -/
theorem Step_tasks (db db1 : DBImpl.State) (hstep : DBImpl.Step db db1)
    (h : db.scheduled = if db.background_compaction_scheduled_ = true then 1 else 0) :
    db1.scheduled = if db1.background_compaction_scheduled_ = true then 1 else 0 := by
  cases hstep with
  | schedule =>
    rcases MaybeScheduleCompaction_cases db with e | ⟨h1, -, -, h4, h5⟩
    · rw [e]; exact h
    · rw [h4, h5, h, h1]; rfl
  | background work hscheduled hflag htasks =>
    have hf : db.background_compaction_scheduled_ = true := by
      by_contra hc
      rw [if_neg hc] at h
      omega
    rw [if_pos hf] at h
    unfold DBImpl.BackgroundCall
    dsimp only
    generalize hdb1 : (if db.shutting_down_ = true then db
      else if (!db.bg_error_.ok) = true then db else work db) = x
    have hx : x.scheduled = 1 := by
      subst hdb1
      split_ifs
      · exact h
      · exact h
      · rw [htasks]; exact h
    rcases MaybeScheduleCompaction_cases
      { x with background_compaction_scheduled_ := false } with e | ⟨-, -, -, h4, h5⟩
    · rw [e]
      simp [hx]
    · rw [h4, h5]
      simp [hx]
  | other f hflag htasks =>
    rw [hflag, htasks]; exact h

theorem Reachable_tasks (db0 db : DBImpl.State)
    (hflag : db0.background_compaction_scheduled_ = false) (htasks : db0.scheduled = 0)
    (hreach : DBImpl.Reachable db0 db) :
    db.scheduled = if db.background_compaction_scheduled_ = true then 1 else 0 := by
  induction hreach with
  | start => rw [hflag, htasks]; rfl
  | step x y _ hstep ih => exact Step_tasks x y hstep ih

/-- C26: at most one background task.  From a database in which
`background_compaction_scheduled_` is false and no task is scheduled, in every
database reached by steps (calls of `MaybeScheduleCompaction`, scheduled tasks
running `BackgroundCall`, anything else): there is at most one task scheduled
or running, and there is one exactly when `background_compaction_scheduled_`
is set; a call of `MaybeScheduleCompaction` either changes nothing or invokes
`Env::Schedule` once, which it does only when the flag is false, the database
is not shutting down and `bg_error_` is OK, and then it sets the flag; and a
step that clears the flag is a `BackgroundCall`. -/
theorem at_most_one_background_task (db0 db : DBImpl.State)
    (hflag : db0.background_compaction_scheduled_ = false) (htasks : db0.scheduled = 0)
    (hreach : DBImpl.Reachable db0 db) :
    db.scheduled ≤ 1 ∧
    (db.scheduled = 1 ↔ db.background_compaction_scheduled_ = true) ∧
    (DBImpl.MaybeScheduleCompaction db = db ∨
      (db.background_compaction_scheduled_ = false ∧ db.shutting_down_ = false ∧
        db.bg_error_.ok = true ∧
        (DBImpl.MaybeScheduleCompaction db).background_compaction_scheduled_ = true ∧
        (DBImpl.MaybeScheduleCompaction db).scheduled = db.scheduled + 1)) ∧
    ((db.shutting_down_ = true ∨ db.bg_error_.ok = false) →
      DBImpl.MaybeScheduleCompaction db = db) ∧
    (∀ db1, DBImpl.Step db db1 → db.background_compaction_scheduled_ = true →
      db1.background_compaction_scheduled_ = false →
      ∃ work, db1 = DBImpl.BackgroundCall work db) := by
  have h := Reachable_tasks db0 db hflag htasks hreach
  refine ⟨?_, ?_, MaybeScheduleCompaction_cases db, ?_, ?_⟩
  · rw [h]; split_ifs <;> omega
  · rw [h]
    constructor
    · intro h1
      by_contra hc
      rw [if_neg hc] at h1
      omega
    · intro h1
      rw [if_pos h1]
  · intro hs
    rcases MaybeScheduleCompaction_cases db with e | ⟨-, h2, h3, -, -⟩
    · exact e
    · rcases hs with hs | hs
      · rw [h2] at hs; exact absurd hs (by decide)
      · rw [h3] at hs; exact absurd hs (by decide)
  · intro db1 hstep h1 h2
    cases hstep with
    | schedule =>
      rcases MaybeScheduleCompaction_cases db with e | ⟨h3, -, -, -, -⟩
      · rw [e, h1] at h2; exact absurd h2 (by decide)
      · rw [h1] at h3; exact absurd h3 (by decide)
    | background work _ _ _ => exact ⟨work, rfl⟩
    | other f hf _ =>
      rw [hf, h1] at h2; exact absurd h2 (by decide)

theorem at_most_one_background_task_witness :
    exampleState.background_compaction_scheduled_ = false ∧ exampleState.scheduled = 0 ∧
    DBImpl.Reachable exampleState
      (DBImpl.MaybeScheduleCompaction
        (DBImpl.MaybeScheduleCompaction { exampleState with imm_ := some [] })) ∧
    (DBImpl.MaybeScheduleCompaction
      (DBImpl.MaybeScheduleCompaction { exampleState with imm_ := some [] })).scheduled ≤ 1 :=
  ⟨rfl, rfl,
    DBImpl.Reachable.step _ _
      (DBImpl.Reachable.step _ _
        (DBImpl.Reachable.step _ _ DBImpl.Reachable.start
          (DBImpl.Step.other exampleState (fun x => { x with imm_ := some [] }) rfl rfl))
        (DBImpl.Step.schedule _))
      (DBImpl.Step.schedule _),
    (at_most_one_background_task exampleState _ rfl rfl
      (DBImpl.Reachable.step _ _
        (DBImpl.Reachable.step _ _
          (DBImpl.Reachable.step _ _ DBImpl.Reachable.start
            (DBImpl.Step.other exampleState (fun x => { x with imm_ := some [] }) rfl rfl))
          (DBImpl.Step.schedule _))
        (DBImpl.Step.schedule _))).1⟩
theorem MakeRoomForWrite_bg_error (options : RoomOptions) (force : Bool) (db : DBImpl.State)
    (background : List (DBImpl.State → DBImpl.State)) (h : db.bg_error_.ok = false) :
    DBImpl.MakeRoomForWrite options force db background
      = { status := some db.bg_error_, db := db, switched := [] } := by
  unfold DBImpl.MakeRoomForWrite
  rw [DBImpl.MakeRoomForWrite_loop.eq_def, if_pos (by simp [h])]

theorem Write_leader_failed_room (db : DBImpl) (w : DBImpl.Writer) (rest : List DBImpl.Writer)
    (room : Status) (hq : db.writers_ = w :: rest) (hroom : room.ok = false) :
    db.Write_leader room
      = { status := room, db := { db with writers_ := rest }, write_batch := none,
          completed := [w] } := by
  cases hb : w.batch with
  | none => simp [DBImpl.Write_leader, hq, hb]
  | some updates => simp [DBImpl.Write_leader, hq, hb, hroom]

theorem RecordBackgroundError_sticky (db : DBImpl) (s : Status) (h : db.bg_error_.ok = false) :
    (db.RecordBackgroundError s).bg_error_ = db.bg_error_ := by
  unfold DBImpl.RecordBackgroundError
  simp [h]

/-- What `Write` does from the log append on, for a leader with the batch
`updates` once `MakeRoomForWrite` has returned OK: the statuses of `AddRecord`
and `Sync`, and what becomes of `bg_error_`, `mem_` and the log. -/
theorem Write_leader_log (db : DBImpl) (w : DBImpl.Writer) (rest : List DBImpl.Writer)
    (updates : WriteBatch) (hq : db.writers_ = w :: rest) (hb : w.batch = some updates) :
    (¬ (db.log_.AddRecord (WriteBatchInternal.Contents
        (WriteBatchInternal.SetSequence (db.BuildBatchGroup w updates rest).result
          ((db.last_sequence + 1) % 2 ^ 64)))).1.ok = true →
      (db.Write_leader Status.OK).status
        = (db.log_.AddRecord (WriteBatchInternal.Contents
            (WriteBatchInternal.SetSequence (db.BuildBatchGroup w updates rest).result
              ((db.last_sequence + 1) % 2 ^ 64)))).1 ∧
      (db.Write_leader Status.OK).db.bg_error_ = db.bg_error_ ∧
      (db.Write_leader Status.OK).db.mem_ = db.mem_ ∧
      (db.Write_leader Status.OK).db.log_
        = (db.log_.AddRecord (WriteBatchInternal.Contents
            (WriteBatchInternal.SetSequence (db.BuildBatchGroup w updates rest).result
              ((db.last_sequence + 1) % 2 ^ 64)))).2.1) ∧
    ((db.log_.AddRecord (WriteBatchInternal.Contents
        (WriteBatchInternal.SetSequence (db.BuildBatchGroup w updates rest).result
          ((db.last_sequence + 1) % 2 ^ 64)))).1.ok = true →
      w.sync = true →
      ¬ ((db.log_.AddRecord (WriteBatchInternal.Contents
        (WriteBatchInternal.SetSequence (db.BuildBatchGroup w updates rest).result
          ((db.last_sequence + 1) % 2 ^ 64)))).2.1.dest_.Sync).1.ok = true →
      (db.Write_leader Status.OK).status
        = ((db.log_.AddRecord (WriteBatchInternal.Contents
            (WriteBatchInternal.SetSequence (db.BuildBatchGroup w updates rest).result
              ((db.last_sequence + 1) % 2 ^ 64)))).2.1.dest_.Sync).1 ∧
      (db.Write_leader Status.OK).db.bg_error_
        = (if db.bg_error_.ok = true then
            ((db.log_.AddRecord (WriteBatchInternal.Contents
              (WriteBatchInternal.SetSequence (db.BuildBatchGroup w updates rest).result
                ((db.last_sequence + 1) % 2 ^ 64)))).2.1.dest_.Sync).1
          else db.bg_error_) ∧
      (db.Write_leader Status.OK).db.mem_ = db.mem_) := by
  generalize hr1 : db.log_.AddRecord (WriteBatchInternal.Contents
        (WriteBatchInternal.SetSequence (db.BuildBatchGroup w updates rest).result
          ((db.last_sequence + 1) % 2 ^ 64))) = r1
  have hOK : Status.OK.ok = true := rfl
  constructor
  · intro h1
    have h1' : r1.1.ok = false := by simpa using h1
    simp only [DBImpl.Write_leader, hq, hb, hOK, hr1, h1', if_true, Bool.false_and,
      Bool.false_eq_true, if_false, and_self]
  · intro h1 hs h2
    have h2' : (r1.2.1.dest_.Sync).1.ok = false := by simpa using h2
    simp only [DBImpl.Write_leader, hq, hb, hOK, hr1, h1, hs, h2', if_true, Bool.and_self,
      Bool.not_false, Bool.false_eq_true, if_false, DBImpl.RecordBackgroundError, true_and,
      and_true]
    split_ifs <;> exact ⟨rfl, rfl⟩

namespace log

theorem EmitPhysicalRecord_three (w : Writer) (t : RecordType) (payload : Bytes)
    (rest : List Bool) (h : w.dest_.outcomes = true :: true :: true :: rest) :
    (w.EmitPhysicalRecord t payload).1 = Status.OK ∧
    (w.EmitPhysicalRecord t payload).2.dest_.outcomes = rest := by
  unfold Writer.EmitPhysicalRecord
  simp [WritableFile.Append, WritableFile.Flush, h, Status.ok]

/-- A record that fits behind a header in the current block is written by
three calls on the file; if they succeed, `AddRecord` returns OK. -/
theorem AddRecord_three (w : Writer) (slice : Bytes) (rest : List Bool)
    (hfit : w.block_offset_ + kHeaderSize + slice.length ≤ kBlockSize)
    (h : w.dest_.outcomes = true :: true :: true :: rest) :
    (w.AddRecord slice).1 = Status.OK ∧ (w.AddRecord slice).2.1.dest_.outcomes = rest := by
  have hsw : w.switchBlock = w := by
    unfold Writer.switchBlock
    simp only [kHeaderSize, kBlockSize] at hfit ⊢
    rw [if_neg (by omega)]
  unfold Writer.AddRecord
  rw [Writer.AddRecord_loop]
  simp only [hsw]
  have hfrag : (if slice.length < kBlockSize - w.block_offset_ - kHeaderSize then slice.length
      else kBlockSize - w.block_offset_ - kHeaderSize) = slice.length := by
    split_ifs <;> omega
  rw [hfrag]
  rw [dif_neg (by omega)]
  exact EmitPhysicalRecord_three w _ _ rest h

/-- A record whose first file call fails: `AddRecord` returns that error. -/
theorem AddRecord_first_fails (w : Writer) (slice : Bytes) (rest : List Bool)
    (hoff : w.block_offset_ + kHeaderSize ≤ kBlockSize)
    (h : w.dest_.outcomes = false :: rest) :
    (w.AddRecord slice).1 = Status.IOError "Append" ∧
    (w.AddRecord slice).2.1.dest_.outcomes = rest := by
  have hsw : w.switchBlock = w := by
    unfold Writer.switchBlock
    simp only [kHeaderSize, kBlockSize] at hoff ⊢
    rw [if_neg (by omega)]
  have hemit : ∀ t payload, (w.EmitPhysicalRecord t payload).1 = Status.IOError "Append" ∧
      (w.EmitPhysicalRecord t payload).2.dest_.outcomes = rest := by
    intro t payload
    unfold Writer.EmitPhysicalRecord
    simp [WritableFile.Append, h, Status.ok]
  unfold Writer.AddRecord
  rw [Writer.AddRecord_loop]
  simp only [hsw]
  rw [dif_neg (by rw [(hemit _ _).1]; simp [Status.ok])]
  exact hemit _ _

end log
/-- C21: sticky fsync error.  A leader with a sync write, in a database whose
`bg_error_` is OK, appends its batch to the log and the `Sync` of the log file
fails with status `e`: `Write` returns `e`, does not insert into the memtable,
and `bg_error_` becomes `e`.  In every database `db2` whose `bg_error_` is `e`:
`RecordBackgroundError`, the only assignment to `bg_error_`, leaves it `e`
whatever status it is given, and so does `MaybeScheduleCompaction`; and a
`Write` of the thread at the front of the queue returns `e` without building
or stamping a batch, appending to the log or inserting into the memtable, and
leaves `bg_error_` at `e`. -/
theorem sticky_fsync_error (options : RoomOptions) (db : DBImpl.State) (w : DBImpl.Writer)
    (rest : List DBImpl.Writer) (updates : WriteBatch) (e : Status)
    (hq : db.writers_ = w :: rest) (hb : w.batch = some updates) (hsync : w.sync = true)
    (hadd : (db.log_.AddRecord (WriteBatchInternal.Contents
      (WriteBatchInternal.SetSequence (db.toDBImpl.BuildBatchGroup w updates rest).result
        ((db.last_sequence + 1) % 2 ^ 64)))).1.ok = true)
    (he : ((db.log_.AddRecord (WriteBatchInternal.Contents
      (WriteBatchInternal.SetSequence (db.toDBImpl.BuildBatchGroup w updates rest).result
        ((db.last_sequence + 1) % 2 ^ 64)))).2.1.dest_.Sync).1 = e)
    (hfail : e.ok = false) (hbg : db.bg_error_.ok = true) :
    (db.toDBImpl.Write_leader Status.OK).status = e ∧
    (db.toDBImpl.Write_leader Status.OK).db.bg_error_ = e ∧
    (db.toDBImpl.Write_leader Status.OK).db.mem_ = db.mem_ ∧
    ∀ db2 : DBImpl.State, db2.bg_error_ = e →
      (∀ s, (db2.toDBImpl.RecordBackgroundError s).bg_error_ = e) ∧
      (DBImpl.MaybeScheduleCompaction db2).bg_error_ = e ∧
      ∀ (w2 : DBImpl.Writer) (rest2 : List DBImpl.Writer)
        (background : List (DBImpl.State → DBImpl.State)),
        db2.writers_ = w2 :: rest2 →
        ∃ out db3, DBImpl.Write_front options db2 background = some (out, db3) ∧
          out.status = e ∧ out.write_batch = none ∧ out.completed = [w2] ∧
          db3.log_ = db2.log_ ∧ db3.mem_ = db2.mem_ ∧ db3.bg_error_ = e ∧
          db3.writers_ = rest2 := by
  obtain ⟨h1, h2, h3⟩ := (Write_leader_log db.toDBImpl w rest updates hq hb).2 hadd hsync
    (by rw [he, hfail]; decide)
  rw [he] at h1 h2
  rw [if_pos hbg] at h2
  refine ⟨h1, h2, h3, ?_⟩
  intro db2 hdb2
  have hnok : db2.bg_error_.ok = false := by rw [hdb2]; exact hfail
  refine ⟨fun s => by rw [RecordBackgroundError_sticky _ s hnok]; exact hdb2, ?_, ?_⟩
  · unfold DBImpl.MaybeScheduleCompaction
    split_ifs <;> exact hdb2
  · intro w2 rest2 background hq2
    have hroom := MakeRoomForWrite_bg_error options w2.batch.isNone db2 background hnok
    have hlead := Write_leader_failed_room db2.toDBImpl w2 rest2 db2.bg_error_ hq2 hnok
    refine ⟨db2.toDBImpl.Write_leader db2.bg_error_,
      { db2 with toDBImpl := (db2.toDBImpl.Write_leader db2.bg_error_).db }, ?_, ?_⟩
    · unfold DBImpl.Write_front
      rw [hq2]
      dsimp only
      rw [hroom]
    · rw [hlead]
      exact ⟨hdb2, rfl, rfl, rfl, rfl, hdb2, rfl⟩

theorem sticky_fsync_error_witness :
    (exampleSyncFailState.toDBImpl.Write_leader Status.OK).status = Status.IOError "Sync" ∧
    (exampleSyncFailState.toDBImpl.Write_leader Status.OK).db.bg_error_
      = Status.IOError "Sync" ∧
    (exampleSyncFailState.toDBImpl.Write_leader Status.OK).db.mem_ = exampleSyncFailState.mem_ ∧
    ∀ db2 : DBImpl.State, db2.bg_error_ = Status.IOError "Sync" →
      (∀ s, (db2.toDBImpl.RecordBackgroundError s).bg_error_ = Status.IOError "Sync") ∧
      (DBImpl.MaybeScheduleCompaction db2).bg_error_ = Status.IOError "Sync" ∧
      ∀ (w2 : DBImpl.Writer) (rest2 : List DBImpl.Writer)
        (background : List (DBImpl.State → DBImpl.State)),
        db2.writers_ = w2 :: rest2 →
        ∃ out db3, DBImpl.Write_front exampleRoomOptions db2 background = some (out, db3) ∧
          out.status = Status.IOError "Sync" ∧ out.write_batch = none ∧
          out.completed = [w2] ∧
          db3.log_ = db2.log_ ∧ db3.mem_ = db2.mem_ ∧ db3.bg_error_ = Status.IOError "Sync" ∧
          db3.writers_ = rest2 := by
  have hadd := log.AddRecord_three exampleSyncFailState.log_
    (WriteBatchInternal.Contents (WriteBatchInternal.SetSequence
      (exampleSyncFailState.toDBImpl.BuildBatchGroup exampleSyncWriter
        (WriteBatch.new.Put [97] [98]) []).result
      ((exampleSyncFailState.last_sequence + 1) % 2 ^ 64)))
    [false] (by decide) rfl
  exact sticky_fsync_error exampleRoomOptions exampleSyncFailState exampleSyncWriter []
    (WriteBatch.new.Put [97] [98]) (Status.IOError "Sync") rfl rfl rfl
    (by rw [hadd.1]; rfl)
    (by unfold WritableFile.Sync; rw [hadd.2])
    rfl rfl
theorem MakeRoomForWrite_room (options : RoomOptions) (db : DBImpl.State)
    (background : List (DBImpl.State → DBImpl.State)) (hbg : db.bg_error_.ok = true)
    (hl0 : db.versions_.level0_files < kL0_SlowdownWritesTrigger)
    (hmem : options.ApproximateMemoryUsage db.mem_ ≤ options.write_buffer_size) :
    DBImpl.MakeRoomForWrite options false db background
      = { status := some Status.OK, db := db, switched := [] } := by
  unfold DBImpl.MakeRoomForWrite
  rw [DBImpl.MakeRoomForWrite_loop.eq_def, if_neg (by simp [hbg]),
    if_neg (by simp; omega), if_pos (by simp [hmem])]

theorem Write_leader_status (db : DBImpl) (w : DBImpl.Writer) (rest : List DBImpl.Writer)
    (updates : WriteBatch) (hq : db.writers_ = w :: rest) (hb : w.batch = some updates)
    (hs : w.sync = false)
    (hadd : (db.log_.AddRecord (WriteBatchInternal.Contents
      (WriteBatchInternal.SetSequence (db.BuildBatchGroup w updates rest).result
        ((db.last_sequence + 1) % 2 ^ 64)))).1.ok = true) :
    (db.Write_leader Status.OK).status
      = (WriteBatchInternal.InsertInto
          (WriteBatchInternal.SetSequence (db.BuildBatchGroup w updates rest).result
            ((db.last_sequence + 1) % 2 ^ 64)) db.mem_).1 := by
  have hOK : Status.OK.ok = true := rfl
  simp only [DBImpl.Write_leader, hq, hb, hOK, hs, hadd, if_true, Bool.and_false,
    Bool.false_eq_true, if_false]

/-- C22: a failed log append is not recorded.  A leader with the batch
`updates`, for which `MakeRoomForWrite` returned OK, appends its group's batch
to the log and `AddRecord` returns a non-OK status: `Write` returns that
status, does not call `Sync` on the log file, does not insert into the
memtable, and leaves `bg_error_` as it was. -/
theorem log_append_failure (db : DBImpl.State) (w : DBImpl.Writer) (rest : List DBImpl.Writer)
    (updates : WriteBatch) (hq : db.writers_ = w :: rest) (hb : w.batch = some updates)
    (hfail : (db.log_.AddRecord (WriteBatchInternal.Contents
      (WriteBatchInternal.SetSequence (db.toDBImpl.BuildBatchGroup w updates rest).result
        ((db.last_sequence + 1) % 2 ^ 64)))).1.ok = false) :
    (db.toDBImpl.Write_leader Status.OK).status
      = (db.log_.AddRecord (WriteBatchInternal.Contents
          (WriteBatchInternal.SetSequence (db.toDBImpl.BuildBatchGroup w updates rest).result
            ((db.last_sequence + 1) % 2 ^ 64)))).1 ∧
    (db.toDBImpl.Write_leader Status.OK).db.bg_error_ = db.bg_error_ ∧
    (db.toDBImpl.Write_leader Status.OK).db.mem_ = db.mem_ ∧
    (db.toDBImpl.Write_leader Status.OK).db.log_
      = (db.log_.AddRecord (WriteBatchInternal.Contents
          (WriteBatchInternal.SetSequence (db.toDBImpl.BuildBatchGroup w updates rest).result
            ((db.last_sequence + 1) % 2 ^ 64)))).2.1 :=
  (Write_leader_log db.toDBImpl w rest updates hq hb).1 (by rw [hfail]; decide)

theorem log_append_failure_witness :
    (exampleAppendFailState.toDBImpl.Write_leader Status.OK).status
      = (exampleAppendFailState.log_.AddRecord (WriteBatchInternal.Contents
          (WriteBatchInternal.SetSequence (exampleAppendFailState.toDBImpl.BuildBatchGroup
              examplePutWriter (WriteBatch.new.Put [97] [98]) []).result
            ((exampleAppendFailState.last_sequence + 1) % 2 ^ 64)))).1 ∧
    (exampleAppendFailState.toDBImpl.Write_leader Status.OK).db.bg_error_
      = exampleAppendFailState.bg_error_ ∧
    (exampleAppendFailState.toDBImpl.Write_leader Status.OK).db.mem_
      = exampleAppendFailState.mem_ ∧
    (exampleAppendFailState.toDBImpl.Write_leader Status.OK).db.log_
      = (exampleAppendFailState.log_.AddRecord (WriteBatchInternal.Contents
          (WriteBatchInternal.SetSequence (exampleAppendFailState.toDBImpl.BuildBatchGroup
              examplePutWriter (WriteBatch.new.Put [97] [98]) []).result
            ((exampleAppendFailState.last_sequence + 1) % 2 ^ 64)))).2.1 :=
  log_append_failure exampleAppendFailState examplePutWriter [] (WriteBatch.new.Put [97] [98])
    rfl rfl
    (by rw [(log.AddRecord_first_fails exampleAppendFailState.log_ _ [] (by decide) rfl).1]; rfl)
theorem Write_front_room (options : RoomOptions) (db : DBImpl.State) (w : DBImpl.Writer)
    (rest : List DBImpl.Writer) (updates : WriteBatch)
    (hq : db.writers_ = w :: rest) (hb : w.batch = some updates)
    (hbg : db.bg_error_.ok = true)
    (hl0 : db.versions_.level0_files < kL0_SlowdownWritesTrigger)
    (hmem : options.ApproximateMemoryUsage db.mem_ ≤ options.write_buffer_size) :
    DBImpl.Write_front options db []
      = some (db.toDBImpl.Write_leader Status.OK,
          { db with toDBImpl := (db.toDBImpl.Write_leader Status.OK).db }) := by
  unfold DBImpl.Write_front
  rw [hq]
  dsimp only
  rw [hb]
  have hroom := MakeRoomForWrite_room options db [] hbg hl0 hmem
  simp only [Option.isNone_some] at hroom ⊢
  rw [hroom]

theorem SetSequence_examplePut (seq : Nat) :
    WriteBatchInternal.SetSequence (WriteBatch.new.Put [97] [98]) seq
      = ⟨batchRep seq [Op.Put [97] [98]].length ([Op.Put [97] [98]].flatMap Op.record)⟩ := by
  have h : (WriteBatch.new.Put [97] [98]).rep_.drop 8
      = EncodeFixed32 [Op.Put [97] [98]].length ++ [Op.Put [97] [98]].flatMap Op.record := by
    decide
  simp only [WriteBatchInternal.SetSequence, batchRep, h, List.append_assoc]

theorem InsertInto_examplePut (seq : Nat) (mem : MemTable) :
    (WriteBatchInternal.InsertInto
      (WriteBatchInternal.SetSequence (WriteBatch.new.Put [97] [98]) seq) mem).1
      = Status.OK := by
  rw [SetSequence_examplePut]
  unfold WriteBatchInternal.InsertInto
  dsimp only
  rw [Iterate_batchRep MemTableInserter.handler seq [Op.Put [97] [98]] _ (by decide)
    (by decide)]

/-- C22 fails on `exampleAppendFailState`: the append of the first write to
the log fails and `Write` returns the error, yet `bg_error_` is OK afterwards,
and the write of a writer queued next returns OK. -/
theorem log_append_failure_not_sticky :
    ∃ out db1,
      DBImpl.Write_front exampleRoomOptions exampleAppendFailState [] = some (out, db1) ∧
      out.status = Status.IOError "Append" ∧
      db1.bg_error_ = Status.OK ∧
      ∃ out2 db3,
        DBImpl.Write_front exampleRoomOptions { db1 with writers_ := [examplePutWriter] } []
          = some (out2, db3) ∧
        out2.status = Status.OK := by
  have hfail := log.AddRecord_first_fails exampleAppendFailState.log_
    (WriteBatchInternal.Contents (WriteBatchInternal.SetSequence
      (exampleAppendFailState.toDBImpl.BuildBatchGroup examplePutWriter
        (WriteBatch.new.Put [97] [98]) []).result
      ((exampleAppendFailState.last_sequence + 1) % 2 ^ 64))) [] (by decide) rfl
  obtain ⟨a1, a2, a3, a4⟩ := (Write_leader_log exampleAppendFailState.toDBImpl
    examplePutWriter [] (WriteBatch.new.Put [97] [98]) rfl rfl).1
    (by rw [hfail.1]; decide)
  have hfront := Write_front_room exampleRoomOptions exampleAppendFailState examplePutWriter []
    (WriteBatch.new.Put [97] [98]) rfl rfl rfl (by decide) (by decide)
  refine ⟨_, _, hfront, by rw [a1, hfail.1], a2, ?_⟩
  have hfront2 := Write_front_room exampleRoomOptions
    { ({ exampleAppendFailState with
          toDBImpl := (exampleAppendFailState.toDBImpl.Write_leader Status.OK).db } :
        DBImpl.State) with writers_ := [examplePutWriter] }
    examplePutWriter [] (WriteBatch.new.Put [97] [98]) rfl rfl
    (by show (exampleAppendFailState.toDBImpl.Write_leader Status.OK).db.bg_error_.ok = true
        rw [a2]; rfl)
    (by decide)
    (by show exampleRoomOptions.ApproximateMemoryUsage
          (exampleAppendFailState.toDBImpl.Write_leader Status.OK).db.mem_
          ≤ exampleRoomOptions.write_buffer_size
        rw [a3]; decide)
  refine ⟨_, _, hfront2, ?_⟩
  rw [Write_leader_status _ examplePutWriter [] (WriteBatch.new.Put [97] [98]) rfl rfl rfl]
  · exact InsertInto_examplePut _ _
  · have hrel : (exampleAppendFailState.toDBImpl.Write_leader Status.OK).db.log_.dest_.reliable := by
      rw [a4]
      unfold WritableFile.reliable
      rw [hfail.2]
      intro b hb; cases hb
    have h := (log.AddRecord_loop_framing _
      (exampleAppendFailState.toDBImpl.Write_leader Status.OK).db.log_
      (WriteBatchInternal.Contents (WriteBatchInternal.SetSequence
        (DBImpl.BuildBatchGroup
          ({ ({ exampleAppendFailState with
              toDBImpl := (exampleAppendFailState.toDBImpl.Write_leader Status.OK).db } :
            DBImpl.State) with writers_ := [examplePutWriter] } : DBImpl.State).toDBImpl
          examplePutWriter (WriteBatch.new.Put [97] [98]) []).result
        (((exampleAppendFailState.toDBImpl.Write_leader Status.OK).db.last_sequence + 1)
          % 2 ^ 64)))
      true (le_refl _) hrel).1
    show (log.Writer.AddRecord (exampleAppendFailState.toDBImpl.Write_leader Status.OK).db.log_
      _).1.ok = true
    unfold log.Writer.AddRecord
    rw [h]
    rfl

/-- C23: garbage-collection rule.  For every directory entry that parses as a
table file with number `n`, `RemoveObsoleteFiles` removes it if and only if
`bg_error_` is OK, `n` is not in `pending_outputs_` and `n` is not among the
files of the live versions; when `bg_error_` is set nothing is removed; and an
entry that parses as the CURRENT, the LOCK or an info-log file, or does not
parse, is never removed. -/
theorem garbage_collection_rule (ParseFileName : String → Option (Nat × FileType))
    (db : DBImpl.State) (filenames : List String) :
    (∀ filename ∈ filenames, ∀ n, ParseFileName filename = some (n, FileType.kTableFile) →
      (filename ∈ (DBImpl.RemoveObsoleteFiles ParseFileName db filenames).1 ↔
        db.bg_error_.ok = true ∧ n ∉ db.pending_outputs_ ∧ n ∉ db.versions_.live_files)) ∧
    (db.bg_error_.ok = false →
      DBImpl.RemoveObsoleteFiles ParseFileName db filenames = ([], [])) ∧
    (∀ filename ∈ (DBImpl.RemoveObsoleteFiles ParseFileName db filenames).1,
      filename ∈ filenames ∧
      ∃ n t, ParseFileName filename = some (n, t) ∧ t ≠ FileType.kCurrentFile ∧
        t ≠ FileType.kDBLockFile ∧ t ≠ FileType.kInfoLogFile) := by
  refine ⟨?_, ?_, ?_⟩
  · intro filename hmem n hparse
    unfold DBImpl.RemoveObsoleteFiles
    by_cases hbg : db.bg_error_.ok = true
    · simp [hbg, List.mem_filter, hmem, hparse, DBImpl.RemoveObsoleteFiles_keep]
    · have hbg' : db.bg_error_.ok = false := by simpa using hbg
      simp [hbg']
  · intro hbg
    unfold DBImpl.RemoveObsoleteFiles
    simp [hbg]
  · intro filename hdel
    unfold DBImpl.RemoveObsoleteFiles at hdel
    by_cases hbg : db.bg_error_.ok = true
    · simp only [hbg, Bool.not_true, Bool.false_eq_true, if_false, List.mem_filter] at hdel
      refine ⟨hdel.1, ?_⟩
      have h2 := hdel.2
      cases hp : ParseFileName filename with
      | none => rw [hp] at h2; simp at h2
      | some p =>
        obtain ⟨n, t⟩ := p
        rw [hp] at h2
        refine ⟨n, t, rfl, ?_, ?_, ?_⟩ <;>
          (intro ht; subst ht; simp [DBImpl.RemoveObsoleteFiles_keep] at h2)
    · have hbg' : db.bg_error_.ok = false := by simpa using hbg
      simp [hbg'] at hdel

theorem garbage_collection_rule_witness :
    (DBImpl.RemoveObsoleteFiles exampleParseFileName exampleGcState exampleDirectory).1
      = ["000007.ldb"] ∧
    ("000007.ldb" ∈
        (DBImpl.RemoveObsoleteFiles exampleParseFileName exampleGcState exampleDirectory).1 ↔
      exampleGcState.bg_error_.ok = true ∧ 7 ∉ exampleGcState.pending_outputs_ ∧
        7 ∉ exampleGcState.versions_.live_files) ∧
    ¬ ("000005.ldb" ∈
        (DBImpl.RemoveObsoleteFiles exampleParseFileName exampleGcState exampleDirectory).1) :=
  ⟨by decide,
   (garbage_collection_rule exampleParseFileName exampleGcState exampleDirectory).1
     "000007.ldb" (by decide) 7 (by decide),
   by decide⟩

/-- A number that no name of the directory parses to stays in `expected`. -/
theorem DBImpl.Recover_expected_mem (ParseFileName : String → Option (Nat × FileType))
    (n : Nat) (filenames : List String)
    (hnone : ∀ filename ∈ filenames, ∀ t, ParseFileName filename ≠ some (n, t)) :
    ∀ live : List Nat, n ∈ live → n ∈ DBImpl.Recover_expected ParseFileName live filenames := by
  unfold DBImpl.Recover_expected
  induction filenames with
  | nil => intro live h; simpa using h
  | cons f fs ih =>
    intro live h
    rw [List.foldl_cons]
    apply ih (fun g hg => hnone g (List.mem_cons_of_mem _ hg))
    cases hp : ParseFileName f with
    | none => simpa using h
    | some p =>
      obtain ⟨m, t⟩ := p
      have hne : n ≠ m := by
        intro heq
        exact hnone f (List.mem_cons_self _ _) t (by rw [hp, heq])
      simp [List.mem_filter, h, hne]

/-- When `versions_->Recover` and `GetChildren` succeed and a live file has no
name in the directory, the rest of `Recover` returns Corruption after these two
calls. -/
theorem DBImpl.Recover_versions_missing (env : RecoverEnv) (calls : List RecoverCall) (n : Nat)
    (hv : env.versions_Recover.1.ok = true) (hg : env.GetChildren.1.ok = true)
    (hn : n ∈ env.versions_Recover.2.live_files)
    (hnone : ∀ filename ∈ env.GetChildren.2, ∀ t, env.ParseFileName filename ≠ some (n, t)) :
    (∃ msg, (DBImpl.Recover_versions env calls).1 = Status.Corruption msg) ∧
    (DBImpl.Recover_versions env calls).2
      = calls ++ [RecoverCall.VersionsRecover] ++ [RecoverCall.GetChildren] := by
  have hmem := DBImpl.Recover_expected_mem env.ParseFileName n env.GetChildren.2 hnone _ hn
  unfold DBImpl.Recover_versions
  simp only [hv, hg, Bool.not_true, Bool.false_eq_true, if_false]
  cases he : DBImpl.Recover_expected env.ParseFileName env.versions_Recover.2.live_files
      env.GetChildren.2 with
  | nil => rw [he] at hmem; cases hmem
  | cons e es => exact ⟨⟨_, rfl⟩, rfl⟩
/-- C24: open-time failures.  With the lock taken: when `CURRENT` is absent and
`create_if_missing` is false, and when `CURRENT` is present and
`error_if_exists` is true, `Recover` returns InvalidArgument having called only
`CreateDir`, `LockFile` and `FileExists`, so before `versions_->Recover` and
any `RecoverLogFile`; when `CURRENT` is absent and `create_if_missing` is true
it runs `NewDB` and goes on to `versions_->Recover` if that succeeded, whatever
`error_if_exists` is; and when `versions_->Recover` and `GetChildren` succeed
and the recovered version refers to a file number that no name of the
directory parses to, it returns Corruption without recovering any log. -/
theorem open_time_failures (options : RecoverOptions) (env : RecoverEnv)
    (hlock : env.LockFile.ok = true) :
    (env.FileExists = false → options.create_if_missing = false →
      (∃ msg, (DBImpl.Recover options env).1 = Status.InvalidArgument msg) ∧
      (DBImpl.Recover options env).2
        = [RecoverCall.CreateDir, RecoverCall.LockFile, RecoverCall.FileExists]) ∧
    (env.FileExists = true → options.error_if_exists = true →
      (∃ msg, (DBImpl.Recover options env).1 = Status.InvalidArgument msg) ∧
      (DBImpl.Recover options env).2
        = [RecoverCall.CreateDir, RecoverCall.LockFile, RecoverCall.FileExists]) ∧
    (env.FileExists = false → options.create_if_missing = true →
      DBImpl.Recover options env
        = (if (DBImpl.NewDB env).1.ok then
            DBImpl.Recover_versions env
              ([RecoverCall.CreateDir, RecoverCall.LockFile, RecoverCall.FileExists]
                ++ (DBImpl.NewDB env).2)
          else
            ((DBImpl.NewDB env).1,
              [RecoverCall.CreateDir, RecoverCall.LockFile, RecoverCall.FileExists]
                ++ (DBImpl.NewDB env).2)) ∧
      ∀ options2 : RecoverOptions, options2.create_if_missing = true →
        DBImpl.Recover options2 env = DBImpl.Recover options env) ∧
    (∀ n : Nat,
      ((env.FileExists = true ∧ options.error_if_exists = false) ∨
        (env.FileExists = false ∧ options.create_if_missing = true ∧
          (DBImpl.NewDB env).1.ok = true)) →
      env.versions_Recover.1.ok = true → env.GetChildren.1.ok = true →
      n ∈ env.versions_Recover.2.live_files →
      (∀ filename ∈ env.GetChildren.2, ∀ t, env.ParseFileName filename ≠ some (n, t)) →
      (∃ msg, (DBImpl.Recover options env).1 = Status.Corruption msg) ∧
      ∀ c ∈ (DBImpl.Recover options env).2, ∀ m, c ≠ RecoverCall.RecoverLogFile m) := by
  have hnew : ∀ c ∈ (DBImpl.NewDB env).2, ∀ m, c ≠ RecoverCall.RecoverLogFile m := by
    intro c hc m
    unfold DBImpl.NewDB at hc
    split at hc
    · simp at hc; subst hc; simp
    · dsimp only at hc
      split_ifs at hc <;> simp at hc <;> rcases hc with hc | hc <;> subst hc <;> simp
  refine ⟨?_, ?_, ?_, ?_⟩
  · intro hf hc
    unfold DBImpl.Recover
    simp [hlock, hf, hc]
  · intro hf he
    unfold DBImpl.Recover
    simp [hlock, hf, he]
  · intro hf hc
    have key : ∀ o : RecoverOptions, o.create_if_missing = true →
        DBImpl.Recover o env
          = (if (DBImpl.NewDB env).1.ok then
              DBImpl.Recover_versions env
                ([RecoverCall.CreateDir, RecoverCall.LockFile, RecoverCall.FileExists]
                  ++ (DBImpl.NewDB env).2)
            else
              ((DBImpl.NewDB env).1,
                [RecoverCall.CreateDir, RecoverCall.LockFile, RecoverCall.FileExists]
                  ++ (DBImpl.NewDB env).2)) := by
      intro o ho
      unfold DBImpl.Recover
      by_cases hn : (DBImpl.NewDB env).1.ok = true
      · simp [hlock, hf, ho, hn]
      · have hn' : (DBImpl.NewDB env).1.ok = false := by simpa using hn
        simp [hlock, hf, ho, hn']
    exact ⟨key options hc, fun o ho => (key o ho).trans (key options hc).symm⟩
  · intro n hcur hv hg hn hnone
    have hrec : ∃ calls, DBImpl.Recover options env = DBImpl.Recover_versions env calls ∧
        ∀ c ∈ calls, ∀ m, c ≠ RecoverCall.RecoverLogFile m := by
      rcases hcur with ⟨hf, he⟩ | ⟨hf, hc, hok⟩
      · refine ⟨[RecoverCall.CreateDir, RecoverCall.LockFile, RecoverCall.FileExists], ?_, ?_⟩
        · unfold DBImpl.Recover
          simp [hlock, hf, he]
        · intro c hc m
          simp at hc
          rcases hc with hc | hc | hc <;> subst hc <;> simp
      · refine ⟨[RecoverCall.CreateDir, RecoverCall.LockFile, RecoverCall.FileExists]
          ++ (DBImpl.NewDB env).2, ?_, ?_⟩
        · unfold DBImpl.Recover
          simp [hlock, hf, hc, hok]
        · intro c hc m
          rcases List.mem_append.1 hc with hc | hc
          · simp at hc
            rcases hc with hc | hc | hc <;> subst hc <;> simp
          · exact hnew c hc m
    obtain ⟨calls, heq, hcalls⟩ := hrec
    have h := DBImpl.Recover_versions_missing env calls n hv hg hn hnone
    rw [heq]
    refine ⟨h.1, ?_⟩
    intro c hc m
    rw [h.2] at hc
    simp only [List.mem_append, List.mem_singleton] at hc
    rcases hc with (hc | hc) | hc
    · exact hcalls c hc m
    · subst hc; simp
    · subst hc; simp

theorem open_time_failures_witness :
    exampleMissingTableEnv.LockFile.ok = true ∧
    5 ∈ exampleMissingTableEnv.versions_Recover.2.live_files ∧
    ((∃ msg, (DBImpl.Recover { create_if_missing := true, error_if_exists := false }
        exampleMissingTableEnv).1 = Status.Corruption msg) ∧
      ∀ c ∈ (DBImpl.Recover { create_if_missing := true, error_if_exists := false }
        exampleMissingTableEnv).2, ∀ m, c ≠ RecoverCall.RecoverLogFile m) ∧
    ((∃ msg, (DBImpl.Recover { create_if_missing := false, error_if_exists := true }
        exampleMissingTableEnv).1 = Status.InvalidArgument msg) ∧
      (DBImpl.Recover { create_if_missing := false, error_if_exists := true }
        exampleMissingTableEnv).2
        = [RecoverCall.CreateDir, RecoverCall.LockFile, RecoverCall.FileExists]) ∧
    ((∃ msg, (DBImpl.Recover { create_if_missing := false, error_if_exists := false }
        exampleNoCurrentEnv).1 = Status.InvalidArgument msg) ∧
      (DBImpl.Recover { create_if_missing := false, error_if_exists := false }
        exampleNoCurrentEnv).2
        = [RecoverCall.CreateDir, RecoverCall.LockFile, RecoverCall.FileExists]) :=
  ⟨by decide, by decide,
   (open_time_failures { create_if_missing := true, error_if_exists := false }
      exampleMissingTableEnv (by decide)).2.2.2 5 (Or.inl ⟨by decide, by decide⟩)
      (by decide) (by decide) (by decide)
      (by intro filename hmem t; cases t <;> revert filename <;> decide),
   (open_time_failures { create_if_missing := false, error_if_exists := true }
      exampleMissingTableEnv (by decide)).2.1 (by decide) (by decide),
   (open_time_failures { create_if_missing := false, error_if_exists := false }
      exampleNoCurrentEnv (by decide)).1 (by decide) (by decide)⟩

/-- C24, the claim as worded fails: the recovered version refers to table 5,
no name of the directory parses as a table file with the number 5, and
`Recover` returns OK after recovering the logs 3 and 5, because the log file
of number 5 has taken 5 out of `expected`. -/
theorem missing_table_not_reported :
    exampleLogForTableEnv.LockFile.ok = true ∧
    exampleLogForTableEnv.versions_Recover.1.ok = true ∧
    exampleLogForTableEnv.GetChildren.1.ok = true ∧
    5 ∈ exampleLogForTableEnv.versions_Recover.2.live_files ∧
    (∀ filename ∈ exampleLogForTableEnv.GetChildren.2,
      exampleLogForTableEnv.ParseFileName filename ≠ some (5, FileType.kTableFile)) ∧
    DBImpl.Recover { create_if_missing := false, error_if_exists := false } exampleLogForTableEnv
      = (Status.OK,
         [RecoverCall.CreateDir, RecoverCall.LockFile, RecoverCall.FileExists,
          RecoverCall.VersionsRecover, RecoverCall.GetChildren,
          RecoverCall.RecoverLogFile 3, RecoverCall.RecoverLogFile 5]) := by
  refine ⟨by decide, by decide, by decide, by decide, by decide, by decide⟩

/-- C38: the unrolled 32-bit encoder agrees with the loop of the 64-bit one.
For every `v < 2^32`, `EncodeVarint32` and `EncodeVarint64` store the same
bytes, so `PutVarint32` and `PutVarint64` append the same bytes to any
string. -/
theorem varint_encoders_agree (v : Nat) (hv : v < 2 ^ 32) :
    EncodeVarint32 v = EncodeVarint64 v ∧
    ∀ dst : Bytes, PutVarint32 dst v = PutVarint64 dst v := by
  have h := EncodeVarint32_eq_EncodeVarint64 v hv
  refine ⟨h, fun dst => ?_⟩
  unfold PutVarint32 PutVarint64
  rw [h]

theorem varint_encoders_agree_witness :
    300 < 2 ^ 32 ∧ EncodeVarint32 300 = [172, 2] ∧
    (EncodeVarint32 300 = EncodeVarint64 300 ∧
      ∀ dst : Bytes, PutVarint32 dst 300 = PutVarint64 dst 300) :=
  ⟨by norm_num, by decide, varint_encoders_agree 300 (by norm_num)⟩
/-- A successful `GetVarint32` leaves a proper suffix of its input. -/
theorem GetVarint32PtrFallback_loop_suffix :
    ∀ (p : Bytes) (shift result value : Nat) (q : Bytes),
      GetVarint32PtrFallback_loop shift result p = some (value, q) →
      ∃ pre, pre ≠ [] ∧ p = pre ++ q := by
  intro p
  induction p with
  | nil => intro shift result value q h; simp [GetVarint32PtrFallback_loop] at h
  | cons byte p ih =>
    intro shift result value q h
    rw [GetVarint32PtrFallback_loop] at h
    split_ifs at h with h1 h2
    · obtain ⟨pre, _, hp⟩ := ih _ _ _ _ h
      exact ⟨byte :: pre, by simp, by rw [hp]; rfl⟩
    · simp only [Option.some.injEq, Prod.mk.injEq] at h
      exact ⟨[byte], by simp, by rw [← h.2]; rfl⟩

theorem GetVarint32_suffix (input : Bytes) (value : Nat) (q : Bytes)
    (h : GetVarint32 input = some (value, q)) : ∃ pre, pre ≠ [] ∧ input = pre ++ q := by
  unfold GetVarint32 GetVarint32Ptr at h
  cases input with
  | nil => simp [GetVarint32PtrFallback, GetVarint32PtrFallback_loop] at h
  | cons byte p =>
    simp only at h
    split_ifs at h with h1
    · simp only [Option.some.injEq, Prod.mk.injEq] at h
      exact ⟨[byte], by simp, by rw [← h.2]; rfl⟩
    · split at h
      · simp at h
      · rename_i v q2 heq
        simp only [Option.some.injEq, Prod.mk.injEq] at h
        obtain ⟨rfl, rfl⟩ := h
        exact GetVarint32PtrFallback_loop_suffix _ _ _ _ _ heq

/-- C39: a failing `GetLengthPrefixedSlice(Slice*, Slice*)` is not atomic.  When
the length prefix decodes to `len` and fewer than `len` bytes follow, it
returns false, `*result` is as before and `*input` is what follows the prefix,
a proper suffix of the former input; when the prefix does not decode it
returns false with `*input` and `*result` as before.  The first case occurs:
for every `len < 2^32` and every `rest` shorter than `len`, the input
`EncodeVarint32 len ++ rest` is left as `rest`. -/
theorem length_prefixed_slice_failure (input result : Bytes) :
    (∀ len input1, GetVarint32 input = some (len, input1) → input1.length < len →
      GetLengthPrefixedSlice input result = (false, input1, result) ∧
      ∃ pre, pre ≠ [] ∧ input = pre ++ input1) ∧
    (GetVarint32 input = none →
      GetLengthPrefixedSlice input result = (false, input, result)) ∧
    (∀ len rest, len < 2 ^ 32 → rest.length < len →
      GetLengthPrefixedSlice (EncodeVarint32 len ++ rest) result = (false, rest, result)) := by
  have h1 : ∀ (inp : Bytes) len input1, GetVarint32 inp = some (len, input1) →
      input1.length < len → GetLengthPrefixedSlice inp result = (false, input1, result) := by
    intro inp len input1 h hlt
    unfold GetLengthPrefixedSlice
    rw [h]
    simp only
    rw [if_neg (by omega)]
  refine ⟨fun len input1 h hlt => ⟨h1 input len input1 h hlt, GetVarint32_suffix _ _ _ h⟩, ?_, ?_⟩
  · intro h
    unfold GetLengthPrefixedSlice
    rw [h]
  · intro len rest hlen hrest
    exact h1 _ len rest (GetVarint32_encode len rest hlen) hrest

theorem length_prefixed_slice_failure_witness :
    GetVarint32 [5, 1, 2] = some (5, [1, 2]) ∧ [1, 2].length < 5 ∧
    (GetLengthPrefixedSlice [5, 1, 2] [9] = (false, [1, 2], [9]) ∧
      ∃ pre, pre ≠ [] ∧ [5, 1, 2] = pre ++ [1, 2]) ∧
    GetVarint32 [128] = none ∧
    GetLengthPrefixedSlice [128] [9] = (false, [128], [9]) :=
  ⟨by decide, by decide,
   (length_prefixed_slice_failure [5, 1, 2] [9]).1 5 [1, 2] (by decide) (by decide),
   by decide,
   (length_prefixed_slice_failure [128] [9]).2.1 (by decide)⟩

namespace log

/-- One turn of the loop of `AddRecord`. -/
theorem AddRecord_iterations_unfold (w : Writer) (ptr : Bytes) (begin_ : Bool)
    (frag : Nat) (type : RecordType)
    (hfrag : (if ptr.length < kBlockSize - w.switchBlock.block_offset_ - kHeaderSize
      then ptr.length else kBlockSize - w.switchBlock.block_offset_ - kHeaderSize) = frag)
    (htype : (if (begin_ && ptr.length == frag) = true then RecordType.kFullType
      else if begin_ = true then RecordType.kFirstType
      else if (ptr.length == frag) = true then RecordType.kLastType
      else RecordType.kMiddleType) = type) :
    w.AddRecord_iterations ptr begin_
      = { head := w, writer := w.switchBlock, type := type, payload := ptr.take frag } ::
        (if (w.switchBlock.EmitPhysicalRecord type (ptr.take frag)).1.ok = true ∧
            ptr.length - frag > 0 then
          (w.switchBlock.EmitPhysicalRecord type (ptr.take frag)).2.AddRecord_iterations
            (ptr.drop frag) false
        else []) := by
  rw [Writer.AddRecord_iterations]
  simp only [hfrag, htype]
  split_ifs <;> rfl

/-- The writer needs no new block while at least 7 bytes are left. -/
theorem switchBlock_same (w : Writer) (hoff : w.block_offset_ + kHeaderSize ≤ kBlockSize) :
    w.switchBlock = w := by
  unfold Writer.switchBlock
  simp only [kHeaderSize, kBlockSize] at hoff ⊢
  rw [if_neg (by omega)]

/-- One turn of the loop of `AddRecord` on a writer at the end of its block. -/
theorem AddRecord_iterations_new_block (w : Writer) (ptr : Bytes) (begin_ : Bool)
    (hoff : w.block_offset_ = kBlockSize) :
    ∃ rest, w.AddRecord_iterations ptr begin_
      = { head := w, writer := { w with block_offset_ := 0 },
          type := (if begin_ = true then
              (if ptr.length ≤ kBlockSize - kHeaderSize then RecordType.kFullType
               else RecordType.kFirstType)
            else if ptr.length ≤ kBlockSize - kHeaderSize then RecordType.kLastType
            else RecordType.kMiddleType),
          payload := ptr.take (kBlockSize - kHeaderSize) } :: rest := by
  have hsw : w.switchBlock = { w with block_offset_ := 0 } := by
    unfold Writer.switchBlock
    simp only [kHeaderSize, kBlockSize] at hoff ⊢
    rw [hoff]
    simp
  have h := AddRecord_iterations_unfold w ptr begin_ _ _ rfl rfl
  rw [hsw] at h
  simp only [Nat.sub_zero] at h
  by_cases hle : ptr.length ≤ kBlockSize - kHeaderSize
  · have hfrag : (if ptr.length < kBlockSize - kHeaderSize then ptr.length
        else kBlockSize - kHeaderSize) = ptr.length := by
      split_ifs <;> omega
    rw [hfrag] at h
    simp only [beq_self_eq_true, Bool.and_true, if_true] at h
    rw [List.take_of_length_le (le_refl _)] at h
    rw [h, List.take_of_length_le hle, if_pos hle, if_pos hle]
    cases begin_ <;> exact ⟨_, rfl⟩
  · have hfrag : (if ptr.length < kBlockSize - kHeaderSize then ptr.length
        else kBlockSize - kHeaderSize) = kBlockSize - kHeaderSize := by
      split_ifs <;> omega
    rw [hfrag] at h
    have hne : (ptr.length == kBlockSize - kHeaderSize) = false := by
      simp only [beq_eq_false_iff_ne, ne_eq]; omega
    simp only [hne, Bool.and_false, Bool.false_eq_true, if_false] at h
    rw [h, if_neg hle, if_neg hle]
    cases begin_ <;> exact ⟨_, rfl⟩

/-- C33: with exactly 7 bytes left in the block and a non-empty record,
`AddRecord` first calls `EmitPhysicalRecord(kFirstType, ptr, 0)` on the
unchanged writer: a header with length 0 and no payload, after which the
block offset is 32768, the end of the block; on a file that accepts the calls
the file has grown by exactly these 7 bytes.  If that call returns OK the loop
goes on with the whole record: the next iteration adds no padding, calls
`EmitPhysicalRecord` at block offset 0 with the first `min(left, 32761)` bytes
of the record, and this fragment is a LAST or a MIDDLE one. -/
theorem zero_length_first_fragment (w : Writer) (slice : Bytes)
    (hoff : w.block_offset_ + kHeaderSize = kBlockSize) (hne : slice ≠ []) :
    w.AddRecord_iterations slice true
      = { head := w, writer := w, type := RecordType.kFirstType, payload := [] } ::
        (if (w.EmitPhysicalRecord RecordType.kFirstType []).1.ok = true then
          (w.EmitPhysicalRecord RecordType.kFirstType []).2.AddRecord_iterations slice false
        else []) ∧
    (w.AddRecord slice).2.2.head? = some { type := RecordType.kFirstType, payload := [] } ∧
    (w.EmitPhysicalRecord RecordType.kFirstType []).2.block_offset_ = kBlockSize ∧
    (w.dest_.reliable →
      (w.EmitPhysicalRecord RecordType.kFirstType []).1 = Status.OK ∧
      (w.EmitPhysicalRecord RecordType.kFirstType []).2.dest_.contents
        = w.dest_.contents ++
            (EncodeFixed32 (crc32c.Mask (type_crc RecordType.kFirstType)) ++ [0, 0, 2])) ∧
    ∃ rest, (w.EmitPhysicalRecord RecordType.kFirstType []).2.AddRecord_iterations slice false
      = { head := (w.EmitPhysicalRecord RecordType.kFirstType []).2,
          writer := { (w.EmitPhysicalRecord RecordType.kFirstType []).2 with block_offset_ := 0 },
          type := (if slice.length ≤ kBlockSize - kHeaderSize then RecordType.kLastType
            else RecordType.kMiddleType),
          payload := slice.take (kBlockSize - kHeaderSize) } :: rest ∧
      slice.take (kBlockSize - kHeaderSize) ≠ [] := by
  have hlen : 0 < slice.length := List.length_pos.mpr hne
  have hfrag : (if slice.length < kBlockSize - w.block_offset_ - kHeaderSize then slice.length
      else kBlockSize - w.block_offset_ - kHeaderSize) = 0 := by
    simp only [kHeaderSize, kBlockSize] at hoff ⊢
    split_ifs <;> omega
  have hbeq : (slice.length == 0) = false := by
    simp only [beq_eq_false_iff_ne, ne_eq]; omega
  have htype : (if ((true : Bool) && slice.length == 0) = true then RecordType.kFullType
      else if (true : Bool) = true then RecordType.kFirstType
      else if (slice.length == 0) = true then RecordType.kLastType
      else RecordType.kMiddleType) = RecordType.kFirstType := by
    simp [hbeq]
  have hsw := switchBlock_same w (le_of_eq hoff)
  rw [← hsw] at hfrag
  have hit := AddRecord_iterations_unfold w slice true 0 RecordType.kFirstType hfrag htype
  rw [hsw] at hit
  simp only [List.take_zero, List.drop_zero, Nat.sub_zero, hlen, and_true] at hit
  have hoff2 : (w.EmitPhysicalRecord RecordType.kFirstType []).2.block_offset_ = kBlockSize := by
    rw [EmitPhysicalRecord_offset]
    simp only [List.length_nil, Nat.add_zero]
    exact hoff
  refine ⟨hit, ?_, hoff2, ?_, ?_⟩
  · have hspec := (AddRecord_iterations_spec _ w slice true (le_refl _)).1
    unfold Writer.AddRecord
    rw [← hspec, hit]
    rfl
  · intro hrel
    refine ⟨(EmitPhysicalRecord_reliable w _ [] hrel).1, ?_⟩
    rw [EmitPhysicalRecord_contents w _ [] hrel]
    simp only [crc32c.Extend, List.foldl_nil, List.length_nil, List.append_nil]
    rw [Nat.xor_assoc, Nat.xor_self, Nat.xor_zero]
    rfl
  · obtain ⟨rest, hrest⟩ := AddRecord_iterations_new_block
      (w.EmitPhysicalRecord RecordType.kFirstType []).2 slice false hoff2
    refine ⟨rest, ?_, ?_⟩
    · rw [hrest]
      simp
    · intro hc
      have := congrArg List.length hc
      simp only [List.length_take, List.length_nil, kBlockSize, kHeaderSize] at this
      omega

theorem zero_length_first_fragment_witness :
    (Writer.newAt ⟨[], []⟩ 32761).block_offset_ + kHeaderSize = kBlockSize ∧
    ((Writer.newAt ⟨[], []⟩ 32761).AddRecord [1, 2, 3]).2.2.head?
      = some { type := RecordType.kFirstType, payload := [] } ∧
    ((Writer.newAt ⟨[], []⟩ 32761).EmitPhysicalRecord RecordType.kFirstType []).2.block_offset_
      = kBlockSize :=
  ⟨by decide,
   (zero_length_first_fragment (Writer.newAt ⟨[], []⟩ 32761) [1, 2, 3] (by decide)
      (by decide)).2.1,
   (zero_length_first_fragment (Writer.newAt ⟨[], []⟩ 32761) [1, 2, 3] (by decide)
      (by decide)).2.2.1⟩

end log

namespace log

/-- The iterations of the loop of `AddRecord` after the first one that did not
finish the record: each starts a new block without padding, carries at least
one byte, and is a LAST fragment or a MIDDLE fragment of 32761 bytes. -/
theorem AddRecord_iterations_tail : ∀ (n : Nat) (w : Writer) (ptr : Bytes),
    ptr.length ≤ n → w.block_offset_ = kBlockSize → ptr ≠ [] →
    (w.AddRecord_iterations ptr false).length ≤ (ptr.length + 32760) / 32761 ∧
    ∀ c ∈ w.AddRecord_iterations ptr false,
      c.writer.block_offset_ = 0 ∧ 1 ≤ c.payload.length ∧
      (c.type = RecordType.kLastType ∨
        (c.type = RecordType.kMiddleType ∧ c.payload.length = 32761)) := by
  intro n
  induction n using Nat.strong_induction_on with
  | _ n ih =>
    intro w ptr hn hoff hne
    have hlen : 0 < ptr.length := List.length_pos.mpr hne
    have hsw : w.switchBlock = { w with block_offset_ := 0 } := by
      unfold Writer.switchBlock
      simp only [kHeaderSize, kBlockSize] at hoff ⊢
      rw [hoff]
      simp
    have h := AddRecord_iterations_unfold w ptr false _ _ rfl rfl
    rw [hsw] at h
    simp only [Nat.sub_zero, Bool.false_and, Bool.false_eq_true, if_false] at h
    by_cases hle : ptr.length ≤ kBlockSize - kHeaderSize
    · have hfrag : (if ptr.length < kBlockSize - kHeaderSize then ptr.length
          else kBlockSize - kHeaderSize) = ptr.length := by
        split_ifs <;> omega
      rw [hfrag] at h
      simp only [beq_self_eq_true, if_true, Nat.sub_self, gt_iff_lt, lt_self_iff_false,
        and_false, if_false] at h
      rw [h]
      refine ⟨by simp only [List.length_singleton]; omega, ?_⟩
      intro c hc
      rw [List.mem_singleton] at hc
      subst hc
      refine ⟨rfl, ?_, Or.inl rfl⟩
      simp only [List.length_take]
      omega
    · have hfrag : (if ptr.length < kBlockSize - kHeaderSize then ptr.length
          else kBlockSize - kHeaderSize) = 32761 := by
        simp only [kBlockSize, kHeaderSize] at hle ⊢
        split_ifs <;> omega
      rw [hfrag] at h
      simp only [kBlockSize, kHeaderSize] at hle
      have hneq : (ptr.length == 32761) = false := by
        simp only [beq_eq_false_iff_ne, ne_eq]; omega
      simp only [hneq, Bool.false_eq_true, if_false] at h
      have hfirst : ∀ c : Iteration,
          c = { head := w, writer := { w with block_offset_ := 0 },
                type := RecordType.kMiddleType, payload := ptr.take 32761 } →
          c.writer.block_offset_ = 0 ∧ 1 ≤ c.payload.length ∧
          (c.type = RecordType.kLastType ∨
            (c.type = RecordType.kMiddleType ∧ c.payload.length = 32761)) := by
        intro c hc
        subst hc
        have hl : (ptr.take 32761).length = 32761 := by
          simp only [List.length_take]; omega
        exact ⟨rfl, by rw [hl]; omega, Or.inr ⟨rfl, hl⟩⟩
      rw [h]
      split_ifs with hc
      · have hoff2 : (({ w with block_offset_ := 0 } : Writer).EmitPhysicalRecord
            RecordType.kMiddleType (ptr.take 32761)).2.block_offset_ = kBlockSize := by
          rw [EmitPhysicalRecord_offset]
          simp only [List.length_take, kBlockSize, kHeaderSize]
          omega
        have hne2 : ptr.drop 32761 ≠ [] := by
          intro hd
          have := congrArg List.length hd
          simp only [List.length_drop, List.length_nil] at this
          omega
        obtain ⟨t1, t2⟩ := ih (n - 1) (by omega) _ (ptr.drop 32761)
          (by simp only [List.length_drop]; omega) hoff2 hne2
        refine ⟨?_, ?_⟩
        · simp only [List.length_cons, List.length_drop] at t1 ⊢
          omega
        · intro c hc
          rcases List.mem_cons.mp hc with hc | hc
          · exact hfirst c hc
          · exact t2 c hc
      · refine ⟨by simp only [List.length_singleton]; omega, ?_⟩
        intro c hc
        rw [List.mem_singleton] at hc
        exact hfirst c hc

/-- C37: `AddRecord` terminates, for every record and every starting block
offset in `[0, 32768]`.  The loop makes one iteration and then at most
`⌈n / 32761⌉` more for a record of `n` bytes; its iterations are the calls of
`EmitPhysicalRecord` that `AddRecord` makes; every fragment after the first
carries at least one payload byte; every FIRST or MIDDLE fragment ends exactly
at a block boundary; and every MIDDLE fragment starts at block offset 0 and
carries exactly 32761 payload bytes.  (The bound on the offset is the
claim's; the proof does not use it.) -/
theorem add_record_terminates (w : Writer) (slice : Bytes)
    (_hoff : w.block_offset_ ≤ kBlockSize) :
    ∃ c rest, w.AddRecord_iterations slice true = c :: rest ∧
      (c :: rest).map (fun d => PhysicalRecord.mk d.type d.payload) = (w.AddRecord slice).2.2 ∧
      rest.length ≤ (slice.length + 32760) / 32761 ∧
      (∀ d ∈ rest, 1 ≤ d.payload.length) ∧
      (∀ d ∈ c :: rest, d.type = RecordType.kFirstType ∨ d.type = RecordType.kMiddleType →
        d.writer.block_offset_ + 7 + d.payload.length = 32768) ∧
      (∀ d ∈ c :: rest, d.type = RecordType.kMiddleType →
        d.writer.block_offset_ = 0 ∧ d.payload.length = 32761) := by
  have hspec := (AddRecord_iterations_spec _ w slice true (le_refl _)).1
  have hs := (switchBlock_offset w).1
  have h := AddRecord_iterations_unfold w slice true _ _ rfl rfl
  simp only [Bool.true_and, if_true] at h
  generalize hfrag : (if slice.length < kBlockSize - w.switchBlock.block_offset_ - kHeaderSize
    then slice.length else kBlockSize - w.switchBlock.block_offset_ - kHeaderSize) = frag at h
  generalize htype : (if (slice.length == frag) = true then RecordType.kFullType
    else RecordType.kFirstType) = type at h
  simp only [kBlockSize, kHeaderSize] at hs hfrag
  have hfirst : ∀ d : Iteration,
      d = { head := w, writer := w.switchBlock, type := type, payload := slice.take frag } →
      slice.length - frag > 0 →
      (d.type = RecordType.kFirstType ∨ d.type = RecordType.kMiddleType →
        d.writer.block_offset_ + 7 + d.payload.length = 32768) ∧
      (d.type = RecordType.kMiddleType → d.writer.block_offset_ = 0 ∧ d.payload.length = 32761) := by
    intro d hd hgt
    subst hd
    have hne : (slice.length == frag) = false := by
      simp only [beq_eq_false_iff_ne, ne_eq]; omega
    rw [hne] at htype
    simp only [Bool.false_eq_true, if_false] at htype
    subst htype
    refine ⟨fun _ => ?_, fun hm => by cases hm⟩
    simp only [List.length_take]
    split_ifs at hfrag <;> omega
  have hlast : ∀ d : Iteration,
      d = { head := w, writer := w.switchBlock, type := type, payload := slice.take frag } →
      ¬ slice.length - frag > 0 →
      (d.type = RecordType.kFirstType ∨ d.type = RecordType.kMiddleType →
        d.writer.block_offset_ + 7 + d.payload.length = 32768) ∧
      (d.type = RecordType.kMiddleType → d.writer.block_offset_ = 0 ∧ d.payload.length = 32761) := by
    intro d hd hgt
    subst hd
    have he : (slice.length == frag) = true := by
      simp only [beq_iff_eq]
      split_ifs at hfrag <;> omega
    rw [he] at htype
    simp only [if_true] at htype
    subst htype
    refine ⟨fun hc => ?_, fun hm => by cases hm⟩
    rcases hc with hc | hc <;> cases hc
  refine ⟨_, _, h, ?_, ?_⟩
  · unfold Writer.AddRecord
    rw [← hspec, h]
  · split_ifs with hc
    · have hoff2 : (w.switchBlock.EmitPhysicalRecord type (slice.take frag)).2.block_offset_
          = kBlockSize := by
        rw [EmitPhysicalRecord_offset]
        simp only [List.length_take, kBlockSize, kHeaderSize]
        have := hc.2
        split_ifs at hfrag <;> omega
      have hne2 : slice.drop frag ≠ [] := by
        intro hd
        have := congrArg List.length hd
        simp only [List.length_drop, List.length_nil] at this
        omega
      obtain ⟨t1, t2⟩ := AddRecord_iterations_tail _ _ (slice.drop frag) (le_refl _) hoff2 hne2
      refine ⟨?_, fun d hd => (t2 d hd).2.1, ?_, ?_⟩
      · simp only [List.length_drop] at t1
        omega
      · intro d hd
        rcases List.mem_cons.mp hd with hd | hd
        · exact (hfirst d hd hc.2).1
        · intro ht
          obtain ⟨a, b, c⟩ := t2 d hd
          rcases c with c | ⟨c1, c2⟩
          · rw [c] at ht
            rcases ht with ht | ht <;> cases ht
          · omega
      · intro d hd
        rcases List.mem_cons.mp hd with hd | hd
        · exact (hfirst d hd hc.2).2
        · intro ht
          obtain ⟨a, b, c⟩ := t2 d hd
          rcases c with c | ⟨c1, c2⟩
          · rw [c] at ht; cases ht
          · exact ⟨a, c2⟩
    · by_cases hgt : slice.length - frag > 0
      · refine ⟨(by simp), (fun d hd => by cases hd), ?_, ?_⟩
        · intro d hd
          rw [List.mem_singleton] at hd
          exact (hfirst d hd hgt).1
        · intro d hd
          rw [List.mem_singleton] at hd
          exact (hfirst d hd hgt).2
      · refine ⟨(by simp), (fun d hd => by cases hd), ?_, ?_⟩
        · intro d hd
          rw [List.mem_singleton] at hd
          exact (hlast d hd hgt).1
        · intro d hd
          rw [List.mem_singleton] at hd
          exact (hlast d hd hgt).2

theorem add_record_terminates_witness :
    (Writer.newAt ⟨[], []⟩ 32760).block_offset_ ≤ kBlockSize ∧
    ∃ c rest, (Writer.newAt ⟨[], []⟩ 32760).AddRecord_iterations [1, 2, 3] true = c :: rest ∧
      (c :: rest).map (fun d => PhysicalRecord.mk d.type d.payload)
        = ((Writer.newAt ⟨[], []⟩ 32760).AddRecord [1, 2, 3]).2.2 ∧
      rest.length ≤ ([1, 2, 3].length + 32760) / 32761 ∧
      (∀ d ∈ rest, 1 ≤ d.payload.length) ∧
      (∀ d ∈ c :: rest, d.type = RecordType.kFirstType ∨ d.type = RecordType.kMiddleType →
        d.writer.block_offset_ + 7 + d.payload.length = 32768) ∧
      (∀ d ∈ c :: rest, d.type = RecordType.kMiddleType →
        d.writer.block_offset_ = 0 ∧ d.payload.length = 32761) :=
  ⟨by decide, add_record_terminates (Writer.newAt ⟨[], []⟩ 32760) [1, 2, 3] (by decide)⟩

end log

section CompactionRemoves

variable {K : Type} [LinearOrder K]

/-- The entries of the output files of `DoCompactionWork`, file after file, are
the entries the merge loop emits. -/
theorem DoCompactionWork_outputs_flatten {α : Type} (parse : α → Option (ParsedInternalKey K))
    (isBase : K → Bool) (sm : Nat) (stop : List α → α → Bool) (size : List α → Nat)
    (maxSize : Nat) (input : List α) :
    ((DoCompactionWork_outputs parse isBase sm stop size maxSize input).map
        CompactionOutput.entries).flatten
      = DoCompactionWork_loop parse isBase sm MergeState.initial input := by
  have g2 := (DoCompactionWork_files_spec parse isBase sm stop size maxSize input
    MergeState.initial [] { finished := [], current := none }
    (by intro out hout; simp [CompactionState.outputs] at hout)).2
  have houts : DoCompactionWork_outputs parse isBase sm stop size maxSize input
      = (DoCompactionWork_files parse isBase sm stop size maxSize MergeState.initial []
          { finished := [], current := none } input).outputs := by
    unfold DoCompactionWork_outputs
    dsimp only
    split_ifs
    · exact FinishCompactionOutputFile_outputs _
    · rfl
  rw [houts, g2]
  simp [CompactionState.outputs]

/-- A key that does not parse is emitted and resets the locals of the loop. -/
theorem DoCompactionWork_loop_corrupt {α : Type} (parse : α → Option (ParsedInternalKey K))
    (isBase : K → Bool) (sm : Nat) (e : α) (rest : List α) (hbad : parse e = none)
    (pre : List α) : ∀ st : MergeState K,
    DoCompactionWork_loop parse isBase sm st (pre ++ e :: rest)
      = DoCompactionWork_loop parse isBase sm st pre
          ++ e :: DoCompactionWork_loop parse isBase sm MergeState.initial rest := by
  induction pre with
  | nil =>
    intro st
    simp only [List.nil_append, DoCompactionWork_loop, hbad, DoCompactionWork_drop,
      Bool.false_eq_true, if_false]
    rfl
  | cons p pre ih =>
    intro st
    simp only [List.cons_append]
    rw [DoCompactionWork_loop, DoCompactionWork_loop]
    split_ifs
    · exact ih _
    · rw [ih]
      rfl

/-- The merge loop emits a subsequence of its input. -/
theorem DoCompactionWork_loop_sublist {α : Type} (parse : α → Option (ParsedInternalKey K))
    (isBase : K → Bool) (sm : Nat) (l : List α) : ∀ st : MergeState K,
    (DoCompactionWork_loop parse isBase sm st l).Sublist l := by
  induction l with
  | nil => intro st; simp [DoCompactionWork_loop]
  | cons e l ih =>
    intro st
    rw [DoCompactionWork_loop]
    split_ifs
    · exact List.Sublist.cons _ (ih _)
    · exact List.Sublist.cons₂ _ (ih _)

/-- An entry above the smallest snapshot, met in internal-key order, is not
dropped. -/
theorem DoCompactionWork_drop_new (isBase : K → Bool) (sm : Nat) (hsm : sm < kMaxSequenceNumber)
    (prev : Option (ParsedEntry K)) (e : ParsedEntry K)
    (hprev : ∀ p ∈ prev, InternalKeyLE p.1 e.1) (hnew : sm < e.1.sequence) :
    (DoCompactionWork_drop isBase sm (MergeState.afterPrev prev) (some e.1)).1 = false := by
  unfold DoCompactionWork_drop
  dsimp only
  have hB : ¬ (e.1.type = kTypeDeletion ∧ e.1.sequence ≤ sm ∧ isBase e.1.user_key = true) := by
    rintro ⟨_, h, _⟩; omega
  cases prev with
  | none =>
    simp only [MergeState.afterPrev, MergeState.initial, ne_eq, reduceCtorEq, not_false_eq_true,
      if_true]
    rw [if_neg (by omega), if_neg hB]
  | some p =>
    have hle := hprev p rfl
    simp only [MergeState.afterPrev, MergeState.after, ne_eq, Option.some.injEq]
    by_cases hk : p.1.user_key = e.1.user_key
    · simp only [hk, not_true_eq_false, if_false]
      have hseq : e.1.sequence ≤ p.1.sequence := by
        rcases hle with h | ⟨_, h⟩
        · rw [hk] at h; exact absurd h (lt_irrefl _)
        · exact h
      rw [if_neg (by omega), if_neg hB]
    · simp only [hk, not_false_eq_true, if_true]
      rw [if_neg (by omega), if_neg hB]

/-- The merge loop keeps every entry above the smallest snapshot. -/
theorem DoCompactionWork_loop_keeps_new (isBase : K → Bool) (sm : Nat)
    (hsm : sm < kMaxSequenceNumber) (l : List (ParsedEntry K)) :
    ∀ (prev : Option (ParsedEntry K)),
    (prev.toList ++ l).Pairwise (fun a b => InternalKeyLE a.1 b.1) →
    (DoCompactionWork_loop (fun x : ParsedEntry K => some x.1) isBase sm
        (MergeState.afterPrev prev) l).filter (fun x => decide (sm < x.1.sequence))
      = l.filter (fun x => decide (sm < x.1.sequence)) := by
  induction l with
  | nil => intro prev _; simp [DoCompactionWork_loop]
  | cons e l ih =>
    intro prev hsorted
    have hs2 : ((some e).toList ++ l).Pairwise (fun a b => InternalKeyLE a.1 b.1) := by
      cases prev with
      | none => simpa using hsorted
      | some p =>
        simp only [Option.toList_some, List.singleton_append] at hsorted ⊢
        exact (List.pairwise_cons.mp hsorted).2
    have hprev : ∀ p ∈ prev, InternalKeyLE p.1 e.1 := by
      intro p hp
      cases prev with
      | none => cases hp
      | some q =>
        cases hp
        simp only [Option.toList_some, List.singleton_append] at hsorted
        exact (List.pairwise_cons.mp hsorted).1 e (List.mem_cons_self _ _)
    have hrest := ih (some e) hs2
    simp only [MergeState.afterPrev] at hrest
    rw [DoCompactionWork_loop_cons]
    by_cases hnew : sm < e.1.sequence
    · rw [DoCompactionWork_drop_new isBase sm hsm prev e hprev hnew]
      simp only [Bool.false_eq_true, if_false]
      rw [List.filter_cons_of_pos (by simpa using hnew),
        List.filter_cons_of_pos (by simpa using hnew), hrest]
    · rw [List.filter_cons_of_neg (by simpa using hnew)]
      split_ifs
      · exact hrest
      · rw [List.filter_cons_of_neg (by simpa using hnew)]
        exact hrest

/-- C34: corrupt keys are never hidden.  In a run of the merge loop of
`DoCompactionWork` without shutdown or file error, an entry `e` whose key
`ParseInternalKey` rejects is emitted, whatever came before it, and the loop
goes on after it with the locals it starts with (`has_current_user_key` false,
`last_sequence_for_key = kMaxSequenceNumber`): what it emits from the entries
after `e` is what it would emit for them as an input of their own.  So an entry
`f` that follows `e` and parses is a first occurrence of its user key, and for
`smallest_snapshot < kMaxSequenceNumber` rule (A), hidden by a newer entry, does
not drop it: `f` is dropped exactly when it is a DELETION at or below the
smallest snapshot with `IsBaseLevelForKey`. -/
theorem corrupt_keys_not_hidden {α : Type} (parse : α → Option (ParsedInternalKey K))
    (IsBaseLevelForKey : K → Bool) (smallest_snapshot : Nat)
    (ShouldStopBefore : List α → α → Bool) (FileSize : List α → Nat) (MaxOutputFileSize : Nat)
    (pre : List α) (e : α) (rest : List α) (hbad : parse e = none) :
    (∀ st : MergeState K,
      DoCompactionWork_drop IsBaseLevelForKey smallest_snapshot st (parse e)
        = (false, MergeState.initial)) ∧
    ((DoCompactionWork_outputs parse IsBaseLevelForKey smallest_snapshot ShouldStopBefore
        FileSize MaxOutputFileSize (pre ++ e :: rest)).map CompactionOutput.entries).flatten
      = DoCompactionWork_loop parse IsBaseLevelForKey smallest_snapshot MergeState.initial pre
          ++ e :: DoCompactionWork_loop parse IsBaseLevelForKey smallest_snapshot
            MergeState.initial rest ∧
    (∀ (f : α) (rest2 : List α) (ikey : ParsedInternalKey K),
      rest = f :: rest2 → parse f = some ikey → smallest_snapshot < kMaxSequenceNumber →
      DoCompactionWork_loop parse IsBaseLevelForKey smallest_snapshot MergeState.initial rest
        = if ikey.type = kTypeDeletion ∧ ikey.sequence ≤ smallest_snapshot ∧
            IsBaseLevelForKey ikey.user_key = true then
            DoCompactionWork_loop parse IsBaseLevelForKey smallest_snapshot
              (MergeState.after ikey) rest2
          else
            f :: DoCompactionWork_loop parse IsBaseLevelForKey smallest_snapshot
              (MergeState.after ikey) rest2) := by
  refine ⟨?_, ?_, ?_⟩
  · intro st
    rw [hbad]
    rfl
  · rw [DoCompactionWork_outputs_flatten]
    exact DoCompactionWork_loop_corrupt parse IsBaseLevelForKey smallest_snapshot e rest hbad pre _
  · intro f rest2 ikey hrest hf hsm
    subst hrest
    rw [DoCompactionWork_loop, hf, DoCompactionWork_drop_state]
    unfold DoCompactionWork_drop
    have h1 : ¬ (kMaxSequenceNumber ≤ smallest_snapshot) := by omega
    simp only [MergeState.initial, ne_eq, reduceCtorEq, not_false_eq_true, if_true, h1, if_false]
    split_ifs <;> simp_all

theorem corrupt_keys_not_hidden_witness :
    (id (none : Option (ParsedInternalKey Nat)) = none) ∧
    DoCompactionWork_loop id (fun _ : Nat => false) 9 MergeState.initial
      [some (⟨1, 9, kTypeValue⟩ : ParsedInternalKey Nat), some ⟨1, 5, kTypeValue⟩]
      = [some ⟨1, 9, kTypeValue⟩] ∧
    ((DoCompactionWork_outputs id (fun _ : Nat => false) 9 (fun _ _ => false)
        (fun es => es.length) 1000
        ([some (⟨1, 9, kTypeValue⟩ : ParsedInternalKey Nat)] ++
          none :: [some ⟨1, 5, kTypeValue⟩])).map CompactionOutput.entries).flatten
      = DoCompactionWork_loop id (fun _ : Nat => false) 9 MergeState.initial
          [some (⟨1, 9, kTypeValue⟩ : ParsedInternalKey Nat)]
        ++ none :: DoCompactionWork_loop id (fun _ : Nat => false) 9 MergeState.initial
          [some ⟨1, 5, kTypeValue⟩] ∧
    DoCompactionWork_loop id (fun _ : Nat => false) 9 MergeState.initial
      [some (⟨1, 5, kTypeValue⟩ : ParsedInternalKey Nat)] = [some ⟨1, 5, kTypeValue⟩] :=
  ⟨rfl, by decide,
   (corrupt_keys_not_hidden id (fun _ : Nat => false) 9 (fun _ _ => false)
      (fun es => es.length) 1000 [some (⟨1, 9, kTypeValue⟩ : ParsedInternalKey Nat)] none
      [some ⟨1, 5, kTypeValue⟩] rfl).2.1,
   by decide⟩

/-- C40: compaction only removes.  For an input in internal-key order whose
keys all parse, with `smallest_snapshot < kMaxSequenceNumber`, in a run without
shutdown or file error: the entries that `DoCompactionWork` hands to its
output builders, file after file, are a subsequence of the input (same
entries, same order, none twice), and the entries with a sequence number above
`smallest_snapshot` are all among them. -/
theorem compaction_only_removes (IsBaseLevelForKey : K → Bool) (smallest_snapshot : Nat)
    (ShouldStopBefore : List (ParsedEntry K) → ParsedEntry K → Bool)
    (FileSize : List (ParsedEntry K) → Nat) (MaxOutputFileSize : Nat)
    (input : List (ParsedEntry K))
    (hsorted : input.Pairwise (fun a b => InternalKeyLE a.1 b.1))
    (hsnap : smallest_snapshot < kMaxSequenceNumber) :
    (((DoCompactionWork_outputs (fun x : ParsedEntry K => some x.1) IsBaseLevelForKey
        smallest_snapshot ShouldStopBefore FileSize MaxOutputFileSize input).map
        CompactionOutput.entries).flatten).Sublist input ∧
    (((DoCompactionWork_outputs (fun x : ParsedEntry K => some x.1) IsBaseLevelForKey
        smallest_snapshot ShouldStopBefore FileSize MaxOutputFileSize input).map
        CompactionOutput.entries).flatten).filter
          (fun x => decide (smallest_snapshot < x.1.sequence))
      = input.filter (fun x => decide (smallest_snapshot < x.1.sequence)) ∧
    ∀ x ∈ input, smallest_snapshot < x.1.sequence →
      x ∈ ((DoCompactionWork_outputs (fun x : ParsedEntry K => some x.1) IsBaseLevelForKey
        smallest_snapshot ShouldStopBefore FileSize MaxOutputFileSize input).map
        CompactionOutput.entries).flatten := by
  rw [DoCompactionWork_outputs_flatten]
  have hf := DoCompactionWork_loop_keeps_new IsBaseLevelForKey smallest_snapshot hsnap input none
    (by simpa using hsorted)
  simp only [MergeState.afterPrev] at hf
  refine ⟨DoCompactionWork_loop_sublist _ _ _ _ _, hf, ?_⟩
  intro x hx hnew
  have hm : x ∈ input.filter (fun x => decide (smallest_snapshot < x.1.sequence)) :=
    List.mem_filter.mpr ⟨hx, by simpa using hnew⟩
  rw [← hf] at hm
  exact (List.mem_filter.mp hm).1

theorem compaction_only_removes_witness :
    [((⟨1, 9, kTypeValue⟩, [109]) : ParsedEntry Nat), (⟨1, 5, kTypeValue⟩, [105]),
      (⟨1, 3, kTypeValue⟩, [103]), (⟨2, 7, kTypeDeletion⟩, [])].Pairwise
        (fun a b => InternalKeyLE a.1 b.1) ∧
    5 < kMaxSequenceNumber ∧
    (((DoCompactionWork_outputs (fun x : ParsedEntry Nat => some x.1) (fun _ => true) 5
        (fun _ _ => false) (fun es => es.length) 1000
        [(⟨1, 9, kTypeValue⟩, [109]), (⟨1, 5, kTypeValue⟩, [105]),
          (⟨1, 3, kTypeValue⟩, [103]), (⟨2, 7, kTypeDeletion⟩, [])]).map
        CompactionOutput.entries).flatten).filter (fun x => decide (5 < x.1.sequence))
      = [((⟨1, 9, kTypeValue⟩, [109]) : ParsedEntry Nat), (⟨1, 5, kTypeValue⟩, [105]),
          (⟨1, 3, kTypeValue⟩, [103]), (⟨2, 7, kTypeDeletion⟩, [])].filter
          (fun x => decide (5 < x.1.sequence)) :=
  ⟨by decide, by decide,
   (compaction_only_removes (fun _ : Nat => true) 5 (fun _ _ => false) (fun es => es.length)
      1000 [(⟨1, 9, kTypeValue⟩, [109]), (⟨1, 5, kTypeValue⟩, [105]),
        (⟨1, 3, kTypeValue⟩, [103]), (⟨2, 7, kTypeDeletion⟩, [])]
      (by decide) (by decide)).2.1⟩

end CompactionRemoves

/-- `Flush` leaves the data block empty whenever it leaves an index entry
pending. -/
theorem Flush_pending {K : Type} (parts : TableParts K) (r : TableBuilder.Rep K)
    (hinv : r.pending_index_entry = true → r.data_block = []) :
    (TableBuilder.Flush parts r).pending_index_entry = true →
      (TableBuilder.Flush parts r).data_block = [] := by
  unfold TableBuilder.Flush
  by_cases hok : r.ok = true
  · simp only [hok, Bool.not_true, Bool.false_eq_true, if_false]
    by_cases he : r.data_block.isEmpty = true
    · simp only [he, if_true]
      exact hinv
    · simp only [he, Bool.false_eq_true, if_false]
      intro _
      split_ifs <;> rfl
  · have hok' : r.ok = false := by simpa using hok
    simp only [hok', Bool.not_false, if_true]
    exact hinv

/-- `Add` never leaves an index entry pending over a data block with
entries. -/
theorem Add_pending {K : Type} (parts : TableParts K) (r : TableBuilder.Rep K) (key : K)
    (value : Bytes) (hinv : r.pending_index_entry = true → r.data_block = []) :
    (TableBuilder.Add parts r key value).pending_index_entry = true →
      (TableBuilder.Add parts r key value).data_block = [] := by
  unfold TableBuilder.Add
  by_cases hok : r.ok = true
  · simp only [hok, Bool.not_true, Bool.false_eq_true, if_false]
    have h3 : (TableBuilder.Add_entry parts r key value).pending_index_entry = true →
        (TableBuilder.Add_entry parts r key value).data_block = [] := by
      intro hp
      rw [(Add_entry_fields parts r key value).2.2.2.1] at hp
      cases hp
    split_ifs
    · exact Flush_pending parts _ h3
    · exact h3
  · have hok' : r.ok = false := by simpa using hok
    simp only [hok', Bool.not_false, if_true]
    exact hinv

/-- `Finish` changes neither the data block that its `Flush` leaves nor, but
to clear it, the pending flag. -/
theorem Finish_pending {K : Type} (parts : TableParts K) (r : TableBuilder.Rep K)
    (hinv : r.pending_index_entry = true → r.data_block = []) :
    (TableBuilder.Finish parts r).pending_index_entry = true →
      (TableBuilder.Finish parts r).data_block = [] := by
  have h1 := Flush_pending parts r hinv
  unfold TableBuilder.Finish
  dsimp only
  generalize TableBuilder.Flush parts r = r1 at h1 ⊢
  have h2 : ({ r1 with closed := true } : TableBuilder.Rep K).pending_index_entry = true →
      ({ r1 with closed := true } : TableBuilder.Rep K).data_block = [] := h1
  generalize ({ r1 with closed := true } : TableBuilder.Rep K) = r2 at h2 ⊢
  have h3 : (TableBuilder.Finish_filter parts r2).1.pending_index_entry = true →
      (TableBuilder.Finish_filter parts r2).1.data_block = [] := by
    unfold TableBuilder.Finish_filter
    split
    · split_ifs
      · rw [(WriteRawBlock_frame r2 _ _).2.2.2.1, (WriteRawBlock_frame r2 _ _).2.2.2.2.1]
        exact h2
      · exact h2
    · exact h2
  generalize TableBuilder.Finish_filter parts r2 = w3 at h3 ⊢
  have h4 : (TableBuilder.Finish_metaindex parts w3.1 w3.2).1.pending_index_entry = true →
      (TableBuilder.Finish_metaindex parts w3.1 w3.2).1.data_block = [] := by
    unfold TableBuilder.Finish_metaindex
    split_ifs
    · rw [(WriteBlock_frame parts w3.1 _).2.2.2.1, (WriteBlock_frame parts w3.1 _).2.2.2.2.1]
      exact h3
    · exact h3
  generalize TableBuilder.Finish_metaindex parts w3.1 w3.2 = w4 at h4 ⊢
  have h5 : (TableBuilder.Finish_index parts w4.1).1.pending_index_entry = true →
      (TableBuilder.Finish_index parts w4.1).1.data_block = [] := by
    unfold TableBuilder.Finish_index
    split_ifs with hok hp
    · dsimp only
      rw [(WriteBlock_frame parts _ _).2.2.2.2.1]
      intro hc
      cases hc
    · dsimp only
      rw [(WriteBlock_frame parts _ _).2.2.2.1, (WriteBlock_frame parts _ _).2.2.2.2.1]
      exact h4
    · exact h4
  generalize TableBuilder.Finish_index parts w4.1 = w5 at h5 ⊢
  unfold TableBuilder.Finish_footer
  dsimp only
  split_ifs <;> exact h5

/-- C32: the invariant of `TableBuilder::Rep`, `pending_index_entry` is true
only if `data_block` is empty.  It holds of a new builder; `Add`, `Flush` and
`Finish` preserve it whatever the calls on the file return; so it holds after
every sequence of `Add` and `Flush` calls on a new builder, and after a
`Finish` that follows them. -/
theorem pending_index_entry_invariant {K : Type} [Inhabited K] (parts : TableParts K)
    (options : Options) (file : WritableFile) :
    ((TableBuilder.new parts options file).pending_index_entry = true →
      (TableBuilder.new parts options file).data_block = []) ∧
    (∀ r : TableBuilder.Rep K, (r.pending_index_entry = true → r.data_block = []) →
      (∀ key value, (TableBuilder.Add parts r key value).pending_index_entry = true →
        (TableBuilder.Add parts r key value).data_block = []) ∧
      ((TableBuilder.Flush parts r).pending_index_entry = true →
        (TableBuilder.Flush parts r).data_block = []) ∧
      ((TableBuilder.Finish parts r).pending_index_entry = true →
        (TableBuilder.Finish parts r).data_block = [])) ∧
    (∀ ops : List (TableOp K),
      ((TableBuilder.run parts (TableBuilder.new parts options file) ops).pending_index_entry
          = true →
        (TableBuilder.run parts (TableBuilder.new parts options file) ops).data_block = []) ∧
      ((TableBuilder.Finish parts
          (TableBuilder.run parts (TableBuilder.new parts options file) ops)).pending_index_entry
          = true →
        (TableBuilder.Finish parts
          (TableBuilder.run parts (TableBuilder.new parts options file) ops)).data_block
          = [])) := by
  have hnew : (TableBuilder.new parts options file).pending_index_entry = true →
      (TableBuilder.new parts options file).data_block = [] := fun _ => rfl
  have hrun : ∀ (ops : List (TableOp K)) (r : TableBuilder.Rep K),
      (r.pending_index_entry = true → r.data_block = []) →
      (TableBuilder.run parts r ops).pending_index_entry = true →
        (TableBuilder.run parts r ops).data_block = [] := by
    intro ops
    induction ops with
    | nil => intro r h; exact h
    | cons op ops ih =>
      intro r h
      unfold TableBuilder.run
      rw [List.foldl_cons]
      apply ih
      cases op with
      | Add key value => exact Add_pending parts r key value h
      | Flush => exact Flush_pending parts r h
  refine ⟨hnew, ?_, ?_⟩
  · intro r h
    exact ⟨fun key value => Add_pending parts r key value h, Flush_pending parts r h,
      Finish_pending parts r h⟩
  · intro ops
    exact ⟨hrun ops _ hnew, Finish_pending parts _ (hrun ops _ hnew)⟩

theorem pending_index_entry_invariant_witness :
    (exampleFailingRep.pending_index_entry = true → exampleFailingRep.data_block = []) ∧
    exampleFailingRep.data_block = [(1, [10])] ∧
    (TableBuilder.Add exampleParts exampleFailingRep 2 [20]).status = Status.IOError "Append" ∧
    ((TableBuilder.Add exampleParts exampleFailingRep 2 [20]).pending_index_entry = true →
      (TableBuilder.Add exampleParts exampleFailingRep 2 [20]).data_block = []) ∧
    ((TableBuilder.Finish exampleParts exampleFailingRep).pending_index_entry = true →
      (TableBuilder.Finish exampleParts exampleFailingRep).data_block = []) :=
  ⟨by decide, by decide, by decide,
   ((pending_index_entry_invariant exampleParts exampleRep.options exampleRep.file).2.1
      exampleFailingRep (by decide)).1 2 [20],
   ((pending_index_entry_invariant exampleParts exampleRep.options exampleRep.file).2.1
      exampleFailingRep (by decide)).2.2⟩

/-- What `ClipToRange` leaves: the bounds decide on the cast value. -/
theorem ClipToRange_spec (cast : Int → Int) (x lo hi : Int) (hlh : lo ≤ hi)
    (hlo : cast lo = lo) (hhi : cast hi = hi) :
    ClipToRange cast x lo hi
      = (if cast x > hi then hi else if cast x < lo then lo else x) ∧
    (cast x = x → ClipToRange cast x lo hi = clamp lo hi x ∧
      lo ≤ ClipToRange cast x lo hi ∧ ClipToRange cast x lo hi ≤ hi) := by
  unfold ClipToRange clamp
  dsimp only
  constructor
  · split_ifs <;> first | rfl | omega
  · intro hx
    rw [hx]
    split_ifs <;> (try rw [hhi] at *) <;> (try rw [hx] at *) <;> omega

/-- C31: option sanitising, what the code does.  `SanitizeOptions` returns
`max_open_files` clamped to `[74, 50000]`, so `TableCacheSize` of the result
lies between 64 and 49990.  Each of `write_buffer_size`, `max_file_size` and
`block_size` is set to the upper bound of its range (1 GiB, 1 GiB, 4 MiB) if
`static_cast<int>` of it is above that bound, else to the lower bound (64 KiB,
1 MiB, 1 KiB) if the cast is below that one, and is left as it is otherwise;
for a value that the cast leaves as it is (every value of an `int` field,
the values below `2^31` of a `size_t` field) this is the value clamped to its
range. -/
theorem option_sanitising (size_cast : Int → Int) (src : ClippedOptions)
    (hcast : ∀ v : Int, 0 ≤ v → v < 2 ^ 31 → size_cast v = v) :
    (SanitizeOptions size_cast src).max_open_files = clamp 74 50000 src.max_open_files ∧
    74 ≤ (SanitizeOptions size_cast src).max_open_files ∧
    (SanitizeOptions size_cast src).max_open_files ≤ 50000 ∧
    64 ≤ TableCacheSize (SanitizeOptions size_cast src) ∧
    TableCacheSize (SanitizeOptions size_cast src) ≤ 49990 ∧
    (SanitizeOptions size_cast src).write_buffer_size
      = (if size_cast src.write_buffer_size > 1073741824 then 1073741824
         else if size_cast src.write_buffer_size < 65536 then 65536
         else src.write_buffer_size) ∧
    (SanitizeOptions size_cast src).max_file_size
      = (if size_cast src.max_file_size > 1073741824 then 1073741824
         else if size_cast src.max_file_size < 1048576 then 1048576
         else src.max_file_size) ∧
    (SanitizeOptions size_cast src).block_size
      = (if size_cast src.block_size > 4194304 then 4194304
         else if size_cast src.block_size < 1024 then 1024
         else src.block_size) ∧
    (size_cast src.write_buffer_size = src.write_buffer_size →
      (SanitizeOptions size_cast src).write_buffer_size
        = clamp 65536 1073741824 src.write_buffer_size ∧
      65536 ≤ (SanitizeOptions size_cast src).write_buffer_size ∧
      (SanitizeOptions size_cast src).write_buffer_size ≤ 1073741824) ∧
    (size_cast src.max_file_size = src.max_file_size →
      (SanitizeOptions size_cast src).max_file_size
        = clamp 1048576 1073741824 src.max_file_size ∧
      1048576 ≤ (SanitizeOptions size_cast src).max_file_size ∧
      (SanitizeOptions size_cast src).max_file_size ≤ 1073741824) ∧
    (size_cast src.block_size = src.block_size →
      (SanitizeOptions size_cast src).block_size = clamp 1024 4194304 src.block_size ∧
      1024 ≤ (SanitizeOptions size_cast src).block_size ∧
      (SanitizeOptions size_cast src).block_size ≤ 4194304) := by
  have e1 : ((64 <<< 10 : Nat) : Int) = 65536 := by decide
  have e2 : ((1 <<< 30 : Nat) : Int) = 1073741824 := by decide
  have e3 : ((1 <<< 20 : Nat) : Int) = 1048576 := by decide
  have e4 : ((1 <<< 10 : Nat) : Int) = 1024 := by decide
  have e5 : ((4 <<< 20 : Nat) : Int) = 4194304 := by decide
  have e6 : (64 : Int) + kNumNonTableCacheFiles = 74 := by decide
  obtain ⟨m1, m2⟩ := ClipToRange_spec id src.max_open_files 74 50000 (by norm_num) rfl rfl
  obtain ⟨m3, m4, m5⟩ := m2 rfl
  obtain ⟨w1, w2⟩ := ClipToRange_spec size_cast src.write_buffer_size 65536 1073741824
    (by norm_num) (hcast _ (by norm_num) (by norm_num)) (hcast _ (by norm_num) (by norm_num))
  obtain ⟨f1, f2⟩ := ClipToRange_spec size_cast src.max_file_size 1048576 1073741824
    (by norm_num) (hcast _ (by norm_num) (by norm_num)) (hcast _ (by norm_num) (by norm_num))
  obtain ⟨b1, b2⟩ := ClipToRange_spec size_cast src.block_size 1024 4194304
    (by norm_num) (hcast _ (by norm_num) (by norm_num)) (hcast _ (by norm_num) (by norm_num))
  unfold TableCacheSize SanitizeOptions
  simp only [e1, e2, e3, e4, e5, e6]
  refine ⟨m3, m4, m5, ?_, ?_, w1, f1, b1, w2, f2, b2⟩
  · have : kNumNonTableCacheFiles = 10 := rfl
    omega
  · have : kNumNonTableCacheFiles = 10 := rfl
    omega

theorem option_sanitising_witness :
    (∀ v : Int, 0 ≤ v → v < 2 ^ 31 → size_to_int v = v) ∧
    SanitizeOptions size_to_int exampleTestOptions
      = { max_open_files := 74, write_buffer_size := 100000, max_file_size := 3 <<< 20,
          block_size := 1024 } ∧
    (SanitizeOptions size_to_int exampleTestOptions).max_open_files
      = clamp 74 50000 exampleTestOptions.max_open_files ∧
    64 ≤ TableCacheSize (SanitizeOptions size_to_int exampleTestOptions) :=
  have h : ∀ v : Int, 0 ≤ v → v < 2 ^ 31 → size_to_int v = v := by
    intro v h0 h1
    unfold size_to_int toInt32
    have e : ((v.toNat : Nat) : Int) = v := Int.toNat_of_nonneg h0
    have hlt : v.toNat < 2 ^ 31 := by omega
    have hm : v.toNat % 2 ^ 32 = v.toNat := Nat.mod_eq_of_lt (by omega)
    rw [hm, if_pos hlt, e]
  ⟨h, by decide, (option_sanitising size_to_int exampleTestOptions h).1,
    (option_sanitising size_to_int exampleTestOptions h).2.2.2.1⟩

/-- C31: `ClipToRange` does not clip sizes of `2^31` bytes and more when the
sizes are `size_t`s, because it compares `static_cast<int>` of the value.  A
`write_buffer_size` of 2 GiB is cast to a negative `int` and comes out as
64 KiB, where clipping gives 1 GiB, and one of 4 GiB + 100000 is cast to 100000
and comes out as it went in, outside `[64 KiB, 1 GiB]`. -/
theorem option_sanitising_wraps :
    (SanitizeOptions size_to_int { exampleTestOptions with write_buffer_size := 2147483648 }
      ).write_buffer_size = 65536 ∧
    clamp 65536 1073741824 2147483648 = 1073741824 ∧
    (SanitizeOptions size_to_int { exampleTestOptions with write_buffer_size := 4295067296 }
      ).write_buffer_size = 4295067296 ∧
    ¬ ((4295067296 : Int) ≤ 1073741824) := by
  refine ⟨by decide, by decide, by decide, by decide⟩

theorem Status.ok_iff (s : Status) : s.ok = true ↔ s = Status.OK := by
  cases s <;> simp [Status.ok]

theorem parseRecords_length : ∀ (n : Nat) (input : Bytes), input.length ≤ n →
    (parseRecords input).1.length ≤ input.length := by
  intro n
  induction n with
  | zero =>
    intro input hn
    have : input = [] := List.length_eq_zero.mp (by omega)
    subst this
    rw [parseRecords_none [] rfl]
    simp
  | succ n ih =>
    intro input hn
    cases hp : parseRecord input with
    | none => rw [parseRecords_none _ hp]; simp
    | some p =>
      obtain ⟨op, rest⟩ := p
      have hl := parseRecord_length _ _ _ hp
      rw [parseRecords_some _ _ _ hp]
      have := ih rest (by omega)
      simp only [List.length_cons]
      omega

/-- What `InsertInto` adds to the memtable when the sequence numbers do not
wrap, and the count of the header when it returns OK. -/
theorem InsertInto_entries (b : WriteBatch) (mem : MemTable)
    (hseq : WriteBatchInternal.Sequence b + b.rep_.length ≤ 2 ^ 64) :
    (WriteBatchInternal.InsertInto b mem).2
      = mem ++ (b.parsedPrefix.enumFrom (WriteBatchInternal.Sequence b)).map
          (fun p => p.2.entry p.1) ∧
    ((WriteBatchInternal.InsertInto b mem).1.ok = true →
      WriteBatchInternal.Count b = (b.parsedPrefix.length : Int)) := by
  have hlen : b.parsedPrefix.length ≤ b.rep_.length := by
    unfold WriteBatch.parsedPrefix
    split_ifs
    · simp
    · have := parseRecords_length _ (b.rep_.drop kHeader) (le_refl _)
      simp only [List.length_drop] at this
      omega
  constructor
  · unfold WriteBatchInternal.InsertInto
    simp only [(Iterate_parse b MemTableInserter.handler _).1]
    rw [foldl_inserter _ _ (by simp only; omega)]
  · intro hok
    unfold WriteBatchInternal.InsertInto at hok
    simp only at hok
    unfold WriteBatch.Iterate at hok
    unfold WriteBatch.parsedPrefix
    by_cases h : b.rep_.length < kHeader
    · simp only [h, if_true] at hok
      exact absurd hok (by decide)
    · simp only [h, if_false] at hok ⊢
      obtain ⟨-, e2⟩ := Iterate_loop_parse MemTableInserter.handler (WriteBatchInternal.Count b)
        (b.rep_.drop kHeader).length (b.rep_.drop kHeader) [] [] 0
        { sequence_ := WriteBatchInternal.Sequence b, mem_ := mem } (le_refl _)
      have hOK := (Status.ok_iff _).mp hok
      have := (e2.mp hOK).2
      omega
theorem MemTable.below_mono (M N : Nat) (mem : MemTable) (h : M ≤ N) (hb : mem.below M) :
    mem.below N :=
  fun e he => le_trans (hb e he) h

/-- The body of the loop of `RecoverLogFile` on a replayable record: the
maximum does not go down, and if the status is OK afterwards every memtable
filled so far stays at or below it. -/
theorem RecoverLogFile_record_bound (env : RecoverLogEnv) (st : RecoverLogState)
    (record : Bytes) (hlen : 12 ≤ record.length)
    (hgood : (LogEvent.record record).replayable env.paranoid_checks) :
    st.max_sequence ≤ (DBImpl.RecoverLogFile_record env st record).1.max_sequence ∧
    ((DBImpl.RecoverLogFile_record env st record).1.status.ok = true →
      (∀ m ∈ st.memtables, m.below st.max_sequence) →
      ∀ m ∈ (DBImpl.RecoverLogFile_record env st record).1.memtables,
        m.below (DBImpl.RecoverLogFile_record env st record).1.max_sequence) := by
  obtain ⟨hseq, hins⟩ := hgood hlen
  obtain ⟨hmem, hcount⟩ := InsertInto_entries
    (WriteBatchInternal.SetContents WriteBatch.new record) (st.mem.getD []) hseq
  unfold DBImpl.RecoverLogFile_record
  dsimp only
  generalize hb : WriteBatchInternal.SetContents WriteBatch.new record = batch at *
  generalize hr : WriteBatchInternal.InsertInto batch (st.mem.getD []) = r at *
  by_cases hst : (DBImpl.MaybeIgnoreError env.paranoid_checks r.1).ok = true
  · have hrok : r.1.ok = true := by
      rcases hins with hp | hall
      · unfold DBImpl.MaybeIgnoreError at hst
        rw [hp] at hst
        simpa using hst
      · rw [← hr]; exact hall _
    have hc := hcount hrok
    have hplen : batch.parsedPrefix.length ≤ record.length := by
      rw [← hb]
      unfold WriteBatch.parsedPrefix WriteBatchInternal.SetContents
      dsimp only
      split_ifs
      · simp
      · have := parseRecords_length _ (record.drop kHeader) (le_refl _)
        simp only [List.length_drop] at this
        omega
    generalize hmax : (if toUInt64 ((WriteBatchInternal.Sequence batch : Int)
        + WriteBatchInternal.Count batch - 1) > st.max_sequence
      then toUInt64 ((WriteBatchInternal.Sequence batch : Int)
        + WriteBatchInternal.Count batch - 1) else st.max_sequence) = M
    have hM1 : st.max_sequence ≤ M := by
      rw [← hmax]; split_ifs <;> omega
    have hM2 : ∀ e ∈ (batch.parsedPrefix.enumFrom (WriteBatchInternal.Sequence batch)).map
        (fun p => p.2.entry p.1), e.sequence ≤ M := by
      intro e he
      obtain ⟨p, hp, rfl⟩ := List.mem_map.mp he
      obtain ⟨i, op⟩ := p
      have hi := List.mem_enumFrom hp
      have hes : (op.entry i).sequence = i := by cases op <;> rfl
      have hpos : 1 ≤ batch.parsedPrefix.length := by omega
      have hlast : toUInt64 ((WriteBatchInternal.Sequence batch : Int)
          + WriteBatchInternal.Count batch - 1)
          = WriteBatchInternal.Sequence batch + batch.parsedPrefix.length - 1 := by
        rw [hc]
        unfold toUInt64
        have e1 : ((WriteBatchInternal.Sequence batch : Int) + (batch.parsedPrefix.length : Int) - 1)
            = ((WriteBatchInternal.Sequence batch + batch.parsedPrefix.length - 1 : Nat) : Int) := by
          omega
        rw [e1]
        have e2 : ((WriteBatchInternal.Sequence batch + batch.parsedPrefix.length - 1 : Nat) : Int)
            % 2 ^ 64 = ((WriteBatchInternal.Sequence batch + batch.parsedPrefix.length - 1 : Nat) : Int) :=
          Int.emod_eq_of_lt (by omega) (by omega)
        rw [e2, Int.toNat_ofNat]
      rw [hes]
      rw [hlast] at hmax
      have : i < WriteBatchInternal.Sequence batch + batch.parsedPrefix.length := hi.2.1
      rw [← hmax]
      split_ifs <;> omega
    have hnew : (∀ m ∈ st.memtables, m.below st.max_sequence) → r.2.below M := by
      intro hall e he
      rw [hmem] at he
      rcases List.mem_append.mp he with he | he
      · cases hm : st.mem with
        | none => rw [hm] at he; simp at he
        | some m0 =>
          rw [hm] at he
          have : m0 ∈ st.memtables := by
            unfold RecoverLogState.memtables
            rw [hm]; simp
          exact le_trans (hall m0 this e he) hM1
      · exact hM2 e he
    simp only [hst, Bool.not_true, Bool.false_eq_true, if_false]
    split_ifs with hbig
    · refine ⟨hM1, ?_⟩
      intro _ hall m hm
      unfold RecoverLogState.memtables at hm hall
      simp only [Option.toList_none, List.append_nil, List.mem_append, List.mem_singleton] at hm
      rcases hm with (hm | hm) | hm
      · exact MemTable.below_mono _ _ _ hM1 (hall m (by simp [hm]))
      · rw [hm]; exact hnew hall
      · exact MemTable.below_mono _ _ _ hM1 (hall m (by simp [hm]))
    · refine ⟨hM1, ?_⟩
      intro _ hall m hm
      unfold RecoverLogState.memtables at hm hall
      simp only [Option.toList_some, List.mem_append, List.mem_singleton] at hm
      rcases hm with (hm | hm) | hm
      · exact MemTable.below_mono _ _ _ hM1 (hall m (by simp [hm]))
      · rw [hm]; exact hnew hall
      · exact MemTable.below_mono _ _ _ hM1 (hall m (by simp [hm]))
  · have hst' : (DBImpl.MaybeIgnoreError env.paranoid_checks r.1).ok = false := by
      simpa using hst
    simp only [hst', Bool.not_false, if_true]
    exact ⟨le_refl _, fun h => absurd h (by decide)⟩
theorem LogReporter.Corruption_ok (p : Bool) (status s : Status)
    (h : (LogReporter.Corruption p status s).ok = true) : status.ok = true := by
  unfold LogReporter.Corruption at h
  by_cases hc : (p && status.ok) = true
  · simp only [Bool.and_eq_true] at hc
    exact hc.2
  · rw [if_neg hc] at h
    exact h

/-- The loop of `RecoverLogFile` over replayable records: the maximum does not
go down, the status is OK at the end only if it was at the start, and then the
memtables filled stay at or below the maximum. -/
theorem RecoverLogFile_loop_bound (env : RecoverLogEnv) (events : List LogEvent) :
    ∀ st : RecoverLogState, (∀ ev ∈ events, ev.replayable env.paranoid_checks) →
    st.max_sequence ≤ (DBImpl.RecoverLogFile_loop env st events).max_sequence ∧
    ((DBImpl.RecoverLogFile_loop env st events).status.ok = true →
      st.status.ok = true ∧
      ((∀ m ∈ st.memtables, m.below st.max_sequence) →
        ∀ m ∈ (DBImpl.RecoverLogFile_loop env st events).memtables,
          m.below (DBImpl.RecoverLogFile_loop env st events).max_sequence)) := by
  induction events with
  | nil =>
    intro st _
    rw [DBImpl.RecoverLogFile_loop]
    exact ⟨le_refl _, fun h => ⟨h, fun hall => hall⟩⟩
  | cons ev events ih =>
    intro st hgood
    have hgood2 : ∀ ev ∈ events, ev.replayable env.paranoid_checks :=
      fun e he => hgood e (List.mem_cons_of_mem _ he)
    have hskip : ∀ s : Status,
        st.max_sequence ≤ (DBImpl.RecoverLogFile_loop env
          { st with status := LogReporter.Corruption env.paranoid_checks st.status s }
          events).max_sequence ∧
        ((DBImpl.RecoverLogFile_loop env
          { st with status := LogReporter.Corruption env.paranoid_checks st.status s }
          events).status.ok = true →
          st.status.ok = true ∧
          ((∀ m ∈ st.memtables, m.below st.max_sequence) →
            ∀ m ∈ (DBImpl.RecoverLogFile_loop env
              { st with status := LogReporter.Corruption env.paranoid_checks st.status s }
              events).memtables,
              m.below (DBImpl.RecoverLogFile_loop env
                { st with status := LogReporter.Corruption env.paranoid_checks st.status s }
                events).max_sequence)) := by
      intro s
      obtain ⟨a1, a2⟩ := ih
        { st with status := (LogReporter.Corruption env.paranoid_checks st.status s) } hgood2
      refine ⟨a1, fun hok => ?_⟩
      obtain ⟨b1, b2⟩ := a2 hok
      exact ⟨LogReporter.Corruption_ok _ _ _ b1, fun hall => b2 hall⟩
    cases ev with
    | corruption bytes s =>
      rw [DBImpl.RecoverLogFile_loop]
      exact hskip s
    | record contents =>
      rw [DBImpl.RecoverLogFile_loop]
      by_cases hst : st.status.ok = true
      · have hn : (!st.status.ok) = false := by rw [hst]; rfl
        simp only [hn, Bool.false_eq_true, if_false]
        by_cases hlen : contents.length < 12
        · simp only [hlen, if_true]
          exact hskip _
        · simp only [hlen, if_false]
          obtain ⟨c1, c2⟩ := RecoverLogFile_record_bound env st contents (by omega)
            (hgood _ (List.mem_cons_self _ _))
          by_cases hgo : (DBImpl.RecoverLogFile_record env st contents).2 = true
          · simp only [hgo, if_true]
            obtain ⟨a1, a2⟩ := ih (DBImpl.RecoverLogFile_record env st contents).1 hgood2
            refine ⟨le_trans c1 a1, fun hok => ?_⟩
            obtain ⟨b1, b2⟩ := a2 hok
            exact ⟨hst, fun hall => b2 (c2 b1 hall)⟩
          · simp only [hgo, Bool.false_eq_true, if_false]
            exact ⟨c1, fun hok => ⟨hst, fun hall => c2 hok hall⟩⟩
      · have hn : (!st.status.ok) = true := by simpa using hst
        simp only [hn, if_true]
        exact ⟨le_refl _, fun h => absurd h hst⟩

/-- `RecoverLogFile` on a log of replayable records: the maximum does not go
down, and if it returns OK every memtable it has filled is at or below the
maximum. -/
theorem RecoverLogFile_bound (env : RecoverLogEnv) (log_number : Nat) (last_log : Bool)
    (save_manifest : Bool) (max_sequence : Nat)
    (hgood : ∀ ev ∈ (env.NewSequentialFile log_number).2, ev.replayable env.paranoid_checks) :
    max_sequence
      ≤ (DBImpl.RecoverLogFile env log_number last_log save_manifest max_sequence).max_sequence ∧
    ((DBImpl.RecoverLogFile env log_number last_log save_manifest max_sequence).status.ok = true →
      ∀ m ∈ (DBImpl.RecoverLogFile env log_number last_log save_manifest max_sequence).filled
          ++ (DBImpl.RecoverLogFile env log_number last_log save_manifest
            max_sequence).mem_.toList,
        m.below (DBImpl.RecoverLogFile env log_number last_log save_manifest
          max_sequence).max_sequence) := by
  unfold DBImpl.RecoverLogFile
  dsimp only
  by_cases hf : (env.NewSequentialFile log_number).1.ok = true
  · simp only [hf, Bool.not_true, Bool.false_eq_true, if_false]
    obtain ⟨a1, a2⟩ := RecoverLogFile_loop_bound env (env.NewSequentialFile log_number).2
      { status := (env.NewSequentialFile log_number).1, mem := none,
        max_sequence := max_sequence, compactions := 0, save_manifest := save_manifest,
        mem_ := none, filled := [] } hgood
    generalize DBImpl.RecoverLogFile_loop env
      { status := (env.NewSequentialFile log_number).1, mem := none,
        max_sequence := max_sequence, compactions := 0, save_manifest := save_manifest,
        mem_ := none, filled := [] } (env.NewSequentialFile log_number).2 = st at a1 a2
    have hinv : st.status.ok = true → ∀ m ∈ st.memtables, m.below st.max_sequence := by
      intro hok
      exact (a2 hok).2 (by
        intro m hm
        simp [RecoverLogState.memtables] at hm)
    -- the state after the attempt to reuse the log
    have hst1 : ∀ st1 : RecoverLogState,
        st1 = (if (st.status.ok && env.reuse_logs && last_log && st.compactions == 0) = true then
          if env.NewAppendableFile log_number = true then
            { st with mem_ := some (st.mem.getD []), mem := none }
          else st
        else st) →
        st1.max_sequence = st.max_sequence ∧ st1.status = st.status ∧
        (st.status.ok = true → ∀ m ∈ st1.memtables, m.below st.max_sequence) := by
      intro st1 h1
      split_ifs at h1 with hc ha
      · subst h1
        refine ⟨rfl, rfl, fun hok m hm => ?_⟩
        simp only [RecoverLogState.memtables, Option.toList_none, List.append_nil,
          Option.toList_some, List.mem_append, List.mem_singleton] at hm
        rcases hm with hm | hm
        · exact hinv hok m (by simp [RecoverLogState.memtables, hm])
        · cases hmem : st.mem with
          | none =>
            rw [hmem] at hm
            rw [hm]
            intro e he
            simp at he
          | some m0 =>
            rw [hmem] at hm
            rw [hm]
            exact hinv hok m0 (by simp [RecoverLogState.memtables, hmem])
      · subst h1
        exact ⟨rfl, rfl, hinv⟩
      · subst h1
        exact ⟨rfl, rfl, hinv⟩
    obtain ⟨e1, e2, e3⟩ := hst1 _ rfl
    generalize (if (st.status.ok && env.reuse_logs && last_log && st.compactions == 0) = true then
          if env.NewAppendableFile log_number = true then
            { st with mem_ := some (st.mem.getD []), mem := none }
          else st
        else st) = st1 at e1 e2 e3 ⊢
    cases hmem : st1.mem with
    | none =>
      simp only
      refine ⟨by rw [e1]; exact a1, fun hok m hm => ?_⟩
      rw [e1]
      rw [e2] at hok
      exact e3 hok m (by
        simp only [RecoverLogState.memtables, hmem, Option.toList_none, List.append_nil]
        exact hm)
    | some mem =>
      simp only
      by_cases hok1 : st1.status.ok = true
      · simp only [hok1, if_true]
        refine ⟨by rw [e1]; exact a1, fun _ m hm => ?_⟩
        rw [e1]
        rw [e2] at hok1
        refine e3 hok1 m ?_
        simp only [RecoverLogState.memtables, hmem, Option.toList_some, List.mem_append,
          List.mem_singleton] at hm ⊢
        tauto
      · simp only [hok1, if_false]
        refine ⟨by rw [e1]; exact a1, fun hok => absurd hok hok1⟩
  · have hf' : (env.NewSequentialFile log_number).1.ok = false := by simpa using hf
    simp only [hf', Bool.not_false, if_true]
    refine ⟨le_refl _, fun _ m hm => ?_⟩
    simp at hm
theorem Recover_replay_loop_bound (env : RecoverLogEnv) (logs : List Nat) :
    ∀ (save_manifest : Bool) (max_sequence : Nat) (memtables : List MemTable),
    (∀ n ∈ logs, ∀ ev ∈ (env.NewSequentialFile n).2, ev.replayable env.paranoid_checks) →
    (∀ m ∈ memtables, m.below max_sequence) →
    max_sequence
      ≤ (DBImpl.Recover_replay_loop env logs save_manifest max_sequence memtables).2.1 ∧
    ((DBImpl.Recover_replay_loop env logs save_manifest max_sequence memtables).1.ok = true →
      ∀ m ∈ (DBImpl.Recover_replay_loop env logs save_manifest max_sequence memtables).2.2,
        m.below (DBImpl.Recover_replay_loop env logs save_manifest max_sequence memtables).2.1) := by
  induction logs with
  | nil =>
    intro sm M mems _ hall
    rw [DBImpl.Recover_replay_loop]
    exact ⟨le_refl _, fun _ => hall⟩
  | cons n logs ih =>
    intro sm M mems hgood hall
    obtain ⟨a1, a2⟩ := RecoverLogFile_bound env n logs.isEmpty sm M
      (hgood n (List.mem_cons_self _ _))
    rw [DBImpl.Recover_replay_loop]
    generalize DBImpl.RecoverLogFile env n logs.isEmpty sm M = st at a1 a2
    by_cases hok : st.status.ok = true
    · have hn : (!st.status.ok) = false := by rw [hok]; rfl
      simp only [hn, Bool.false_eq_true, if_false]
      have hall2 : ∀ m ∈ mems ++ st.filled ++ st.mem_.toList, m.below st.max_sequence := by
        intro m hm
        rw [List.append_assoc] at hm
        rcases List.mem_append.mp hm with hm | hm
        · exact MemTable.below_mono _ _ _ a1 (hall m hm)
        · exact a2 hok m hm
      obtain ⟨b1, b2⟩ := ih st.save_manifest st.max_sequence
        (mems ++ st.filled ++ st.mem_.toList)
        (fun k hk => hgood k (List.mem_cons_of_mem _ hk)) hall2
      exact ⟨le_trans a1 b1, b2⟩
    · have hn : (!st.status.ok) = true := by simpa using hok
      simp only [hn, if_true]
      exact ⟨a1, fun h => absurd h hok⟩

theorem enumFrom_entry_sequence (ops : List Op) : ∀ s : Nat,
    ((ops.enumFrom s).map (fun p => p.2.entry p.1)).map MemEntry.sequence
      = List.range' s ops.length := by
  induction ops with
  | nil => intro s; rfl
  | cons op ops ih =>
    intro s
    simp only [List.enumFrom_cons, List.map_cons, List.length_cons, List.range'_succ]
    rw [ih]
    cases op <;> rfl

/-- C35: the sequence number that recovery restores.  For a log record whose
batch `InsertInto` accepts, with sequence `s` and count `n ≥ 1` (and `s` plus
the record's length within 64 bits), the body of the loop of `RecoverLogFile`
leaves `max_sequence` at the greater of its former value and `s + n - 1`, and
`InsertInto` has added `n` entries with the sequence numbers `s, ..., s + n - 1`
in order.  When `Recover` returns OK, `LastSequence` is the greater of the
value the manifest gave and `max_sequence`; and if every record replayed was
accepted by `InsertInto`, or `paranoid_checks` is set, no entry in a memtable
filled during the replay has a sequence number above `LastSequence`. -/
theorem recovered_sequence (env : RecoverLogEnv) :
    (∀ (st : RecoverLogState) (contents : Bytes) (n : Nat),
      (WriteBatchInternal.InsertInto (WriteBatchInternal.SetContents WriteBatch.new contents)
        (st.mem.getD [])).1.ok = true →
      WriteBatchInternal.Count (WriteBatchInternal.SetContents WriteBatch.new contents)
        = (n : Int) →
      1 ≤ n →
      WriteBatchInternal.Sequence (WriteBatchInternal.SetContents WriteBatch.new contents)
        + contents.length ≤ 2 ^ 64 →
      (DBImpl.RecoverLogFile_record env st contents).1.max_sequence
        = max st.max_sequence
          (WriteBatchInternal.Sequence (WriteBatchInternal.SetContents WriteBatch.new contents)
            + n - 1) ∧
      ∃ added,
        (WriteBatchInternal.InsertInto (WriteBatchInternal.SetContents WriteBatch.new contents)
          (st.mem.getD [])).2 = st.mem.getD [] ++ added ∧
        added.map MemEntry.sequence = List.range'
          (WriteBatchInternal.Sequence (WriteBatchInternal.SetContents WriteBatch.new contents))
          n) ∧
    (∀ (logs : List Nat) (save_manifest : Bool) (LastSequence : Nat),
      (DBImpl.Recover_replay env logs save_manifest LastSequence).status.ok = true →
      (DBImpl.Recover_replay env logs save_manifest LastSequence).LastSequence
        = max LastSequence
            (DBImpl.Recover_replay env logs save_manifest LastSequence).max_sequence) ∧
    (∀ (logs : List Nat) (save_manifest : Bool) (LastSequence : Nat),
      (∀ n ∈ logs, ∀ ev ∈ (env.NewSequentialFile n).2, ev.replayable env.paranoid_checks) →
      (DBImpl.Recover_replay env logs save_manifest LastSequence).status.ok = true →
      ∀ m ∈ (DBImpl.Recover_replay env logs save_manifest LastSequence).memtables,
        ∀ e ∈ m,
          e.sequence ≤ (DBImpl.Recover_replay env logs save_manifest LastSequence).LastSequence) := by
  have hB : ∀ (logs : List Nat) (save_manifest : Bool) (LastSequence : Nat),
      (DBImpl.Recover_replay env logs save_manifest LastSequence).status.ok = true →
      (DBImpl.Recover_replay env logs save_manifest LastSequence).LastSequence
        = max LastSequence
            (DBImpl.Recover_replay env logs save_manifest LastSequence).max_sequence := by
    intro logs sm L hok
    unfold DBImpl.Recover_replay at hok ⊢
    dsimp only at hok ⊢
    generalize DBImpl.Recover_replay_loop env (List.insertionSort (fun a b => a ≤ b) logs)
      sm 0 [] = r at hok ⊢
    by_cases hr : r.1.ok = true
    · have hn : (!r.1.ok) = false := by rw [hr]; rfl
      simp only [hn, Bool.false_eq_true, if_false]
      split_ifs <;> omega
    · have hn : (!r.1.ok) = true := by simpa using hr
      simp only [hn, if_true] at hok
      exact absurd hok hr
  refine ⟨?_, hB, ?_⟩
  · intro st contents n hok hcount hn hseq
    obtain ⟨hmem, -⟩ := InsertInto_entries
      (WriteBatchInternal.SetContents WriteBatch.new contents) (st.mem.getD []) hseq
    have hc := (InsertInto_entries (WriteBatchInternal.SetContents WriteBatch.new contents)
      (st.mem.getD []) hseq).2 hok
    rw [hcount] at hc
    have hlen : (WriteBatchInternal.SetContents WriteBatch.new contents).parsedPrefix.length = n := by
      exact_mod_cast hc.symm
    constructor
    · unfold DBImpl.RecoverLogFile_record
      dsimp only
      have hst : (DBImpl.MaybeIgnoreError env.paranoid_checks
          (WriteBatchInternal.InsertInto (WriteBatchInternal.SetContents WriteBatch.new contents)
            (st.mem.getD [])).1).ok = true := by
        unfold DBImpl.MaybeIgnoreError
        rw [hok]
        simpa using hok
      have hn2 : (!(DBImpl.MaybeIgnoreError env.paranoid_checks
          (WriteBatchInternal.InsertInto (WriteBatchInternal.SetContents WriteBatch.new contents)
            (st.mem.getD [])).1).ok) = false := by rw [hst]; rfl
      simp only [hn2, Bool.false_eq_true, if_false]
      have hcontents_len : n ≤ contents.length := by
        rw [← hlen]
        unfold WriteBatch.parsedPrefix WriteBatchInternal.SetContents
        dsimp only
        split_ifs
        · simp
        · have := parseRecords_length _ (contents.drop kHeader) (le_refl _)
          simp only [List.length_drop] at this
          omega
      have hlast : toUInt64 ((WriteBatchInternal.Sequence
          (WriteBatchInternal.SetContents WriteBatch.new contents) : Int)
          + WriteBatchInternal.Count (WriteBatchInternal.SetContents WriteBatch.new contents) - 1)
          = WriteBatchInternal.Sequence (WriteBatchInternal.SetContents WriteBatch.new contents)
            + n - 1 := by
        rw [hcount]
        unfold toUInt64
        have e1 : ((WriteBatchInternal.Sequence
            (WriteBatchInternal.SetContents WriteBatch.new contents) : Int) + (n : Int) - 1)
            = ((WriteBatchInternal.Sequence
              (WriteBatchInternal.SetContents WriteBatch.new contents) + n - 1 : Nat) : Int) := by
          omega
        rw [e1, Int.emod_eq_of_lt (by omega) (by omega), Int.toNat_ofNat]
      rw [hlast]
      split_ifs <;> simp only <;> omega
    · refine ⟨_, hmem, ?_⟩
      rw [enumFrom_entry_sequence, hlen]
  · intro logs sm L hgood hok m hm e he
    have hL := hB logs sm L hok
    rw [hL]
    unfold DBImpl.Recover_replay at hok hm ⊢
    dsimp only at hok hm ⊢
    have hgood2 : ∀ n ∈ List.insertionSort (fun a b => a ≤ b) logs,
        ∀ ev ∈ (env.NewSequentialFile n).2, ev.replayable env.paranoid_checks := by
      intro n hn
      exact hgood n ((List.perm_insertionSort _ logs).mem_iff.mp hn)
    obtain ⟨-, a2⟩ := Recover_replay_loop_bound env _ sm 0 [] hgood2
      (by intro m hm; cases hm)
    generalize DBImpl.Recover_replay_loop env (List.insertionSort (fun a b => a ≤ b) logs)
      sm 0 [] = r at a2 hok hm ⊢
    by_cases hr : r.1.ok = true
    · have hn : (!r.1.ok) = false := by rw [hr]; rfl
      simp only [hn, Bool.false_eq_true, if_false] at hm ⊢
      have := a2 hr m hm e he
      omega
    · have hn : (!r.1.ok) = true := by simpa using hr
      simp only [hn, if_true] at hok
      exact absurd hok hr
theorem recovered_sequence_witness :
    (∀ n ∈ [5], ∀ ev ∈ ((exampleReplayEnv true 2).NewSequentialFile n).2,
      ev.replayable (exampleReplayEnv true 2).paranoid_checks) ∧
    (DBImpl.Recover_replay (exampleReplayEnv true 2) [5] false 0).status = Status.OK ∧
    (DBImpl.Recover_replay (exampleReplayEnv true 2) [5] false 0).LastSequence = 11 ∧
    ((DBImpl.Recover_replay (exampleReplayEnv true 2) [5] false 0).status.ok = true →
      ∀ m ∈ (DBImpl.Recover_replay (exampleReplayEnv true 2) [5] false 0).memtables,
        ∀ e ∈ m,
          e.sequence ≤ (DBImpl.Recover_replay (exampleReplayEnv true 2) [5] false 0).LastSequence) :=
  have hgood : ∀ n ∈ [5], ∀ ev ∈ ((exampleReplayEnv true 2).NewSequentialFile n).2,
      ev.replayable (exampleReplayEnv true 2).paranoid_checks := by
    intro n _ ev hev
    simp only [exampleReplayEnv, List.mem_singleton] at hev
    subst hev
    intro _
    refine ⟨?_, Or.inl rfl⟩
    simp [WriteBatchInternal.Sequence, WriteBatchInternal.SetContents, DecodeFixed64]
  have heval : (DBImpl.Recover_replay (exampleReplayEnv true 2) [5] false 0).status = Status.OK ∧
      (DBImpl.Recover_replay (exampleReplayEnv true 2) [5] false 0).LastSequence = 11 := by
    simp [DBImpl.Recover_replay, DBImpl.Recover_replay_loop, DBImpl.RecoverLogFile,
      DBImpl.RecoverLogFile_loop, DBImpl.RecoverLogFile_record, DBImpl.MaybeIgnoreError,
      exampleReplayEnv, exampleRoomOptions, WriteBatchInternal.InsertInto,
      WriteBatchInternal.SetContents, WriteBatch.Iterate, kHeader, Iterate_loop,
      GetLengthPrefixedSlice, GetVarint32, GetVarint32Ptr, kTypeValue, kTypeDeletion,
      MemTableInserter.handler, MemTable.Add, WriteBatchInternal.Sequence,
      WriteBatchInternal.Count, DecodeFixed64, DecodeFixed32, toInt32, toUInt64, Status.ok]
  ⟨hgood, heval.1, heval.2,
   (recovered_sequence (exampleReplayEnv true 2)).2.2 [5] false 0 hgood⟩

/-- C35 fails for a record that `InsertInto` rejects while `paranoid_checks` is
off.  The record has sequence 10 and count 1 in its header and holds two
operations: `InsertInto` gives them the sequence numbers 10 and 11 and returns
a Corruption, `MaybeIgnoreError` turns it into OK, `max_sequence` becomes
`10 + 1 - 1`, and `Recover` returns OK with `LastSequence` 10, below the 11 in
the memtable. -/
theorem recovered_sequence_misses_ignored_error :
    WriteBatchInternal.Count (WriteBatchInternal.SetContents WriteBatch.new
      [10, 0, 0, 0, 0, 0, 0, 0, 1, 0, 0, 0, 1, 1, 97, 1, 98, 1, 1, 99, 1, 100]) = 1 ∧
    WriteBatchInternal.InsertInto (WriteBatchInternal.SetContents WriteBatch.new
      [10, 0, 0, 0, 0, 0, 0, 0, 1, 0, 0, 0, 1, 1, 97, 1, 98, 1, 1, 99, 1, 100]) []
      = (Status.Corruption "WriteBatch has wrong count",
          [{ sequence := 10, type := kTypeValue, key := [97], value := [98] },
           { sequence := 11, type := kTypeValue, key := [99], value := [100] }]) ∧
    DBImpl.Recover_replay (exampleReplayEnv false 1) [5] false 0
      = { status := Status.OK, LastSequence := 10, max_sequence := 10,
          memtables := [[{ sequence := 10, type := kTypeValue, key := [97], value := [98] },
            { sequence := 11, type := kTypeValue, key := [99], value := [100] }]] } := by
  refine ⟨?_, ?_, ?_⟩
  · simp [WriteBatchInternal.Count, WriteBatchInternal.SetContents, DecodeFixed32, toInt32]
  · simp [WriteBatchInternal.InsertInto, WriteBatchInternal.SetContents, WriteBatch.Iterate,
      kHeader, Iterate_loop, GetLengthPrefixedSlice, GetVarint32, GetVarint32Ptr, kTypeValue,
      kTypeDeletion, MemTableInserter.handler, MemTable.Add, WriteBatchInternal.Sequence,
      WriteBatchInternal.Count, DecodeFixed64, DecodeFixed32, toInt32]
  · simp [DBImpl.Recover_replay, DBImpl.Recover_replay_loop, DBImpl.RecoverLogFile,
      DBImpl.RecoverLogFile_loop, DBImpl.RecoverLogFile_record, DBImpl.MaybeIgnoreError,
      exampleReplayEnv, exampleRoomOptions, WriteBatchInternal.InsertInto,
      WriteBatchInternal.SetContents, WriteBatch.Iterate, kHeader, Iterate_loop,
      GetLengthPrefixedSlice, GetVarint32, GetVarint32Ptr, kTypeValue, kTypeDeletion,
      MemTableInserter.handler, MemTable.Add, WriteBatchInternal.Sequence,
      WriteBatchInternal.Count, DecodeFixed64, DecodeFixed32, toInt32, toUInt64, Status.ok]

/-- C34 fails at `smallest_snapshot = kMaxSequenceNumber`: the entry after the
key that does not parse is the first occurrence of user key 1 and a VALUE, and
rule (A) drops it, because `last_sequence_for_key` starts at
`kMaxSequenceNumber`, which is at or below such a snapshot. -/
theorem corrupt_key_follower_dropped_at_sentinel :
    (id (none : Option (ParsedInternalKey Nat)) = none) ∧
    (DoCompactionWork_drop (fun _ : Nat => false) kMaxSequenceNumber MergeState.initial
      (some (⟨1, 5, kTypeValue⟩ : ParsedInternalKey Nat))).1 = true ∧
    DoCompactionWork_loop id (fun _ : Nat => false) kMaxSequenceNumber MergeState.initial
      [none, some (⟨1, 5, kTypeValue⟩ : ParsedInternalKey Nat)] = [none] := by
  refine ⟨rfl, by decide, by decide⟩

/-- C12 as worded fails when a key does not parse.  The input is in
internal-key order, every sequence is at or below the smallest snapshot 9,
`IsBaseLevelForKey` holds, and the newest entry for user key 2 is a DELETION,
which is dropped; the next key carries the type tag 7 and does not parse, so
it is emitted and resets the locals of the loop ("Do not hide error keys"),
and the older VALUE for user key 2 after it is emitted as a first
occurrence. -/
theorem obsolete_tombstone_unhidden_by_corrupt_key :
    [((⟨1, 8, kTypeValue⟩, [108]) : ParsedEntry Nat), (⟨2, 7, kTypeDeletion⟩, []),
      (⟨2, 6, 7⟩, [106]), (⟨2, 4, kTypeValue⟩, [104]), (⟨3, 5, kTypeValue⟩, [105])].Pairwise
        (fun a b => InternalKeyLE a.1 b.1) ∧
    (∀ x ∈ [((⟨1, 8, kTypeValue⟩, [108]) : ParsedEntry Nat), (⟨2, 7, kTypeDeletion⟩, []),
      (⟨2, 6, 7⟩, [106]), (⟨2, 4, kTypeValue⟩, [104]), (⟨3, 5, kTypeValue⟩, [105])],
      x.1.sequence ≤ 9) ∧
    [((⟨1, 8, kTypeValue⟩, [108]) : ParsedEntry Nat), (⟨2, 7, kTypeDeletion⟩, []),
      (⟨2, 6, 7⟩, [106]), (⟨2, 4, kTypeValue⟩, [104]), (⟨3, 5, kTypeValue⟩, [105])].find?
        (forKey 2) = some (⟨2, 7, kTypeDeletion⟩, []) ∧
    exampleParseInternalKey (⟨2, 6, 7⟩, [106]) = none ∧
    DoCompactionWork_loop exampleParseInternalKey (fun _ : Nat => true) 9 MergeState.initial
      [(⟨1, 8, kTypeValue⟩, [108]), (⟨2, 7, kTypeDeletion⟩, []), (⟨2, 6, 7⟩, [106]),
        (⟨2, 4, kTypeValue⟩, [104]), (⟨3, 5, kTypeValue⟩, [105])]
      = [(⟨1, 8, kTypeValue⟩, [108]), (⟨2, 6, 7⟩, [106]), (⟨2, 4, kTypeValue⟩, [104]),
          (⟨3, 5, kTypeValue⟩, [105])] := by
  refine ⟨by decide, by decide, by decide, by decide, by decide⟩

end leveldb
